import Mathlib

/-!
# Block service wire codec (`proto/tendermint/services/block/v1/block.pb.go`)

A shallow embedding of the generated marshal / size / unmarshal / skip code of the
block service messages, followed by theorems about it.

Conventions of the embedding

* a byte is a `Fin 256`; a byte slice is a `List Byte`;
* Go `uint64` values are naturals reduced `% 2 ^ 64`; Go `int`/`int64` values are
  integers, wrapped with `wrapInt64` where the source can overflow;
* a method with a pointer receiver that mutates the receiver and returns `error`
  becomes a function returning the new receiver together with `Option Error`
  (`none` is Go's `nil`);
* a Go run-time panic (index out of range) is the outcome `Error.runtimePanic`;
* loops are structurally recursive on a fuel argument; `Error.fuel` marks an exhausted
  fuel and is not a value of the source.
-/

namespace Block

/-- A byte. -/
abbrev Byte := Fin 256

/-- The six message types of the file, used in error messages. -/
inductive MsgName
  | GetLatestHeightRequest
  | GetLatestHeightResponse
  | GetBlockRequest
  | GetBlockResponse
  | GetBlockResultsRequest
  | GetBlockResultsResponse
  deriving DecidableEq, Repr

/-- Names of the fields, used in the wrong-wire-type error messages. -/
inductive FieldName
  | Height
  | BlockId
  | Block
  | BeginBlockEvents
  | TxResults
  | ValidatorUpdates
  | ConsensusParamUpdates
  | EndBlockEvents
  deriving DecidableEq, Repr

/-- Error values returned by the code, plus the two outcomes that are not error values. -/
inductive Error
  /-- The value `io.ErrUnexpectedEOF`. -/
  | ErrUnexpectedEOF
  /-- The value `ErrInvalidLengthBlock`. -/
  | ErrInvalidLengthBlock
  /-- The value `ErrIntOverflowBlock`. -/
  | ErrIntOverflowBlock
  /-- The value `ErrUnexpectedEndOfGroupBlock`. -/
  | ErrUnexpectedEndOfGroupBlock
  /-- The error `"proto: <msg>: wiretype end group for non-group"`. -/
  | wiretypeEndGroup (msg : MsgName)
  /-- The error `"proto: <msg>: illegal tag %d (wire type %d)"`. -/
  | illegalTag (msg : MsgName) (fieldNum : Int) (wire : Nat)
  /-- The error `"proto: wrong wireType = %d for field <field>"`. -/
  | wrongWireType (wireType : Nat) (field : FieldName)
  /-- The error `"proto: illegal wireType %d"` of `skipBlock`. -/
  | illegalWireType (wireType : Nat)
  /-- An error value produced by a nested message codec defined outside this file. -/
  | nested (code : Nat)
  /-- Not an error value: the Go run time panics (index or slice bound out of range). -/
  | runtimePanic
  /-- Not a value of the source: the fuel of a loop of the embedding ran out. -/
  | fuel
  deriving DecidableEq, Repr

deriving instance DecidableEq for Except

/-- Conversion `uint64(x)` of a signed integer: its 64-bit two's complement pattern. -/
def uint64 (x : Int) : Nat := (x % 2 ^ 64).toNat

/-- Conversion `int64(x)` (and `int(x)` on a 64-bit platform) of a bit pattern. -/
def int64 (x : Nat) : Int :=
  if x % 2 ^ 64 < 2 ^ 63 then ((x % 2 ^ 64 : Nat) : Int) else ((x % 2 ^ 64 : Nat) : Int) - 2 ^ 64

/-- Conversion `int32(x)`: the low 32 bits read as a signed integer. -/
def int32 (x : Nat) : Int :=
  if x % 2 ^ 32 < 2 ^ 31 then ((x % 2 ^ 32 : Nat) : Int) else ((x % 2 ^ 32 : Nat) : Int) - 2 ^ 32

/-- Result of an `int` addition, which wraps around in two's complement. -/
def wrapInt64 (x : Int) : Int := int64 (uint64 x)

/-- Auxiliary loop of `Len64`: the number of binary digits of `x`, at most `fuel`. -/
def lenAux : Nat → Nat → Nat
  | 0, _ => 0
  | fuel + 1, x => if x = 0 then 0 else lenAux fuel (x / 2) + 1

/-- The library function `math/bits.Len64`: the minimum number of bits needed to
represent `x`, and `0` for `x = 0`. -/
def Len64 (x : Nat) : Nat := lenAux 64 (x % 2 ^ 64)

/-- The function `sovBlock`: `(math_bits.Len64(x|1) + 6) / 7`. -/
def sovBlock (x : Nat) : Nat := (Len64 (x ||| 1) + 6) / 7

/-- The function `sozBlock`: `sovBlock(uint64((x << 1) ^ uint64((int64(x) >> 63))))`. -/
def sozBlock (x : Nat) : Nat :=
  sovBlock (((x <<< 1) % 2 ^ 64) ^^^ uint64 (int64 x / 2 ^ 63))

/-- The assignment `dAtA[i] = b`, which panics when `i` is out of range. -/
def writeByte (dAtA : List Byte) (i : Int) (b : Byte) : Except Error (List Byte) :=
  if 0 ≤ i ∧ i < dAtA.length then .ok (dAtA.set i.toNat b) else .error .runtimePanic

/-- The loop of `encodeVarintBlock`:
`for v >= 1<<7 { dAtA[offset] = uint8(v&0x7f | 0x80); v >>= 7; offset++ }` followed by
`dAtA[offset] = uint8(v)`. -/
def encodeVarintLoop : Nat → List Byte → Int → Nat → Except Error (List Byte)
  | 0, _, _, _ => .error .fuel
  | fuel + 1, dAtA, offset, v =>
    if v ≥ 1 <<< 7 then
      match writeByte dAtA offset (Fin.ofNat ((v &&& 0x7f) ||| 0x80)) with
      | .error e => .error e
      | .ok dAtA1 => encodeVarintLoop fuel dAtA1 (offset + 1) (v >>> 7)
    else
      writeByte dAtA offset (Fin.ofNat v)

/-- The function `encodeVarintBlock(dAtA, offset, v)`: returns the buffer after the writes
and the returned `base`. A `uint64` has at most ten 7-bit groups, so ten rounds suffice. -/
def encodeVarintBlock (dAtA : List Byte) (offset : Int) (v : Nat) :
    Except Error (List Byte × Int) :=
  let offset1 := offset - sovBlock v
  let base := offset1
  match encodeVarintLoop 10 dAtA offset1 v with
  | .error e => .error e
  | .ok dAtA1 => .ok (dAtA1, base)

/-- State after one of the inlined varint-reading loops: the accumulated 64-bit pattern,
the cursor, and the error the loop returned with, if any. -/
structure VarintResult where
  value : Nat
  iNdEx : Nat
  err : Option Error
  deriving DecidableEq, Repr

/-- The inlined varint-reading loop
`for shift := uint(0); ; shift += 7 { if shift >= 64 { return ErrIntOverflowBlock };
 if iNdEx >= l { return io.ErrUnexpectedEOF }; b := dAtA[iNdEx]; iNdEx++;
 x |= uint64(b&0x7F) << shift; if b < 0x80 { break } }`.
The accumulator is kept as a 64-bit pattern: the loops that accumulate into an `int64`
or an `int` produce the same pattern, converted by `int64` at the point of use. -/
def varintLoop (dAtA : List Byte) : Nat → Nat → Nat → Nat → VarintResult
  | 0, _, iNdEx, acc => ⟨acc, iNdEx, some .fuel⟩
  | fuel + 1, shift, iNdEx, acc =>
    if shift ≥ 64 then ⟨acc, iNdEx, some .ErrIntOverflowBlock⟩
    else
      match dAtA[iNdEx]? with
      | none => ⟨acc, iNdEx, some .ErrUnexpectedEOF⟩
      | some b =>
        let acc1 := acc ||| (((b.val &&& 0x7F) <<< shift) % 2 ^ 64)
        if b.val < 0x80 then ⟨acc1, iNdEx + 1, none⟩
        else varintLoop dAtA fuel (shift + 7) (iNdEx + 1) acc1

/-- One inlined varint read starting at `iNdEx` with a zero accumulator. The shift takes
the values 0, 7, ..., 63 and then 70, so eleven rounds reach the overflow return. -/
def readVarint (dAtA : List Byte) (iNdEx : Nat) : VarintResult :=
  varintLoop dAtA 11 0 iNdEx 0

/-- The function `skipBlock`, as its loop `for iNdEx < l { ... }` with the explicit state
`(iNdEx, depth)`; the value returned after the loop is `0, io.ErrUnexpectedEOF`. The
varint of wire type 0 is read by the same loop as the others, its value unused. The cursor
is at most `len(dAtA)` where 4 or 8 is added to it, so only `iNdEx += length` can wrap. -/
def skipLoop (dAtA : List Byte) : Nat → Nat → Nat → Except Error Int
  | 0, iNdEx, _ => if iNdEx < dAtA.length then .error .fuel else .error .ErrUnexpectedEOF
  | fuel + 1, iNdEx, depth =>
    if iNdEx < dAtA.length then
      let r := readVarint dAtA iNdEx
      match r.err with
      | some e => .error e
      | none =>
        let wire := r.value
        let wireType := wire &&& 0x7
        -- the `switch wireType` yields the new cursor (an `int`) and the new depth
        let next : Except Error (Int × Nat) :=
          if wireType = 0 then
            let r0 := readVarint dAtA r.iNdEx
            match r0.err with
            | some e => .error e
            | none => .ok ((r0.iNdEx : Int), depth)
          else if wireType = 1 then .ok ((r.iNdEx : Int) + 8, depth)
          else if wireType = 2 then
            let r2 := readVarint dAtA r.iNdEx
            match r2.err with
            | some e => .error e
            | none =>
              let length := int64 r2.value
              if length < 0 then .error .ErrInvalidLengthBlock
              else .ok (wrapInt64 ((r2.iNdEx : Int) + length), depth)
          else if wireType = 3 then .ok ((r.iNdEx : Int), depth + 1)
          else if wireType = 4 then
            if depth = 0 then .error .ErrUnexpectedEndOfGroupBlock
            else .ok ((r.iNdEx : Int), depth - 1)
          else if wireType = 5 then .ok ((r.iNdEx : Int) + 4, depth)
          else .error (.illegalWireType wireType)
        match next with
        | .error e => .error e
        | .ok (iNdEx1, depth1) =>
          if iNdEx1 < 0 then .error .ErrInvalidLengthBlock
          else if depth1 = 0 then .ok iNdEx1
          else skipLoop dAtA fuel iNdEx1.toNat depth1
    else .error .ErrUnexpectedEOF

/-- The function `skipBlock(dAtA)`. Every round of its loop that continues has consumed
at least one byte, so `len(dAtA)` rounds suffice. -/
def skipBlock (dAtA : List Byte) : Except Error Int :=
  skipLoop dAtA dAtA.length 0 0

/-- Outcome of the `case` selected by `switch fieldNum` in an `Unmarshal` method: the
receiver after the case, the cursor, and the error the case returned with, if any. -/
structure FieldResult (M : Type) where
  m : M
  iNdEx : Nat
  err : Option Error

/-- The skeleton shared verbatim by the six generated `Unmarshal` methods: the loop
`for iNdEx < l`, the tag read, the two tag checks, the `switch fieldNum` whose cases are
given by `field` (`none` selects the `default:` branch, which calls `skipBlock`), and the
final `if iNdEx > l` check. -/
def unmarshalLoop {M : Type} (name : MsgName)
    (field : M → Int → Nat → List Byte → Nat → Option (FieldResult M))
    (dAtA : List Byte) : Nat → M → Nat → M × Option Error
  | 0, m, iNdEx =>
    if iNdEx < dAtA.length then (m, some .fuel)
    else if iNdEx > dAtA.length then (m, some .ErrUnexpectedEOF) else (m, none)
  | fuel + 1, m, iNdEx =>
    if iNdEx < dAtA.length then
      let preIndex := iNdEx
      let r := readVarint dAtA iNdEx
      match r.err with
      | some e => (m, some e)
      | none =>
        let wire := r.value
        let fieldNum := int32 (wire >>> 3)
        let wireType := wire &&& 0x7
        if wireType = 4 then (m, some (.wiretypeEndGroup name))
        else if fieldNum ≤ 0 then (m, some (.illegalTag name fieldNum wire))
        else
          match field m fieldNum wireType dAtA r.iNdEx with
          | some res =>
            match res.err with
            | some e => (res.m, some e)
            | none => unmarshalLoop name field dAtA fuel res.m res.iNdEx
          | none =>
            match skipBlock (dAtA.drop preIndex) with
            | .error e => (m, some e)
            | .ok skippy =>
              if skippy < 0 ∨ wrapInt64 ((preIndex : Int) + skippy) < 0 then
                (m, some .ErrInvalidLengthBlock)
              else if wrapInt64 ((preIndex : Int) + skippy) > dAtA.length then
                (m, some .ErrUnexpectedEOF)
              else
                unmarshalLoop name field dAtA fuel m (wrapInt64 ((preIndex : Int) + skippy)).toNat
    else if iNdEx > dAtA.length then (m, some .ErrUnexpectedEOF) else (m, none)

/-- The `case` of a scalar `Height` field: the wire type check, `m.Height = 0` and the
varint loop accumulating into `m.Height`. -/
def heightCase {M : Type} (setHeight : M → Int → M) (m : M) (wireType : Nat)
    (dAtA : List Byte) (iNdEx : Nat) : FieldResult M :=
  if wireType ≠ 0 then ⟨m, iNdEx, some (.wrongWireType wireType .Height)⟩
  else
    let r := readVarint dAtA iNdEx
    ⟨setHeight m (int64 r.value), r.iNdEx, r.err⟩

/-- A message type defined outside this file (`types.BlockID`, `types.Block`,
`types1.Event`, ...), given by the methods the generated code calls on it. -/
structure Codec (α : Type) where
  /-- The freshly allocated value `&T{}`. -/
  zero : α
  /-- The method `Size()`. -/
  Size : α → Nat
  /-- The method `MarshalToSizedBuffer(dAtA)`: the buffer after the call and the returned
  count. -/
  MarshalToSizedBuffer : α → List Byte → Except Error (List Byte × Nat)
  /-- The method `Unmarshal(dAtA)`: the receiver after the call and the returned error. -/
  Unmarshal : α → List Byte → α × Option Error

/-- The common prefix of every `case` of a nested-message field: the wire type check, the
length varint, and the three range checks; on success the cursor after the length and
`postIndex`. -/
def readLen (fname : FieldName) (wireType : Nat) (dAtA : List Byte) (iNdEx : Nat) :
    Except (Nat × Error) (Nat × Nat) :=
  if wireType ≠ 2 then .error (iNdEx, .wrongWireType wireType fname)
  else
    let r := readVarint dAtA iNdEx
    match r.err with
    | some e => .error (r.iNdEx, e)
    | none =>
      let msglen := int64 r.value
      if msglen < 0 then .error (r.iNdEx, .ErrInvalidLengthBlock)
      else
        let postIndex := wrapInt64 ((r.iNdEx : Int) + msglen)
        if postIndex < 0 then .error (r.iNdEx, .ErrInvalidLengthBlock)
        else if postIndex > dAtA.length then .error (r.iNdEx, .ErrUnexpectedEOF)
        else .ok (r.iNdEx, postIndex.toNat)

/-- The slice expression `dAtA[lo:hi]`. -/
def slice (dAtA : List Byte) (lo hi : Nat) : List Byte := (dAtA.take hi).drop lo

/-- The statement `if m.X == nil { m.X = &T{} }`: the value the pointer refers to
afterwards. -/
def allocIfNil {α : Type} (c : Codec α) : Option α → α
  | none => c.zero
  | some v => v

/-- The `case` of a singular nested-message field: allocate on `nil`, then call the nested
`Unmarshal` on `dAtA[iNdEx:postIndex]`. -/
def singularCase {M α : Type} (c : Codec α) (fname : FieldName) (get : M → Option α)
    (set : M → Option α → M) (m : M) (wireType : Nat) (dAtA : List Byte) (iNdEx : Nat) :
    FieldResult M :=
  match readLen fname wireType dAtA iNdEx with
  | .error (i, e) => ⟨m, i, some e⟩
  | .ok (iNdEx1, postIndex) =>
    let (v1, err) := c.Unmarshal (allocIfNil c (get m)) (slice dAtA iNdEx1 postIndex)
    match err with
    | some e => ⟨set m (some v1), iNdEx1, some e⟩
    | none => ⟨set m (some v1), postIndex, none⟩

/-- The `case` of a repeated nested-message field: append `&T{}`, then call the nested
`Unmarshal` of the new last element on `dAtA[iNdEx:postIndex]`. -/
def repeatedCase {M α : Type} (c : Codec α) (fname : FieldName) (get : M → List α)
    (set : M → List α → M) (m : M) (wireType : Nat) (dAtA : List Byte) (iNdEx : Nat) :
    FieldResult M :=
  match readLen fname wireType dAtA iNdEx with
  | .error (i, e) => ⟨m, i, some e⟩
  | .ok (iNdEx1, postIndex) =>
    let (v1, err) := c.Unmarshal c.zero (slice dAtA iNdEx1 postIndex)
    match err with
    | some e => ⟨set m (get m ++ [v1]), iNdEx1, some e⟩
    | none => ⟨set m (get m ++ [v1]), postIndex, none⟩

/-! ## The messages -/

/-- The message `GetLatestHeightRequest`, which has no field. -/
structure GetLatestHeightRequest where
  deriving DecidableEq, Repr

/-- The message `GetLatestHeightResponse`. -/
structure GetLatestHeightResponse where
  Height : Int
  deriving DecidableEq, Repr

/-- The message `GetBlockRequest`. -/
structure GetBlockRequest where
  Height : Int
  deriving DecidableEq, Repr

/-- The message `GetBlockResponse`; `none` is a `nil` pointer. -/
structure GetBlockResponse (BlockID Blk : Type) where
  Height : Int
  BlockId : Option BlockID
  Block : Option Blk
  deriving DecidableEq, Repr

/-- The message `GetBlockResultsRequest`. -/
structure GetBlockResultsRequest where
  Height : Int
  deriving DecidableEq, Repr

/-- The message `GetBlockResultsResponse`; the slices hold non-nil pointers and a `nil`
slice is the empty list. -/
structure GetBlockResultsResponse (Event Tx VU CP : Type) where
  Height : Int
  BeginBlockEvents : List Event
  TxResults : List Tx
  ValidatorUpdates : List VU
  ConsensusParamUpdates : Option CP
  EndBlockEvents : List Event
  deriving DecidableEq, Repr

/-! ## Size -/

/-- The statement `if m.Height != 0 { n += 1 + sovBlock(uint64(m.Height)) }`. -/
def sizeHeight (Height : Int) : Nat :=
  if Height ≠ 0 then 1 + sovBlock (uint64 Height) else 0

/-- The statements `l = e.Size(); n += 1 + l + sovBlock(uint64(l))`. -/
def sizeNested {α : Type} (c : Codec α) (e : α) : Nat :=
  let l := c.Size e
  1 + l + sovBlock (uint64 l)

/-- The statement `if x != nil { l = x.Size(); n += 1 + l + sovBlock(uint64(l)) }`. -/
def sizeOptional {α : Type} (c : Codec α) : Option α → Nat
  | none => 0
  | some e => sizeNested c e

/-- The loop `for _, e := range xs { l = e.Size(); n += 1 + l + sovBlock(uint64(l)) }`. -/
def sizeRepeated {α : Type} (c : Codec α) : List α → Nat
  | [] => 0
  | e :: rest => sizeNested c e + sizeRepeated c rest

/-- The method `GetLatestHeightRequest.Size`. -/
def GetLatestHeightRequest.Size (_m : GetLatestHeightRequest) : Nat := 0

/-- The method `GetLatestHeightResponse.Size`. -/
def GetLatestHeightResponse.Size (m : GetLatestHeightResponse) : Nat := sizeHeight m.Height

/-- The method `GetBlockRequest.Size`. -/
def GetBlockRequest.Size (m : GetBlockRequest) : Nat := sizeHeight m.Height

/-- The method `GetBlockResultsRequest.Size`. -/
def GetBlockResultsRequest.Size (m : GetBlockResultsRequest) : Nat := sizeHeight m.Height

/-- The method `GetBlockResponse.Size`. -/
def GetBlockResponse.Size {BlockID Blk : Type} (cId : Codec BlockID) (cB : Codec Blk)
    (m : GetBlockResponse BlockID Blk) : Nat :=
  sizeHeight m.Height + sizeOptional cId m.BlockId + sizeOptional cB m.Block

/-- The method `GetBlockResultsResponse.Size`. -/
def GetBlockResultsResponse.Size {Event Tx VU CP : Type} (cE : Codec Event) (cT : Codec Tx)
    (cV : Codec VU) (cP : Codec CP) (m : GetBlockResultsResponse Event Tx VU CP) : Nat :=
  sizeHeight m.Height + sizeRepeated cE m.BeginBlockEvents + sizeRepeated cT m.TxResults
    + sizeRepeated cV m.ValidatorUpdates + sizeOptional cP m.ConsensusParamUpdates
    + sizeRepeated cE m.EndBlockEvents

/-! ## Marshal -/

/-- The block
`if m.Height != 0 { i = encodeVarintBlock(dAtA, i, uint64(m.Height)); i--; dAtA[i] = 0x8 }`. -/
def marshalHeight (Height : Int) (dAtA : List Byte) (i : Int) :
    Except Error (List Byte × Int) :=
  if Height ≠ 0 then
    match encodeVarintBlock dAtA i (uint64 Height) with
    | .error e => .error e
    | .ok (dAtA1, i1) =>
      match writeByte dAtA1 (i1 - 1) 0x8 with
      | .error e => .error e
      | .ok dAtA2 => .ok (dAtA2, i1 - 1)
  else .ok (dAtA, i)

/-- The block
`size, err := x.MarshalToSizedBuffer(dAtA[:i]); if err != nil { return 0, err }; i -= size;
 i = encodeVarintBlock(dAtA, i, uint64(size)); i--; dAtA[i] = tag`.
The nested call works on the prefix `dAtA[:i]` of the shared buffer. -/
def marshalNested {α : Type} (c : Codec α) (tag : Byte) (x : α) (dAtA : List Byte) (i : Int) :
    Except Error (List Byte × Int) :=
  if i < 0 ∨ i > dAtA.length then .error .runtimePanic
  else
    match c.MarshalToSizedBuffer x (dAtA.take i.toNat) with
    | .error e => .error e
    | .ok (pre, size) =>
      let dAtA1 := pre ++ dAtA.drop i.toNat
      let i1 := i - size
      match encodeVarintBlock dAtA1 i1 (uint64 size) with
      | .error e => .error e
      | .ok (dAtA2, i2) =>
        match writeByte dAtA2 (i2 - 1) tag with
        | .error e => .error e
        | .ok dAtA3 => .ok (dAtA3, i2 - 1)

/-- Sequencing of two blocks of a `MarshalToSizedBuffer` body: an error of the first block
is returned at once (`if err != nil { return 0, err }`), and so is a panic; otherwise the
next block continues with the buffer and the cursor `i` the first one left. -/
def andThen (r : Except Error (List Byte × Int))
    (next : List Byte → Int → Except Error (List Byte × Int)) :
    Except Error (List Byte × Int) :=
  match r with
  | .error e => .error e
  | .ok (dAtA, i) => next dAtA i

/-- The block `if x != nil { ... }` around `marshalNested`. -/
def marshalOptional {α : Type} (c : Codec α) (tag : Byte) (x : Option α) (dAtA : List Byte)
    (i : Int) : Except Error (List Byte × Int) :=
  match x with
  | none => .ok (dAtA, i)
  | some v => marshalNested c tag v dAtA i

/-- The loop `for iNdEx := len(xs) - 1; iNdEx >= 0; iNdEx-- { ... }` around
`marshalNested`, given the elements in the order the loop visits them (last first). -/
def marshalEach {α : Type} (c : Codec α) (tag : Byte) :
    List α → List Byte → Int → Except Error (List Byte × Int)
  | [], dAtA, i => .ok (dAtA, i)
  | x :: rest, dAtA, i =>
    andThen (marshalNested c tag x dAtA i) fun dAtA1 i1 => marshalEach c tag rest dAtA1 i1

/-- The block `if len(xs) > 0 { for iNdEx := len(xs) - 1; iNdEx >= 0; iNdEx-- { ... } }`. -/
def marshalRepeated {α : Type} (c : Codec α) (tag : Byte) (xs : List α) (dAtA : List Byte)
    (i : Int) : Except Error (List Byte × Int) :=
  marshalEach c tag xs.reverse dAtA i

/-- The final statement `return len(dAtA) - i, nil`; the length of the buffer is the one
the method was called with. -/
def marshalReturn (len : Nat) (r : Except Error (List Byte × Int)) :
    Except Error (List Byte × Nat) :=
  match r with
  | .error e => .error e
  | .ok (dAtA, i) => .ok (dAtA, ((len : Int) - i).toNat)

/-- The method `GetLatestHeightRequest.MarshalToSizedBuffer`. -/
def GetLatestHeightRequest.MarshalToSizedBuffer (_m : GetLatestHeightRequest)
    (dAtA : List Byte) : Except Error (List Byte × Nat) :=
  marshalReturn dAtA.length (.ok (dAtA, (dAtA.length : Int)))

/-- The method `GetLatestHeightResponse.MarshalToSizedBuffer`. -/
def GetLatestHeightResponse.MarshalToSizedBuffer (m : GetLatestHeightResponse)
    (dAtA : List Byte) : Except Error (List Byte × Nat) :=
  marshalReturn dAtA.length (marshalHeight m.Height dAtA dAtA.length)

/-- The method `GetBlockRequest.MarshalToSizedBuffer`. -/
def GetBlockRequest.MarshalToSizedBuffer (m : GetBlockRequest)
    (dAtA : List Byte) : Except Error (List Byte × Nat) :=
  marshalReturn dAtA.length (marshalHeight m.Height dAtA dAtA.length)

/-- The method `GetBlockResultsRequest.MarshalToSizedBuffer`. -/
def GetBlockResultsRequest.MarshalToSizedBuffer (m : GetBlockResultsRequest)
    (dAtA : List Byte) : Except Error (List Byte × Nat) :=
  marshalReturn dAtA.length (marshalHeight m.Height dAtA dAtA.length)

/-- The method `GetBlockResponse.MarshalToSizedBuffer`: `Block`, then `BlockId`, then
`Height`, filling the buffer from its end. -/
def GetBlockResponse.MarshalToSizedBuffer {BlockID Blk : Type} (cId : Codec BlockID)
    (cB : Codec Blk) (m : GetBlockResponse BlockID Blk) (dAtA : List Byte) :
    Except Error (List Byte × Nat) :=
  marshalReturn dAtA.length
    (andThen (marshalOptional cB 0x1a m.Block dAtA dAtA.length) fun d1 i1 =>
     andThen (marshalOptional cId 0x12 m.BlockId d1 i1) fun d2 i2 =>
     marshalHeight m.Height d2 i2)

/-- The method `GetBlockResultsResponse.MarshalToSizedBuffer`: fields 6, 5, 4, 3, 2, 1 in
this order, filling the buffer from its end. -/
def GetBlockResultsResponse.MarshalToSizedBuffer {Event Tx VU CP : Type} (cE : Codec Event)
    (cT : Codec Tx) (cV : Codec VU) (cP : Codec CP)
    (m : GetBlockResultsResponse Event Tx VU CP) (dAtA : List Byte) :
    Except Error (List Byte × Nat) :=
  marshalReturn dAtA.length
    (andThen (marshalRepeated cE 0x32 m.EndBlockEvents dAtA dAtA.length) fun d1 i1 =>
     andThen (marshalOptional cP 0x2a m.ConsensusParamUpdates d1 i1) fun d2 i2 =>
     andThen (marshalRepeated cV 0x22 m.ValidatorUpdates d2 i2) fun d3 i3 =>
     andThen (marshalRepeated cT 0x1a m.TxResults d3 i3) fun d4 i4 =>
     andThen (marshalRepeated cE 0x12 m.BeginBlockEvents d4 i4) fun d5 i5 =>
     marshalHeight m.Height d5 i5)

/-- The body shared by the six `Marshal` methods:
`size := m.Size(); dAtA = make([]byte, size); n, err := m.MarshalToSizedBuffer(dAtA[:size]);
 if err != nil { return nil, err }; return dAtA[:n], nil`. -/
def marshalWith (size : Nat) (toSized : List Byte → Except Error (List Byte × Nat)) :
    Except Error (List Byte) :=
  let dAtA : List Byte := List.replicate size 0
  match toSized (dAtA.take size) with
  | .error e => .error e
  | .ok (dAtA1, n) => .ok (dAtA1.take n)

/-- The body shared by the six `MarshalTo` methods:
`size := m.Size(); return m.MarshalToSizedBuffer(dAtA[:size])`; the writes land in the
caller's buffer. A buffer is modelled as a slice whose capacity is its length: the slice
expression `dAtA[:size]` panics when `size > cap(dAtA)`, which is `size > len(dAtA)` for
such a buffer, and a buffer with spare capacity beyond its length is outside the model. -/
def marshalToWith (size : Nat) (toSized : List Byte → Except Error (List Byte × Nat))
    (dAtA : List Byte) : Except Error (List Byte × Nat) :=
  if size > dAtA.length then .error .runtimePanic
  else
    match toSized (dAtA.take size) with
    | .error e => .error e
    | .ok (pre, n) => .ok (pre ++ dAtA.drop size, n)

/-- The method `GetLatestHeightRequest.Marshal`. -/
def GetLatestHeightRequest.Marshal (m : GetLatestHeightRequest) : Except Error (List Byte) :=
  marshalWith m.Size m.MarshalToSizedBuffer

/-- The method `GetLatestHeightResponse.Marshal`. -/
def GetLatestHeightResponse.Marshal (m : GetLatestHeightResponse) : Except Error (List Byte) :=
  marshalWith m.Size m.MarshalToSizedBuffer

/-- The method `GetBlockRequest.Marshal`. -/
def GetBlockRequest.Marshal (m : GetBlockRequest) : Except Error (List Byte) :=
  marshalWith m.Size m.MarshalToSizedBuffer

/-- The method `GetBlockResultsRequest.Marshal`. -/
def GetBlockResultsRequest.Marshal (m : GetBlockResultsRequest) : Except Error (List Byte) :=
  marshalWith m.Size m.MarshalToSizedBuffer

/-- The method `GetBlockResponse.Marshal`. -/
def GetBlockResponse.Marshal {BlockID Blk : Type} (cId : Codec BlockID) (cB : Codec Blk)
    (m : GetBlockResponse BlockID Blk) : Except Error (List Byte) :=
  marshalWith (m.Size cId cB) (m.MarshalToSizedBuffer cId cB)

/-- The method `GetBlockResultsResponse.Marshal`. -/
def GetBlockResultsResponse.Marshal {Event Tx VU CP : Type} (cE : Codec Event)
    (cT : Codec Tx) (cV : Codec VU) (cP : Codec CP)
    (m : GetBlockResultsResponse Event Tx VU CP) : Except Error (List Byte) :=
  marshalWith (m.Size cE cT cV cP) (m.MarshalToSizedBuffer cE cT cV cP)

/-- The method `GetBlockResponse.MarshalTo`. -/
def GetBlockResponse.MarshalTo {BlockID Blk : Type} (cId : Codec BlockID) (cB : Codec Blk)
    (m : GetBlockResponse BlockID Blk) (dAtA : List Byte) : Except Error (List Byte × Nat) :=
  marshalToWith (m.Size cId cB) (m.MarshalToSizedBuffer cId cB) dAtA

/-! ## Unmarshal -/

/-- The `switch fieldNum` of `GetLatestHeightRequest.Unmarshal`: only `default:`. -/
def GetLatestHeightRequest.field (_m : GetLatestHeightRequest) (_fieldNum : Int)
    (_wireType : Nat) (_dAtA : List Byte) (_iNdEx : Nat) :
    Option (FieldResult GetLatestHeightRequest) := none

/-- The method `GetLatestHeightRequest.Unmarshal`. -/
def GetLatestHeightRequest.Unmarshal (m : GetLatestHeightRequest) (dAtA : List Byte) :
    GetLatestHeightRequest × Option Error :=
  unmarshalLoop .GetLatestHeightRequest GetLatestHeightRequest.field dAtA dAtA.length m 0

/-- The `switch fieldNum` of `GetLatestHeightResponse.Unmarshal`. -/
def GetLatestHeightResponse.field (m : GetLatestHeightResponse) (fieldNum : Int)
    (wireType : Nat) (dAtA : List Byte) (iNdEx : Nat) :
    Option (FieldResult GetLatestHeightResponse) :=
  if fieldNum = 1 then some (heightCase (fun m h => { m with Height := h }) m wireType dAtA iNdEx)
  else none

/-- The method `GetLatestHeightResponse.Unmarshal`. -/
def GetLatestHeightResponse.Unmarshal (m : GetLatestHeightResponse) (dAtA : List Byte) :
    GetLatestHeightResponse × Option Error :=
  unmarshalLoop .GetLatestHeightResponse GetLatestHeightResponse.field dAtA dAtA.length m 0

/-- The `switch fieldNum` of `GetBlockRequest.Unmarshal`. -/
def GetBlockRequest.field (m : GetBlockRequest) (fieldNum : Int)
    (wireType : Nat) (dAtA : List Byte) (iNdEx : Nat) : Option (FieldResult GetBlockRequest) :=
  if fieldNum = 1 then some (heightCase (fun m h => { m with Height := h }) m wireType dAtA iNdEx)
  else none

/-- The method `GetBlockRequest.Unmarshal`. -/
def GetBlockRequest.Unmarshal (m : GetBlockRequest) (dAtA : List Byte) :
    GetBlockRequest × Option Error :=
  unmarshalLoop .GetBlockRequest GetBlockRequest.field dAtA dAtA.length m 0

/-- The `switch fieldNum` of `GetBlockResultsRequest.Unmarshal`. -/
def GetBlockResultsRequest.field (m : GetBlockResultsRequest) (fieldNum : Int)
    (wireType : Nat) (dAtA : List Byte) (iNdEx : Nat) :
    Option (FieldResult GetBlockResultsRequest) :=
  if fieldNum = 1 then some (heightCase (fun m h => { m with Height := h }) m wireType dAtA iNdEx)
  else none

/-- The method `GetBlockResultsRequest.Unmarshal`. -/
def GetBlockResultsRequest.Unmarshal (m : GetBlockResultsRequest) (dAtA : List Byte) :
    GetBlockResultsRequest × Option Error :=
  unmarshalLoop .GetBlockResultsRequest GetBlockResultsRequest.field dAtA dAtA.length m 0

/-- The `switch fieldNum` of `GetBlockResponse.Unmarshal`. -/
def GetBlockResponse.field {BlockID Blk : Type} (cId : Codec BlockID) (cB : Codec Blk)
    (m : GetBlockResponse BlockID Blk) (fieldNum : Int) (wireType : Nat) (dAtA : List Byte)
    (iNdEx : Nat) : Option (FieldResult (GetBlockResponse BlockID Blk)) :=
  if fieldNum = 1 then some (heightCase (fun m h => { m with Height := h }) m wireType dAtA iNdEx)
  else if fieldNum = 2 then
    some (singularCase cId .BlockId (fun m => m.BlockId) (fun m v => { m with BlockId := v })
      m wireType dAtA iNdEx)
  else if fieldNum = 3 then
    some (singularCase cB .Block (fun m => m.Block) (fun m v => { m with Block := v })
      m wireType dAtA iNdEx)
  else none

/-- The method `GetBlockResponse.Unmarshal`. -/
def GetBlockResponse.Unmarshal {BlockID Blk : Type} (cId : Codec BlockID) (cB : Codec Blk)
    (m : GetBlockResponse BlockID Blk) (dAtA : List Byte) :
    GetBlockResponse BlockID Blk × Option Error :=
  unmarshalLoop .GetBlockResponse (GetBlockResponse.field cId cB) dAtA dAtA.length m 0

/-- The `switch fieldNum` of `GetBlockResultsResponse.Unmarshal`. -/
def GetBlockResultsResponse.field {Event Tx VU CP : Type} (cE : Codec Event) (cT : Codec Tx)
    (cV : Codec VU) (cP : Codec CP) (m : GetBlockResultsResponse Event Tx VU CP)
    (fieldNum : Int) (wireType : Nat) (dAtA : List Byte) (iNdEx : Nat) :
    Option (FieldResult (GetBlockResultsResponse Event Tx VU CP)) :=
  if fieldNum = 1 then some (heightCase (fun m h => { m with Height := h }) m wireType dAtA iNdEx)
  else if fieldNum = 2 then
    some (repeatedCase cE .BeginBlockEvents (fun m => m.BeginBlockEvents)
      (fun m v => { m with BeginBlockEvents := v }) m wireType dAtA iNdEx)
  else if fieldNum = 3 then
    some (repeatedCase cT .TxResults (fun m => m.TxResults)
      (fun m v => { m with TxResults := v }) m wireType dAtA iNdEx)
  else if fieldNum = 4 then
    some (repeatedCase cV .ValidatorUpdates (fun m => m.ValidatorUpdates)
      (fun m v => { m with ValidatorUpdates := v }) m wireType dAtA iNdEx)
  else if fieldNum = 5 then
    some (singularCase cP .ConsensusParamUpdates (fun m => m.ConsensusParamUpdates)
      (fun m v => { m with ConsensusParamUpdates := v }) m wireType dAtA iNdEx)
  else if fieldNum = 6 then
    some (repeatedCase cE .EndBlockEvents (fun m => m.EndBlockEvents)
      (fun m v => { m with EndBlockEvents := v }) m wireType dAtA iNdEx)
  else none

/-- The method `GetBlockResultsResponse.Unmarshal`. -/
def GetBlockResultsResponse.Unmarshal {Event Tx VU CP : Type} (cE : Codec Event)
    (cT : Codec Tx) (cV : Codec VU) (cP : Codec CP)
    (m : GetBlockResultsResponse Event Tx VU CP) (dAtA : List Byte) :
    GetBlockResultsResponse Event Tx VU CP × Option Error :=
  unmarshalLoop .GetBlockResultsResponse (GetBlockResultsResponse.field cE cT cV cP) dAtA
    dAtA.length m 0


/-! ## The wire format, written forward -/

/-- The groups of the base-128 varint of `v`, at most `fuel + 1` of them. -/
def varintAux : Nat → Nat → List Byte
  | 0, v => [Fin.ofNat v]
  | fuel + 1, v =>
    if v < 128 then [Fin.ofNat v] else Fin.ofNat (v % 128 + 128) :: varintAux fuel (v / 128)

/-- The base-128 varint of `v`: groups of seven bits, low-order group first, with the
continuation bit `0x80` set on every byte except the last. The fuel `v` is never used up. -/
def varint (v : Nat) : List Byte := varintAux v v
/-- The encoding of a scalar `Height` field at field number 1: nothing for zero, else the
tag byte `0x08` and the varint of the 64-bit pattern. -/
def wireHeight (h : Int) : List Byte :=
  if h = 0 then [] else 0x08 :: varint (uint64 h)

/-- The encoding of one length-delimited field: the tag byte, the varint of the length of
the payload, the payload. -/
def wireNested (tag : Byte) (payload : List Byte) : List Byte :=
  tag :: (varint payload.length ++ payload)

/-- The encoding of a singular nested-message field: nothing when absent. -/
def wireOptional {α : Type} (tag : Byte) (enc : α → List Byte) : Option α → List Byte
  | none => []
  | some x => wireNested tag (enc x)

/-- The encoding of a repeated nested-message field: one length-delimited field per
element, in list order. -/
def wireRepeated {α : Type} (tag : Byte) (enc : α → List Byte) : List α → List Byte
  | [] => []
  | x :: rest => wireNested tag (enc x) ++ wireRepeated tag enc rest

/-- Assumption on a nested codec: `MarshalToSizedBuffer` writes exactly `Size()` bytes, the
encoding `enc x`, at the end of the buffer it is given, and returns `Size()`; the size fits
a Go `int`. -/
structure Codec.WritesSize {α : Type} (c : Codec α) (enc : α → List Byte) : Prop where
  size_eq : ∀ x, (enc x).length = c.Size x
  size_lt : ∀ x, c.Size x < 2 ^ 63
  marshal : ∀ x (pre mid : List Byte), mid.length = c.Size x →
    c.MarshalToSizedBuffer x (pre ++ mid) = .ok (pre ++ enc x, c.Size x)

/-- Assumption on a nested codec: `Unmarshal` into a fresh value of the encoding of `x`
succeeds and yields `x`. -/
def Codec.RoundTrips {α : Type} (c : Codec α) (enc : α → List Byte) : Prop :=
  ∀ x, c.Unmarshal c.zero (enc x) = (x, none)

/-- Assumption on a nested codec: `Unmarshal` into a fresh value accepts the encoding of
every `x` (it returns `nil`). -/
def Codec.Accepts {α : Type} (c : Codec α) (enc : α → List Byte) : Prop :=
  ∀ x, (c.Unmarshal c.zero (enc x)).2 = none

/-- The value a nested codec decodes from the encoding of `x` into a fresh value. -/
def Codec.decoded {α : Type} (c : Codec α) (enc : α → List Byte) (x : α) : α :=
  (c.Unmarshal c.zero (enc x)).1

/-- A block of a `MarshalToSizedBuffer` body writes the bytes `w`: run with the cursor at
the end of a region of `w.length` bytes, it replaces that region by `w`, leaves the rest of
the buffer as it was, and moves the cursor to the start of the region. -/
def Writes (step : List Byte → Int → Except Error (List Byte × Int)) (w : List Byte) : Prop :=
  ∀ pre mid post : List Byte, mid.length = w.length →
    step (pre ++ mid ++ post) ((pre.length + mid.length : Nat) : Int)
      = .ok (pre ++ w ++ post, (pre.length : Int))

/-! ## Runs of the field loop -/

/-- The field loop of `Unmarshal` run from receiver `m` and cursor `i` comes to receiver
`m1` and cursor `i1`: with enough fuel for the bytes left at `i`, the run equals a run from
`(m1, i1)` that has enough fuel for the bytes left at `i1`. -/
def Reaches {M : Type} (name : MsgName)
    (field : M → Int → Nat → List Byte → Nat → Option (FieldResult M))
    (dAtA : List Byte) (m : M) (i : Nat) (m1 : M) (i1 : Nat) : Prop :=
  ∀ fuel, dAtA.length - i ≤ fuel →
    ∃ fuel1, dAtA.length - i1 ≤ fuel1 ∧
      unmarshalLoop name field dAtA fuel m i = unmarshalLoop name field dAtA fuel1 m1 i1

/-- The bytes `item` are one encoded field that takes the receiver from `m` to `m1`:
wherever they stand in an input they are decoded as such, and when the input ends one byte
before their end the loop returns `io.ErrUnexpectedEOF`. -/
structure Item {M : Type} (name : MsgName)
    (field : M → Int → Nat → List Byte → Nat → Option (FieldResult M))
    (item : List Byte) (m m1 : M) : Prop where
  decodes : ∀ dAtA pre post : List Byte, dAtA = pre ++ item ++ post → dAtA.length < 2 ^ 63 →
    Reaches name field dAtA m pre.length m1 (pre.length + item.length)
  truncated : ∀ dAtA pre : List Byte, dAtA = pre ++ item.dropLast → dAtA.length + 1 < 2 ^ 63 →
    ∀ fuel, 0 < fuel →
      (unmarshalLoop name field dAtA fuel m pre.length).2 = some .ErrUnexpectedEOF
  two_le : 2 ≤ item.length

/-- A sequence of encoded fields that takes the receiver from `m` to `m1`. -/
inductive Chain {M : Type} (name : MsgName)
    (field : M → Int → Nat → List Byte → Nat → Option (FieldResult M)) :
    M → List (List Byte) → M → Prop
  | nil (m : M) : Chain name field m [] m
  | cons {m m1 m2 : M} {item : List Byte} {rest : List (List Byte)} :
      Item name field item m m1 → Chain name field m1 rest m2 →
      Chain name field m (item :: rest) m2

/-- Concatenation of a list of byte strings. -/
def concat : List (List Byte) → List Byte
  | [] => []
  | x :: rest => x ++ concat rest

/-- The encoded fields of a scalar `Height`: none for zero, one otherwise. -/
def itemsHeight (h : Int) : List (List Byte) :=
  if h = 0 then [] else [0x08 :: varint (uint64 h)]

/-- The encoded fields of a singular nested-message field: none when absent. -/
def itemsOptional {α : Type} (tag : Byte) (enc : α → List Byte) :
    Option α → List (List Byte)
  | none => []
  | some x => [wireNested tag (enc x)]

/-- The encoded fields of a repeated nested-message field: one per element. -/
def itemsRepeated {α : Type} (tag : Byte) (enc : α → List Byte) :
    List α → List (List Byte)
  | [] => []
  | x :: rest => wireNested tag (enc x) :: itemsRepeated tag enc rest

/-- The wire bytes of a `GetBlockResponse`, fields 1, 2, 3 in ascending order. -/
def GetBlockResponse.wire {BlockID Blk : Type} (encId : BlockID → List Byte)
    (encB : Blk → List Byte) (m : GetBlockResponse BlockID Blk) : List Byte :=
  wireHeight m.Height ++ (wireOptional 0x12 encId m.BlockId ++ wireOptional 0x1a encB m.Block)

/-- The wire bytes of a `GetBlockResultsResponse`: the forward concatenation, in ascending
field-number order 1..6, of `0x08 ++ varint(Height)` if `Height != 0`; for each element of
`BeginBlockEvents` in list order `0x12 ++ varint(len(enc e)) ++ enc e`; each element of
`TxResults` with tag `0x1a`; each element of `ValidatorUpdates` with tag `0x22`;
`ConsensusParamUpdates` with tag `0x2a` if present; each element of `EndBlockEvents` with
tag `0x32`. -/
def GetBlockResultsResponse.wire {Event Tx VU CP : Type} (encE : Event → List Byte)
    (encT : Tx → List Byte) (encV : VU → List Byte) (encP : CP → List Byte)
    (m : GetBlockResultsResponse Event Tx VU CP) : List Byte :=
  wireHeight m.Height ++ (wireRepeated 0x12 encE m.BeginBlockEvents
    ++ (wireRepeated 0x1a encT m.TxResults ++ (wireRepeated 0x22 encV m.ValidatorUpdates
    ++ (wireOptional 0x2a encP m.ConsensusParamUpdates
    ++ wireRepeated 0x32 encE m.EndBlockEvents))))

/-- The tag byte of field number `f` with wire type `wt`: `(f << 3) | wt`. -/
def tagByte (f wt : Nat) : Byte := Fin.ofNat ((f <<< 3) ||| wt)

/-! ## Instances of nested codecs -/

/-- A nested message type whose encoding is a single byte, standing for a message type
defined outside this file: `Size` is 1, `MarshalToSizedBuffer` writes the byte at the end
of the buffer, `Unmarshal` accepts exactly a one-byte input. -/
def byteCodec : Codec Byte where
  zero := 0
  Size := fun _ => 1
  MarshalToSizedBuffer := fun x dAtA =>
    match writeByte dAtA ((dAtA.length : Int) - 1) x with
    | .error e => .error e
    | .ok dAtA1 => .ok (dAtA1, 1)
  Unmarshal := fun m dAtA =>
    match dAtA with
    | [b] => (b, none)
    | _ => (m, some (.nested 0))

/-- The encoding of `byteCodec`. -/
def byteEnc (x : Byte) : List Byte := [x]

/-- The message `GetBlockRequest` of this file used as a nested message type, with its own
generated methods. -/
def GetBlockRequest.codec : Codec GetBlockRequest where
  zero := ⟨0⟩
  Size := GetBlockRequest.Size
  MarshalToSizedBuffer := GetBlockRequest.MarshalToSizedBuffer
  Unmarshal := GetBlockRequest.Unmarshal

/-- The message `GetLatestHeightRequest` of this file used as a nested message type, with
its own generated methods: a message whose encoding is always empty. -/
def GetLatestHeightRequest.codec : Codec GetLatestHeightRequest where
  zero := ⟨⟩
  Size := GetLatestHeightRequest.Size
  MarshalToSizedBuffer := GetLatestHeightRequest.MarshalToSizedBuffer
  Unmarshal := GetLatestHeightRequest.Unmarshal

/-- The encoding of `GetLatestHeightRequest.codec`. -/
def emptyEnc (_x : GetLatestHeightRequest) : List Byte := []

/-- The field loop of a message rejects the field number `k` when it meets it with a wire
type other than `declared` and other than 4: an iteration that reads such a tag returns the
wrong-wire-type error for `fname` and leaves the receiver as it was. -/
def RejectsWrongWireType {M : Type} (name : MsgName)
    (field : M → Int → Nat → List Byte → Nat → Option (FieldResult M))
    (k : Int) (declared : Nat) (fname : FieldName) : Prop :=
  ∀ (dAtA : List Byte) (fuel : Nat) (m : M) (i wire j : Nat),
    i < dAtA.length → readVarint dAtA i = ⟨wire, j, none⟩ → int32 (wire >>> 3) = k →
    wire &&& 0x7 ≠ declared → wire &&& 0x7 ≠ 4 →
    unmarshalLoop name field dAtA (fuel + 1) m i
      = (m, some (.wrongWireType (wire &&& 0x7) fname))

/-- The field switch of `GetBlockResultsResponse.Unmarshal` with the nested decoding left
out: the cursor moves as in `GetBlockResultsResponse.field`, and every length-delimited
occurrence of a field number from 2 to 6 is recorded, with its payload `dAtA[iNdEx:postIndex]`,
at the end of the list of the occurrences met so far. -/
def occurrenceField (log : List (Int × List Byte)) (fieldNum : Int) (wireType : Nat)
    (dAtA : List Byte) (iNdEx : Nat) : Option (FieldResult (List (Int × List Byte))) :=
  if fieldNum = 1 then some (heightCase (fun l _ => l) log wireType dAtA iNdEx)
  else if 2 ≤ fieldNum ∧ fieldNum ≤ 6 then
    some (match readLen .Height wireType dAtA iNdEx with
      | .error (i, e) => ⟨log, i, some e⟩
      | .ok (iNdEx1, postIndex) => ⟨log ++ [(fieldNum, slice dAtA iNdEx1 postIndex)], postIndex, none⟩)
  else none

/-- The occurrences of the fields 2 to 6 at the top level of an input, in the order in
which they appear: field number and payload of each. -/
def occurrences (dAtA : List Byte) : List (Int × List Byte) × Option Error :=
  unmarshalLoop .GetBlockResultsResponse occurrenceField dAtA dAtA.length [] 0

/-- The payloads of the occurrences of the field number `k`, in input order. -/
def occurrencesOf (k : Int) (occ : List (Int × List Byte)) : List (List Byte) :=
  (occ.filter (fun o => decide (o.1 = k))).map Prod.snd

/-- The element a repeated field receives for an occurrence with payload `s`: a fresh value
`&T{}` after its `Unmarshal(s)`. -/
def Codec.fresh {α : Type} (c : Codec α) (s : List Byte) : α := (c.Unmarshal c.zero s).1

/-- The field loop validates the length of the length-delimited field `k`, whose nested
`Unmarshal` runs on the receiver `recv m` and whose result is stored by `store`: in an
iteration that reads a tag of field `k` with wire type 2 and then the length varint `x`,
ending at the cursor `cur`, with `L = int64 x`: a negative `L` or a sum `cur + L` that wraps
around gives `ErrInvalidLengthBlock`, a sum beyond the end of the input gives
`io.ErrUnexpectedEOF`, and otherwise the nested `Unmarshal` is called on
`dAtA[cur : cur + L]`, its error is returned if there is one, and else the loop goes on from
the cursor `cur + L`. -/
def ChecksLength {M α : Type} (name : MsgName)
    (field : M → Int → Nat → List Byte → Nat → Option (FieldResult M))
    (k : Int) (c : Codec α) (recv : M → α) (store : M → α → M) : Prop :=
  ∀ (dAtA : List Byte) (fuel : Nat) (m : M) (i wire j x cur : Nat),
    dAtA.length < 2 ^ 63 → i < dAtA.length → readVarint dAtA i = ⟨wire, j, none⟩ →
    int32 (wire >>> 3) = k → wire &&& 0x7 = 2 → readVarint dAtA j = ⟨x, cur, none⟩ →
    ((int64 x < 0 ∨ 2 ^ 63 ≤ (cur : Int) + int64 x) →
      unmarshalLoop name field dAtA (fuel + 1) m i = (m, some .ErrInvalidLengthBlock)) ∧
    (0 ≤ int64 x → (cur : Int) + int64 x < 2 ^ 63 → (dAtA.length : Int) < cur + int64 x →
      unmarshalLoop name field dAtA (fuel + 1) m i = (m, some .ErrUnexpectedEOF)) ∧
    (0 ≤ int64 x → (cur : Int) + int64 x ≤ dAtA.length →
      unmarshalLoop name field dAtA (fuel + 1) m i =
        match c.Unmarshal (recv m) (slice dAtA cur (cur + (int64 x).toNat)) with
        | (v, some e) => (store m v, some e)
        | (v, none) => unmarshalLoop name field dAtA fuel (store m v) (cur + (int64 x).toNat))

/-! ## Fields and groups as skipBlock meets them -/

/-- The bytes of `dAtA` from the cursor `i` to the cursor `e` are a sequence of complete
fields: each is a tag followed by what its wire type announces (a varint, 8 bytes, a length
and that many bytes, 4 bytes), or a group, which is a start-group tag, a sequence of
complete fields and an end-group tag. -/
inductive Fields (dAtA : List Byte) : Nat → Nat → Prop
  | nil (i : Nat) : Fields dAtA i i
  | varint {i wire j v k e : Nat} : readVarint dAtA i = ⟨wire, j, none⟩ → wire &&& 0x7 = 0 →
      readVarint dAtA j = ⟨v, k, none⟩ → Fields dAtA k e → Fields dAtA i e
  | fixed64 {i wire j e : Nat} : readVarint dAtA i = ⟨wire, j, none⟩ → wire &&& 0x7 = 1 →
      Fields dAtA (j + 8) e → Fields dAtA i e
  | bytes {i wire j x k e : Nat} : readVarint dAtA i = ⟨wire, j, none⟩ → wire &&& 0x7 = 2 →
      readVarint dAtA j = ⟨x, k, none⟩ → 0 ≤ int64 x → (k : Int) + int64 x < 2 ^ 63 →
      Fields dAtA (k + (int64 x).toNat) e → Fields dAtA i e
  | fixed32 {i wire j e : Nat} : readVarint dAtA i = ⟨wire, j, none⟩ → wire &&& 0x7 = 5 →
      Fields dAtA (j + 4) e → Fields dAtA i e
  | group {i wire j p wire2 q e : Nat} : readVarint dAtA i = ⟨wire, j, none⟩ →
      wire &&& 0x7 = 3 → Fields dAtA j p → readVarint dAtA p = ⟨wire2, q, none⟩ →
      wire2 &&& 0x7 = 4 → Fields dAtA q e → Fields dAtA i e

/-- The bytes of `dAtA` from the cursor `i` to the cursor `e` are complete fields and
start-group tags whose groups are not closed before `e`. -/
inductive OpenFields (dAtA : List Byte) : Nat → Nat → Prop
  | closed {i e : Nat} : Fields dAtA i e → OpenFields dAtA i e
  | start {i p wire q e : Nat} : Fields dAtA i p → readVarint dAtA p = ⟨wire, q, none⟩ →
      wire &&& 0x7 = 3 → OpenFields dAtA q e → OpenFields dAtA i e

/-! ## One iteration of the field loop -/

/-- Outcome of one iteration of the field loop of an `Unmarshal` method: the method returns
with an error, or the loop goes on with a receiver and a cursor. -/
inductive Step (M : Type) where
  | fail (m : M) (e : Error)
  | next (m : M) (iNdEx : Nat)

/-- What follows an iteration: the returned pair after `fail`, the rest of the run `k`
after `next`. -/
def Step.andThen {M : Type} (s : Step M) (k : M → Nat → M × Option Error) :
    M × Option Error :=
  match s with
  | .fail m e => (m, some e)
  | .next m i => k m i

/-- The body of the loop `for iNdEx < l` of the generated `Unmarshal` methods, entered with
`iNdEx < l`: the tag read, the two tag checks and the `switch fieldNum`, whose `default:`
branch calls `skipBlock` and checks the extent it reports. -/
def unmarshalStep {M : Type} (name : MsgName)
    (field : M → Int → Nat → List Byte → Nat → Option (FieldResult M))
    (dAtA : List Byte) (m : M) (iNdEx : Nat) : Step M :=
  let preIndex := iNdEx
  let r := readVarint dAtA iNdEx
  match r.err with
  | some e => .fail m e
  | none =>
    let wire := r.value
    let fieldNum := int32 (wire >>> 3)
    let wireType := wire &&& 0x7
    if wireType = 4 then .fail m (.wiretypeEndGroup name)
    else if fieldNum ≤ 0 then .fail m (.illegalTag name fieldNum wire)
    else
      match field m fieldNum wireType dAtA r.iNdEx with
      | some res =>
        match res.err with
        | some e => .fail res.m e
        | none => .next res.m res.iNdEx
      | none =>
        match skipBlock (dAtA.drop preIndex) with
        | .error e => .fail m e
        | .ok skippy =>
          if skippy < 0 ∨ wrapInt64 ((preIndex : Int) + skippy) < 0 then
            .fail m .ErrInvalidLengthBlock
          else if wrapInt64 ((preIndex : Int) + skippy) > dAtA.length then
            .fail m .ErrUnexpectedEOF
          else .next m (wrapInt64 ((preIndex : Int) + skippy)).toNat

/-- The states `(receiver, cursor)` at which the field loop tests its condition during a
run that starts at `(m, i)`: the start, and what an iteration entered with the cursor
inside the input leaves when it does not return. -/
inductive Visits {M : Type} (name : MsgName)
    (field : M → Int → Nat → List Byte → Nat → Option (FieldResult M))
    (dAtA : List Byte) (m : M) (i : Nat) : M → Nat → Prop
  | start : Visits name field dAtA m i m i
  | step {m1 m2 : M} {i1 i2 : Nat} : Visits name field dAtA m i m1 i1 → i1 < dAtA.length →
      unmarshalStep name field dAtA m1 i1 = .next m2 i2 → Visits name field dAtA m i m2 i2

/-- Outcome of one iteration of the loop of `skipBlock`: it returns with an error, it
returns an offset, or the loop goes on with a cursor and a depth. -/
inductive SkipStep where
  | fail (e : Error)
  | done (n : Int)
  | next (iNdEx depth : Nat)

/-- What follows an iteration of the loop of `skipBlock`. -/
def SkipStep.andThen (s : SkipStep) (k : Nat → Nat → Except Error Int) : Except Error Int :=
  match s with
  | .fail e => .error e
  | .done n => .ok n
  | .next i depth => k i depth

/-- The `switch wireType` of `skipBlock`, after a tag with the value `wire` that ends at
the cursor `iNdEx`: the cursor (an `int`) and the depth it leaves, or the error it returns
with. The cursor is at most `len(dAtA)` where 4 or 8 is added to it, so only
`iNdEx += length` can wrap. -/
def skipSwitch (dAtA : List Byte) (wire iNdEx depth : Nat) : Except Error (Int × Nat) :=
  let wireType := wire &&& 0x7
  if wireType = 0 then
    let r0 := readVarint dAtA iNdEx
    match r0.err with
    | some e => .error e
    | none => .ok ((r0.iNdEx : Int), depth)
  else if wireType = 1 then .ok ((iNdEx : Int) + 8, depth)
  else if wireType = 2 then
    let r2 := readVarint dAtA iNdEx
    match r2.err with
    | some e => .error e
    | none =>
      let length := int64 r2.value
      if length < 0 then .error .ErrInvalidLengthBlock
      else .ok (wrapInt64 ((r2.iNdEx : Int) + length), depth)
  else if wireType = 3 then .ok ((iNdEx : Int), depth + 1)
  else if wireType = 4 then
    if depth = 0 then .error .ErrUnexpectedEndOfGroupBlock
    else .ok ((iNdEx : Int), depth - 1)
  else if wireType = 5 then .ok ((iNdEx : Int) + 4, depth)
  else .error (.illegalWireType wireType)

/-- The body of the loop `for iNdEx < l` of `skipBlock`, entered with `iNdEx < l`: the tag
read, the `switch wireType`, and the two tests that follow it. -/
def skipStep (dAtA : List Byte) (iNdEx depth : Nat) : SkipStep :=
  let r := readVarint dAtA iNdEx
  match r.err with
  | some e => .fail e
  | none =>
    match skipSwitch dAtA r.value r.iNdEx depth with
    | .error e => .fail e
    | .ok (iNdEx1, depth1) =>
      if iNdEx1 < 0 then .fail .ErrInvalidLengthBlock
      else if depth1 = 0 then .done iNdEx1
      else .next iNdEx1.toNat depth1

/-- The cursor invariant of the field loop of a message type, on an input of fewer than
`2^63` bytes. An iteration that does not return leaves the cursor further on and not beyond
the end of the input. Every state the loop visits from the cursor 0 has its cursor within
the input, so that the loop is left with the cursor at `len(dAtA)` exactly. A run that
returns `nil` has come to the cursor `len(dAtA)`. An unknown field whose extent `s`,
reported by `skipBlock`, reaches past the end of the input is rejected: with
`io.ErrUnexpectedEOF` when `cursor + s` is less than `2^63`, and with
`ErrInvalidLengthBlock` when that sum wraps around. -/
def CursorInvariant {M : Type} (name : MsgName)
    (field : M → Int → Nat → List Byte → Nat → Option (FieldResult M)) : Prop :=
  ∀ dAtA : List Byte, dAtA.length < 2 ^ 63 →
    (∀ m i m1 i1, unmarshalStep name field dAtA m i = .next m1 i1 →
      i < i1 ∧ i1 ≤ dAtA.length) ∧
    (∀ m m1 i1, Visits name field dAtA m 0 m1 i1 →
      i1 ≤ dAtA.length ∧ (¬ i1 < dAtA.length → i1 = dAtA.length)) ∧
    (∀ m m1, unmarshalLoop name field dAtA dAtA.length m 0 = (m1, none) →
      Visits name field dAtA m 0 m1 dAtA.length) ∧
    (∀ m i wire j s, readVarint dAtA i = ⟨wire, j, none⟩ → wire &&& 0x7 ≠ 4 →
      0 < int32 (wire >>> 3) →
      field m (int32 (wire >>> 3)) (wire &&& 0x7) dAtA j = none →
      skipBlock (dAtA.drop i) = .ok s → (dAtA.length : Int) < i + s →
      ((i : Int) + s < 2 ^ 63 →
        unmarshalStep name field dAtA m i = .fail m .ErrUnexpectedEOF) ∧
      (2 ^ 63 ≤ (i : Int) + s →
        unmarshalStep name field dAtA m i = .fail m .ErrInvalidLengthBlock))

/-- The field loop of a message type terminates, on an input of fewer than `2^63` bytes:
an iteration that does not return advances the cursor by at least one byte, and a run
with more rounds than `len(dAtA)` is the run with `len(dAtA)` rounds. -/
def Terminates {M : Type} (name : MsgName)
    (field : M → Int → Nat → List Byte → Nat → Option (FieldResult M)) : Prop :=
  ∀ dAtA : List Byte, dAtA.length < 2 ^ 63 →
    (∀ m i m1 i1, unmarshalStep name field dAtA m i = .next m1 i1 → i + 1 ≤ i1) ∧
    (∀ fuel m, dAtA.length ≤ fuel →
      unmarshalLoop name field dAtA fuel m 0
        = unmarshalLoop name field dAtA dAtA.length m 0)

/-! ## What the top level of an input holds -/

/-- What a scan of the top level of an input has met: the values of the height fields, and
the occurrences of the nested fields (field number and payload), each in input order. -/
structure Seen where
  heights : List Int
  fields : List (Int × List Byte)
  deriving DecidableEq, Repr

/-- The field switch of a message type that recognises the height field 1 when `height` is
set, and the nested fields whose number satisfies `nested`, with the decoding left out: the
cursor moves as in the generated switch, and what is met is recorded. -/
def scanField (height : Bool) (nested : Int → Bool) (s : Seen) (fieldNum : Int)
    (wireType : Nat) (dAtA : List Byte) (iNdEx : Nat) : Option (FieldResult Seen) :=
  if height = true ∧ fieldNum = 1 then
    some (heightCase (fun s h => { s with heights := s.heights ++ [h] }) s wireType dAtA iNdEx)
  else if nested fieldNum = true then
    some (match readLen .Height wireType dAtA iNdEx with
      | .error (i, e) => ⟨s, i, some e⟩
      | .ok (iNdEx1, postIndex) =>
        ⟨{ s with fields := s.fields ++ [(fieldNum, slice dAtA iNdEx1 postIndex)] },
          postIndex, none⟩)
  else none

/-- The scan of an input for a message type: the height values and the nested occurrences
at its top level, in input order. -/
def scan (name : MsgName) (height : Bool) (nested : Int → Bool) (dAtA : List Byte) :
    Seen × Option Error :=
  unmarshalLoop name (scanField height nested) dAtA dAtA.length ⟨[], []⟩ 0

/-- The field number `k` has no nested occurrence in what the scan met. -/
def Seen.lacks (s : Seen) (k : Int) : Prop := ∀ p, (k, p) ∉ s.fields

/-! ## MarshalTo -/

/-- The method `GetLatestHeightRequest.MarshalTo`. -/
def GetLatestHeightRequest.MarshalTo (m : GetLatestHeightRequest) (dAtA : List Byte) :
    Except Error (List Byte × Nat) :=
  marshalToWith m.Size m.MarshalToSizedBuffer dAtA

/-- The method `GetLatestHeightResponse.MarshalTo`. -/
def GetLatestHeightResponse.MarshalTo (m : GetLatestHeightResponse) (dAtA : List Byte) :
    Except Error (List Byte × Nat) :=
  marshalToWith m.Size m.MarshalToSizedBuffer dAtA

/-- The method `GetBlockRequest.MarshalTo`. -/
def GetBlockRequest.MarshalTo (m : GetBlockRequest) (dAtA : List Byte) :
    Except Error (List Byte × Nat) :=
  marshalToWith m.Size m.MarshalToSizedBuffer dAtA

/-- The method `GetBlockResultsRequest.MarshalTo`. -/
def GetBlockResultsRequest.MarshalTo (m : GetBlockResultsRequest) (dAtA : List Byte) :
    Except Error (List Byte × Nat) :=
  marshalToWith m.Size m.MarshalToSizedBuffer dAtA

/-- The method `GetBlockResultsResponse.MarshalTo`. -/
def GetBlockResultsResponse.MarshalTo {Event Tx VU CP : Type} (cE : Codec Event)
    (cT : Codec Tx) (cV : Codec VU) (cP : Codec CP)
    (m : GetBlockResultsResponse Event Tx VU CP) (dAtA : List Byte) :
    Except Error (List Byte × Nat) :=
  marshalToWith (m.Size cE cT cV cP) (m.MarshalToSizedBuffer cE cT cV cP) dAtA

/-- The methods of a message write its encoding `w`, of `size` bytes, in place: `Marshal`
returns `w`; on a buffer of at least `size` bytes, `MarshalToSizedBuffer` returns `size`,
puts `w` in the last `size` bytes and leaves the bytes before them as they were, and
`MarshalTo` returns `size`, puts `w` in the first `size` bytes and leaves the bytes after
them as they were. -/
def WritesInPlace (size : Nat) (w : List Byte)
    (toSized marshalTo : List Byte → Except Error (List Byte × Nat))
    (marshal : Except Error (List Byte)) : Prop :=
  marshal = .ok w ∧ w.length = size ∧
  ∀ buf : List Byte, size ≤ buf.length →
    toSized buf = .ok (buf.take (buf.length - size) ++ w, size) ∧
    marshalTo buf = .ok (w ++ buf.drop size, size)

/-! ## ZigZag -/

/-- The 64-bit word `x` shifted right arithmetically by 63: its sign bit in every
position. -/
def asr63 (x : Nat) : Nat := if x % 2 ^ 64 < 2 ^ 63 then 0 else 2 ^ 64 - 1

/-- The ZigZag transform over 64-bit words: `(x << 1) XOR (x >> 63)`, the shift to the
right being arithmetic. -/
def zigzagWord (x : Nat) : Nat := ((2 * x) % 2 ^ 64) ^^^ asr63 x

/-- The ZigZag transform of a signed integer: `0, -1, 1, -2, 2, ...` are sent to
`0, 1, 2, 3, 4, ...`. -/
def zigzag (n : Int) : Nat := if 0 ≤ n then (2 * n).toNat else (-2 * n - 1).toNat

/-! ## The top level of an encoded GetBlockResultsResponse -/

/-- A field at the top level of an encoded `GetBlockResultsResponse`, as an encoder of the
wire format writes it: the height (field 1, a varint), a nested message (one of the fields
2 to 6, length-delimited), or a field the message does not know, which is a varint, eight
bytes, a length-delimited string or four bytes. -/
inductive TopField
  | height (h : Nat)
  | nested (k : Nat) (payload : List Byte)
  | unknownVarint (f : Nat) (v : Nat)
  | unknownFixed64 (f : Nat) (bs : List Byte)
  | unknownBytes (f : Nat) (p : List Byte)
  | unknownFixed32 (f : Nat) (bs : List Byte)

/-- The bytes of a top-level field: the tag `(field number << 3) | wire type`, written as
a varint, and what the wire type announces. -/
def TopField.bytes : TopField → List Byte
  | .height h => varint (8 * 1 + 0) ++ varint h
  | .nested k payload => varint (8 * k + 2) ++ varint payload.length ++ payload
  | .unknownVarint f v => varint (8 * f + 0) ++ varint v
  | .unknownFixed64 f bs => varint (8 * f + 1) ++ bs
  | .unknownBytes f p => varint (8 * f + 2) ++ varint p.length ++ p
  | .unknownFixed32 f bs => varint (8 * f + 5) ++ bs

/-- The constraints of the wire format on a top-level field: 64-bit varints, the nested
fields numbered 2 to 6, the unknown fields numbered from 7 up to `2^29 - 1`, and fixed
fields of eight and four bytes. -/
def TopField.WellFormed : TopField → Prop
  | .height h => h < 2 ^ 64
  | .nested k _ => 2 ≤ k ∧ k ≤ 6
  | .unknownVarint f v => 7 ≤ f ∧ f < 2 ^ 29 ∧ v < 2 ^ 64
  | .unknownFixed64 f bs => 7 ≤ f ∧ f < 2 ^ 29 ∧ bs.length = 8
  | .unknownBytes f _ => 7 ≤ f ∧ f < 2 ^ 29
  | .unknownFixed32 f bs => 7 ≤ f ∧ f < 2 ^ 29 ∧ bs.length = 4

/-- The occurrence a top-level field is: field number and payload for a nested message,
none for the other fields. -/
def TopField.occurrence : TopField → Option (Int × List Byte)
  | .nested k payload => some ((k : Int), payload)
  | _ => none

/-- The encoding of a sequence of top-level fields: their bytes one after the other. -/
def encodeTop (fs : List TopField) : List Byte := concat (fs.map TopField.bytes)

end Block

/-! # The RPC functions of `rpc/core/net.go` -/

namespace Core

/-- The errors `GenesisChunked` returns, each with the values its message is formatted
from, and the run-time panic of Go (an index out of range). -/
inductive Error
  /-- The error `service configuration error, genesis chunks are not initialized`. -/
  | chunksNotInitialized
  /-- The error `service configuration error, there are no chunks`. -/
  | noChunks
  /-- The error `there are %d chunks, %d is invalid`, with its two arguments. -/
  | invalidChunk (last : Int) (id : Int)
  /-- A run-time panic. -/
  | runtimePanic
  deriving DecidableEq, Repr

/-- The result type `ctypes.ResultGenesisChunk`. -/
structure ResultGenesisChunk where
  TotalChunks : Int
  ChunkNumber : Int
  Data : String
  deriving DecidableEq, Repr

/-- The field of `Environment` that `GenesisChunked` reads: the slice `genChunks`, which
is `nil` (`none`) or holds the chunks. -/
structure Environment where
  genChunks : Option (List String)

/-- The index expression `xs[i]` on a slice, with `i` an `int`: a panic when `i` is
negative or not less than `len(xs)`. -/
def index (xs : List String) (i : Int) : Except Error String :=
  if i < 0 then .error .runtimePanic
  else
    match xs[i.toNat]? with
    | none => .error .runtimePanic
    | some x => .ok x

/-- The method `Environment.GenesisChunked`; `chunk` is a `uint` of 64 bits and
`id := int(chunk)` is its bit pattern read as a signed integer. -/
def Environment.GenesisChunked (env : Environment) (chunk : Nat) :
    Except Error ResultGenesisChunk :=
  match env.genChunks with
  | none => .error .chunksNotInitialized
  | some genChunks =>
    if genChunks.length = 0 then .error .noChunks
    else
      let id : Int := Block.int64 chunk
      if id > (genChunks.length : Int) - 1 then
        .error (.invalidChunk ((genChunks.length : Int) - 1) id)
      else
        match index genChunks id with
        | .error e => .error e
        | .ok data => .ok ⟨(genChunks.length : Int), id, data⟩

/-- The library function `strings.Split(s, sep)` of Go for a separator `sep` of one
character, on the characters of `s`: the substrings between the separators, one more than
there are separators; a string without separator gives the one substring `s`. -/
def splitChars (sep : Char) : List Char → List (List Char)
  | [] => [[]]
  | c :: cs =>
    if c = sep then [] :: splitChars sep cs
    else
      match splitChars sep cs with
      | [] => [[c]]
      | p :: ps => (c :: p) :: ps

/-- The call `strings.Split(s, sep)` for a separator of one character. -/
def stringsSplit (s : String) (sep : Char) : List String :=
  (splitChars sep s.data).map String.mk

/-- The error type `p2p.ErrNetAddressNoID`. -/
structure ErrNetAddressNoID where
  Addr : String
  deriving DecidableEq, Repr

/-- The loop `for _, peer := range peers` of `getIDs`, with the slice `ids` built so far;
`spl[0]` is read only when `len(spl) = 2`. -/
def getIDsLoop : List String → List String → Except ErrNetAddressNoID (List String)
  | [], ids => .ok ids
  | peer :: rest, ids =>
    let spl := stringsSplit peer '@'
    if spl.length ≠ 2 then .error ⟨peer⟩
    else getIDsLoop rest (ids ++ [spl.headD ""])

/-- The function `getIDs`. -/
def getIDs (peers : List String) : Except ErrNetAddressNoID (List String) :=
  getIDsLoop peers []

/-- The part of a peer string before its first `@`. -/
def idBefore (peer : String) : String :=
  String.mk (peer.data.takeWhile (fun c => decide (c ≠ '@')))

end Core

namespace Block

/-! ## Arithmetic of `sovBlock` and of the varint loops -/

theorem lenAux_le_iff (f : Nat) : ∀ (x n : Nat), x < 2 ^ f → (lenAux f x ≤ n ↔ x < 2 ^ n) := by
  induction f with
  | zero =>
    intro x n hx
    have : x = 0 := by simpa using hx
    subst this
    simp [lenAux]
  | succ f ih =>
    intro x n hx
    unfold lenAux
    by_cases h0 : x = 0
    · subst h0; simp
    · rw [if_neg h0]
      cases n with
      | zero => simp; omega
      | succ n =>
        have hx2 : x / 2 < 2 ^ f := by
          rw [pow_succ] at hx; omega
        have := ih (x / 2) n hx2
        rw [Nat.add_le_add_iff_right, this, pow_succ]
        omega

theorem or_one_eq (v : Nat) : v ||| 1 = 2 * (v / 2) + 1 := by
  have h1 : (v ||| 1) / 2 = v / 2 := by
    rw [Nat.or_div_two]; simp
  have h2 : (v ||| 1) % 2 = 1 := by
    rw [Nat.or_mod_two_eq_one]; right; rfl
  omega

theorem Len64_le_iff (x n : Nat) (hx : x < 2 ^ 64) : Len64 x ≤ n ↔ x < 2 ^ n := by
  unfold Len64
  rw [Nat.mod_eq_of_lt hx]
  exact lenAux_le_iff 64 x n hx

theorem sovBlock_le_iff (v k : Nat) (hv : v < 2 ^ 64) (hk : 1 ≤ k) :
    sovBlock v ≤ k ↔ v < 2 ^ (7 * k) := by
  unfold sovBlock
  have hor : v ||| 1 < 2 ^ 64 := Nat.or_lt_two_pow hv (by norm_num)
  have h1 : (Len64 (v ||| 1) + 6) / 7 ≤ k ↔ Len64 (v ||| 1) ≤ 7 * k := by omega
  rw [h1, Len64_le_iff _ _ hor, or_one_eq]
  obtain ⟨j, rfl⟩ : ∃ j, k = j + 1 := ⟨k - 1, by omega⟩
  have : 2 ^ (7 * (j + 1)) = 2 * 2 ^ (7 * j + 6) := by
    rw [show 7 * (j + 1) = (7 * j + 6) + 1 by ring, pow_succ]; ring
  rw [this]
  omega

theorem sovBlock_pos (v : Nat) : 1 ≤ sovBlock v := by
  unfold sovBlock Len64
  have h : (v ||| 1) % 2 ^ 64 ≠ 0 := by
    rw [or_one_eq]
    omega
  have : 1 ≤ lenAux 64 ((v ||| 1) % 2 ^ 64) := by
    rw [show (64 : Nat) = 63 + 1 from rfl, lenAux, if_neg h]
    omega
  omega

theorem sovBlock_of_lt (v : Nat) (hv : v < 128) : sovBlock v = 1 := by
  have h := (sovBlock_le_iff v 1 (by omega) (le_refl 1)).2 (by norm_num; omega)
  have := sovBlock_pos v
  omega

theorem sovBlock_of_ge (v : Nat) (hv : 128 ≤ v) (h64 : v < 2 ^ 64) :
    sovBlock v = sovBlock (v / 128) + 1 := by
  have hd : v / 128 < 2 ^ 64 := by omega
  have key : ∀ k, 1 ≤ k → (sovBlock v ≤ k + 1 ↔ sovBlock (v / 128) ≤ k) := by
    intro k hk
    rw [sovBlock_le_iff v (k + 1) h64 (by omega), sovBlock_le_iff _ k hd hk]
    have : 2 ^ (7 * (k + 1)) = 128 * 2 ^ (7 * k) := by
      rw [show 7 * (k + 1) = 7 * k + 7 by ring, pow_add]; norm_num; ring
    rw [this]
    omega
  have h1 : ¬ sovBlock v ≤ 1 := by
    rw [sovBlock_le_iff v 1 h64 (le_refl 1)]
    norm_num; omega
  have hp := sovBlock_pos (v / 128)
  have ha := (key (sovBlock (v / 128)) hp).2 (le_refl _)
  have hb : sovBlock v - 1 ≥ 1 := by omega
  have hc := (key (sovBlock v - 1) hb).1 (by omega)
  omega

theorem sovBlock_le_ten (v : Nat) (hv : v < 2 ^ 64) : sovBlock v ≤ 10 := by
  rw [sovBlock_le_iff v 10 hv (by norm_num)]
  calc v < 2 ^ 64 := hv
    _ ≤ 2 ^ (7 * 10) := by norm_num


theorem varintAux_fuel : ∀ (v f : Nat), v ≤ f → varintAux f v = varintAux v v := by
  intro v
  induction v using Nat.strong_induction_on with
  | _ v ih =>
    intro f hf
    cases f with
    | zero =>
      have : v = 0 := by omega
      subst this; rfl
    | succ f =>
      cases v with
      | zero => simp [varintAux]
      | succ v =>
        simp only [varintAux]
        by_cases h : v + 1 < 128
        · simp [h]
        · simp only [h, if_false]
          have hd : (v + 1) / 128 ≤ v := by omega
          rw [ih ((v + 1) / 128) (by omega) f (by omega), ih ((v + 1) / 128) (by omega) v hd]

theorem varint_of_lt (v : Nat) (h : v < 128) : varint v = [Fin.ofNat v] := by
  unfold varint
  cases v with
  | zero => rfl
  | succ v => simp [varintAux, h]

theorem varint_of_ge (v : Nat) (h : 128 ≤ v) :
    varint v = Fin.ofNat (v % 128 + 128) :: varint (v / 128) := by
  unfold varint
  obtain ⟨w, rfl⟩ : ∃ w, v = w + 1 := ⟨v - 1, by omega⟩
  simp only [varintAux]
  rw [if_neg (by omega), varintAux_fuel _ w (by omega)]

theorem varint_length (v : Nat) (hv : v < 2 ^ 64) : (varint v).length = sovBlock v := by
  induction v using Nat.strong_induction_on with
  | _ v ih =>
    by_cases h : v < 128
    · rw [varint_of_lt v h, sovBlock_of_lt v h]; rfl
    · have h1 : 128 ≤ v := by omega
      rw [varint_of_ge v h1, sovBlock_of_ge v h1 hv, List.length_cons,
        ih (v / 128) (by omega) (by omega)]

theorem varint_length_pos (v : Nat) : 1 ≤ (varint v).length := by
  by_cases h : v < 128
  · rw [varint_of_lt v h]; simp
  · rw [varint_of_ge v (by omega)]; simp

theorem writeByte_append (pre : List Byte) (x b : Byte) (rest : List Byte) :
    writeByte (pre ++ x :: rest) (pre.length : Int) b = .ok (pre ++ b :: rest) := by
  unfold writeByte
  have hc : (0 : Int) ≤ (pre.length : Int) ∧
      (pre.length : Int) < ((pre ++ x :: rest).length : Nat) := by
    constructor
    · exact Int.ofNat_nonneg _
    · simp
  rw [if_pos hc]
  simp [List.set_append]

theorem and_or_byte (v : Nat) : (v &&& 0x7f) ||| 0x80 = v % 128 + 128 := by
  have h1 : v &&& 0x7f = v % 128 := Nat.and_pow_two_sub_one_eq_mod v 7
  rw [h1, Nat.or_comm]
  have h2 := Nat.mul_add_lt_is_or (i := 7) (b := v % 128) (Nat.mod_lt _ (by norm_num)) 1
  simp at h2
  omega

theorem encodeVarintLoop_eq (fuel : Nat) : ∀ (v : Nat) (pre mid post : List Byte),
    mid.length = (varint v).length → (varint v).length ≤ fuel →
    encodeVarintLoop fuel (pre ++ mid ++ post) (pre.length : Int) v
      = .ok (pre ++ varint v ++ post) := by
  induction fuel with
  | zero =>
    intro v pre mid post _ hf
    have := varint_length_pos v
    omega
  | succ fuel ih =>
    intro v pre mid post hm hf
    unfold encodeVarintLoop
    by_cases h : v < 128
    · have hn : ¬ v ≥ 1 <<< 7 := by simpa using h
      rw [if_neg hn]
      rw [varint_of_lt v h] at hm ⊢
      match mid, hm with
      | [x], _ =>
        simpa using writeByte_append pre x (Fin.ofNat v) post
    · have h1 : 128 ≤ v := by omega
      have hp : v ≥ 1 <<< 7 := by simpa using h1
      rw [if_pos hp]
      rw [varint_of_ge v h1] at hm hf ⊢
      match mid, hm with
      | x :: mid1, hm1 =>
        have hw := writeByte_append pre x (Fin.ofNat ((v &&& 0x7f) ||| 0x80)) (mid1 ++ post)
        simp only [List.append_assoc, List.cons_append] at hw ⊢
        rw [hw]
        simp only
        have hrec := ih (v >>> 7) (pre ++ [Fin.ofNat ((v &&& 0x7f) ||| 0x80)]) mid1 post
        rw [Nat.shiftRight_eq_div_pow] at hrec ⊢
        simp only [List.length_cons, Nat.add_right_cancel_iff] at hm1
        have h7 : (2:Nat) ^ 7 = 128 := by norm_num
        rw [h7] at hrec ⊢
        have := hrec hm1 (by simp at hf; omega)
        simp only [List.append_assoc, List.length_append, List.length_singleton,
          List.singleton_append, Nat.cast_add, Nat.cast_one, List.cons_append,
          List.nil_append] at this
        rw [this, and_or_byte]

theorem encodeVarintBlock_eq (v : Nat) (hv : v < 2 ^ 64) (pre mid post : List Byte)
    (hm : mid.length = sovBlock v) :
    encodeVarintBlock (pre ++ mid ++ post) ((pre.length + mid.length : Nat) : Int) v
      = .ok (pre ++ varint v ++ post, (pre.length : Int)) := by
  unfold encodeVarintBlock
  have hoff : (((pre.length + mid.length : Nat) : Int) - (sovBlock v : Int)) = (pre.length : Int) := by
    rw [hm]; push_cast; ring
  simp only [hoff]
  rw [encodeVarintLoop_eq 10 v pre mid post (by rw [hm, varint_length v hv])
    (by rw [varint_length v hv]; exact sovBlock_le_ten v hv)]

theorem byte_val_ofNat (a : Nat) : (Fin.ofNat a : Byte).val = a % 256 := rfl

theorem getElem?_mid (pre : List Byte) (b : Byte) (rest : List Byte) :
    (pre ++ b :: rest)[pre.length]? = some b := by
  rw [List.getElem?_append_right (le_refl _)]
  simp

theorem or_shift_eq_add (acc x s : Nat) (hacc : acc < 2 ^ s) (hx : x * 2 ^ s < 2 ^ 64) :
    acc ||| ((x <<< s) % 2 ^ 64) = acc + x * 2 ^ s := by
  rw [Nat.shiftLeft_eq, Nat.mod_eq_of_lt hx, Nat.or_comm, Nat.mul_comm x,
    ← Nat.mul_add_lt_is_or hacc x, Nat.add_comm]

theorem varintLoop_varint (fuel : Nat) : ∀ (v s acc : Nat) (pre post : List Byte),
    s < 64 → v < 2 ^ (64 - s) → acc < 2 ^ s → (varint v).length ≤ fuel →
    varintLoop (pre ++ varint v ++ post) fuel s pre.length acc
      = ⟨acc + v * 2 ^ s, pre.length + (varint v).length, none⟩ := by
  induction fuel with
  | zero =>
    intro v s acc pre post _ _ _ hf
    have := varint_length_pos v
    omega
  | succ fuel ih =>
    intro v s acc pre post hs hv hacc hf
    unfold varintLoop
    rw [if_neg (by omega)]
    have hpow : 2 ^ (64 - s) * 2 ^ s = 2 ^ 64 := by
      rw [← pow_add]; congr 1; omega
    by_cases h : v < 128
    · rw [varint_of_lt v h]
      simp only [List.append_assoc, List.singleton_append]
      rw [getElem?_mid]
      simp only [byte_val_ofNat]
      have hb : v % 256 = v := Nat.mod_eq_of_lt (by omega)
      have hand : v &&& 0x7F = v := by
        have := Nat.and_pow_two_sub_one_eq_mod v 7
        simp at this; rw [this]; omega
      rw [hb, hand, if_pos h]
      have hx : v * 2 ^ s < 2 ^ 64 := by
        rw [← hpow]; exact Nat.mul_lt_mul_of_pos_right hv (by positivity)
      rw [or_shift_eq_add acc v s hacc hx]
      simp
    · have h1 : 128 ≤ v := by omega
      rw [varint_of_ge v h1] at hf ⊢
      simp only [List.append_assoc, List.cons_append]
      rw [getElem?_mid]
      simp only [byte_val_ofNat]
      have hb : (v % 128 + 128) % 256 = v % 128 + 128 := Nat.mod_eq_of_lt (by omega)
      have hand : (v % 128 + 128) &&& 0x7F = v % 128 := by
        have := Nat.and_pow_two_sub_one_eq_mod (v % 128 + 128) 7
        simp at this; rw [this]
      rw [hb, hand, if_neg (by omega)]
      have hs7 : s + 7 < 64 := by
        by_contra hc
        have : 2 ^ (64 - s) ≤ 2 ^ 7 := Nat.pow_le_pow_right (by norm_num) (by omega)
        norm_num at this
        omega
      have hsplit : 2 ^ (64 - s) = 128 * 2 ^ (64 - (s + 7)) := by
        rw [show 64 - s = 7 + (64 - (s + 7)) by omega, pow_add]; norm_num
      have hv7 : v / 128 < 2 ^ (64 - (s + 7)) := by
        rw [hsplit] at hv; omega
      have hx : v % 128 * 2 ^ s < 2 ^ 64 := by
        rw [← hpow]
        exact Nat.mul_lt_mul_of_pos_right (by omega) (by positivity)
      rw [or_shift_eq_add acc (v % 128) s hacc hx]
      have hacc7 : acc + v % 128 * 2 ^ s < 2 ^ (s + 7) := by
        rw [pow_add]
        have : v % 128 * 2 ^ s ≤ 127 * 2 ^ s := Nat.mul_le_mul_right _ (by omega)
        norm_num
        omega
      have hrec := ih (v / 128) (s + 7) (acc + v % 128 * 2 ^ s)
        (pre ++ [Fin.ofNat (v % 128 + 128)]) post hs7 hv7 hacc7 (by simp at hf; omega)
      simp only [List.append_assoc, List.singleton_append, List.length_append,
        List.length_singleton, List.cons_append, List.nil_append] at hrec
      rw [hrec]
      have e1 : acc + v % 128 * 2 ^ s + v / 128 * 2 ^ (s + 7) = acc + v * 2 ^ s := by
        rw [pow_add]
        have hv' : v = 128 * (v / 128) + v % 128 := (Nat.div_add_mod v 128).symm
        conv_rhs => rw [hv']
        ring
      rw [e1]
      simp only [List.length_cons]
      congr 1
      omega

theorem readVarint_varint (v : Nat) (hv : v < 2 ^ 64) (pre post : List Byte) :
    readVarint (pre ++ varint v ++ post) pre.length
      = ⟨v, pre.length + sovBlock v, none⟩ := by
  unfold readVarint
  have h := varintLoop_varint 11 v 0 0 pre post (by norm_num) (by simpa using hv)
    (by norm_num) (by rw [varint_length v hv]; have := sovBlock_le_ten v hv; omega)
  rw [h, varint_length v hv]
  simp

theorem uint64_lt (x : Int) : uint64 x < 2 ^ 64 := by
  unfold uint64
  have h1 : (0 : Int) ≤ x % 2 ^ 64 := Int.emod_nonneg _ (by norm_num)
  have h2 : x % 2 ^ 64 < 2 ^ 64 := Int.emod_lt_of_pos _ (by norm_num)
  omega

theorem uint64_natCast (n : Nat) (h : n < 2 ^ 64) : uint64 (n : Int) = n := by
  unfold uint64
  have : ((n : Int) % 2 ^ 64) = n := Int.emod_eq_of_lt (by omega) (by omega)
  rw [this]; simp

theorem int64_of_lt (n : Nat) (h : n < 2 ^ 63) : int64 n = n := by
  unfold int64
  have : n % 2 ^ 64 = n := Nat.mod_eq_of_lt (by omega)
  rw [this, if_pos h]

theorem int64_uint64 (h : Int) (h1 : -2 ^ 63 ≤ h) (h2 : h < 2 ^ 63) : int64 (uint64 h) = h := by
  unfold int64
  have hlt := uint64_lt h
  rw [Nat.mod_eq_of_lt hlt]
  unfold uint64
  by_cases hn : 0 ≤ h
  · have e : h % 2 ^ 64 = h := Int.emod_eq_of_lt hn (by omega)
    rw [e]
    have : h.toNat < 2 ^ 63 := by omega
    rw [if_pos this]
    omega
  · have e : h % 2 ^ 64 = h + 2 ^ 64 := by
      have := Int.emod_emod_of_dvd h (dvd_refl (2 ^ 64 : Int))
      have h3 : (h + 2 ^ 64) % 2 ^ 64 = h % 2 ^ 64 := by simp
      rw [← h3]
      exact Int.emod_eq_of_lt (by omega) (by omega)
    rw [e]
    have : ¬ (h + 2 ^ 64).toNat < 2 ^ 63 := by omega
    rw [if_neg this]
    omega

theorem wrapInt64_of_lt (n : Nat) (h : n < 2 ^ 63) : wrapInt64 (n : Int) = n := by
  unfold wrapInt64
  rw [uint64_natCast n (by omega), int64_of_lt n h]

theorem exists_split (mid : List Byte) (a b : Nat) (h : mid.length = a + b) :
    ∃ m1 m2, mid = m1 ++ m2 ∧ m1.length = a ∧ m2.length = b :=
  ⟨mid.take a, mid.drop a, (List.take_append_drop a mid).symm, by simp; omega, by simp; omega⟩

theorem writeByte_at (dAtA : List Byte) (i : Int) (b : Byte) (pre : List Byte) (x : Byte)
    (rest : List Byte) (hd : dAtA = pre ++ x :: rest) (hi : i = (pre.length : Int)) :
    writeByte dAtA i b = .ok (pre ++ b :: rest) := by
  subst hd hi
  exact writeByte_append pre x b rest

theorem encodeVarintBlock_at (v : Nat) (hv : v < 2 ^ 64) (dAtA : List Byte) (off : Int)
    (pre mid post : List Byte) (hd : dAtA = pre ++ mid ++ post)
    (hoff : off = (pre.length : Int) + mid.length) (hm : mid.length = sovBlock v) :
    encodeVarintBlock dAtA off v = .ok (pre ++ varint v ++ post, (pre.length : Int)) := by
  subst hd
  have := encodeVarintBlock_eq v hv pre mid post hm
  rw [hoff]
  simpa using this

theorem Writes.at {step : List Byte → Int → Except Error (List Byte × Int)} {w : List Byte}
    (h : Writes step w) (dAtA : List Byte) (i : Int) (pre mid post : List Byte)
    (hd : dAtA = pre ++ mid ++ post) (hi : i = (pre.length : Int) + mid.length)
    (hm : mid.length = w.length) :
    step dAtA i = .ok (pre ++ w ++ post, (pre.length : Int)) := by
  subst hd
  have := h pre mid post hm
  rw [hi]
  simpa using this

theorem Writes.nil : Writes (fun d i => .ok (d, i)) [] := by
  intro pre mid post hm
  have : mid = [] := List.length_eq_zero.mp (by simpa using hm)
  subst this
  simp

theorem Writes.seq {s1 s2 : List Byte → Int → Except Error (List Byte × Int)}
    {w1 w2 : List Byte} (h1 : Writes s1 w1) (h2 : Writes s2 w2) :
    Writes (fun d i => andThen (s1 d i) s2) (w2 ++ w1) := by
  intro pre mid post hm
  rw [List.length_append] at hm
  obtain ⟨m2, m1, rfl, hm2, hm1⟩ := exists_split mid _ _ hm
  simp only
  rw [h1.at _ _ (pre ++ m2) m1 post (by simp) (by simp; omega) hm1]
  simp only [andThen]
  rw [h2.at _ _ pre m2 (w1 ++ post) (by simp) (by simp) hm2]
  simp

theorem sizeHeight_eq (h : Int) : sizeHeight h = (wireHeight h).length := by
  unfold sizeHeight wireHeight
  by_cases h0 : h = 0
  · simp [h0]
  · simp [h0, varint_length _ (uint64_lt h)]; omega

theorem writes_height (h : Int) : Writes (marshalHeight h) (wireHeight h) := by
  intro pre mid post hm
  unfold marshalHeight
  unfold wireHeight at hm ⊢
  by_cases h0 : h = 0
  · simp only [h0, if_true] at hm ⊢
    have : mid = [] := List.length_eq_zero.mp (by simpa using hm)
    subst this
    simp
  · simp only [h0, if_false, ne_eq, not_false_eq_true, if_true] at hm ⊢
    rw [List.length_cons, varint_length _ (uint64_lt h), Nat.add_comm] at hm
    obtain ⟨t, lv, rfl, ht, hlv⟩ := exists_split mid _ _ hm
    match t, ht with
    | [x], _ =>
      rw [encodeVarintBlock_at (uint64 h) (uint64_lt h) _ _ (pre ++ [x]) lv post (by simp)
        (by simp; omega) hlv]
      simp only
      rw [writeByte_at _ _ 0x8 pre x (varint (uint64 h) ++ post) (by simp) (by simp)]
      simp

theorem sizeNested_eq {α : Type} (c : Codec α) (enc : α → List Byte) (hc : c.WritesSize enc)
    (x : α) : sizeNested c x = (wireNested 0 (enc x)).length := by
  unfold sizeNested wireNested
  have h1 := hc.size_eq x
  have h2 := hc.size_lt x
  simp only [List.length_cons, List.length_append, h1]
  rw [varint_length _ (by omega), uint64_natCast _ (by omega)]
  omega

theorem wireNested_length (tag : Byte) (p : List Byte) :
    (wireNested tag p).length = (wireNested 0 p).length := by
  simp [wireNested]

theorem writes_nested {α : Type} (c : Codec α) (enc : α → List Byte) (hc : c.WritesSize enc)
    (tag : Byte) (x : α) : Writes (marshalNested c tag x) (wireNested tag (enc x)) := by
  intro pre mid post hm
  have hsz := hc.size_eq x
  have hlt := hc.size_lt x
  unfold wireNested at hm ⊢
  simp only [List.length_cons, List.length_append] at hm
  rw [Nat.add_comm] at hm
  obtain ⟨t, rest, rfl, ht, hrest⟩ := exists_split mid _ _ hm
  obtain ⟨lv, body, rfl, hlv, hbody⟩ := exists_split rest _ _ hrest
  unfold marshalNested
  rw [if_neg (by simp; omega)]
  have htake : List.take ((pre.length + (t ++ (lv ++ body)).length : Nat) : Int).toNat
      (pre ++ (t ++ (lv ++ body)) ++ post) = (pre ++ t ++ lv) ++ body := by
    rw [Int.toNat_ofNat]
    rw [show pre ++ (t ++ (lv ++ body)) ++ post = (pre ++ t ++ lv ++ body) ++ post by simp]
    rw [List.take_left' (by simp)]
  have hdrop : List.drop ((pre.length + (t ++ (lv ++ body)).length : Nat) : Int).toNat
      (pre ++ (t ++ (lv ++ body)) ++ post) = post := by
    rw [Int.toNat_ofNat]
    rw [show pre ++ (t ++ (lv ++ body)) ++ post = (pre ++ t ++ lv ++ body) ++ post by simp]
    rw [List.drop_left' (by simp)]
  rw [htake, hc.marshal x (pre ++ t ++ lv) body (by omega)]
  simp only [hdrop]
  match t, ht with
  | [y], _ =>
    rw [encodeVarintBlock_at (uint64 (c.Size x)) (uint64_lt _) _ _ (pre ++ [y]) lv
      (enc x ++ post) (by simp) (by simp; omega)
      (by rw [hlv, uint64_natCast _ (by omega), ← hsz, varint_length _ (by omega)])]
    simp only
    rw [writeByte_at _ _ tag pre y (varint (uint64 (c.Size x)) ++ (enc x ++ post)) (by simp)
      (by simp)]
    rw [uint64_natCast _ (by omega), hsz]
    simp

theorem writes_optional {α : Type} (c : Codec α) (enc : α → List Byte) (hc : c.WritesSize enc)
    (tag : Byte) (x : Option α) : Writes (marshalOptional c tag x) (wireOptional tag enc x) := by
  cases x with
  | none => exact Writes.nil
  | some v => exact writes_nested c enc hc tag v

theorem wireRepeated_append {α : Type} (tag : Byte) (enc : α → List Byte) (xs ys : List α) :
    wireRepeated tag enc (xs ++ ys) = wireRepeated tag enc xs ++ wireRepeated tag enc ys := by
  induction xs with
  | nil => rfl
  | cons x xs ih => simp [wireRepeated, ih]

theorem writes_each {α : Type} (c : Codec α) (enc : α → List Byte) (hc : c.WritesSize enc)
    (tag : Byte) (xs : List α) :
    Writes (marshalEach c tag xs) (wireRepeated tag enc xs.reverse) := by
  induction xs with
  | nil => exact Writes.nil
  | cons x xs ih =>
    have h := Writes.seq (writes_nested c enc hc tag x) ih
    rw [List.reverse_cons, wireRepeated_append]
    simpa [wireRepeated, marshalEach] using h

theorem writes_repeated {α : Type} (c : Codec α) (enc : α → List Byte) (hc : c.WritesSize enc)
    (tag : Byte) (xs : List α) :
    Writes (marshalRepeated c tag xs) (wireRepeated tag enc xs) := by
  have h := writes_each c enc hc tag xs.reverse
  rw [List.reverse_reverse] at h
  exact h

theorem sizeOptional_eq {α : Type} (c : Codec α) (enc : α → List Byte) (hc : c.WritesSize enc)
    (tag : Byte) (x : Option α) : sizeOptional c x = (wireOptional tag enc x).length := by
  cases x with
  | none => rfl
  | some v =>
    simp only [sizeOptional, wireOptional]
    rw [sizeNested_eq c enc hc v, wireNested_length tag]

theorem sizeRepeated_eq {α : Type} (c : Codec α) (enc : α → List Byte) (hc : c.WritesSize enc)
    (tag : Byte) (xs : List α) : sizeRepeated c xs = (wireRepeated tag enc xs).length := by
  induction xs with
  | nil => rfl
  | cons x xs ih =>
    simp only [sizeRepeated, wireRepeated, List.length_append]
    rw [sizeNested_eq c enc hc x, wireNested_length tag, ih]

/-- A `MarshalToSizedBuffer` body that writes `w`, called on a buffer with at least
`w.length` bytes, fills the last `w.length` bytes and returns `w.length`. -/
theorem marshalReturn_of_writes {step : List Byte → Int → Except Error (List Byte × Int)}
    {w : List Byte} (h : Writes step w) (pre mid : List Byte) (hm : mid.length = w.length) :
    marshalReturn (pre ++ mid).length (step (pre ++ mid) ((pre ++ mid).length : Nat))
      = .ok (pre ++ w, w.length) := by
  rw [h.at _ _ pre mid [] (by simp) (by simp) hm]
  simp only [marshalReturn, List.append_nil]
  congr 2
  simp
  omega

/-- The body of `Marshal` around a `MarshalToSizedBuffer` that writes `w`. -/
theorem marshalWith_of_writes {toSized : List Byte → Except Error (List Byte × Nat)}
    {w : List Byte}
    (h : ∀ pre mid : List Byte, mid.length = w.length →
      toSized (pre ++ mid) = .ok (pre ++ w, w.length)) :
    marshalWith w.length toSized = .ok w := by
  unfold marshalWith
  have := h [] (List.replicate w.length 0) (by simp)
  simp only [List.nil_append] at this
  simp only [List.take_replicate, min_self]
  rw [this]
  simp


/-! ## Steps of the field loop -/

theorem unmarshalLoop_end {M : Type} (name : MsgName)
    (field : M → Int → Nat → List Byte → Nat → Option (FieldResult M))
    (dAtA : List Byte) (fuel : Nat) (m : M) :
    unmarshalLoop name field dAtA fuel m dAtA.length = (m, none) := by
  cases fuel <;> simp [unmarshalLoop]

theorem unmarshalLoop_field {M : Type} (name : MsgName)
    (field : M → Int → Nat → List Byte → Nat → Option (FieldResult M))
    (dAtA : List Byte) (fuel : Nat) (m : M) (pre post : List Byte) (t : Nat) (ht : t < 2 ^ 64)
    (hd : dAtA = pre ++ varint t ++ post) (hwt : t &&& 0x7 ≠ 4) (hfn : (0 : Int) < int32 (t >>> 3))
    (res : FieldResult M)
    (hf : field m (int32 (t >>> 3)) (t &&& 0x7) dAtA (pre.length + sovBlock t) = some res) :
    unmarshalLoop name field dAtA (fuel + 1) m pre.length =
      match res.err with
      | some e => (res.m, some e)
      | none => unmarshalLoop name field dAtA fuel res.m res.iNdEx := by
  have hlen : pre.length < dAtA.length := by
    rw [hd]; have := varint_length_pos t; simp; omega
  have hr : readVarint dAtA pre.length = ⟨t, pre.length + sovBlock t, none⟩ := by
    rw [hd]; exact readVarint_varint t ht pre post
  rw [unmarshalLoop, if_pos hlen]
  simp only [hr]
  rw [if_neg hwt, if_neg (by omega)]
  simp only [hf]

theorem Reaches.refl {M : Type} (name : MsgName)
    (field : M → Int → Nat → List Byte → Nat → Option (FieldResult M))
    (dAtA : List Byte) (m : M) (i : Nat) : Reaches name field dAtA m i m i :=
  fun fuel h => ⟨fuel, h, rfl⟩

theorem Reaches.trans {M : Type} {name : MsgName}
    {field : M → Int → Nat → List Byte → Nat → Option (FieldResult M)}
    {dAtA : List Byte} {m m1 m2 : M} {i i1 i2 : Nat}
    (h1 : Reaches name field dAtA m i m1 i1) (h2 : Reaches name field dAtA m1 i1 m2 i2) :
    Reaches name field dAtA m i m2 i2 := by
  intro fuel hf
  obtain ⟨f1, hf1, e1⟩ := h1 fuel hf
  obtain ⟨f2, hf2, e2⟩ := h2 f1 hf1
  exact ⟨f2, hf2, e1.trans e2⟩

/-- A run that comes to the end of the input returns `nil`. -/
theorem Reaches.unmarshal_end {M : Type} {name : MsgName}
    {field : M → Int → Nat → List Byte → Nat → Option (FieldResult M)}
    {dAtA : List Byte} {m m1 : M}
    (h : Reaches name field dAtA m 0 m1 dAtA.length) :
    unmarshalLoop name field dAtA dAtA.length m 0 = (m1, none) := by
  obtain ⟨f1, _, e1⟩ := h dAtA.length (by omega)
  rw [e1, unmarshalLoop_end]

/-- One recognised field, decoded without error, is a step of the run. -/
theorem Reaches.field {M : Type} (name : MsgName)
    (field : M → Int → Nat → List Byte → Nat → Option (FieldResult M))
    (dAtA : List Byte) (m : M) (pre post : List Byte) (t : Nat) (ht : t < 2 ^ 64)
    (hd : dAtA = pre ++ varint t ++ post) (hwt : t &&& 0x7 ≠ 4) (hfn : (0 : Int) < int32 (t >>> 3))
    (m1 : M) (i1 : Nat) (hi1 : pre.length < i1)
    (hf : field m (int32 (t >>> 3)) (t &&& 0x7) dAtA (pre.length + sovBlock t)
      = some ⟨m1, i1, none⟩) :
    Reaches name field dAtA m pre.length m1 i1 := by
  intro fuel hfuel
  have hlen : pre.length < dAtA.length := by
    rw [hd]; have := varint_length_pos t; simp; omega
  obtain ⟨f, rfl⟩ : ∃ f, fuel = f + 1 := ⟨fuel - 1, by omega⟩
  refine ⟨f, by omega, ?_⟩
  rw [unmarshalLoop_field name field dAtA f m pre post t ht hd hwt hfn _ hf]


theorem int32_of_lt (n : Nat) (h : n < 2 ^ 31) : int32 n = n := by
  unfold int32
  have : n % 2 ^ 32 = n := Nat.mod_eq_of_lt (by omega)
  rw [this, if_pos h]

theorem tag_and (f wt : Nat) (hwt : wt < 8) : (8 * f + wt) &&& 0x7 = wt := by
  have := Nat.and_pow_two_sub_one_eq_mod (8 * f + wt) 3
  simp at this
  rw [this]; omega

theorem tag_shift (f wt : Nat) (hwt : wt < 8) : (8 * f + wt) >>> 3 = f := by
  rw [Nat.shiftRight_eq_div_pow]; norm_num; omega

theorem varint_dropLast_of_ge (v : Nat) (h : 128 ≤ v) :
    (varint v).dropLast = Fin.ofNat (v % 128 + 128) :: (varint (v / 128)).dropLast := by
  rw [varint_of_ge v h]
  have hp := varint_length_pos (v / 128)
  match hv : varint (v / 128), hp with
  | y :: ys, _ => rfl

theorem varintLoop_truncated (fuel : Nat) : ∀ (v s acc : Nat) (pre : List Byte),
    s + 7 * ((varint v).length - 1) < 64 → (varint v).length ≤ fuel →
    (varintLoop (pre ++ (varint v).dropLast) fuel s pre.length acc).err
      = some .ErrUnexpectedEOF := by
  induction fuel with
  | zero =>
    intro v s acc pre _ hf
    have := varint_length_pos v
    omega
  | succ fuel ih =>
    intro v s acc pre hs hf
    unfold varintLoop
    rw [if_neg (by omega)]
    by_cases h : v < 128
    · rw [varint_of_lt v h]
      simp
    · have h1 : 128 ≤ v := by omega
      rw [varint_dropLast_of_ge v h1, getElem?_mid]
      rw [varint_of_ge v h1] at hs hf
      simp only [byte_val_ofNat]
      have hb : (v % 128 + 128) % 256 = v % 128 + 128 := Nat.mod_eq_of_lt (by omega)
      rw [hb, if_neg (by omega)]
      have hp := varint_length_pos (v / 128)
      have hrec := ih (v / 128) (s + 7) (acc ||| (((v % 128 + 128) &&& 0x7F) <<< s) % 2 ^ 64)
        (pre ++ [Fin.ofNat (v % 128 + 128)]) (by simp at hs; omega) (by simp at hf; omega)
      simp only [List.append_assoc, List.singleton_append, List.length_append,
        List.length_singleton] at hrec
      exact hrec

theorem readVarint_truncated (v : Nat) (hv : v < 2 ^ 64) (pre : List Byte) :
    (readVarint (pre ++ (varint v).dropLast) pre.length).err = some .ErrUnexpectedEOF := by
  unfold readVarint
  have hl := varint_length v hv
  have h10 := sovBlock_le_ten v hv
  exact varintLoop_truncated 11 v 0 0 pre (by omega) (by omega)

theorem readVarint_end (dAtA : List Byte) :
    readVarint dAtA dAtA.length = ⟨0, dAtA.length, some .ErrUnexpectedEOF⟩ := by
  simp [readVarint, varintLoop]

theorem heightCase_eq {M : Type} (setHeight : M → Int → M) (m : M) (dAtA pre post : List Byte)
    (v : Nat) (hv : v < 2 ^ 64) (hd : dAtA = pre ++ varint v ++ post) :
    heightCase setHeight m 0 dAtA pre.length
      = ⟨setHeight m (int64 v), pre.length + sovBlock v, none⟩ := by
  unfold heightCase
  rw [if_neg (by simp), hd, readVarint_varint v hv pre post]

theorem heightCase_truncated {M : Type} (setHeight : M → Int → M) (m : M)
    (dAtA pre : List Byte) (v : Nat) (hv : v < 2 ^ 64)
    (hd : dAtA = pre ++ (varint v).dropLast) :
    (heightCase setHeight m 0 dAtA pre.length).err = some .ErrUnexpectedEOF := by
  unfold heightCase
  rw [if_neg (by simp), hd]
  exact readVarint_truncated v hv pre

theorem slice_mid (pre mid post : List Byte) :
    slice (pre ++ mid ++ post) pre.length (pre.length + mid.length) = mid := by
  unfold slice
  rw [List.take_left' (by simp), List.drop_left' rfl]

theorem readLen_eq (fname : FieldName) (dAtA pre payload post : List Byte)
    (hd : dAtA = pre ++ varint payload.length ++ payload ++ post)
    (hl : dAtA.length < 2 ^ 63) :
    readLen fname 2 dAtA pre.length
      = .ok (pre.length + sovBlock payload.length,
             pre.length + sovBlock payload.length + payload.length) := by
  have hlen : dAtA.length = pre.length + (varint payload.length).length + payload.length
      + post.length := by rw [hd]; simp; omega
  have hp : payload.length < 2 ^ 63 := by omega
  have hsv := varint_length payload.length (by omega)
  unfold readLen
  rw [if_neg (by simp)]
  have hr : readVarint dAtA pre.length
      = ⟨payload.length, pre.length + sovBlock payload.length, none⟩ := by
    rw [hd, List.append_assoc]
    exact readVarint_varint _ (by omega) pre _
  simp only [hr]
  rw [int64_of_lt _ hp]
  rw [if_neg (by omega)]
  have hcast : ((pre.length + sovBlock payload.length : Nat) : Int) + (payload.length : Int)
      = ((pre.length + sovBlock payload.length + payload.length : Nat) : Int) := by
    push_cast; ring
  rw [hcast, wrapInt64_of_lt _ (by omega)]
  rw [if_neg (by omega), if_neg (by omega), Int.toNat_ofNat]

theorem readLen_slice (dAtA pre payload post : List Byte)
    (hd : dAtA = pre ++ varint payload.length ++ payload ++ post)
    (hl : payload.length < 2 ^ 64) :
    slice dAtA (pre.length + sovBlock payload.length)
      (pre.length + sovBlock payload.length + payload.length) = payload := by
  have := slice_mid (pre ++ varint payload.length) payload post
  rw [hd]
  simpa [varint_length _ hl] using this

/-- The length prefix of a length-delimited field whose last byte is missing. -/
theorem readLen_truncated (fname : FieldName) (dAtA pre payload : List Byte)
    (hd : dAtA = pre ++ (varint payload.length ++ payload).dropLast)
    (hl : dAtA.length + 1 < 2 ^ 63) :
    ∃ i, readLen fname 2 dAtA pre.length = .error (i, .ErrUnexpectedEOF) := by
  unfold readLen
  rw [if_neg (by simp)]
  by_cases hp : payload = []
  · subst hp
    have hv0 : varint 0 = [Fin.ofNat 0] := varint_of_lt 0 (by norm_num)
    simp only [List.length_nil, List.append_nil, hv0, List.dropLast_single] at hd
    subst hd
    rw [readVarint_end]
    exact ⟨_, rfl⟩
  · have hdl : (varint payload.length ++ payload).dropLast
        = varint payload.length ++ payload.dropLast := List.dropLast_append_of_ne_nil _ hp
    rw [hdl] at hd
    have hpl : 1 ≤ payload.length := List.length_pos.mpr hp
    have hlen : dAtA.length = pre.length + (varint payload.length).length
        + (payload.length - 1) := by rw [hd]; simp; omega
    have hp63 : payload.length < 2 ^ 63 := by omega
    have hsv := varint_length payload.length (by omega)
    have hr : readVarint dAtA pre.length
        = ⟨payload.length, pre.length + sovBlock payload.length, none⟩ := by
      rw [hd, ← List.append_assoc]
      exact readVarint_varint _ (by omega) pre _
    simp only [hr]
    rw [int64_of_lt _ hp63]
    rw [if_neg (by omega)]
    have hcast : ((pre.length + sovBlock payload.length : Nat) : Int) + (payload.length : Int)
        = ((pre.length + sovBlock payload.length + payload.length : Nat) : Int) := by
      push_cast; ring
    rw [hcast, wrapInt64_of_lt _ (by omega)]
    rw [if_neg (by omega), if_pos (by omega)]
    exact ⟨_, rfl⟩


theorem varint_tag (t : Nat) (h : t < 128) : varint t = [Fin.ofNat t] := varint_of_lt t h

theorem item_height {M : Type} (name : MsgName)
    (field : M → Int → Nat → List Byte → Nat → Option (FieldResult M))
    (setHeight : M → Int → M)
    (hfield : ∀ m wt d i, field m 1 wt d i = some (heightCase setHeight m wt d i))
    (m : M) (v : Nat) (hv : v < 2 ^ 64) :
    Item name field (0x08 :: varint v) m (setHeight m (int64 v)) := by
  have h1 : int32 (8 >>> 3) = 1 := by decide
  have h2 : 8 &&& 0x7 = 0 := by decide
  have h3 : sovBlock 8 = 1 := by decide
  have h8 : varint 8 = [0x08] := varint_of_lt 8 (by norm_num)
  refine ⟨?_, ?_, ?_⟩
  · intro dAtA pre post hd hl
    have hd1 : dAtA = pre ++ varint 8 ++ (varint v ++ post) := by rw [hd, h8]; simp
    have hd2 : dAtA = (pre ++ [0x08]) ++ varint v ++ post := by rw [hd]; simp
    have hc := heightCase_eq setHeight m dAtA (pre ++ [0x08]) post v hv hd2
    have := Reaches.field name field dAtA m pre (varint v ++ post) 8 (by norm_num) hd1
      (by rw [h2]; decide) (by rw [h1]; decide) (setHeight m (int64 v))
      (pre.length + (0x08 :: varint v).length)
      (by simp) (by
        rw [h1, h2, h3, hfield]
        simp only [List.length_append, List.length_singleton] at hc
        rw [hc, List.length_cons, varint_length v hv]
        congr 2
        omega)
    exact this
  · intro dAtA pre hd hl fuel hfuel
    obtain ⟨f, rfl⟩ : ∃ f, fuel = f + 1 := ⟨fuel - 1, by omega⟩
    have hd1 : dAtA = pre ++ varint 8 ++ (varint v).dropLast := by
      rw [hd, h8]
      have hp := varint_length_pos v
      match hvv : varint v, hp with
      | y :: ys, _ => simp
    have hd2 : dAtA = (pre ++ [0x08]) ++ (varint v).dropLast := by rw [hd1, h8]
    have hc := heightCase_truncated setHeight m dAtA (pre ++ [0x08]) v hv hd2
    rw [unmarshalLoop_field name field dAtA f m pre _ 8 (by norm_num) hd1
      (by rw [h2]; decide) (by rw [h1]; decide) (heightCase setHeight m 0 dAtA (pre.length + 1))
      (by rw [h1, h2, h3, hfield])]
    simp only [List.length_append, List.length_singleton] at hc
    rw [hc]
  · have := varint_length_pos v
    simp; omega

theorem wireNested_dropLast (tag : Byte) (p : List Byte) :
    (wireNested tag p).dropLast = tag :: (varint p.length ++ p).dropLast := by
  unfold wireNested
  have hp := varint_length_pos p.length
  match hvv : varint p.length ++ p, (by simp; omega : 1 ≤ (varint p.length ++ p).length) with
  | y :: ys, _ => simp

theorem item_singular {M α : Type} (name : MsgName)
    (field : M → Int → Nat → List Byte → Nat → Option (FieldResult M))
    (c : Codec α) (fname : FieldName) (get : M → Option α) (set : M → Option α → M)
    (f : Nat) (hf1 : 1 ≤ f) (hf2 : f < 16)
    (hfield : ∀ m wt d i, field m (f : Int) wt d i
      = some (singularCase c fname get set m wt d i))
    (m : M) (p : List Byte) (x1 : α)
    (hx : c.Unmarshal (allocIfNil c (get m)) p = (x1, none)) :
    Item name field (wireNested (Fin.ofNat (8 * f + 2)) p) m (set m (some x1)) := by
  have h1 : int32 ((8 * f + 2) >>> 3) = (f : Int) := by
    rw [tag_shift f 2 (by norm_num), int32_of_lt f (by omega)]
  have h2 : (8 * f + 2) &&& 0x7 = 2 := tag_and f 2 (by norm_num)
  have h3 : sovBlock (8 * f + 2) = 1 := sovBlock_of_lt _ (by omega)
  have h8 : varint (8 * f + 2) = [Fin.ofNat (8 * f + 2)] := varint_of_lt _ (by omega)
  refine ⟨?_, ?_, ?_⟩
  · intro dAtA pre post hd hl
    have hd1 : dAtA = pre ++ varint (8 * f + 2) ++ (varint p.length ++ p ++ post) := by
      rw [hd, h8]; simp [wireNested]
    have hd2 : dAtA = (pre ++ [Fin.ofNat (8 * f + 2)]) ++ varint p.length ++ p ++ post := by
      rw [hd]; simp [wireNested]
    have hp : p.length < 2 ^ 63 := by
      have : dAtA.length = pre.length + 1 + (varint p.length).length + p.length + post.length := by
        rw [hd2]; simp; omega
      omega
    have hr := readLen_eq fname dAtA _ p post hd2 hl
    have hs := readLen_slice dAtA _ p post hd2 (by omega)
    simp only [List.length_append, List.length_singleton] at hr hs
    refine Reaches.field name field dAtA m pre _ (8 * f + 2) (by omega) hd1
      (by rw [h2]; decide) (by rw [h1]; omega) (set m (some x1))
      (pre.length + (wireNested (Fin.ofNat (8 * f + 2)) p).length) (by simp [wireNested]) ?_
    rw [h1, h2, h3, hfield]
    unfold singularCase
    rw [hr]
    simp only [hs, hx]
    congr 2
    simp [wireNested, varint_length p.length (by omega)]
    omega
  · intro dAtA pre hd hl fuel hfuel
    obtain ⟨g, rfl⟩ : ∃ g, fuel = g + 1 := ⟨fuel - 1, by omega⟩
    rw [wireNested_dropLast] at hd
    have hd1 : dAtA = pre ++ varint (8 * f + 2) ++ (varint p.length ++ p).dropLast := by
      rw [hd, h8]; simp
    have hd2 : dAtA = (pre ++ [Fin.ofNat (8 * f + 2)]) ++ (varint p.length ++ p).dropLast := by
      rw [hd]; simp
    obtain ⟨i, hr⟩ := readLen_truncated fname dAtA _ p hd2 hl
    simp only [List.length_append, List.length_singleton] at hr
    rw [unmarshalLoop_field name field dAtA g m pre _ (8 * f + 2) (by omega) hd1
      (by rw [h2]; decide) (by rw [h1]; omega)
      (singularCase c fname get set m 2 dAtA (pre.length + 1))
      (by rw [h1, h2, h3, hfield])]
    unfold singularCase
    rw [hr]
  · have := varint_length_pos p.length
    simp [wireNested]; omega

theorem item_repeated {M α : Type} (name : MsgName)
    (field : M → Int → Nat → List Byte → Nat → Option (FieldResult M))
    (c : Codec α) (fname : FieldName) (get : M → List α) (set : M → List α → M)
    (f : Nat) (hf1 : 1 ≤ f) (hf2 : f < 16)
    (hfield : ∀ m wt d i, field m (f : Int) wt d i
      = some (repeatedCase c fname get set m wt d i))
    (m : M) (p : List Byte) (x1 : α)
    (hx : c.Unmarshal c.zero p = (x1, none)) :
    Item name field (wireNested (Fin.ofNat (8 * f + 2)) p) m (set m (get m ++ [x1])) := by
  have h1 : int32 ((8 * f + 2) >>> 3) = (f : Int) := by
    rw [tag_shift f 2 (by norm_num), int32_of_lt f (by omega)]
  have h2 : (8 * f + 2) &&& 0x7 = 2 := tag_and f 2 (by norm_num)
  have h3 : sovBlock (8 * f + 2) = 1 := sovBlock_of_lt _ (by omega)
  have h8 : varint (8 * f + 2) = [Fin.ofNat (8 * f + 2)] := varint_of_lt _ (by omega)
  refine ⟨?_, ?_, ?_⟩
  · intro dAtA pre post hd hl
    have hd1 : dAtA = pre ++ varint (8 * f + 2) ++ (varint p.length ++ p ++ post) := by
      rw [hd, h8]; simp [wireNested]
    have hd2 : dAtA = (pre ++ [Fin.ofNat (8 * f + 2)]) ++ varint p.length ++ p ++ post := by
      rw [hd]; simp [wireNested]
    have hp : p.length < 2 ^ 63 := by
      have : dAtA.length = pre.length + 1 + (varint p.length).length + p.length + post.length := by
        rw [hd2]; simp; omega
      omega
    have hr := readLen_eq fname dAtA _ p post hd2 hl
    have hs := readLen_slice dAtA _ p post hd2 (by omega)
    simp only [List.length_append, List.length_singleton] at hr hs
    refine Reaches.field name field dAtA m pre _ (8 * f + 2) (by omega) hd1
      (by rw [h2]; decide) (by rw [h1]; omega) (set m (get m ++ [x1]))
      (pre.length + (wireNested (Fin.ofNat (8 * f + 2)) p).length) (by simp [wireNested]) ?_
    rw [h1, h2, h3, hfield]
    unfold repeatedCase
    rw [hr]
    simp only [hs, hx]
    congr 2
    simp [wireNested, varint_length p.length (by omega)]
    omega
  · intro dAtA pre hd hl fuel hfuel
    obtain ⟨g, rfl⟩ : ∃ g, fuel = g + 1 := ⟨fuel - 1, by omega⟩
    rw [wireNested_dropLast] at hd
    have hd1 : dAtA = pre ++ varint (8 * f + 2) ++ (varint p.length ++ p).dropLast := by
      rw [hd, h8]; simp
    have hd2 : dAtA = (pre ++ [Fin.ofNat (8 * f + 2)]) ++ (varint p.length ++ p).dropLast := by
      rw [hd]; simp
    obtain ⟨i, hr⟩ := readLen_truncated fname dAtA _ p hd2 hl
    simp only [List.length_append, List.length_singleton] at hr
    rw [unmarshalLoop_field name field dAtA g m pre _ (8 * f + 2) (by omega) hd1
      (by rw [h2]; decide) (by rw [h1]; omega)
      (repeatedCase c fname get set m 2 dAtA (pre.length + 1))
      (by rw [h1, h2, h3, hfield])]
    unfold repeatedCase
    rw [hr]
  · have := varint_length_pos p.length
    simp [wireNested]; omega


theorem concat_append (xs ys : List (List Byte)) : concat (xs ++ ys) = concat xs ++ concat ys := by
  induction xs with
  | nil => rfl
  | cons x xs ih => simp [concat, ih]

theorem Chain.append {M : Type} {name : MsgName}
    {field : M → Int → Nat → List Byte → Nat → Option (FieldResult M)}
    {m m1 m2 : M} {xs ys : List (List Byte)}
    (h1 : Chain name field m xs m1) (h2 : Chain name field m1 ys m2) :
    Chain name field m (xs ++ ys) m2 := by
  induction h1 with
  | nil m => exact h2
  | cons hi _ ih => exact Chain.cons hi (ih h2)

theorem Chain.concat_length {M : Type} {name : MsgName}
    {field : M → Int → Nat → List Byte → Nat → Option (FieldResult M)}
    {m m1 : M} {items : List (List Byte)} (h : Chain name field m items m1)
    (hne : items ≠ []) : 2 ≤ (concat items).length := by
  cases h with
  | nil => exact absurd rfl hne
  | cons hi _ =>
    have := hi.two_le
    simp [concat]; omega

theorem Chain.reaches {M : Type} {name : MsgName}
    {field : M → Int → Nat → List Byte → Nat → Option (FieldResult M)}
    {m m1 : M} {items : List (List Byte)} (h : Chain name field m items m1) :
    ∀ dAtA pre post : List Byte, dAtA = pre ++ concat items ++ post → dAtA.length < 2 ^ 63 →
      Reaches name field dAtA m pre.length m1 (pre.length + (concat items).length) := by
  induction h with
  | nil m =>
    intro dAtA pre post _ _
    simpa [concat] using Reaches.refl name field dAtA m pre.length
  | @cons m m1 m2 item rest hi _ ih =>
    intro dAtA pre post hd hl
    have h1 := hi.decodes dAtA pre (concat rest ++ post) (by rw [hd]; simp [concat]) hl
    have h2 := ih dAtA (pre ++ item) post (by rw [hd]; simp [concat]) hl
    have := h1.trans (by simpa using h2)
    simpa [concat, Nat.add_assoc] using this

/-- A chain of fields that fills the whole input is decoded without error. -/
theorem Chain.unmarshal_concat {M : Type} {name : MsgName}
    {field : M → Int → Nat → List Byte → Nat → Option (FieldResult M)}
    {m m1 : M} {items : List (List Byte)} (h : Chain name field m items m1)
    (hl : (concat items).length < 2 ^ 63) :
    unmarshalLoop name field (concat items) (concat items).length m 0 = (m1, none) := by
  have := h.reaches (concat items) [] [] (by simp) hl
  simp only [List.length_nil, Nat.zero_add] at this
  exact this.unmarshal_end

theorem Chain.truncated_aux {M : Type} {name : MsgName}
    {field : M → Int → Nat → List Byte → Nat → Option (FieldResult M)}
    {m m1 : M} {items : List (List Byte)} (h : Chain name field m items m1) :
    items ≠ [] → ∀ dAtA pre : List Byte, dAtA = pre ++ (concat items).dropLast →
      dAtA.length + 1 < 2 ^ 63 → ∀ fuel, dAtA.length - pre.length ≤ fuel →
      (unmarshalLoop name field dAtA fuel m pre.length).2 = some .ErrUnexpectedEOF := by
  induction h with
  | nil m => intro hne; exact absurd rfl hne
  | @cons m m1 m2 item rest hi hrest ih =>
    intro _ dAtA pre hd hl fuel hfuel
    have h2 := hi.two_le
    by_cases hr : rest = []
    · subst hr
      simp only [concat, List.append_nil] at hd
      have hlen : dAtA.length = pre.length + (item.length - 1) := by rw [hd]; simp
      exact hi.truncated dAtA pre hd hl fuel (by omega)
    · have hc2 := hrest.concat_length hr
      have hcne : concat rest ≠ [] := by
        intro h0; rw [h0] at hc2; simp at hc2
      have hd1 : dAtA = pre ++ item ++ (concat rest).dropLast := by
        rw [hd]; simp only [concat]
        rw [List.dropLast_append_of_ne_nil _ hcne]; simp
      obtain ⟨f1, hf1, e1⟩ := hi.decodes dAtA pre _ hd1 (by omega) fuel hfuel
      rw [e1]
      have := ih hr dAtA (pre ++ item) (by rw [hd1]) hl f1 (by simpa using hf1)
      simpa using this

/-- A non-empty chain of fields whose last byte is missing is rejected with
`io.ErrUnexpectedEOF`. -/
theorem Chain.truncated {M : Type} {name : MsgName}
    {field : M → Int → Nat → List Byte → Nat → Option (FieldResult M)}
    {m m1 : M} {items : List (List Byte)} (h : Chain name field m items m1)
    (hne : items ≠ []) (hl : (concat items).length < 2 ^ 63) :
    (unmarshalLoop name field (concat items).dropLast (concat items).dropLast.length m 0).2
      = some .ErrUnexpectedEOF := by
  have h2 := h.concat_length hne
  have := h.truncated_aux hne (concat items).dropLast [] (by simp)
    (by simp; omega) (concat items).dropLast.length (by simp)
  simpa using this


theorem concat_itemsHeight (h : Int) : concat (itemsHeight h) = wireHeight h := by
  unfold itemsHeight wireHeight
  by_cases h0 : h = 0 <;> simp [h0, concat]

theorem concat_itemsOptional {α : Type} (tag : Byte) (enc : α → List Byte) (x : Option α) :
    concat (itemsOptional tag enc x) = wireOptional tag enc x := by
  cases x <;> simp [itemsOptional, wireOptional, concat]

theorem concat_itemsRepeated {α : Type} (tag : Byte) (enc : α → List Byte) (xs : List α) :
    concat (itemsRepeated tag enc xs) = wireRepeated tag enc xs := by
  induction xs with
  | nil => rfl
  | cons x xs ih => simp [itemsRepeated, wireRepeated, concat, ih]

theorem chain_height {M : Type} (name : MsgName)
    (field : M → Int → Nat → List Byte → Nat → Option (FieldResult M))
    (setHeight : M → Int → M)
    (hfield : ∀ m wt d i, field m 1 wt d i = some (heightCase setHeight m wt d i))
    (m : M) (h : Int) (h1 : -2 ^ 63 ≤ h) (h2 : h < 2 ^ 63) (h0 : h = 0 → setHeight m h = m) :
    Chain name field m (itemsHeight h) (setHeight m h) := by
  unfold itemsHeight
  by_cases hz : h = 0
  · rw [if_pos hz, h0 hz]; exact Chain.nil m
  · rw [if_neg hz]
    have hi := item_height name field setHeight hfield m (uint64 h) (uint64_lt h)
    rw [int64_uint64 h h1 h2] at hi
    exact Chain.cons hi (Chain.nil _)

theorem Codec.RoundTrips.accepts {α : Type} {c : Codec α} {enc : α → List Byte}
    (h : c.RoundTrips enc) : c.Accepts enc := by
  intro x; rw [h x]

theorem Codec.RoundTrips.decoded_eq {α : Type} {c : Codec α} {enc : α → List Byte}
    (h : c.RoundTrips enc) (x : α) : c.decoded enc x = x := by
  unfold Codec.decoded; rw [h x]

theorem Codec.RoundTrips.map_decoded {α : Type} {c : Codec α} {enc : α → List Byte}
    (h : c.RoundTrips enc) (xs : List α) : xs.map (c.decoded enc) = xs := by
  induction xs with
  | nil => rfl
  | cons x xs ih => rw [List.map_cons, ih, h.decoded_eq]

theorem Codec.RoundTrips.option_decoded {α : Type} {c : Codec α} {enc : α → List Byte}
    (h : c.RoundTrips enc) (x : Option α) : x.map (c.decoded enc) = x := by
  cases x with
  | none => rfl
  | some v => rw [Option.map_some', h.decoded_eq]

theorem Codec.Accepts.unmarshal_enc {α : Type} {c : Codec α} {enc : α → List Byte}
    (h : c.Accepts enc) (x : α) : c.Unmarshal c.zero (enc x) = (c.decoded enc x, none) := by
  have := h x
  unfold Codec.decoded
  rw [← this]

theorem chain_optional {M α : Type} (name : MsgName)
    (field : M → Int → Nat → List Byte → Nat → Option (FieldResult M))
    (c : Codec α) (enc : α → List Byte) (hrt : c.Accepts enc)
    (fname : FieldName) (get : M → Option α) (set : M → Option α → M)
    (f : Nat) (hf1 : 1 ≤ f) (hf2 : f < 16)
    (hfield : ∀ m wt d i, field m (f : Int) wt d i
      = some (singularCase c fname get set m wt d i))
    (m : M) (x : Option α) (hget : get m = none) (hset : set m none = m) :
    Chain name field m (itemsOptional (Fin.ofNat (8 * f + 2)) enc x)
      (set m (x.map (c.decoded enc))) := by
  cases x with
  | none => rw [Option.map_none', hset]; exact Chain.nil m
  | some v =>
    have hi := item_singular name field c fname get set f hf1 hf2 hfield m (enc v)
      (c.decoded enc v) (by rw [hget]; exact hrt.unmarshal_enc v)
    exact Chain.cons hi (Chain.nil _)

theorem chain_repeated {M α : Type} (name : MsgName)
    (field : M → Int → Nat → List Byte → Nat → Option (FieldResult M))
    (c : Codec α) (enc : α → List Byte) (hrt : c.Accepts enc)
    (fname : FieldName) (get : M → List α) (set : M → List α → M)
    (f : Nat) (hf1 : 1 ≤ f) (hf2 : f < 16)
    (hfield : ∀ m wt d i, field m (f : Int) wt d i
      = some (repeatedCase c fname get set m wt d i))
    (hgs : ∀ m l, get (set m l) = l) (hss : ∀ m a b, set (set m a) b = set m b)
    (hsg : ∀ m, set m (get m) = m) (xs : List α) :
    ∀ m : M, Chain name field m (itemsRepeated (Fin.ofNat (8 * f + 2)) enc xs)
      (set m (get m ++ xs.map (c.decoded enc))) := by
  induction xs with
  | nil => intro m; simp only [List.map_nil, List.append_nil, hsg]; exact Chain.nil m
  | cons x xs ih =>
    intro m
    have hi := item_repeated name field c fname get set f hf1 hf2 hfield m (enc x)
      (c.decoded enc x) (hrt.unmarshal_enc x)
    have hr := ih (set m (get m ++ [c.decoded enc x]))
    rw [hgs, hss, List.append_assoc] at hr
    exact Chain.cons hi hr

/-! ## Marshal of the six messages -/

theorem heightOnly_toSized (h : Int) (pre mid : List Byte) (hm : mid.length = sizeHeight h) :
    marshalReturn (pre ++ mid).length (marshalHeight h (pre ++ mid) ((pre ++ mid).length : Nat))
      = .ok (pre ++ wireHeight h, sizeHeight h) := by
  rw [sizeHeight_eq] at hm ⊢
  exact marshalReturn_of_writes (writes_height h) pre mid hm

theorem heightOnly_marshal (h : Int) :
    marshalWith (sizeHeight h)
      (fun d => marshalReturn d.length (marshalHeight h d (d.length : Nat)))
      = .ok (wireHeight h) := by
  rw [sizeHeight_eq]
  apply marshalWith_of_writes
  intro pre mid hm
  exact marshalReturn_of_writes (writes_height h) pre mid hm

theorem GetLatestHeightRequest_Marshal_eq (m : GetLatestHeightRequest) : m.Marshal = .ok [] := rfl

theorem GetLatestHeightResponse_Marshal_eq (m : GetLatestHeightResponse) :
    m.Marshal = .ok (wireHeight m.Height) := heightOnly_marshal m.Height

theorem GetBlockRequest_Marshal_eq (m : GetBlockRequest) :
    m.Marshal = .ok (wireHeight m.Height) := heightOnly_marshal m.Height

theorem GetBlockResultsRequest_Marshal_eq (m : GetBlockResultsRequest) :
    m.Marshal = .ok (wireHeight m.Height) := heightOnly_marshal m.Height

theorem GetBlockResponse_writes {BlockID Blk : Type} (cId : Codec BlockID) (cB : Codec Blk)
    (encId : BlockID → List Byte) (encB : Blk → List Byte)
    (hId : cId.WritesSize encId) (hB : cB.WritesSize encB) (m : GetBlockResponse BlockID Blk) :
    Writes (fun d i => andThen (marshalOptional cB 0x1a m.Block d i) fun d1 i1 =>
      andThen (marshalOptional cId 0x12 m.BlockId d1 i1) fun d2 i2 =>
      marshalHeight m.Height d2 i2) (m.wire encId encB) := by
  have h := Writes.seq (writes_optional cB encB hB 0x1a m.Block)
    (Writes.seq (writes_optional cId encId hId 0x12 m.BlockId) (writes_height m.Height))
  simpa [GetBlockResponse.wire] using h

theorem GetBlockResponse_Size_eq {BlockID Blk : Type} (cId : Codec BlockID) (cB : Codec Blk)
    (encId : BlockID → List Byte) (encB : Blk → List Byte)
    (hId : cId.WritesSize encId) (hB : cB.WritesSize encB) (m : GetBlockResponse BlockID Blk) :
    m.Size cId cB = (m.wire encId encB).length := by
  unfold GetBlockResponse.Size GetBlockResponse.wire
  rw [sizeHeight_eq, sizeOptional_eq cId encId hId 0x12, sizeOptional_eq cB encB hB 0x1a]
  simp only [List.length_append]
  omega

theorem GetBlockResponse_MarshalToSizedBuffer_eq {BlockID Blk : Type} (cId : Codec BlockID)
    (cB : Codec Blk) (encId : BlockID → List Byte) (encB : Blk → List Byte)
    (hId : cId.WritesSize encId) (hB : cB.WritesSize encB) (m : GetBlockResponse BlockID Blk)
    (pre mid : List Byte) (hm : mid.length = m.Size cId cB) :
    m.MarshalToSizedBuffer cId cB (pre ++ mid) = .ok (pre ++ m.wire encId encB, m.Size cId cB) := by
  rw [GetBlockResponse_Size_eq cId cB encId encB hId hB] at hm ⊢
  exact marshalReturn_of_writes (GetBlockResponse_writes cId cB encId encB hId hB m) pre mid hm

theorem GetBlockResponse_Marshal_eq {BlockID Blk : Type} (cId : Codec BlockID)
    (cB : Codec Blk) (encId : BlockID → List Byte) (encB : Blk → List Byte)
    (hId : cId.WritesSize encId) (hB : cB.WritesSize encB) (m : GetBlockResponse BlockID Blk) :
    m.Marshal cId cB = .ok (m.wire encId encB) := by
  unfold GetBlockResponse.Marshal
  rw [GetBlockResponse_Size_eq cId cB encId encB hId hB]
  apply marshalWith_of_writes
  intro pre mid hm
  rw [← GetBlockResponse_Size_eq cId cB encId encB hId hB] at hm ⊢
  exact GetBlockResponse_MarshalToSizedBuffer_eq cId cB encId encB hId hB m pre mid hm

theorem GetBlockResultsResponse_writes {Event Tx VU CP : Type} (cE : Codec Event)
    (cT : Codec Tx) (cV : Codec VU) (cP : Codec CP) (encE : Event → List Byte)
    (encT : Tx → List Byte) (encV : VU → List Byte) (encP : CP → List Byte)
    (hE : cE.WritesSize encE) (hT : cT.WritesSize encT) (hV : cV.WritesSize encV)
    (hP : cP.WritesSize encP) (m : GetBlockResultsResponse Event Tx VU CP) :
    Writes (fun d i => andThen (marshalRepeated cE 0x32 m.EndBlockEvents d i) fun d1 i1 =>
      andThen (marshalOptional cP 0x2a m.ConsensusParamUpdates d1 i1) fun d2 i2 =>
      andThen (marshalRepeated cV 0x22 m.ValidatorUpdates d2 i2) fun d3 i3 =>
      andThen (marshalRepeated cT 0x1a m.TxResults d3 i3) fun d4 i4 =>
      andThen (marshalRepeated cE 0x12 m.BeginBlockEvents d4 i4) fun d5 i5 =>
      marshalHeight m.Height d5 i5) (m.wire encE encT encV encP) := by
  have h := Writes.seq (writes_repeated cE encE hE 0x32 m.EndBlockEvents)
    (Writes.seq (writes_optional cP encP hP 0x2a m.ConsensusParamUpdates)
    (Writes.seq (writes_repeated cV encV hV 0x22 m.ValidatorUpdates)
    (Writes.seq (writes_repeated cT encT hT 0x1a m.TxResults)
    (Writes.seq (writes_repeated cE encE hE 0x12 m.BeginBlockEvents)
      (writes_height m.Height)))))
  simpa [GetBlockResultsResponse.wire] using h

theorem GetBlockResultsResponse_Size_eq {Event Tx VU CP : Type} (cE : Codec Event)
    (cT : Codec Tx) (cV : Codec VU) (cP : Codec CP) (encE : Event → List Byte)
    (encT : Tx → List Byte) (encV : VU → List Byte) (encP : CP → List Byte)
    (hE : cE.WritesSize encE) (hT : cT.WritesSize encT) (hV : cV.WritesSize encV)
    (hP : cP.WritesSize encP) (m : GetBlockResultsResponse Event Tx VU CP) :
    m.Size cE cT cV cP = (m.wire encE encT encV encP).length := by
  unfold GetBlockResultsResponse.Size GetBlockResultsResponse.wire
  rw [sizeHeight_eq, sizeRepeated_eq cE encE hE 0x12, sizeRepeated_eq cT encT hT 0x1a,
    sizeRepeated_eq cV encV hV 0x22, sizeOptional_eq cP encP hP 0x2a,
    sizeRepeated_eq cE encE hE 0x32]
  simp only [List.length_append]
  omega

theorem GetBlockResultsResponse_MarshalToSizedBuffer_eq {Event Tx VU CP : Type}
    (cE : Codec Event) (cT : Codec Tx) (cV : Codec VU) (cP : Codec CP)
    (encE : Event → List Byte) (encT : Tx → List Byte) (encV : VU → List Byte)
    (encP : CP → List Byte) (hE : cE.WritesSize encE) (hT : cT.WritesSize encT)
    (hV : cV.WritesSize encV) (hP : cP.WritesSize encP)
    (m : GetBlockResultsResponse Event Tx VU CP) (pre mid : List Byte)
    (hm : mid.length = m.Size cE cT cV cP) :
    m.MarshalToSizedBuffer cE cT cV cP (pre ++ mid)
      = .ok (pre ++ m.wire encE encT encV encP, m.Size cE cT cV cP) := by
  rw [GetBlockResultsResponse_Size_eq cE cT cV cP encE encT encV encP hE hT hV hP] at hm ⊢
  exact marshalReturn_of_writes
    (GetBlockResultsResponse_writes cE cT cV cP encE encT encV encP hE hT hV hP m) pre mid hm

theorem GetBlockResultsResponse_Marshal_eq {Event Tx VU CP : Type}
    (cE : Codec Event) (cT : Codec Tx) (cV : Codec VU) (cP : Codec CP)
    (encE : Event → List Byte) (encT : Tx → List Byte) (encV : VU → List Byte)
    (encP : CP → List Byte) (hE : cE.WritesSize encE) (hT : cT.WritesSize encT)
    (hV : cV.WritesSize encV) (hP : cP.WritesSize encP)
    (m : GetBlockResultsResponse Event Tx VU CP) :
    m.Marshal cE cT cV cP = .ok (m.wire encE encT encV encP) := by
  unfold GetBlockResultsResponse.Marshal
  rw [GetBlockResultsResponse_Size_eq cE cT cV cP encE encT encV encP hE hT hV hP]
  apply marshalWith_of_writes
  intro pre mid hm
  rw [← GetBlockResultsResponse_Size_eq cE cT cV cP encE encT encV encP hE hT hV hP] at hm ⊢
  exact GetBlockResultsResponse_MarshalToSizedBuffer_eq cE cT cV cP encE encT encV encP
    hE hT hV hP m pre mid hm


/-! ## Unmarshal of the encoded messages -/

theorem wireHeight_length_le (h : Int) : (wireHeight h).length ≤ 11 := by
  unfold wireHeight
  by_cases h0 : h = 0
  · simp [h0]
  · simp only [h0, if_false, List.length_cons]
    rw [varint_length _ (uint64_lt h)]
    have := sovBlock_le_ten _ (uint64_lt h)
    omega

theorem GetLatestHeightResponse_chain (h : Int) (h1 : -2 ^ 63 ≤ h) (h2 : h < 2 ^ 63) :
    Chain .GetLatestHeightResponse GetLatestHeightResponse.field ⟨0⟩ (itemsHeight h) ⟨h⟩ :=
  chain_height .GetLatestHeightResponse GetLatestHeightResponse.field (fun (m : GetLatestHeightResponse) (h : Int) => { m with Height := h })
    (fun _ _ _ _ => rfl) ⟨0⟩ h h1 h2 (fun h0 => by rw [h0])

theorem GetBlockRequest_chain (h : Int) (h1 : -2 ^ 63 ≤ h) (h2 : h < 2 ^ 63) :
    Chain .GetBlockRequest GetBlockRequest.field ⟨0⟩ (itemsHeight h) ⟨h⟩ :=
  chain_height .GetBlockRequest GetBlockRequest.field (fun (m : GetBlockRequest) (h : Int) => { m with Height := h })
    (fun _ _ _ _ => rfl) ⟨0⟩ h h1 h2 (fun h0 => by rw [h0])

theorem GetBlockResultsRequest_chain (h : Int) (h1 : -2 ^ 63 ≤ h) (h2 : h < 2 ^ 63) :
    Chain .GetBlockResultsRequest GetBlockResultsRequest.field ⟨0⟩ (itemsHeight h) ⟨h⟩ :=
  chain_height .GetBlockResultsRequest GetBlockResultsRequest.field (fun (m : GetBlockResultsRequest) (h : Int) => { m with Height := h })
    (fun _ _ _ _ => rfl) ⟨0⟩ h h1 h2 (fun h0 => by rw [h0])

theorem GetLatestHeightResponse_Unmarshal_wire (h : Int) (h1 : -2 ^ 63 ≤ h) (h2 : h < 2 ^ 63) :
    GetLatestHeightResponse.Unmarshal ⟨0⟩ (wireHeight h) = (⟨h⟩, none) := by
  have := (GetLatestHeightResponse_chain h h1 h2).unmarshal_concat
    (by rw [concat_itemsHeight]; have := wireHeight_length_le h; omega)
  rw [concat_itemsHeight] at this
  exact this

theorem GetBlockRequest_Unmarshal_wire (h : Int) (h1 : -2 ^ 63 ≤ h) (h2 : h < 2 ^ 63) :
    GetBlockRequest.Unmarshal ⟨0⟩ (wireHeight h) = (⟨h⟩, none) := by
  have := (GetBlockRequest_chain h h1 h2).unmarshal_concat
    (by rw [concat_itemsHeight]; have := wireHeight_length_le h; omega)
  rw [concat_itemsHeight] at this
  exact this

theorem GetBlockResultsRequest_Unmarshal_wire (h : Int) (h1 : -2 ^ 63 ≤ h) (h2 : h < 2 ^ 63) :
    GetBlockResultsRequest.Unmarshal ⟨0⟩ (wireHeight h) = (⟨h⟩, none) := by
  have := (GetBlockResultsRequest_chain h h1 h2).unmarshal_concat
    (by rw [concat_itemsHeight]; have := wireHeight_length_le h; omega)
  rw [concat_itemsHeight] at this
  exact this

/-- The encoded fields of a `GetBlockResponse`. -/
theorem GetBlockResponse_chain {BlockID Blk : Type} (cId : Codec BlockID) (cB : Codec Blk)
    (encId : BlockID → List Byte) (encB : Blk → List Byte)
    (hId : cId.Accepts encId) (hB : cB.Accepts encB)
    (m : GetBlockResponse BlockID Blk) (h1 : -2 ^ 63 ≤ m.Height) (h2 : m.Height < 2 ^ 63) :
    Chain .GetBlockResponse (GetBlockResponse.field cId cB) ⟨0, none, none⟩
      (itemsHeight m.Height ++ (itemsOptional 0x12 encId m.BlockId
        ++ itemsOptional 0x1a encB m.Block))
      ⟨m.Height, m.BlockId.map (cId.decoded encId), m.Block.map (cB.decoded encB)⟩ := by
  have c1 := chain_height .GetBlockResponse (GetBlockResponse.field cId cB)
    (fun m h => { m with Height := h }) (fun _ _ _ _ => rfl) ⟨0, none, none⟩ m.Height h1 h2
    (fun h0 => by rw [h0])
  have c2 := chain_optional .GetBlockResponse (GetBlockResponse.field cId cB) cId encId hId
    .BlockId (fun m => m.BlockId) (fun m v => { m with BlockId := v }) 2 (by norm_num)
    (by norm_num) (fun _ _ _ _ => rfl) ⟨m.Height, none, none⟩ m.BlockId rfl rfl
  have c3 := chain_optional .GetBlockResponse (GetBlockResponse.field cId cB) cB encB hB
    .Block (fun m => m.Block) (fun m v => { m with Block := v }) 3 (by norm_num)
    (by norm_num) (fun _ _ _ _ => rfl)
    ⟨m.Height, m.BlockId.map (cId.decoded encId), none⟩ m.Block rfl rfl
  exact c1.append (c2.append c3)

theorem GetBlockResponse_concat_items {BlockID Blk : Type}
    (encId : BlockID → List Byte) (encB : Blk → List Byte) (m : GetBlockResponse BlockID Blk) :
    concat (itemsHeight m.Height ++ (itemsOptional 0x12 encId m.BlockId
        ++ itemsOptional 0x1a encB m.Block)) = m.wire encId encB := by
  rw [concat_append, concat_append, concat_itemsHeight, concat_itemsOptional,
    concat_itemsOptional]
  rfl

theorem GetBlockResponse_Unmarshal_wire {BlockID Blk : Type} (cId : Codec BlockID)
    (cB : Codec Blk) (encId : BlockID → List Byte) (encB : Blk → List Byte)
    (hId : cId.RoundTrips encId) (hB : cB.RoundTrips encB)
    (m : GetBlockResponse BlockID Blk) (h1 : -2 ^ 63 ≤ m.Height) (h2 : m.Height < 2 ^ 63)
    (hl : (m.wire encId encB).length < 2 ^ 63) :
    GetBlockResponse.Unmarshal cId cB ⟨0, none, none⟩ (m.wire encId encB) = (m, none) := by
  have := (GetBlockResponse_chain cId cB encId encB hId.accepts hB.accepts m h1 h2).unmarshal_concat
    (by rw [GetBlockResponse_concat_items]; exact hl)
  rw [GetBlockResponse_concat_items, hId.option_decoded, hB.option_decoded] at this
  exact this

/-- The encoded fields of a `GetBlockResultsResponse`. -/
theorem GetBlockResultsResponse_chain {Event Tx VU CP : Type}
    (cE : Codec Event) (cT : Codec Tx) (cV : Codec VU) (cP : Codec CP)
    (encE : Event → List Byte) (encT : Tx → List Byte) (encV : VU → List Byte)
    (encP : CP → List Byte) (hE : cE.Accepts encE) (hT : cT.Accepts encT)
    (hV : cV.Accepts encV) (hP : cP.Accepts encP)
    (m : GetBlockResultsResponse Event Tx VU CP)
    (h1 : -2 ^ 63 ≤ m.Height) (h2 : m.Height < 2 ^ 63) :
    Chain .GetBlockResultsResponse (GetBlockResultsResponse.field cE cT cV cP)
      ⟨0, [], [], [], none, []⟩
      (itemsHeight m.Height ++ (itemsRepeated 0x12 encE m.BeginBlockEvents
        ++ (itemsRepeated 0x1a encT m.TxResults ++ (itemsRepeated 0x22 encV m.ValidatorUpdates
        ++ (itemsOptional 0x2a encP m.ConsensusParamUpdates
        ++ itemsRepeated 0x32 encE m.EndBlockEvents)))))
      ⟨m.Height, m.BeginBlockEvents.map (cE.decoded encE), m.TxResults.map (cT.decoded encT),
        m.ValidatorUpdates.map (cV.decoded encV),
        m.ConsensusParamUpdates.map (cP.decoded encP),
        m.EndBlockEvents.map (cE.decoded encE)⟩ := by
  have c1 := chain_height .GetBlockResultsResponse (GetBlockResultsResponse.field cE cT cV cP)
    (fun m h => { m with Height := h }) (fun _ _ _ _ => rfl) ⟨0, [], [], [], none, []⟩
    m.Height h1 h2 (fun h0 => by rw [h0])
  have c2 := chain_repeated .GetBlockResultsResponse
    (GetBlockResultsResponse.field cE cT cV cP) cE encE hE
    .BeginBlockEvents (fun m => m.BeginBlockEvents) (fun m v => { m with BeginBlockEvents := v })
    2 (by norm_num) (by norm_num) (fun _ _ _ _ => rfl) (fun _ _ => rfl) (fun _ _ _ => rfl)
    (fun _ => rfl) m.BeginBlockEvents ⟨m.Height, [], [], [], none, []⟩
  have c3 := chain_repeated .GetBlockResultsResponse
    (GetBlockResultsResponse.field cE cT cV cP) cT encT hT
    .TxResults (fun m => m.TxResults) (fun m v => { m with TxResults := v })
    3 (by norm_num) (by norm_num) (fun _ _ _ _ => rfl) (fun _ _ => rfl) (fun _ _ _ => rfl)
    (fun _ => rfl) m.TxResults
    ⟨m.Height, m.BeginBlockEvents.map (cE.decoded encE), [], [], none, []⟩
  have c4 := chain_repeated .GetBlockResultsResponse
    (GetBlockResultsResponse.field cE cT cV cP) cV encV hV
    .ValidatorUpdates (fun m => m.ValidatorUpdates) (fun m v => { m with ValidatorUpdates := v })
    4 (by norm_num) (by norm_num) (fun _ _ _ _ => rfl) (fun _ _ => rfl) (fun _ _ _ => rfl)
    (fun _ => rfl) m.ValidatorUpdates
    ⟨m.Height, m.BeginBlockEvents.map (cE.decoded encE), m.TxResults.map (cT.decoded encT),
      [], none, []⟩
  have c5 := chain_optional .GetBlockResultsResponse
    (GetBlockResultsResponse.field cE cT cV cP) cP encP hP
    .ConsensusParamUpdates (fun m => m.ConsensusParamUpdates)
    (fun m v => { m with ConsensusParamUpdates := v }) 5 (by norm_num) (by norm_num)
    (fun _ _ _ _ => rfl)
    ⟨m.Height, m.BeginBlockEvents.map (cE.decoded encE), m.TxResults.map (cT.decoded encT),
      m.ValidatorUpdates.map (cV.decoded encV), none, []⟩
    m.ConsensusParamUpdates rfl rfl
  have c6 := chain_repeated .GetBlockResultsResponse
    (GetBlockResultsResponse.field cE cT cV cP) cE encE hE
    .EndBlockEvents (fun m => m.EndBlockEvents) (fun m v => { m with EndBlockEvents := v })
    6 (by norm_num) (by norm_num) (fun _ _ _ _ => rfl) (fun _ _ => rfl) (fun _ _ _ => rfl)
    (fun _ => rfl) m.EndBlockEvents
    ⟨m.Height, m.BeginBlockEvents.map (cE.decoded encE), m.TxResults.map (cT.decoded encT),
      m.ValidatorUpdates.map (cV.decoded encV),
      m.ConsensusParamUpdates.map (cP.decoded encP), []⟩
  simp only [List.nil_append] at c2 c3 c4 c6
  exact c1.append (c2.append (c3.append (c4.append (c5.append c6))))

theorem GetBlockResultsResponse_concat_items {Event Tx VU CP : Type}
    (encE : Event → List Byte) (encT : Tx → List Byte) (encV : VU → List Byte)
    (encP : CP → List Byte) (m : GetBlockResultsResponse Event Tx VU CP) :
    concat (itemsHeight m.Height ++ (itemsRepeated 0x12 encE m.BeginBlockEvents
        ++ (itemsRepeated 0x1a encT m.TxResults ++ (itemsRepeated 0x22 encV m.ValidatorUpdates
        ++ (itemsOptional 0x2a encP m.ConsensusParamUpdates
        ++ itemsRepeated 0x32 encE m.EndBlockEvents)))))
      = m.wire encE encT encV encP := by
  simp only [concat_append, concat_itemsHeight, concat_itemsOptional, concat_itemsRepeated]
  rfl

theorem GetBlockResultsResponse_Unmarshal_wire {Event Tx VU CP : Type}
    (cE : Codec Event) (cT : Codec Tx) (cV : Codec VU) (cP : Codec CP)
    (encE : Event → List Byte) (encT : Tx → List Byte) (encV : VU → List Byte)
    (encP : CP → List Byte) (hE : cE.RoundTrips encE) (hT : cT.RoundTrips encT)
    (hV : cV.RoundTrips encV) (hP : cP.RoundTrips encP)
    (m : GetBlockResultsResponse Event Tx VU CP)
    (h1 : -2 ^ 63 ≤ m.Height) (h2 : m.Height < 2 ^ 63)
    (hl : (m.wire encE encT encV encP).length < 2 ^ 63) :
    GetBlockResultsResponse.Unmarshal cE cT cV cP ⟨0, [], [], [], none, []⟩
      (m.wire encE encT encV encP) = (m, none) := by
  have := (GetBlockResultsResponse_chain cE cT cV cP encE encT encV encP hE.accepts hT.accepts
    hV.accepts hP.accepts m h1 h2).unmarshal_concat
    (by rw [GetBlockResultsResponse_concat_items]; exact hl)
  rw [GetBlockResultsResponse_concat_items, hE.map_decoded, hT.map_decoded, hV.map_decoded,
    hP.option_decoded, hE.map_decoded] at this
  exact this

/-! ## Truncated encodings -/

theorem concat_ne_nil_items {xs : List (List Byte)} (h : concat xs ≠ []) : xs ≠ [] := by
  intro h0; rw [h0] at h; exact h rfl

theorem GetLatestHeightResponse_Unmarshal_truncated (h : Int) (h1 : -2 ^ 63 ≤ h)
    (h2 : h < 2 ^ 63) (hne : wireHeight h ≠ []) :
    (GetLatestHeightResponse.Unmarshal ⟨0⟩ (wireHeight h).dropLast).2
      = some .ErrUnexpectedEOF := by
  rw [← concat_itemsHeight] at hne ⊢
  exact (GetLatestHeightResponse_chain h h1 h2).truncated (concat_ne_nil_items hne)
    (by rw [concat_itemsHeight]; have := wireHeight_length_le h; omega)

theorem GetBlockRequest_Unmarshal_truncated (h : Int) (h1 : -2 ^ 63 ≤ h)
    (h2 : h < 2 ^ 63) (hne : wireHeight h ≠ []) :
    (GetBlockRequest.Unmarshal ⟨0⟩ (wireHeight h).dropLast).2 = some .ErrUnexpectedEOF := by
  rw [← concat_itemsHeight] at hne ⊢
  exact (GetBlockRequest_chain h h1 h2).truncated (concat_ne_nil_items hne)
    (by rw [concat_itemsHeight]; have := wireHeight_length_le h; omega)

theorem GetBlockResultsRequest_Unmarshal_truncated (h : Int) (h1 : -2 ^ 63 ≤ h)
    (h2 : h < 2 ^ 63) (hne : wireHeight h ≠ []) :
    (GetBlockResultsRequest.Unmarshal ⟨0⟩ (wireHeight h).dropLast).2
      = some .ErrUnexpectedEOF := by
  rw [← concat_itemsHeight] at hne ⊢
  exact (GetBlockResultsRequest_chain h h1 h2).truncated (concat_ne_nil_items hne)
    (by rw [concat_itemsHeight]; have := wireHeight_length_le h; omega)

theorem GetBlockResponse_Unmarshal_truncated {BlockID Blk : Type} (cId : Codec BlockID)
    (cB : Codec Blk) (encId : BlockID → List Byte) (encB : Blk → List Byte)
    (hId : cId.Accepts encId) (hB : cB.Accepts encB)
    (m : GetBlockResponse BlockID Blk) (h1 : -2 ^ 63 ≤ m.Height) (h2 : m.Height < 2 ^ 63)
    (hl : (m.wire encId encB).length < 2 ^ 63) (hne : m.wire encId encB ≠ []) :
    (GetBlockResponse.Unmarshal cId cB ⟨0, none, none⟩ (m.wire encId encB).dropLast).2
      = some .ErrUnexpectedEOF := by
  rw [← GetBlockResponse_concat_items] at hne hl ⊢
  exact (GetBlockResponse_chain cId cB encId encB hId hB m h1 h2).truncated
    (concat_ne_nil_items hne) hl

theorem GetBlockResultsResponse_Unmarshal_truncated {Event Tx VU CP : Type}
    (cE : Codec Event) (cT : Codec Tx) (cV : Codec VU) (cP : Codec CP)
    (encE : Event → List Byte) (encT : Tx → List Byte) (encV : VU → List Byte)
    (encP : CP → List Byte) (hE : cE.Accepts encE) (hT : cT.Accepts encT)
    (hV : cV.Accepts encV) (hP : cP.Accepts encP)
    (m : GetBlockResultsResponse Event Tx VU CP)
    (h1 : -2 ^ 63 ≤ m.Height) (h2 : m.Height < 2 ^ 63)
    (hl : (m.wire encE encT encV encP).length < 2 ^ 63)
    (hne : m.wire encE encT encV encP ≠ []) :
    (GetBlockResultsResponse.Unmarshal cE cT cV cP ⟨0, [], [], [], none, []⟩
      (m.wire encE encT encV encP).dropLast).2 = some .ErrUnexpectedEOF := by
  rw [← GetBlockResultsResponse_concat_items] at hne hl ⊢
  exact (GetBlockResultsResponse_chain cE cT cV cP encE encT encV encP hE hT hV hP
    m h1 h2).truncated (concat_ne_nil_items hne) hl

/-! ## Unknown fields -/

theorem shift_or_tag (f wt : Nat) (hwt : wt < 8) : (f <<< 3) ||| wt = 8 * f + wt := by
  rw [Nat.shiftLeft_eq]
  have := Nat.mul_add_lt_is_or (i := 3) (b := wt) (by norm_num; exact hwt) f
  norm_num at this
  have e : f * 2 ^ 3 = 8 * f := by ring
  rw [e, ← this]

/-- The offset `skipBlock` returns for a length-delimited field that stands at the start
of its input. -/
theorem skipBlock_bytes (t : Nat) (ht : t < 2 ^ 64) (hwt : t &&& 0x7 = 2)
    (p post : List Byte) (hl : (varint t ++ varint p.length ++ p ++ post).length < 2 ^ 63) :
    skipBlock (varint t ++ varint p.length ++ p ++ post)
      = .ok ((sovBlock t + sovBlock p.length + p.length : Nat) : Int) := by
  have hlen : (varint t ++ varint p.length ++ p ++ post).length
      = (varint t).length + (varint p.length).length + p.length + post.length := by
    simp; omega
  have hp : p.length < 2 ^ 63 := by omega
  have hvt := varint_length t ht
  have hvp := varint_length p.length (by omega)
  have htp := sovBlock_pos t
  unfold skipBlock
  obtain ⟨n, hn⟩ : ∃ n, (varint t ++ varint p.length ++ p ++ post).length = n + 1 :=
    ⟨_, (Nat.succ_pred_eq_of_pos (by omega)).symm⟩
  rw [hn, skipLoop, if_pos (by omega)]
  have hr : readVarint (varint t ++ varint p.length ++ p ++ post) 0
      = ⟨t, sovBlock t, none⟩ := by
    have := readVarint_varint t ht [] (varint p.length ++ p ++ post)
    simpa using this
  have hr2 : readVarint (varint t ++ varint p.length ++ p ++ post) (sovBlock t)
      = ⟨p.length, sovBlock t + sovBlock p.length, none⟩ := by
    have := readVarint_varint p.length (by omega) (varint t) (p ++ post)
    rw [hvt] at this
    simpa using this
  simp only [hr, hwt, hr2]
  rw [int64_of_lt _ hp]
  have hcast : ((sovBlock t + sovBlock p.length : Nat) : Int) + (p.length : Int)
      = ((sovBlock t + sovBlock p.length + p.length : Nat) : Int) := by push_cast; ring
  simp only [hcast]
  rw [wrapInt64_of_lt _ (by omega)]
  have hnn : ¬ ((p.length : Int) < 0) := by omega
  have hnn2 : ¬ (((sovBlock t + sovBlock p.length + p.length : Nat) : Int) < 0) := by omega
  simp only [if_true, hnn, if_false]
  rw [if_neg (by decide), if_neg (by decide)]
  simp only [hnn2, if_false, if_true]

/-- One unknown length-delimited field is a step of the run that leaves the receiver as it
was. -/
theorem Reaches.skip {M : Type} (name : MsgName)
    (field : M → Int → Nat → List Byte → Nat → Option (FieldResult M))
    (dAtA : List Byte) (m : M) (pre p post : List Byte) (f : Nat) (hf1 : 1 ≤ f)
    (hf2 : f ≤ 2 ^ 29 - 1)
    (hd : dAtA = pre ++ varint ((f <<< 3) ||| 2) ++ varint p.length ++ p ++ post)
    (hl : dAtA.length < 2 ^ 63)
    (hnone : ∀ m wt d i, field m (f : Int) wt d i = none) :
    Reaches name field dAtA m pre.length m
      (pre.length + (varint ((f <<< 3) ||| 2) ++ varint p.length ++ p).length) := by
  have ht : (f <<< 3) ||| 2 = 8 * f + 2 := shift_or_tag f 2 (by norm_num)
  rw [ht] at hd ⊢
  have ht64 : 8 * f + 2 < 2 ^ 64 := by omega
  have h1 : int32 ((8 * f + 2) >>> 3) = (f : Int) := by
    rw [tag_shift f 2 (by norm_num), int32_of_lt f (by omega)]
  have h2 : (8 * f + 2) &&& 0x7 = 2 := tag_and f 2 (by norm_num)
  have hlen : dAtA.length = pre.length + ((varint (8 * f + 2)).length
      + (varint p.length).length + p.length + post.length) := by
    rw [hd]; simp; omega
  have hp : p.length < 2 ^ 63 := by omega
  have hvt := varint_length (8 * f + 2) ht64
  have hvp := varint_length p.length (by omega)
  have htp := sovBlock_pos (8 * f + 2)
  have hdrop : dAtA.drop pre.length
      = varint (8 * f + 2) ++ varint p.length ++ p ++ post := by
    rw [hd]; simp
  have hsk := skipBlock_bytes (8 * f + 2) ht64 h2 p post (by rw [← hdrop]; simp; omega)
  intro fuel hfuel
  obtain ⟨g, rfl⟩ : ∃ g, fuel = g + 1 := ⟨fuel - 1, by omega⟩
  refine ⟨g, by simp; omega, ?_⟩
  have hr : readVarint dAtA pre.length = ⟨8 * f + 2, pre.length + sovBlock (8 * f + 2), none⟩ := by
    rw [hd]
    simp only [List.append_assoc]
    have := readVarint_varint (8 * f + 2) ht64 pre (varint p.length ++ (p ++ post))
    simpa using this
  rw [unmarshalLoop, if_pos (by omega)]
  simp only [hr]
  rw [if_neg (by rw [h2]; decide), if_neg (by rw [h1]; omega), h1, hnone, hdrop, hsk]
  simp only
  have hcast : (pre.length : Int) + ((sovBlock (8 * f + 2) + sovBlock p.length + p.length : Nat) : Int)
      = ((pre.length + (sovBlock (8 * f + 2) + sovBlock p.length + p.length) : Nat) : Int) := by
    push_cast; ring
  rw [hcast, wrapInt64_of_lt _ (by omega)]
  rw [if_neg (by omega), if_neg (by omega), Int.toNat_ofNat]
  simp only [List.length_append, hvt, hvp]


/-! ## The stand-in nested codec meets the assumptions -/

theorem byteCodec_writesSize : byteCodec.WritesSize byteEnc := by
  refine ⟨fun _ => rfl, fun _ => by simp [byteCodec], ?_⟩
  intro x pre mid hm
  match mid, hm with
  | [y], _ =>
    simp only [byteCodec]
    rw [writeByte_at _ _ x pre y [] rfl (by simp)]
    rfl

theorem byteCodec_roundTrips : byteCodec.RoundTrips byteEnc := fun _ => rfl

theorem byteCodec_accepts : byteCodec.Accepts byteEnc := byteCodec_roundTrips.accepts

/-! ## The claims -/

/-- C1. For every 64-bit signed height `h` (negative values included) and each of
`GetLatestHeightResponse`, `GetBlockRequest` and `GetBlockResultsRequest`: `Marshal` of
`{Height: h}` succeeds with some bytes `b`, and `Unmarshal` of `b` into a fresh zero-valued
message returns `nil` and yields `Height = h`; `GetLatestHeightRequest` round-trips through
the empty byte string. -/
theorem height_messages_roundtrip (h : Int) (h1 : -2 ^ 63 ≤ h) (h2 : h < 2 ^ 63) :
    (∃ b, (GetLatestHeightResponse.mk h).Marshal = .ok b ∧
      GetLatestHeightResponse.Unmarshal ⟨0⟩ b = (⟨h⟩, none)) ∧
    (∃ b, (GetBlockRequest.mk h).Marshal = .ok b ∧
      GetBlockRequest.Unmarshal ⟨0⟩ b = (⟨h⟩, none)) ∧
    (∃ b, (GetBlockResultsRequest.mk h).Marshal = .ok b ∧
      GetBlockResultsRequest.Unmarshal ⟨0⟩ b = (⟨h⟩, none)) ∧
    (GetLatestHeightRequest.mk.Marshal = .ok [] ∧
      GetLatestHeightRequest.Unmarshal ⟨⟩ [] = (⟨⟩, none)) :=
  ⟨⟨wireHeight h, GetLatestHeightResponse_Marshal_eq ⟨h⟩,
      GetLatestHeightResponse_Unmarshal_wire h h1 h2⟩,
   ⟨wireHeight h, GetBlockRequest_Marshal_eq ⟨h⟩, GetBlockRequest_Unmarshal_wire h h1 h2⟩,
   ⟨wireHeight h, GetBlockResultsRequest_Marshal_eq ⟨h⟩,
      GetBlockResultsRequest_Unmarshal_wire h h1 h2⟩,
   ⟨rfl, rfl⟩⟩

/-- C1, at the height `-1`, whose encoding has ten varint bytes. -/
theorem height_messages_roundtrip_witness :
    (-2 ^ 63 ≤ (-1 : Int) ∧ (-1 : Int) < 2 ^ 63) ∧
    (∃ b, (GetBlockRequest.mk (-1)).Marshal = .ok b ∧
      GetBlockRequest.Unmarshal ⟨0⟩ b = (⟨-1⟩, none)) :=
  ⟨⟨by decide, by decide⟩,
    (height_messages_roundtrip (-1) (by decide) (by decide)).2.1⟩

/-- C2. For every `GetBlockResponse` `m` (any 64-bit `Height`; `BlockId` nil or present;
`Block` nil or present), assuming the nested `BlockID` and `Block` codecs round-trip and
write exactly their own `Size()` bytes: `Marshal(m)` succeeds with some bytes `b`, and
`Unmarshal` of `b` into a fresh message returns `nil` and yields `m` itself, so a nil field
is decoded as nil and a present field as present and equal. -/
theorem GetBlockResponse_roundtrip {BlockID Blk : Type} (cId : Codec BlockID)
    (cB : Codec Blk) (encId : BlockID → List Byte) (encB : Blk → List Byte)
    (wId : cId.WritesSize encId) (wB : cB.WritesSize encB)
    (rId : cId.RoundTrips encId) (rB : cB.RoundTrips encB)
    (m : GetBlockResponse BlockID Blk) (h1 : -2 ^ 63 ≤ m.Height) (h2 : m.Height < 2 ^ 63)
    (hl : m.Size cId cB < 2 ^ 63) :
    ∃ b, m.Marshal cId cB = .ok b ∧
      GetBlockResponse.Unmarshal cId cB ⟨0, none, none⟩ b = (m, none) := by
  rw [GetBlockResponse_Size_eq cId cB encId encB wId wB] at hl
  exact ⟨m.wire encId encB, GetBlockResponse_Marshal_eq cId cB encId encB wId wB m,
    GetBlockResponse_Unmarshal_wire cId cB encId encB rId rB m h1 h2 hl⟩

/-- C2, at a message with a negative height, a present `BlockId` and a nil `Block`. -/
theorem GetBlockResponse_roundtrip_witness :
    ∃ b, (GetBlockResponse.mk (-7) (some (0x2a : Byte)) (none : Option Byte)).Marshal
        byteCodec byteCodec = .ok b ∧
      GetBlockResponse.Unmarshal byteCodec byteCodec ⟨0, none, none⟩ b
        = (⟨-7, some 0x2a, none⟩, none) :=
  GetBlockResponse_roundtrip byteCodec byteCodec byteEnc byteEnc byteCodec_writesSize
    byteCodec_writesSize byteCodec_roundTrips byteCodec_roundTrips ⟨-7, some 0x2a, none⟩
    (by decide) (by decide) (by decide)

/-- C3. For every `GetBlockResultsResponse` `m` (64-bit `Height`), assuming the nested
codecs (`Event`, `ResponseDeliverTx`, `ValidatorUpdate`, `ConsensusParams`) round-trip and
write exactly their own `Size()` bytes: `Marshal(m)` succeeds with some bytes `b`, and
`Unmarshal` of `b` into a fresh message returns `nil` and yields `BeginBlockEvents`,
`TxResults`, `ValidatorUpdates` and `EndBlockEvents` equal to those of `m`: the same
lengths and the same elements in the same order (indeed the whole of `m`). -/
theorem GetBlockResultsResponse_repeated_roundtrip {Event Tx VU CP : Type}
    (cE : Codec Event) (cT : Codec Tx) (cV : Codec VU) (cP : Codec CP)
    (encE : Event → List Byte) (encT : Tx → List Byte) (encV : VU → List Byte)
    (encP : CP → List Byte) (wE : cE.WritesSize encE) (wT : cT.WritesSize encT)
    (wV : cV.WritesSize encV) (wP : cP.WritesSize encP)
    (rE : cE.RoundTrips encE) (rT : cT.RoundTrips encT)
    (rV : cV.RoundTrips encV) (rP : cP.RoundTrips encP)
    (m : GetBlockResultsResponse Event Tx VU CP)
    (h1 : -2 ^ 63 ≤ m.Height) (h2 : m.Height < 2 ^ 63)
    (hl : m.Size cE cT cV cP < 2 ^ 63) :
    ∃ b m1, m.Marshal cE cT cV cP = .ok b ∧
      GetBlockResultsResponse.Unmarshal cE cT cV cP ⟨0, [], [], [], none, []⟩ b = (m1, none) ∧
      m1.BeginBlockEvents = m.BeginBlockEvents ∧ m1.TxResults = m.TxResults ∧
      m1.ValidatorUpdates = m.ValidatorUpdates ∧ m1.EndBlockEvents = m.EndBlockEvents ∧
      m1 = m := by
  rw [GetBlockResultsResponse_Size_eq cE cT cV cP encE encT encV encP wE wT wV wP] at hl
  exact ⟨m.wire encE encT encV encP, m,
    GetBlockResultsResponse_Marshal_eq cE cT cV cP encE encT encV encP wE wT wV wP m,
    GetBlockResultsResponse_Unmarshal_wire cE cT cV cP encE encT encV encP rE rT rV rP m
      h1 h2 hl, rfl, rfl, rfl, rfl, rfl⟩

/-- C3, at a message with the three begin-block events `[e0, e1, e2] = [1, 2, 3]`, two
transaction results, no validator update and one end-block event. -/
theorem GetBlockResultsResponse_repeated_roundtrip_witness :
    ∃ b m1, (GetBlockResultsResponse.mk 9 [(1 : Byte), 2, 3] [(4 : Byte), 5]
          ([] : List Byte) (none : Option Byte) [6]).Marshal
          byteCodec byteCodec byteCodec byteCodec = .ok b ∧
      GetBlockResultsResponse.Unmarshal byteCodec byteCodec byteCodec byteCodec
        ⟨0, [], [], [], none, []⟩ b = (m1, none) ∧
      m1.BeginBlockEvents = [1, 2, 3] ∧ m1.TxResults = [4, 5] ∧
      m1.ValidatorUpdates = [] ∧ m1.EndBlockEvents = [6] ∧
      m1 = ⟨9, [1, 2, 3], [4, 5], [], none, [6]⟩ :=
  GetBlockResultsResponse_repeated_roundtrip byteCodec byteCodec byteCodec byteCodec
    byteEnc byteEnc byteEnc byteEnc byteCodec_writesSize byteCodec_writesSize
    byteCodec_writesSize byteCodec_writesSize byteCodec_roundTrips byteCodec_roundTrips
    byteCodec_roundTrips byteCodec_roundTrips ⟨9, [1, 2, 3], [4, 5], [], none, [6]⟩
    (by decide) (by decide) (by decide)

/-- The body of `Marshal` around a `MarshalToSizedBuffer` that fills an exact buffer. -/
theorem marshal_length_of_writes {size : Nat} {w : List Byte}
    {toSized : List Byte → Except Error (List Byte × Nat)}
    (hs : size = w.length)
    (h : ∀ pre mid : List Byte, mid.length = size → toSized (pre ++ mid) = .ok (pre ++ w, size)) :
    (∃ b, marshalWith size toSized = .ok b ∧ b.length = size) ∧
    (∀ buf : List Byte, buf.length = size → ∃ out, toSized buf = .ok (out, size)) := by
  subst hs
  refine ⟨⟨w, marshalWith_of_writes h, rfl⟩, ?_⟩
  intro buf hb
  have := h [] buf hb
  simp only [List.nil_append] at this
  exact ⟨w, this⟩

/-- C4. For every message `m` of each of the six message types, `Marshal(m)` succeeds and
the number of bytes it returns equals `m.Size()`, assuming each nested codec's
`MarshalToSizedBuffer` writes exactly its own `Size()` bytes; and `MarshalToSizedBuffer` on
a buffer of length `Size(m)` returns `Size(m)`, that is, it ends with cursor 0. -/
theorem marshal_length_eq_size {BlockID Blk Event Tx VU CP : Type}
    (cId : Codec BlockID) (cB : Codec Blk) (cE : Codec Event) (cT : Codec Tx)
    (cV : Codec VU) (cP : Codec CP)
    (encId : BlockID → List Byte) (encB : Blk → List Byte) (encE : Event → List Byte)
    (encT : Tx → List Byte) (encV : VU → List Byte) (encP : CP → List Byte)
    (wId : cId.WritesSize encId) (wB : cB.WritesSize encB) (wE : cE.WritesSize encE)
    (wT : cT.WritesSize encT) (wV : cV.WritesSize encV) (wP : cP.WritesSize encP) :
    (∀ m : GetLatestHeightRequest,
      (∃ b, m.Marshal = .ok b ∧ b.length = m.Size) ∧
      (∀ buf : List Byte, buf.length = m.Size →
        ∃ out, m.MarshalToSizedBuffer buf = .ok (out, m.Size))) ∧
    (∀ m : GetLatestHeightResponse,
      (∃ b, m.Marshal = .ok b ∧ b.length = m.Size) ∧
      (∀ buf : List Byte, buf.length = m.Size →
        ∃ out, m.MarshalToSizedBuffer buf = .ok (out, m.Size))) ∧
    (∀ m : GetBlockRequest,
      (∃ b, m.Marshal = .ok b ∧ b.length = m.Size) ∧
      (∀ buf : List Byte, buf.length = m.Size →
        ∃ out, m.MarshalToSizedBuffer buf = .ok (out, m.Size))) ∧
    (∀ m : GetBlockResultsRequest,
      (∃ b, m.Marshal = .ok b ∧ b.length = m.Size) ∧
      (∀ buf : List Byte, buf.length = m.Size →
        ∃ out, m.MarshalToSizedBuffer buf = .ok (out, m.Size))) ∧
    (∀ m : GetBlockResponse BlockID Blk,
      (∃ b, m.Marshal cId cB = .ok b ∧ b.length = m.Size cId cB) ∧
      (∀ buf : List Byte, buf.length = m.Size cId cB →
        ∃ out, m.MarshalToSizedBuffer cId cB buf = .ok (out, m.Size cId cB))) ∧
    (∀ m : GetBlockResultsResponse Event Tx VU CP,
      (∃ b, m.Marshal cE cT cV cP = .ok b ∧ b.length = m.Size cE cT cV cP) ∧
      (∀ buf : List Byte, buf.length = m.Size cE cT cV cP →
        ∃ out, m.MarshalToSizedBuffer cE cT cV cP buf = .ok (out, m.Size cE cT cV cP))) := by
  refine ⟨?_, ?_, ?_, ?_, ?_, ?_⟩
  · intro m
    refine ⟨⟨[], rfl, rfl⟩, ?_⟩
    intro buf hb
    exact ⟨buf, by simp [GetLatestHeightRequest.MarshalToSizedBuffer, marshalReturn,
      GetLatestHeightRequest.Size]⟩
  · intro m
    exact marshal_length_of_writes (sizeHeight_eq m.Height)
      (fun pre mid hm => heightOnly_toSized m.Height pre mid hm)
  · intro m
    exact marshal_length_of_writes (sizeHeight_eq m.Height)
      (fun pre mid hm => heightOnly_toSized m.Height pre mid hm)
  · intro m
    exact marshal_length_of_writes (sizeHeight_eq m.Height)
      (fun pre mid hm => heightOnly_toSized m.Height pre mid hm)
  · intro m
    exact marshal_length_of_writes (GetBlockResponse_Size_eq cId cB encId encB wId wB m)
      (fun pre mid hm =>
        GetBlockResponse_MarshalToSizedBuffer_eq cId cB encId encB wId wB m pre mid hm)
  · intro m
    exact marshal_length_of_writes
      (GetBlockResultsResponse_Size_eq cE cT cV cP encE encT encV encP wE wT wV wP m)
      (fun pre mid hm => GetBlockResultsResponse_MarshalToSizedBuffer_eq cE cT cV cP
        encE encT encV encP wE wT wV wP m pre mid hm)

/-- C4, at a `GetBlockResponse` with both nested fields present: 2 + 3 + 3 bytes. -/
theorem marshal_length_eq_size_witness :
    ∃ b, (GetBlockResponse.mk 5 (some (1 : Byte)) (some (2 : Byte))).Marshal
        byteCodec byteCodec = .ok b ∧
      b.length = (GetBlockResponse.mk 5 (some (1 : Byte)) (some (2 : Byte))).Size
        byteCodec byteCodec :=
  ((marshal_length_eq_size byteCodec byteCodec byteCodec byteCodec byteCodec byteCodec
    byteEnc byteEnc byteEnc byteEnc byteEnc byteEnc byteCodec_writesSize byteCodec_writesSize
    byteCodec_writesSize byteCodec_writesSize byteCodec_writesSize
    byteCodec_writesSize).2.2.2.2.1 ⟨5, some 1, some 2⟩).1

/-- C5. For each message whose only field is the height at field 1
(`GetLatestHeightResponse`, `GetBlockRequest`, `GetBlockResultsRequest`) and every height
`h`: `Marshal({Height: h})` is the empty byte string when `h = 0`, and otherwise is the
byte `0x08` followed by the base-128 varint of the unsigned 64-bit pattern of `h`; height 5
gives exactly `[0x08, 0x05]` and height 100 gives exactly `[0x08, 0x64]`. -/
theorem height_messages_marshal_bytes :
    (∀ h : Int,
      (GetLatestHeightResponse.mk h).Marshal
        = .ok (if h = 0 then [] else 0x08 :: varint (uint64 h)) ∧
      (GetBlockRequest.mk h).Marshal
        = .ok (if h = 0 then [] else 0x08 :: varint (uint64 h)) ∧
      (GetBlockResultsRequest.mk h).Marshal
        = .ok (if h = 0 then [] else 0x08 :: varint (uint64 h))) ∧
    (GetLatestHeightResponse.mk 5).Marshal = .ok [0x08, 0x05] ∧
    (GetBlockRequest.mk 5).Marshal = .ok [0x08, 0x05] ∧
    (GetBlockResultsRequest.mk 5).Marshal = .ok [0x08, 0x05] ∧
    (GetBlockRequest.mk 100).Marshal = .ok [0x08, 0x64] ∧
    (GetBlockRequest.mk 0).Marshal = .ok [] :=
  ⟨fun h => ⟨GetLatestHeightResponse_Marshal_eq ⟨h⟩, GetBlockRequest_Marshal_eq ⟨h⟩,
      GetBlockResultsRequest_Marshal_eq ⟨h⟩⟩,
    by decide, by decide, by decide, by decide, by decide⟩

/-- C6. For every `GetBlockResultsResponse` `m`, assuming each nested codec writes exactly
its own `Size()` bytes: the bytes produced by the reverse-filling `MarshalToSizedBuffer` on
a buffer of `Size(m)` bytes, and returned by `Marshal`, equal the forward concatenation
`GetBlockResultsResponse.wire` in ascending field-number order 1..6; every tag byte equals
`(fieldNumber << 3) | wireType`. -/
theorem GetBlockResultsResponse_wire_order {Event Tx VU CP : Type}
    (cE : Codec Event) (cT : Codec Tx) (cV : Codec VU) (cP : Codec CP)
    (encE : Event → List Byte) (encT : Tx → List Byte) (encV : VU → List Byte)
    (encP : CP → List Byte) (wE : cE.WritesSize encE) (wT : cT.WritesSize encT)
    (wV : cV.WritesSize encV) (wP : cP.WritesSize encP)
    (m : GetBlockResultsResponse Event Tx VU CP) :
    (∀ buf : List Byte, buf.length = m.Size cE cT cV cP →
      m.MarshalToSizedBuffer cE cT cV cP buf
        = .ok (m.wire encE encT encV encP, m.Size cE cT cV cP)) ∧
    m.Marshal cE cT cV cP = .ok (m.wire encE encT encV encP) ∧
    ((0x08 : Byte) = tagByte 1 0 ∧ (0x12 : Byte) = tagByte 2 2 ∧ (0x1a : Byte) = tagByte 3 2 ∧
      (0x22 : Byte) = tagByte 4 2 ∧ (0x2a : Byte) = tagByte 5 2 ∧
      (0x32 : Byte) = tagByte 6 2) := by
  refine ⟨?_, GetBlockResultsResponse_Marshal_eq cE cT cV cP encE encT encV encP
    wE wT wV wP m, by decide⟩
  intro buf hb
  have := GetBlockResultsResponse_MarshalToSizedBuffer_eq cE cT cV cP encE encT encV encP
    wE wT wV wP m [] buf hb
  simpa using this

/-- C6, at a message with every field present: the bytes are written out in full. -/
theorem GetBlockResultsResponse_wire_order_witness :
    (GetBlockResultsResponse.mk 5 [(1 : Byte), 2] [(3 : Byte)] [(4 : Byte)]
        (some (7 : Byte)) [9]).Marshal byteCodec byteCodec byteCodec byteCodec
      = .ok [0x08, 5, 0x12, 1, 1, 0x12, 1, 2, 0x1a, 1, 3, 0x22, 1, 4, 0x2a, 1, 7, 0x32, 1, 9] := by
  have h := (GetBlockResultsResponse_wire_order byteCodec byteCodec byteCodec byteCodec
    byteEnc byteEnc byteEnc byteEnc byteCodec_writesSize byteCodec_writesSize
    byteCodec_writesSize byteCodec_writesSize ⟨5, [1, 2], [3], [4], some 7, [9]⟩).2.1
  rw [h]
  decide


theorem ok_inj_bytes {a b : List Byte} (h : (Except.ok a : Except Error (List Byte)) = .ok b) :
    a = b := by
  cases h; rfl

/-- C7. For every message `m` of each message type (64-bit `Height`, encoding shorter than
`2^63` bytes) whose encoding `b = Marshal(m)` is non-empty, `Unmarshal` into a fresh message
of `b` with its last byte removed fails with `io.ErrUnexpectedEOF`, so it never returns
`nil`; the nested encoders are assumed to write exactly `Size()` bytes and the nested
decoders to accept the nested encoders' output. The encoding of a
`GetLatestHeightRequest` is never non-empty. -/
theorem truncated_encoding_rejected {BlockID Blk Event Tx VU CP : Type}
    (cId : Codec BlockID) (cB : Codec Blk) (cE : Codec Event) (cT : Codec Tx)
    (cV : Codec VU) (cP : Codec CP)
    (encId : BlockID → List Byte) (encB : Blk → List Byte) (encE : Event → List Byte)
    (encT : Tx → List Byte) (encV : VU → List Byte) (encP : CP → List Byte)
    (wId : cId.WritesSize encId) (wB : cB.WritesSize encB) (wE : cE.WritesSize encE)
    (wT : cT.WritesSize encT) (wV : cV.WritesSize encV) (wP : cP.WritesSize encP)
    (aId : cId.Accepts encId) (aB : cB.Accepts encB) (aE : cE.Accepts encE)
    (aT : cT.Accepts encT) (aV : cV.Accepts encV) (aP : cP.Accepts encP) :
    (∀ (m : GetLatestHeightRequest) (b : List Byte), m.Marshal = .ok b → b ≠ [] →
      (GetLatestHeightRequest.Unmarshal ⟨⟩ b.dropLast).2 = some .ErrUnexpectedEOF) ∧
    (∀ (m : GetLatestHeightResponse) (b : List Byte), -2 ^ 63 ≤ m.Height → m.Height < 2 ^ 63 →
      m.Marshal = .ok b → b ≠ [] →
      (GetLatestHeightResponse.Unmarshal ⟨0⟩ b.dropLast).2 = some .ErrUnexpectedEOF) ∧
    (∀ (m : GetBlockRequest) (b : List Byte), -2 ^ 63 ≤ m.Height → m.Height < 2 ^ 63 →
      m.Marshal = .ok b → b ≠ [] →
      (GetBlockRequest.Unmarshal ⟨0⟩ b.dropLast).2 = some .ErrUnexpectedEOF) ∧
    (∀ (m : GetBlockResultsRequest) (b : List Byte), -2 ^ 63 ≤ m.Height → m.Height < 2 ^ 63 →
      m.Marshal = .ok b → b ≠ [] →
      (GetBlockResultsRequest.Unmarshal ⟨0⟩ b.dropLast).2 = some .ErrUnexpectedEOF) ∧
    (∀ (m : GetBlockResponse BlockID Blk) (b : List Byte), -2 ^ 63 ≤ m.Height →
      m.Height < 2 ^ 63 → m.Marshal cId cB = .ok b → b.length < 2 ^ 63 → b ≠ [] →
      (GetBlockResponse.Unmarshal cId cB ⟨0, none, none⟩ b.dropLast).2
        = some .ErrUnexpectedEOF) ∧
    (∀ (m : GetBlockResultsResponse Event Tx VU CP) (b : List Byte), -2 ^ 63 ≤ m.Height →
      m.Height < 2 ^ 63 → m.Marshal cE cT cV cP = .ok b → b.length < 2 ^ 63 → b ≠ [] →
      (GetBlockResultsResponse.Unmarshal cE cT cV cP ⟨0, [], [], [], none, []⟩ b.dropLast).2
        = some .ErrUnexpectedEOF) := by
  refine ⟨?_, ?_, ?_, ?_, ?_, ?_⟩
  · intro m b hb hne
    exact absurd (ok_inj_bytes hb).symm hne
  · intro m b h1 h2 hb hne
    rw [GetLatestHeightResponse_Marshal_eq] at hb
    have := ok_inj_bytes hb
    subst this
    exact GetLatestHeightResponse_Unmarshal_truncated m.Height h1 h2 hne
  · intro m b h1 h2 hb hne
    rw [GetBlockRequest_Marshal_eq] at hb
    have := ok_inj_bytes hb
    subst this
    exact GetBlockRequest_Unmarshal_truncated m.Height h1 h2 hne
  · intro m b h1 h2 hb hne
    rw [GetBlockResultsRequest_Marshal_eq] at hb
    have := ok_inj_bytes hb
    subst this
    exact GetBlockResultsRequest_Unmarshal_truncated m.Height h1 h2 hne
  · intro m b h1 h2 hb hl hne
    rw [GetBlockResponse_Marshal_eq cId cB encId encB wId wB] at hb
    have := ok_inj_bytes hb
    subst this
    exact GetBlockResponse_Unmarshal_truncated cId cB encId encB aId aB m h1 h2 hl hne
  · intro m b h1 h2 hb hl hne
    rw [GetBlockResultsResponse_Marshal_eq cE cT cV cP encE encT encV encP wE wT wV wP] at hb
    have := ok_inj_bytes hb
    subst this
    exact GetBlockResultsResponse_Unmarshal_truncated cE cT cV cP encE encT encV encP
      aE aT aV aP m h1 h2 hl hne

/-- C7, at a `GetBlockResponse` of height 300 with a present `BlockId`: the encoding
`[0x08, 0xac, 0x02, 0x12, 0x01, 0x2a]` without its last byte is rejected. -/
theorem truncated_encoding_rejected_witness :
    (GetBlockResponse.mk 300 (some (0x2a : Byte)) (none : Option Byte)).Marshal
        byteCodec byteCodec = .ok [0x08, 0xac, 0x02, 0x12, 0x01, 0x2a] ∧
    (GetBlockResponse.Unmarshal byteCodec byteCodec ⟨0, none, none⟩
        [0x08, 0xac, 0x02, 0x12, 0x01]).2 = some .ErrUnexpectedEOF :=
  ⟨by decide,
    (truncated_encoding_rejected byteCodec byteCodec byteCodec byteCodec byteCodec byteCodec
      byteEnc byteEnc byteEnc byteEnc byteEnc byteEnc byteCodec_writesSize
      byteCodec_writesSize byteCodec_writesSize byteCodec_writesSize byteCodec_writesSize
      byteCodec_writesSize byteCodec_accepts byteCodec_accepts byteCodec_accepts
      byteCodec_accepts byteCodec_accepts byteCodec_accepts).2.2.2.2.1
      ⟨300, some 0x2a, none⟩ [0x08, 0xac, 0x02, 0x12, 0x01, 0x2a]
      (by decide) (by decide) (by decide) (by decide) (by decide)⟩


/-- A height field followed by one unknown length-delimited field that ends the input. -/
theorem unmarshal_height_then_unknown {M : Type} (name : MsgName)
    (field : M → Int → Nat → List Byte → Nat → Option (FieldResult M))
    (setHeight : M → Int → M)
    (hfield : ∀ m wt d i, field m 1 wt d i = some (heightCase setHeight m wt d i))
    (f : Nat) (hf1 : 1 ≤ f) (hf2 : f ≤ 2 ^ 29 - 1)
    (hnone : ∀ m wt d i, field m (f : Int) wt d i = none)
    (m0 : M) (h : Int) (h1 : -2 ^ 63 ≤ h) (h2 : h < 2 ^ 63) (h0 : h = 0 → setHeight m0 h = m0)
    (p : List Byte)
    (hl : (wireHeight h ++ varint ((f <<< 3) ||| 2) ++ varint p.length ++ p).length < 2 ^ 63) :
    unmarshalLoop name field (wireHeight h ++ varint ((f <<< 3) ||| 2) ++ varint p.length ++ p)
      (wireHeight h ++ varint ((f <<< 3) ||| 2) ++ varint p.length ++ p).length m0 0
      = (setHeight m0 h, none) := by
  have c := chain_height name field setHeight hfield m0 h h1 h2 h0
  have r1 := c.reaches (wireHeight h ++ varint ((f <<< 3) ||| 2) ++ varint p.length ++ p) []
    (varint ((f <<< 3) ||| 2) ++ varint p.length ++ p)
    (by rw [concat_itemsHeight]; simp) hl
  rw [concat_itemsHeight] at r1
  have r2 := Reaches.skip name field
    (wireHeight h ++ varint ((f <<< 3) ||| 2) ++ varint p.length ++ p) (setHeight m0 h)
    (wireHeight h) p [] f hf1 hf2 (by simp) hl hnone
  simp only [List.length_nil, Nat.zero_add] at r1
  have r := r1.trans r2
  have hidx : (wireHeight h).length + (varint ((f <<< 3) ||| 2) ++ varint p.length ++ p).length
      = (wireHeight h ++ varint ((f <<< 3) ||| 2) ++ varint p.length ++ p).length := by
    simp only [List.length_append]; omega
  rw [hidx] at r
  exact r.unmarshal_end

theorem heightOnly_field_none {M : Type} (setHeight : M → Int → M) (f : Nat) (hf : 1 < f)
    (m : M) (wt : Nat) (d : List Byte) (i : Nat) :
    (if (f : Int) = 1 then some (heightCase setHeight m wt d i) else none) = none := by
  rw [if_neg (by omega)]

theorem GetBlockResponse_Marshal_height {BlockID Blk : Type} (cId : Codec BlockID)
    (cB : Codec Blk) (h : Int) :
    (GetBlockResponse.mk h none none).Marshal cId cB = .ok (wireHeight h) := by
  have := heightOnly_marshal h
  simpa [GetBlockResponse.Marshal, GetBlockResponse.MarshalToSizedBuffer, GetBlockResponse.Size,
    marshalOptional, andThen, sizeOptional] using this

theorem GetBlockResultsResponse_Marshal_height {Event Tx VU CP : Type} (cE : Codec Event)
    (cT : Codec Tx) (cV : Codec VU) (cP : Codec CP) (h : Int) :
    (GetBlockResultsResponse.mk h [] [] [] none []).Marshal cE cT cV cP
      = .ok (wireHeight h) := by
  have := heightOnly_marshal h
  simpa [GetBlockResultsResponse.Marshal, GetBlockResultsResponse.MarshalToSizedBuffer,
    GetBlockResultsResponse.Size, marshalOptional, marshalRepeated, marshalEach, andThen,
    sizeOptional, sizeRepeated] using this

/-- C8. For every height-carrying message type, every 64-bit height `h`, every field number
`f` that the type does not recognise with `f` in the valid range (largest recognised
number `< f <= 2^29 - 1`) and every payload `p` (the input being a byte slice, of length
below `2^63`): `Unmarshal` into a fresh message of
`Marshal({Height: h}) ++ varint((f << 3) | 2) ++ varint(len p) ++ p` returns `nil`, and the
decoded `Height` equals `h` (the other fields stay nil). -/
theorem unknown_field_skipped {BlockID Blk Event Tx VU CP : Type}
    (cId : Codec BlockID) (cB : Codec Blk) (cE : Codec Event) (cT : Codec Tx)
    (cV : Codec VU) (cP : Codec CP)
    (h : Int) (h1 : -2 ^ 63 ≤ h) (h2 : h < 2 ^ 63) (f : Nat) (hf : f ≤ 2 ^ 29 - 1)
    (p : List Byte)
    (hl : (wireHeight h ++ varint ((f <<< 3) ||| 2) ++ varint p.length ++ p).length < 2 ^ 63) :
    (1 < f → ∃ b, (GetLatestHeightResponse.mk h).Marshal = .ok b ∧
      GetLatestHeightResponse.Unmarshal ⟨0⟩
        (b ++ varint ((f <<< 3) ||| 2) ++ varint p.length ++ p) = (⟨h⟩, none)) ∧
    (1 < f → ∃ b, (GetBlockRequest.mk h).Marshal = .ok b ∧
      GetBlockRequest.Unmarshal ⟨0⟩
        (b ++ varint ((f <<< 3) ||| 2) ++ varint p.length ++ p) = (⟨h⟩, none)) ∧
    (1 < f → ∃ b, (GetBlockResultsRequest.mk h).Marshal = .ok b ∧
      GetBlockResultsRequest.Unmarshal ⟨0⟩
        (b ++ varint ((f <<< 3) ||| 2) ++ varint p.length ++ p) = (⟨h⟩, none)) ∧
    (3 < f → ∃ b, (GetBlockResponse.mk h none none).Marshal cId cB = .ok b ∧
      GetBlockResponse.Unmarshal cId cB ⟨0, none, none⟩
        (b ++ varint ((f <<< 3) ||| 2) ++ varint p.length ++ p) = (⟨h, none, none⟩, none)) ∧
    (6 < f → ∃ b, (GetBlockResultsResponse.mk h [] [] [] none []).Marshal cE cT cV cP = .ok b ∧
      GetBlockResultsResponse.Unmarshal cE cT cV cP ⟨0, [], [], [], none, []⟩
        (b ++ varint ((f <<< 3) ||| 2) ++ varint p.length ++ p)
        = (⟨h, [], [], [], none, []⟩, none)) := by
  refine ⟨?_, ?_, ?_, ?_, ?_⟩
  · intro hf1
    refine ⟨wireHeight h, GetLatestHeightResponse_Marshal_eq ⟨h⟩, ?_⟩
    exact unmarshal_height_then_unknown .GetLatestHeightResponse GetLatestHeightResponse.field
      (fun (m : GetLatestHeightResponse) (h : Int) => { m with Height := h })
      (fun _ _ _ _ => rfl) f (by omega) hf
      (fun m wt d i => by
        unfold GetLatestHeightResponse.field; rw [if_neg (by omega)])
      ⟨0⟩ h h1 h2 (fun h0 => by rw [h0]) p hl
  · intro hf1
    refine ⟨wireHeight h, GetBlockRequest_Marshal_eq ⟨h⟩, ?_⟩
    exact unmarshal_height_then_unknown .GetBlockRequest GetBlockRequest.field
      (fun (m : GetBlockRequest) (h : Int) => { m with Height := h })
      (fun _ _ _ _ => rfl) f (by omega) hf
      (fun m wt d i => by
        unfold GetBlockRequest.field; rw [if_neg (by omega)])
      ⟨0⟩ h h1 h2 (fun h0 => by rw [h0]) p hl
  · intro hf1
    refine ⟨wireHeight h, GetBlockResultsRequest_Marshal_eq ⟨h⟩, ?_⟩
    exact unmarshal_height_then_unknown .GetBlockResultsRequest GetBlockResultsRequest.field
      (fun (m : GetBlockResultsRequest) (h : Int) => { m with Height := h })
      (fun _ _ _ _ => rfl) f (by omega) hf
      (fun m wt d i => by
        unfold GetBlockResultsRequest.field; rw [if_neg (by omega)])
      ⟨0⟩ h h1 h2 (fun h0 => by rw [h0]) p hl
  · intro hf1
    refine ⟨wireHeight h, GetBlockResponse_Marshal_height cId cB h, ?_⟩
    exact unmarshal_height_then_unknown .GetBlockResponse (GetBlockResponse.field cId cB)
      (fun (m : GetBlockResponse BlockID Blk) (h : Int) => { m with Height := h })
      (fun _ _ _ _ => rfl) f (by omega) hf
      (fun m wt d i => by
        unfold GetBlockResponse.field
        rw [if_neg (by omega), if_neg (by omega), if_neg (by omega)])
      ⟨0, none, none⟩ h h1 h2 (fun h0 => by rw [h0]) p hl
  · intro hf1
    refine ⟨wireHeight h, GetBlockResultsResponse_Marshal_height cE cT cV cP h, ?_⟩
    exact unmarshal_height_then_unknown .GetBlockResultsResponse
      (GetBlockResultsResponse.field cE cT cV cP)
      (fun (m : GetBlockResultsResponse Event Tx VU CP) (h : Int) => { m with Height := h })
      (fun _ _ _ _ => rfl) f (by omega) hf
      (fun m wt d i => by
        unfold GetBlockResultsResponse.field
        rw [if_neg (by omega), if_neg (by omega), if_neg (by omega), if_neg (by omega),
          if_neg (by omega), if_neg (by omega)])
      ⟨0, [], [], [], none, []⟩ h h1 h2 (fun h0 => by rw [h0]) p hl

/-- C8, at height 5, the unknown field number 15 and the payload `[1, 2, 3]`: the input is
`[0x08, 0x05, 0x7a, 0x03, 1, 2, 3]`. -/
theorem unknown_field_skipped_witness :
    GetBlockRequest.Unmarshal ⟨0⟩ [0x08, 0x05, 0x7a, 0x03, 1, 2, 3] = (⟨5⟩, none) := by
  obtain ⟨b, hb, hu⟩ := (unknown_field_skipped byteCodec byteCodec byteCodec byteCodec
    byteCodec byteCodec 5 (by decide) (by decide) 15 (by decide) [1, 2, 3]
    (by decide)).2.1 (by decide)
  have hb5 : (GetBlockRequest.mk 5).Marshal = .ok [0x08, 0x05] := by decide
  rw [hb5] at hb
  cases hb
  exact hu


/-- C9, as stated, fails. With the generated `GetBlockRequest` codec of this file standing
for the nested message type, the accepted input `[0x12, 0x02, 0x08, 0x05, 0x12, 0x00]`
holds field 2 twice, first with the payload `[0x08, 0x05]` (height 5) and last with the
empty payload. The resulting `BlockId` has height 5, whereas the nested message decoded
from the last payload alone has height 0. -/
theorem singular_field_last_one_wins_counterexample :
    GetBlockResponse.Unmarshal GetBlockRequest.codec GetBlockRequest.codec ⟨0, none, none⟩
        [0x12, 0x02, 0x08, 0x05, 0x12, 0x00] = (⟨0, some ⟨5⟩, none⟩, none) ∧
    GetBlockRequest.codec.Unmarshal GetBlockRequest.codec.zero [] = (⟨0⟩, none) ∧
    (GetBlockResponse.Unmarshal GetBlockRequest.codec GetBlockRequest.codec ⟨0, none, none⟩
        [0x12, 0x02, 0x08, 0x05, 0x12, 0x00]).1.BlockId
      ≠ some (GetBlockRequest.codec.Unmarshal GetBlockRequest.codec.zero []).1 := by
  decide

/-- Two occurrences of one singular nested-message field, decoded into a receiver whose
field is nil. -/
theorem unmarshal_singular_twice {M α : Type} (name : MsgName)
    (field : M → Int → Nat → List Byte → Nat → Option (FieldResult M))
    (c : Codec α) (fname : FieldName) (get : M → Option α) (set : M → Option α → M)
    (f : Nat) (hf1 : 1 ≤ f) (hf2 : f < 16)
    (hfield : ∀ m wt d i, field m (f : Int) wt d i
      = some (singularCase c fname get set m wt d i))
    (hgs : ∀ m v, get (set m v) = v) (hss : ∀ m a b, set (set m a) b = set m b)
    (m : M) (hget : get m = none) (p1 p2 : List Byte) (v1 v2 : α)
    (hv1 : c.Unmarshal c.zero p1 = (v1, none)) (hv2 : c.Unmarshal v1 p2 = (v2, none))
    (hl : (wireNested (Fin.ofNat (8 * f + 2)) p1
      ++ wireNested (Fin.ofNat (8 * f + 2)) p2).length < 2 ^ 63) :
    unmarshalLoop name field
      (wireNested (Fin.ofNat (8 * f + 2)) p1 ++ wireNested (Fin.ofNat (8 * f + 2)) p2)
      (wireNested (Fin.ofNat (8 * f + 2)) p1 ++ wireNested (Fin.ofNat (8 * f + 2)) p2).length
      m 0 = (set m (some v2), none) := by
  have i1 := item_singular name field c fname get set f hf1 hf2 hfield m p1 v1
    (by rw [hget]; exact hv1)
  have i2 := item_singular name field c fname get set f hf1 hf2 hfield (set m (some v1)) p2 v2
    (by rw [hgs]; exact hv2)
  rw [hss] at i2
  have ch := Chain.cons i1 (Chain.cons i2 (Chain.nil _))
  have := ch.unmarshal_concat (by simpa [concat] using hl)
  simpa [concat] using this

/-- C9, amended. For `GetBlockResponse` (fields 2 = `BlockId`, 3 = `Block`) and
`GetBlockResultsResponse` (field 5 = `ConsensusParamUpdates`), an input made of two
occurrences of the singular nested-message field, decoded into a fresh message: the nested
value is allocated on the first occurrence only, and the second occurrence is merged into
the value decoded from the first. With `v1` the nested `Unmarshal` of the first payload into
a fresh nested value and `v2` the nested `Unmarshal` of the last payload into `v1`, the
resulting field is `v2`. -/
theorem singular_field_second_occurrence_merges {BlockID Blk Event Tx VU CP : Type}
    (cId : Codec BlockID) (cB : Codec Blk) (cE : Codec Event) (cT : Codec Tx)
    (cV : Codec VU) (cP : Codec CP) (p1 p2 : List Byte)
    (hl : (wireNested 0x12 p1 ++ wireNested 0x12 p2).length < 2 ^ 63) :
    (∀ v1 v2, cId.Unmarshal cId.zero p1 = (v1, none) → cId.Unmarshal v1 p2 = (v2, none) →
      GetBlockResponse.Unmarshal cId cB ⟨0, none, none⟩
        (wireNested 0x12 p1 ++ wireNested 0x12 p2) = (⟨0, some v2, none⟩, none)) ∧
    (∀ v1 v2, cB.Unmarshal cB.zero p1 = (v1, none) → cB.Unmarshal v1 p2 = (v2, none) →
      GetBlockResponse.Unmarshal cId cB ⟨0, none, none⟩
        (wireNested 0x1a p1 ++ wireNested 0x1a p2) = (⟨0, none, some v2⟩, none)) ∧
    (∀ v1 v2, cP.Unmarshal cP.zero p1 = (v1, none) → cP.Unmarshal v1 p2 = (v2, none) →
      GetBlockResultsResponse.Unmarshal cE cT cV cP ⟨0, [], [], [], none, []⟩
        (wireNested 0x2a p1 ++ wireNested 0x2a p2)
        = (⟨0, [], [], [], some v2, []⟩, none)) := by
  have hlen : ∀ t : Byte, (wireNested t p1 ++ wireNested t p2).length
      = (wireNested 0x12 p1 ++ wireNested 0x12 p2).length := by
    intro t; simp [wireNested]
  refine ⟨?_, ?_, ?_⟩
  · intro v1 v2 hv1 hv2
    exact unmarshal_singular_twice .GetBlockResponse (GetBlockResponse.field cId cB) cId
      .BlockId (fun m => m.BlockId) (fun m v => { m with BlockId := v }) 2 (by norm_num)
      (by norm_num) (fun _ _ _ _ => rfl) (fun _ _ => rfl) (fun _ _ _ => rfl)
      ⟨0, none, none⟩ rfl p1 p2 v1 v2 hv1 hv2 hl
  · intro v1 v2 hv1 hv2
    exact unmarshal_singular_twice .GetBlockResponse (GetBlockResponse.field cId cB) cB
      .Block (fun m => m.Block) (fun m v => { m with Block := v }) 3 (by norm_num)
      (by norm_num) (fun _ _ _ _ => rfl) (fun _ _ => rfl) (fun _ _ _ => rfl)
      ⟨0, none, none⟩ rfl p1 p2 v1 v2 hv1 hv2 (by rw [← hlen 0x1a] at hl; exact hl)
  · intro v1 v2 hv1 hv2
    exact unmarshal_singular_twice .GetBlockResultsResponse
      (GetBlockResultsResponse.field cE cT cV cP) cP
      .ConsensusParamUpdates (fun m => m.ConsensusParamUpdates)
      (fun m v => { m with ConsensusParamUpdates := v }) 5 (by norm_num)
      (by norm_num) (fun _ _ _ _ => rfl) (fun _ _ => rfl) (fun _ _ _ => rfl)
      ⟨0, [], [], [], none, []⟩ rfl p1 p2 v1 v2 hv1 hv2 (by rw [← hlen 0x2a] at hl; exact hl)

/-- C9 amended, at the input of the counterexample: the first payload gives height 5 and
the empty last payload, merged into it, leaves height 5. -/
theorem singular_field_second_occurrence_merges_witness :
    GetBlockResponse.Unmarshal GetBlockRequest.codec GetBlockRequest.codec ⟨0, none, none⟩
        (wireNested 0x12 [0x08, 0x05] ++ wireNested 0x12 []) = (⟨0, some ⟨5⟩, none⟩, none) :=
  (singular_field_second_occurrence_merges GetBlockRequest.codec GetBlockRequest.codec
    byteCodec byteCodec byteCodec byteCodec [0x08, 0x05] [] (by decide)).1 ⟨5⟩ ⟨5⟩
    (by decide) (by decide)


theorem writeByte_neg (dAtA : List Byte) (i : Int) (b : Byte) (hi : i < 0) :
    writeByte dAtA i b = .error .runtimePanic := by
  unfold writeByte
  rw [if_neg (by omega)]

theorem encodeVarintLoop_neg (fuel : Nat) (dAtA : List Byte) (i : Int) (v : Nat) (hi : i < 0) :
    encodeVarintLoop (fuel + 1) dAtA i v = .error .runtimePanic := by
  unfold encodeVarintLoop
  by_cases h : v ≥ 1 <<< 7
  · rw [if_pos h, writeByte_neg _ _ _ hi]
  · rw [if_neg h, writeByte_neg _ _ _ hi]

/-- The height block run on a buffer with fewer bytes than it writes panics. -/
theorem marshalHeight_short (h : Int) (buf : List Byte) (hs : buf.length < sizeHeight h) :
    marshalHeight h buf (buf.length : Nat) = .error .runtimePanic := by
  unfold sizeHeight at hs
  by_cases h0 : h = 0
  · rw [if_neg (by simpa using h0)] at hs; omega
  · rw [if_pos h0] at hs
    unfold marshalHeight
    rw [if_pos h0]
    by_cases hlt : buf.length < sovBlock (uint64 h)
    · unfold encodeVarintBlock
      simp only
      rw [encodeVarintLoop_neg 9 buf _ _ (by omega)]
    · have heq : buf.length = sovBlock (uint64 h) := by omega
      rw [encodeVarintBlock_at (uint64 h) (uint64_lt h) buf _ [] buf [] (by simp) (by simp) heq]
      simp only
      rw [writeByte_neg _ _ _ (by simp)]

/-- C10, as stated, fails on `GetBlockResponse{Height: 5}`, whose size is 2. With a buffer
of 3 bytes `MarshalToSizedBuffer` returns no error: it writes the last 2 bytes and returns
2, which is not the length of the buffer. With a buffer of 1 byte it returns no error value
either: the write `dAtA[i]` at a negative index panics. -/
theorem marshalToSizedBuffer_no_buffer_error :
    (GetBlockResponse.mk 5 (none : Option Byte) (none : Option Byte)).Size
        byteCodec byteCodec = 2 ∧
    (GetBlockResponse.mk 5 (none : Option Byte) (none : Option Byte)).MarshalToSizedBuffer
        byteCodec byteCodec [0, 0, 0] = .ok ([0, 0x08, 0x05], 2) ∧
    (GetBlockResponse.mk 5 (none : Option Byte) (none : Option Byte)).MarshalToSizedBuffer
        byteCodec byteCodec [0] = .error .runtimePanic := by
  decide

/-- C10, amended. `MarshalToSizedBuffer(m, buffer)` with `len(buffer) >= Size(m)` returns
without error `Size(m)`, the number of bytes written, which equals `len(buffer)` when
`len(buffer) = Size(m)`; the encoding fills the last `Size(m)` bytes and the bytes before
them are left as they were (nested codecs are assumed to write exactly their `Size()`
bytes). No buffer-size error exists: for a message whose nested fields are nil, a buffer
shorter than `Size(m)` ends in a run-time panic, not in an error value. -/
theorem marshalToSizedBuffer_buffer_lengths {BlockID Blk : Type} (cId : Codec BlockID)
    (cB : Codec Blk) (encId : BlockID → List Byte) (encB : Blk → List Byte)
    (wId : cId.WritesSize encId) (wB : cB.WritesSize encB) :
    (∀ (m : GetBlockResponse BlockID Blk) (buf : List Byte), m.Size cId cB ≤ buf.length →
      m.MarshalToSizedBuffer cId cB buf
        = .ok (buf.take (buf.length - m.Size cId cB) ++ m.wire encId encB, m.Size cId cB)) ∧
    (∀ (m : GetBlockResponse BlockID Blk) (buf : List Byte), buf.length = m.Size cId cB →
      m.MarshalToSizedBuffer cId cB buf = .ok (m.wire encId encB, buf.length)) ∧
    (∀ (h : Int) (buf : List Byte),
      buf.length < (GetBlockResponse.mk h (none : Option BlockID) (none : Option Blk)).Size
        cId cB →
      (GetBlockResponse.mk h (none : Option BlockID) (none : Option Blk)).MarshalToSizedBuffer
        cId cB buf = .error .runtimePanic) := by
  refine ⟨?_, ?_, ?_⟩
  · intro m buf hle
    have h := GetBlockResponse_MarshalToSizedBuffer_eq cId cB encId encB wId wB m
      (buf.take (buf.length - m.Size cId cB)) (buf.drop (buf.length - m.Size cId cB))
      (by simp; omega)
    rw [List.take_append_drop] at h
    exact h
  · intro m buf heq
    have h := GetBlockResponse_MarshalToSizedBuffer_eq cId cB encId encB wId wB m [] buf heq
    rw [heq]
    simpa using h
  · intro h buf hlt
    have hs : buf.length < sizeHeight h := by
      simpa [GetBlockResponse.Size, sizeOptional] using hlt
    have := marshalHeight_short h buf hs
    simp only [GetBlockResponse.MarshalToSizedBuffer, marshalOptional, andThen, this,
      marshalReturn]

/-- C10 amended, at `GetBlockResponse{Height: 5, BlockId: present}` (size 5) and a buffer
of 7 bytes: the first two bytes stay, the last five hold the encoding. -/
theorem marshalToSizedBuffer_buffer_lengths_witness :
    (GetBlockResponse.mk 5 (some (0x2a : Byte)) (none : Option Byte)).MarshalToSizedBuffer
        byteCodec byteCodec [9, 9, 9, 9, 9, 9, 9]
      = .ok ([9, 9, 0x08, 0x05, 0x12, 0x01, 0x2a], 5) := by
  have h := (marshalToSizedBuffer_buffer_lengths byteCodec byteCodec byteEnc byteEnc
    byteCodec_writesSize byteCodec_writesSize).1 ⟨5, some 0x2a, none⟩
    [9, 9, 9, 9, 9, 9, 9] (by decide)
  rw [h]
  decide


/-! ## Default values and optional fields -/

theorem emptyCodec_writesSize : GetLatestHeightRequest.codec.WritesSize emptyEnc := by
  refine ⟨fun _ => rfl, fun _ => by simp [GetLatestHeightRequest.codec, GetLatestHeightRequest.Size], ?_⟩
  intro x pre mid hm
  have : mid = [] := List.length_eq_zero.mp hm
  subst this
  simp [GetLatestHeightRequest.codec, GetLatestHeightRequest.MarshalToSizedBuffer,
    marshalReturn, GetLatestHeightRequest.Size, emptyEnc]

theorem wireHeight_zero : wireHeight 0 = [] := rfl

theorem wireNested_empty (tag : Byte) : wireNested tag [] = [tag, 0x00] := by
  simp [wireNested, varint_of_lt]
  rfl

/-- C11, as stated, fails for a nested field that is present and empty. With the generated
`GetBlockRequest` codec of this file standing for the nested message type, the `BlockId`
`{Height: 0}` has an empty encoding of size 0, yet `GetBlockResponse{BlockId: {}}` has size
2 and is encoded as `[0x12, 0x00]`. -/
theorem empty_nested_field_not_elided :
    GetBlockRequest.codec.Size ⟨0⟩ = 0 ∧
    (GetBlockRequest.mk 0).Marshal = .ok [] ∧
    (GetBlockResponse.mk 0 (some (GetBlockRequest.mk 0)) (none : Option GetBlockRequest)).Size
        GetBlockRequest.codec GetBlockRequest.codec = 2 ∧
    (GetBlockResponse.mk 0 (some (GetBlockRequest.mk 0)) (none : Option GetBlockRequest)).Marshal
        GetBlockRequest.codec GetBlockRequest.codec = .ok [0x12, 0x00] := by
  decide

/-- C11, amended. A `Height` equal to 0 and an optional nested field (`BlockId`, `Block`,
`ConsensusParamUpdates`) that is absent (nil) each contribute 0 bytes to `Size()` and to
the output of `Marshal`: the encoding is that of the remaining fields alone, and `Size()`
is its length; `GetLatestHeightRequest` always has size 0 and encodes to zero bytes.
Nested codecs are assumed to write exactly their `Size()` bytes. -/
theorem default_fields_elided {BlockID Blk Event Tx VU CP : Type}
    (cId : Codec BlockID) (cB : Codec Blk) (cE : Codec Event) (cT : Codec Tx)
    (cV : Codec VU) (cP : Codec CP)
    (encId : BlockID → List Byte) (encB : Blk → List Byte) (encE : Event → List Byte)
    (encT : Tx → List Byte) (encV : VU → List Byte) (encP : CP → List Byte)
    (wId : cId.WritesSize encId) (wB : cB.WritesSize encB) (wE : cE.WritesSize encE)
    (wT : cT.WritesSize encT) (wV : cV.WritesSize encV) (wP : cP.WritesSize encP) :
    (∀ m : GetLatestHeightRequest, m.Size = 0 ∧ m.Marshal = .ok []) ∧
    ((GetLatestHeightResponse.mk 0).Size = 0 ∧ (GetLatestHeightResponse.mk 0).Marshal = .ok []) ∧
    ((GetBlockRequest.mk 0).Size = 0 ∧ (GetBlockRequest.mk 0).Marshal = .ok []) ∧
    ((GetBlockResultsRequest.mk 0).Size = 0 ∧ (GetBlockResultsRequest.mk 0).Marshal = .ok []) ∧
    (∀ x y, (GetBlockResponse.mk 0 x y).Marshal cId cB
        = .ok (wireOptional 0x12 encId x ++ wireOptional 0x1a encB y) ∧
      (GetBlockResponse.mk 0 x y).Size cId cB
        = (wireOptional 0x12 encId x ++ wireOptional 0x1a encB y).length) ∧
    (∀ h y, (GetBlockResponse.mk h none y).Marshal cId cB
        = .ok (wireHeight h ++ wireOptional 0x1a encB y) ∧
      (GetBlockResponse.mk h none y).Size cId cB
        = (wireHeight h ++ wireOptional 0x1a encB y).length) ∧
    (∀ h x, (GetBlockResponse.mk h x none).Marshal cId cB
        = .ok (wireHeight h ++ wireOptional 0x12 encId x) ∧
      (GetBlockResponse.mk h x none).Size cId cB
        = (wireHeight h ++ wireOptional 0x12 encId x).length) ∧
    (∀ h bs ts vs es, (GetBlockResultsResponse.mk h bs ts vs none es).Marshal cE cT cV cP
        = .ok (wireHeight h ++ (wireRepeated 0x12 encE bs ++ (wireRepeated 0x1a encT ts
            ++ (wireRepeated 0x22 encV vs ++ wireRepeated 0x32 encE es)))) ∧
      (GetBlockResultsResponse.mk h bs ts vs none es).Size cE cT cV cP
        = (wireHeight h ++ (wireRepeated 0x12 encE bs ++ (wireRepeated 0x1a encT ts
            ++ (wireRepeated 0x22 encV vs ++ wireRepeated 0x32 encE es)))).length) ∧
    (∀ bs ts vs p es, (GetBlockResultsResponse.mk 0 bs ts vs p es).Marshal cE cT cV cP
        = .ok (wireRepeated 0x12 encE bs ++ (wireRepeated 0x1a encT ts
            ++ (wireRepeated 0x22 encV vs ++ (wireOptional 0x2a encP p
            ++ wireRepeated 0x32 encE es)))) ∧
      (GetBlockResultsResponse.mk 0 bs ts vs p es).Size cE cT cV cP
        = (wireRepeated 0x12 encE bs ++ (wireRepeated 0x1a encT ts
            ++ (wireRepeated 0x22 encV vs ++ (wireOptional 0x2a encP p
            ++ wireRepeated 0x32 encE es)))).length) := by
  refine ⟨fun m => ⟨rfl, rfl⟩, ⟨rfl, by decide⟩, ⟨rfl, by decide⟩, ⟨rfl, by decide⟩,
    ?_, ?_, ?_, ?_, ?_⟩
  · intro x y
    rw [GetBlockResponse_Marshal_eq cId cB encId encB wId wB,
      GetBlockResponse_Size_eq cId cB encId encB wId wB]
    simp [GetBlockResponse.wire, wireHeight]
  · intro h y
    rw [GetBlockResponse_Marshal_eq cId cB encId encB wId wB,
      GetBlockResponse_Size_eq cId cB encId encB wId wB]
    simp [GetBlockResponse.wire, wireOptional]
  · intro h x
    rw [GetBlockResponse_Marshal_eq cId cB encId encB wId wB,
      GetBlockResponse_Size_eq cId cB encId encB wId wB]
    simp [GetBlockResponse.wire, wireOptional]
  · intro h bs ts vs es
    rw [GetBlockResultsResponse_Marshal_eq cE cT cV cP encE encT encV encP wE wT wV wP,
      GetBlockResultsResponse_Size_eq cE cT cV cP encE encT encV encP wE wT wV wP]
    simp [GetBlockResultsResponse.wire, wireOptional]
  · intro bs ts vs p es
    rw [GetBlockResultsResponse_Marshal_eq cE cT cV cP encE encT encV encP wE wT wV wP,
      GetBlockResultsResponse_Size_eq cE cT cV cP encE encT encV encP wE wT wV wP]
    simp [GetBlockResultsResponse.wire, wireHeight]

/-- C11 amended, at `GetBlockResponse{Height: 0, Block: present}`: only the three bytes of
field 3 are written. -/
theorem default_fields_elided_witness :
    (GetBlockResponse.mk 0 (none : Option Byte) (some (7 : Byte))).Marshal byteCodec byteCodec
      = .ok [0x1a, 0x01, 0x07] := by
  have h := ((default_fields_elided byteCodec byteCodec byteCodec byteCodec byteCodec
    byteCodec byteEnc byteEnc byteEnc byteEnc byteEnc byteEnc byteCodec_writesSize
    byteCodec_writesSize byteCodec_writesSize byteCodec_writesSize byteCodec_writesSize
    byteCodec_writesSize).2.2.2.2.1 none (some 7)).1
  rw [h]
  decide

/-- C12. For `GetBlockResponse`, assuming the nested codecs write exactly their `Size()`
bytes: the encoding is the bytes of `Height`, then bytes that depend on `BlockId` alone,
then bytes that depend on `Block` alone; a nil `BlockId` (resp. `Block`) contributes no
bytes, and a present one whose own encoding is empty contributes exactly `[0x12, 0x00]`
(resp. `[0x1a, 0x00]`), so absence is encoded as omission and not as an empty nested
record. -/
theorem optional_fields_independent {BlockID Blk : Type} (cId : Codec BlockID) (cB : Codec Blk)
    (encId : BlockID → List Byte) (encB : Blk → List Byte)
    (wId : cId.WritesSize encId) (wB : cB.WritesSize encB) :
    (∀ m : GetBlockResponse BlockID Blk, m.Marshal cId cB
      = .ok (wireHeight m.Height
          ++ (wireOptional 0x12 encId m.BlockId ++ wireOptional 0x1a encB m.Block))) ∧
    wireOptional 0x12 encId none = [] ∧ wireOptional 0x1a encB none = [] ∧
    (∀ x, encId x = [] → wireOptional 0x12 encId (some x) = [0x12, 0x00]) ∧
    (∀ y, encB y = [] → wireOptional 0x1a encB (some y) = [0x1a, 0x00]) ∧
    (∀ h y, encB y = [] →
      (GetBlockResponse.mk h none (some y)).Marshal cId cB = .ok (wireHeight h ++ [0x1a, 0x00])) ∧
    (∀ h x, encId x = [] →
      (GetBlockResponse.mk h (some x) none).Marshal cId cB = .ok (wireHeight h ++ [0x12, 0x00])) ∧
    (∀ h x y, encId x = [] → encB y = [] →
      (GetBlockResponse.mk h (some x) (some y)).Marshal cId cB
        = .ok (wireHeight h ++ [0x12, 0x00, 0x1a, 0x00])) := by
  have hm := GetBlockResponse_Marshal_eq cId cB encId encB wId wB
  refine ⟨fun m => hm m, rfl, rfl, ?_, ?_, ?_, ?_, ?_⟩
  · intro x hx
    simp only [wireOptional, hx, wireNested_empty]
  · intro y hy
    simp only [wireOptional, hy, wireNested_empty]
  · intro h y hy
    rw [hm]
    simp [GetBlockResponse.wire, wireOptional, hy, wireNested_empty]
  · intro h x hx
    rw [hm]
    simp [GetBlockResponse.wire, wireOptional, hx, wireNested_empty]
  · intro h x y hx hy
    rw [hm]
    simp [GetBlockResponse.wire, wireOptional, hx, hy, wireNested_empty]

/-- C12, with the empty message `GetLatestHeightRequest` of this file as the type of
`BlockId`: present and empty, it is written as `[0x12, 0x00]` after the height. -/
theorem optional_fields_independent_witness :
    (GetBlockResponse.mk 5 (some GetLatestHeightRequest.mk) (none : Option Byte)).Marshal
        GetLatestHeightRequest.codec byteCodec = .ok (wireHeight 5 ++ [0x12, 0x00]) :=
  (optional_fields_independent GetLatestHeightRequest.codec byteCodec emptyEnc byteEnc
    emptyCodec_writesSize byteCodec_writesSize).2.2.2.2.2.2.1 5 ⟨⟩ rfl


/-! ## Tag checks -/

/-- An iteration whose tag passes the two checks and selects a `case` that returns an
error returns that error with the receiver the case left. -/
theorem unmarshalLoop_dispatch_err {M : Type} (name : MsgName)
    (field : M → Int → Nat → List Byte → Nat → Option (FieldResult M))
    (dAtA : List Byte) (fuel : Nat) (m : M) (i wire j : Nat) (hi : i < dAtA.length)
    (hr : readVarint dAtA i = ⟨wire, j, none⟩) (hwt : wire &&& 0x7 ≠ 4)
    (hfn : (0 : Int) < int32 (wire >>> 3)) (res : FieldResult M) (e : Error)
    (hf : field m (int32 (wire >>> 3)) (wire &&& 0x7) dAtA j = some res)
    (he : res.err = some e) :
    unmarshalLoop name field dAtA (fuel + 1) m i = (res.m, some e) := by
  rw [unmarshalLoop, if_pos hi]
  simp only [hr]
  rw [if_neg hwt, if_neg (by omega)]
  simp only [hf, he]

/-- A run of the field loop that comes to a cursor inside the input continues with one
iteration there. -/
theorem Reaches.run_eq {M : Type} {name : MsgName}
    {field : M → Int → Nat → List Byte → Nat → Option (FieldResult M)}
    {dAtA : List Byte} {m0 m : M} {i : Nat}
    (h : Reaches name field dAtA m0 0 m i) (hi : i < dAtA.length) :
    ∃ fuel, unmarshalLoop name field dAtA dAtA.length m0 0
      = unmarshalLoop name field dAtA (fuel + 1) m i := by
  obtain ⟨f1, hf1, e1⟩ := h dAtA.length (by omega)
  exact ⟨f1 - 1, by rw [e1, Nat.sub_add_cancel (by omega)]⟩

theorem malformed_tag_iteration {M : Type} (name : MsgName)
    (field : M → Int → Nat → List Byte → Nat → Option (FieldResult M))
    (dAtA : List Byte) (fuel : Nat) (m : M) (i wire j : Nat) (hi : i < dAtA.length)
    (hr : readVarint dAtA i = ⟨wire, j, none⟩) :
    (wire &&& 0x7 = 4 →
      unmarshalLoop name field dAtA (fuel + 1) m i = (m, some (.wiretypeEndGroup name))) ∧
    (wire &&& 0x7 ≠ 4 → int32 (wire >>> 3) ≤ 0 →
      unmarshalLoop name field dAtA (fuel + 1) m i
        = (m, some (.illegalTag name (int32 (wire >>> 3)) wire))) := by
  rw [unmarshalLoop, if_pos hi]
  simp only [hr]
  refine ⟨fun h4 => by rw [if_pos h4], fun h4 h0 => by rw [if_neg h4, if_pos h0]⟩

theorem malformed_tag_run {M : Type} (name : MsgName)
    (field : M → Int → Nat → List Byte → Nat → Option (FieldResult M))
    (dAtA : List Byte) (m0 m : M) (i wire j : Nat)
    (hreach : Reaches name field dAtA m0 0 m i) (hi : i < dAtA.length)
    (hr : readVarint dAtA i = ⟨wire, j, none⟩) :
    (wire &&& 0x7 = 4 →
      unmarshalLoop name field dAtA dAtA.length m0 0 = (m, some (.wiretypeEndGroup name))) ∧
    (wire &&& 0x7 ≠ 4 → int32 (wire >>> 3) ≤ 0 →
      unmarshalLoop name field dAtA dAtA.length m0 0
        = (m, some (.illegalTag name (int32 (wire >>> 3)) wire))) := by
  obtain ⟨fuel, e⟩ := hreach.run_eq hi
  rw [e]
  exact malformed_tag_iteration name field dAtA fuel m i wire j hi hr

/-- C13. For every message type and every input: if a tag read at the top level of
`Unmarshal` (at the start of an iteration of the field loop, receiver `m`, cursor `i`) has
wire type 4, the iteration returns the end-group error at once, and otherwise if its field
number is `<= 0` it returns the illegal-tag error at once; the receiver is left as it was
and neither the `switch` nor `skipBlock` takes part in the result. The same holds for each
of the six `Unmarshal` methods when its run comes to such a tag. -/
theorem malformed_tag_rejected {BlockID Blk Event Tx VU CP : Type}
    (cId : Codec BlockID) (cB : Codec Blk) (cE : Codec Event) (cT : Codec Tx)
    (cV : Codec VU) (cP : Codec CP) (dAtA : List Byte) (i wire j : Nat)
    (hi : i < dAtA.length) (hr : readVarint dAtA i = ⟨wire, j, none⟩)
    (hbad : wire &&& 0x7 = 4 ∨ int32 (wire >>> 3) ≤ 0) :
    (∀ (M : Type) (name : MsgName)
        (field : M → Int → Nat → List Byte → Nat → Option (FieldResult M)) (fuel : Nat) (m : M),
      unmarshalLoop name field dAtA (fuel + 1) m i
        = (m, some (if wire &&& 0x7 = 4 then .wiretypeEndGroup name
            else .illegalTag name (int32 (wire >>> 3)) wire))) ∧
    (∀ m0 m, Reaches .GetLatestHeightRequest GetLatestHeightRequest.field dAtA m0 0 m i →
      GetLatestHeightRequest.Unmarshal m0 dAtA
        = (m, some (if wire &&& 0x7 = 4 then .wiretypeEndGroup .GetLatestHeightRequest
            else .illegalTag .GetLatestHeightRequest (int32 (wire >>> 3)) wire))) ∧
    (∀ m0 m, Reaches .GetLatestHeightResponse GetLatestHeightResponse.field dAtA m0 0 m i →
      GetLatestHeightResponse.Unmarshal m0 dAtA
        = (m, some (if wire &&& 0x7 = 4 then .wiretypeEndGroup .GetLatestHeightResponse
            else .illegalTag .GetLatestHeightResponse (int32 (wire >>> 3)) wire))) ∧
    (∀ m0 m, Reaches .GetBlockRequest GetBlockRequest.field dAtA m0 0 m i →
      GetBlockRequest.Unmarshal m0 dAtA
        = (m, some (if wire &&& 0x7 = 4 then .wiretypeEndGroup .GetBlockRequest
            else .illegalTag .GetBlockRequest (int32 (wire >>> 3)) wire))) ∧
    (∀ m0 m, Reaches .GetBlockResultsRequest GetBlockResultsRequest.field dAtA m0 0 m i →
      GetBlockResultsRequest.Unmarshal m0 dAtA
        = (m, some (if wire &&& 0x7 = 4 then .wiretypeEndGroup .GetBlockResultsRequest
            else .illegalTag .GetBlockResultsRequest (int32 (wire >>> 3)) wire))) ∧
    (∀ m0 m, Reaches .GetBlockResponse (GetBlockResponse.field cId cB) dAtA m0 0 m i →
      GetBlockResponse.Unmarshal cId cB m0 dAtA
        = (m, some (if wire &&& 0x7 = 4 then .wiretypeEndGroup .GetBlockResponse
            else .illegalTag .GetBlockResponse (int32 (wire >>> 3)) wire))) ∧
    (∀ m0 m, Reaches .GetBlockResultsResponse (GetBlockResultsResponse.field cE cT cV cP)
        dAtA m0 0 m i →
      GetBlockResultsResponse.Unmarshal cE cT cV cP m0 dAtA
        = (m, some (if wire &&& 0x7 = 4 then .wiretypeEndGroup .GetBlockResultsResponse
            else .illegalTag .GetBlockResultsResponse (int32 (wire >>> 3)) wire))) := by
  have iter : ∀ (M : Type) (name : MsgName)
      (field : M → Int → Nat → List Byte → Nat → Option (FieldResult M)) (fuel : Nat) (m : M),
      unmarshalLoop name field dAtA (fuel + 1) m i
        = (m, some (if wire &&& 0x7 = 4 then .wiretypeEndGroup name
            else .illegalTag name (int32 (wire >>> 3)) wire)) := by
    intro M name field fuel m
    have h := malformed_tag_iteration name field dAtA fuel m i wire j hi hr
    by_cases h4 : wire &&& 0x7 = 4
    · rw [if_pos h4]; exact h.1 h4
    · rw [if_neg h4]
      rcases hbad with hb | hb
      · exact absurd hb h4
      · exact h.2 h4 hb
  have run : ∀ (M : Type) (name : MsgName)
      (field : M → Int → Nat → List Byte → Nat → Option (FieldResult M)) (m0 m : M),
      Reaches name field dAtA m0 0 m i →
      unmarshalLoop name field dAtA dAtA.length m0 0
        = (m, some (if wire &&& 0x7 = 4 then .wiretypeEndGroup name
            else .illegalTag name (int32 (wire >>> 3)) wire)) := by
    intro M name field m0 m hreach
    obtain ⟨fuel, e⟩ := hreach.run_eq hi
    rw [e]
    exact iter M name field fuel m
  exact ⟨iter, fun m0 m h => run _ _ _ m0 m h, fun m0 m h => run _ _ _ m0 m h,
    fun m0 m h => run _ _ _ m0 m h, fun m0 m h => run _ _ _ m0 m h,
    fun m0 m h => run _ _ _ m0 m h, fun m0 m h => run _ _ _ m0 m h⟩

/-- C13, at the input `[0x0c]` (field 1, wire type 4) and at the input `[0x00]` (field 0)
for `GetBlockRequest`. -/
theorem malformed_tag_rejected_witness :
    GetBlockRequest.Unmarshal ⟨7⟩ [0x0c] = (⟨7⟩, some (.wiretypeEndGroup .GetBlockRequest)) ∧
    GetBlockRequest.Unmarshal ⟨7⟩ [0x00] = (⟨7⟩, some (.illegalTag .GetBlockRequest 0 0)) :=
  ⟨(malformed_tag_rejected byteCodec byteCodec byteCodec byteCodec byteCodec byteCodec
      [0x0c] 0 12 1 (by decide) (by decide) (by decide)).2.2.2.1 ⟨7⟩ ⟨7⟩
      (Reaches.refl _ _ _ _ _),
   (malformed_tag_rejected byteCodec byteCodec byteCodec byteCodec byteCodec byteCodec
      [0x00] 0 0 1 (by decide) (by decide) (by decide)).2.2.2.1 ⟨7⟩ ⟨7⟩
      (Reaches.refl _ _ _ _ _)⟩


/-! ## Wire type checks -/

theorem rejects_height {M : Type} (name : MsgName)
    (field : M → Int → Nat → List Byte → Nat → Option (FieldResult M))
    (setHeight : M → Int → M) (k : Int) (hk : 0 < k)
    (hfield : ∀ m wt d j, field m k wt d j = some (heightCase setHeight m wt d j)) :
    RejectsWrongWireType name field k 0 .Height := by
  intro dAtA fuel m i wire j hi hr hfn hwt h4
  have h := unmarshalLoop_dispatch_err name field dAtA fuel m i wire j hi hr h4
    (by rw [hfn]; exact hk) (heightCase setHeight m (wire &&& 0x7) dAtA j)
    (.wrongWireType (wire &&& 0x7) .Height) (by rw [hfn, hfield])
    (by unfold heightCase; rw [if_pos hwt])
  rw [h]
  unfold heightCase
  rw [if_pos hwt]

theorem readLen_wrong_wireType (fname : FieldName) (wt : Nat) (dAtA : List Byte) (j : Nat)
    (hwt : wt ≠ 2) : readLen fname wt dAtA j = .error (j, .wrongWireType wt fname) := by
  unfold readLen
  rw [if_pos hwt]

theorem rejects_singular {M α : Type} (name : MsgName)
    (field : M → Int → Nat → List Byte → Nat → Option (FieldResult M))
    (c : Codec α) (fname : FieldName) (get : M → Option α) (set : M → Option α → M)
    (k : Int) (hk : 0 < k)
    (hfield : ∀ m wt d j, field m k wt d j = some (singularCase c fname get set m wt d j)) :
    RejectsWrongWireType name field k 2 fname := by
  intro dAtA fuel m i wire j hi hr hfn hwt h4
  have hres : singularCase c fname get set m (wire &&& 0x7) dAtA j
      = ⟨m, j, some (.wrongWireType (wire &&& 0x7) fname)⟩ := by
    unfold singularCase
    rw [readLen_wrong_wireType fname _ dAtA j hwt]
  have h := unmarshalLoop_dispatch_err name field dAtA fuel m i wire j hi hr h4
    (by rw [hfn]; exact hk) _ (.wrongWireType (wire &&& 0x7) fname)
    (by rw [hfn, hfield, hres]) rfl
  exact h

theorem rejects_repeated {M α : Type} (name : MsgName)
    (field : M → Int → Nat → List Byte → Nat → Option (FieldResult M))
    (c : Codec α) (fname : FieldName) (get : M → List α) (set : M → List α → M)
    (k : Int) (hk : 0 < k)
    (hfield : ∀ m wt d j, field m k wt d j = some (repeatedCase c fname get set m wt d j)) :
    RejectsWrongWireType name field k 2 fname := by
  intro dAtA fuel m i wire j hi hr hfn hwt h4
  have hres : repeatedCase c fname get set m (wire &&& 0x7) dAtA j
      = ⟨m, j, some (.wrongWireType (wire &&& 0x7) fname)⟩ := by
    unfold repeatedCase
    rw [readLen_wrong_wireType fname _ dAtA j hwt]
  have h := unmarshalLoop_dispatch_err name field dAtA fuel m i wire j hi hr h4
    (by rw [hfn]; exact hk) _ (.wrongWireType (wire &&& 0x7) fname)
    (by rw [hfn, hfield, hres]) rfl
  exact h

/-- C14, as stated, fails for the wire type 4. The input `[0x0c]` is the field number 1
(the height, declared wire type 0) with wire type 4: `GetBlockRequest.Unmarshal` returns
the end-group error of the tag check, not the wrong-wire-type error. The same holds for
field 2 of `GetBlockResponse` at the input `[0x14]`. -/
theorem wire_type_four_not_wrong_wire_type :
    GetBlockRequest.Unmarshal ⟨0⟩ [0x0c] = (⟨0⟩, some (.wiretypeEndGroup .GetBlockRequest)) ∧
    (GetBlockRequest.Unmarshal ⟨0⟩ [0x0c]).2 ≠ some (.wrongWireType 4 .Height) ∧
    GetBlockResponse.Unmarshal byteCodec byteCodec ⟨0, none, none⟩ [0x14]
      = (⟨0, none, none⟩, some (.wiretypeEndGroup .GetBlockResponse)) ∧
    (GetBlockResponse.Unmarshal byteCodec byteCodec ⟨0, none, none⟩ [0x14]).2
      ≠ some (.wrongWireType 4 .BlockId) := by
  decide

/-- C14, amended. For every message type and every field number it recognises: an
iteration of the field loop that meets that field number with a wire type other than the
declared one (0 for the height; 2 for every nested and repeated field) and other than 4
returns the wrong-wire-type error of that field and leaves the receiver as it was, so the
field is neither decoded nor skipped. (Wire type 4 is rejected before, by the tag check.)
`GetLatestHeightRequest` recognises no field number. -/
theorem wrong_wire_type_rejected {BlockID Blk Event Tx VU CP : Type}
    (cId : Codec BlockID) (cB : Codec Blk) (cE : Codec Event) (cT : Codec Tx)
    (cV : Codec VU) (cP : Codec CP) :
    RejectsWrongWireType .GetLatestHeightResponse GetLatestHeightResponse.field 1 0 .Height ∧
    RejectsWrongWireType .GetBlockRequest GetBlockRequest.field 1 0 .Height ∧
    RejectsWrongWireType .GetBlockResultsRequest GetBlockResultsRequest.field 1 0 .Height ∧
    RejectsWrongWireType .GetBlockResponse (GetBlockResponse.field cId cB) 1 0 .Height ∧
    RejectsWrongWireType .GetBlockResponse (GetBlockResponse.field cId cB) 2 2 .BlockId ∧
    RejectsWrongWireType .GetBlockResponse (GetBlockResponse.field cId cB) 3 2 .Block ∧
    RejectsWrongWireType .GetBlockResultsResponse (GetBlockResultsResponse.field cE cT cV cP)
      1 0 .Height ∧
    RejectsWrongWireType .GetBlockResultsResponse (GetBlockResultsResponse.field cE cT cV cP)
      2 2 .BeginBlockEvents ∧
    RejectsWrongWireType .GetBlockResultsResponse (GetBlockResultsResponse.field cE cT cV cP)
      3 2 .TxResults ∧
    RejectsWrongWireType .GetBlockResultsResponse (GetBlockResultsResponse.field cE cT cV cP)
      4 2 .ValidatorUpdates ∧
    RejectsWrongWireType .GetBlockResultsResponse (GetBlockResultsResponse.field cE cT cV cP)
      5 2 .ConsensusParamUpdates ∧
    RejectsWrongWireType .GetBlockResultsResponse (GetBlockResultsResponse.field cE cT cV cP)
      6 2 .EndBlockEvents :=
  ⟨rejects_height .GetLatestHeightResponse GetLatestHeightResponse.field
      (fun (m : GetLatestHeightResponse) (h : Int) => { m with Height := h })
      1 (by norm_num) (fun _ _ _ _ => rfl),
   rejects_height .GetBlockRequest GetBlockRequest.field
      (fun (m : GetBlockRequest) (h : Int) => { m with Height := h })
      1 (by norm_num) (fun _ _ _ _ => rfl),
   rejects_height .GetBlockResultsRequest GetBlockResultsRequest.field
      (fun (m : GetBlockResultsRequest) (h : Int) => { m with Height := h })
      1 (by norm_num) (fun _ _ _ _ => rfl),
   rejects_height .GetBlockResponse (GetBlockResponse.field cId cB)
      (fun m h => { m with Height := h }) 1 (by norm_num) (fun _ _ _ _ => rfl),
   rejects_singular .GetBlockResponse (GetBlockResponse.field cId cB) cId .BlockId
      (fun m => m.BlockId) (fun m v => { m with BlockId := v })
      2 (by norm_num) (fun _ _ _ _ => rfl),
   rejects_singular .GetBlockResponse (GetBlockResponse.field cId cB) cB .Block
      (fun m => m.Block) (fun m v => { m with Block := v })
      3 (by norm_num) (fun _ _ _ _ => rfl),
   rejects_height .GetBlockResultsResponse (GetBlockResultsResponse.field cE cT cV cP)
      (fun m h => { m with Height := h }) 1 (by norm_num) (fun _ _ _ _ => rfl),
   rejects_repeated .GetBlockResultsResponse (GetBlockResultsResponse.field cE cT cV cP)
      cE .BeginBlockEvents (fun m => m.BeginBlockEvents)
      (fun m v => { m with BeginBlockEvents := v }) 2 (by norm_num) (fun _ _ _ _ => rfl),
   rejects_repeated .GetBlockResultsResponse (GetBlockResultsResponse.field cE cT cV cP)
      cT .TxResults (fun m => m.TxResults)
      (fun m v => { m with TxResults := v }) 3 (by norm_num) (fun _ _ _ _ => rfl),
   rejects_repeated .GetBlockResultsResponse (GetBlockResultsResponse.field cE cT cV cP)
      cV .ValidatorUpdates (fun m => m.ValidatorUpdates)
      (fun m v => { m with ValidatorUpdates := v }) 4 (by norm_num) (fun _ _ _ _ => rfl),
   rejects_singular .GetBlockResultsResponse (GetBlockResultsResponse.field cE cT cV cP)
      cP .ConsensusParamUpdates (fun m => m.ConsensusParamUpdates)
      (fun m v => { m with ConsensusParamUpdates := v }) 5 (by norm_num) (fun _ _ _ _ => rfl),
   rejects_repeated .GetBlockResultsResponse (GetBlockResultsResponse.field cE cT cV cP)
      cE .EndBlockEvents (fun m => m.EndBlockEvents)
      (fun m v => { m with EndBlockEvents := v }) 6 (by norm_num) (fun _ _ _ _ => rfl)⟩

/-- C14 amended, at the input `[0x10, 0x05]`: field 2 of `GetBlockResponse` met with wire
type 0. -/
theorem wrong_wire_type_rejected_witness :
    GetBlockResponse.Unmarshal byteCodec byteCodec ⟨3, none, none⟩ [0x10, 0x05]
      = (⟨3, none, none⟩, some (.wrongWireType 0 .BlockId)) :=
  (wrong_wire_type_rejected byteCodec byteCodec byteCodec byteCodec byteCodec
    byteCodec).2.2.2.2.1 [0x10, 0x05] 1 ⟨3, none, none⟩ 0 0x10 1 (by decide) (by decide)
    (by decide) (by decide) (by decide)


/-! ## Errors of the varint loops -/

theorem varintLoop_continuation (post : List Byte) : ∀ (bs : List Byte) (fuel shift acc : Nat)
    (pre : List Byte), (∀ b ∈ bs, 128 ≤ b.val) → shift + 7 * bs.length ≤ 70 →
    ∃ acc1, varintLoop (pre ++ bs ++ post) (fuel + bs.length) shift pre.length acc
      = varintLoop (pre ++ bs ++ post) fuel (shift + 7 * bs.length)
          (pre.length + bs.length) acc1 := by
  intro bs
  induction bs with
  | nil => intro fuel shift acc pre _ _; exact ⟨acc, by simp⟩
  | cons b bs ih =>
    intro fuel shift acc pre hb hs
    simp only [List.length_cons] at hs
    have hb128 : 128 ≤ b.val := hb b (List.mem_cons_self _ _)
    have hrec := ih fuel (shift + 7) (acc ||| (((b.val &&& 0x7F) <<< shift) % 2 ^ 64))
      (pre ++ [b]) (fun x hx => hb x (List.mem_cons_of_mem _ hx)) (by omega)
    obtain ⟨acc1, h1⟩ := hrec
    refine ⟨acc1, ?_⟩
    have hfuel : fuel + (b :: bs).length = (fuel + bs.length) + 1 := by
      simp only [List.length_cons]; omega
    rw [hfuel, varintLoop, if_neg (by omega)]
    have hget : (pre ++ (b :: bs) ++ post)[pre.length]? = some b := by
      rw [List.append_assoc, List.cons_append]; exact getElem?_mid pre b (bs ++ post)
    rw [hget]
    simp only
    rw [if_neg (by omega)]
    have e1 : pre ++ (b :: bs) ++ post = pre ++ [b] ++ bs ++ post := by simp
    simp only [List.length_append, List.length_singleton] at h1
    rw [e1, h1]
    simp only [List.length_cons]
    have e2 : shift + 7 + 7 * bs.length = shift + 7 * (bs.length + 1) := by ring
    have e3 : pre.length + 1 + bs.length = pre.length + (bs.length + 1) := by ring
    rw [e2, e3]

/-- At most nine bytes that all carry the continuation bit, and then the end of the
input: `io.ErrUnexpectedEOF`. -/
theorem readVarint_continuation_eof (pre bs : List Byte) (hb : ∀ b ∈ bs, 128 ≤ b.val)
    (hk : bs.length ≤ 9) :
    (readVarint (pre ++ bs) pre.length).err = some .ErrUnexpectedEOF := by
  unfold readVarint
  obtain ⟨acc1, h1⟩ := varintLoop_continuation [] bs (11 - bs.length) 0 0 pre hb (by omega)
  rw [List.append_nil, Nat.sub_add_cancel (by omega)] at h1
  rw [h1]
  obtain ⟨f, hf⟩ : ∃ f, 11 - bs.length = f + 1 := ⟨10 - bs.length, by omega⟩
  rw [hf, varintLoop, if_neg (by omega)]
  have hget : (pre ++ bs)[pre.length + bs.length]? = none := by
    rw [← List.length_append]; simp
  rw [hget]

/-- Ten bytes that all carry the continuation bit: `ErrIntOverflowBlock`, whatever
follows. -/
theorem readVarint_continuation_overflow (pre bs post : List Byte)
    (hb : ∀ b ∈ bs, 128 ≤ b.val) (hk : bs.length = 10) :
    (readVarint (pre ++ bs ++ post) pre.length).err = some .ErrIntOverflowBlock := by
  unfold readVarint
  obtain ⟨acc1, h1⟩ := varintLoop_continuation post bs 1 0 0 pre hb (by omega)
  rw [hk] at h1
  rw [h1, varintLoop, if_pos (by omega)]

theorem unmarshalLoop_tag_error {M : Type} (name : MsgName)
    (field : M → Int → Nat → List Byte → Nat → Option (FieldResult M))
    (dAtA : List Byte) (fuel : Nat) (m : M) (i : Nat) (e : Error) (hi : i < dAtA.length)
    (hr : (readVarint dAtA i).err = some e) :
    unmarshalLoop name field dAtA (fuel + 1) m i = (m, some e) := by
  rw [unmarshalLoop, if_pos hi]
  simp only [hr]

theorem heightCase_err {M : Type} (setHeight : M → Int → M) (m : M) (dAtA : List Byte)
    (j : Nat) : (heightCase setHeight m 0 dAtA j).err = (readVarint dAtA j).err := by
  unfold heightCase
  rw [if_neg (by simp)]

theorem readLen_varint_error (fname : FieldName) (dAtA : List Byte) (j : Nat) (e : Error)
    (hr : (readVarint dAtA j).err = some e) :
    readLen fname 2 dAtA j = .error ((readVarint dAtA j).iNdEx, e) := by
  unfold readLen
  rw [if_neg (by simp)]
  simp only [hr]

theorem skipLoop_tag_error (dAtA : List Byte) (fuel i depth : Nat) (e : Error)
    (hi : i < dAtA.length) (hr : (readVarint dAtA i).err = some e) :
    skipLoop dAtA (fuel + 1) i depth = .error e := by
  rw [skipLoop, if_pos hi]
  simp only [hr]

theorem skipLoop_value_error (dAtA : List Byte) (fuel i depth wire j : Nat) (e : Error)
    (hi : i < dAtA.length) (hr : readVarint dAtA i = ⟨wire, j, none⟩)
    (hwt : wire &&& 0x7 = 0 ∨ wire &&& 0x7 = 2) (hr2 : (readVarint dAtA j).err = some e) :
    skipLoop dAtA (fuel + 1) i depth = .error e := by
  rw [skipLoop, if_pos hi]
  simp only [hr]
  rcases hwt with h | h
  · simp only [h, hr2, if_true]
  · simp only [h, hr2, if_true]
    rw [if_neg (by decide), if_neg (by decide)]

/-- C15, as stated, fails when the input ends after exactly ten bytes that all carry the
continuation bit: the loop tests `shift >= 64` before it tests the end of the input, so
the result is `ErrIntOverflowBlock` and not `io.ErrUnexpectedEOF`. Shown for the height
varint and the tag varint of `GetBlockRequest.Unmarshal` and for `skipBlock`. -/
theorem ten_continuation_bytes_overflow :
    GetBlockRequest.Unmarshal ⟨0⟩
        [0x08, 0x80, 0x80, 0x80, 0x80, 0x80, 0x80, 0x80, 0x80, 0x80, 0x80]
      = (⟨0⟩, some .ErrIntOverflowBlock) ∧
    GetBlockRequest.Unmarshal ⟨0⟩ [0x80, 0x80, 0x80, 0x80, 0x80, 0x80, 0x80, 0x80, 0x80, 0x80]
      = (⟨0⟩, some .ErrIntOverflowBlock) ∧
    skipBlock [0x80, 0x80, 0x80, 0x80, 0x80, 0x80, 0x80, 0x80, 0x80, 0x80]
      = .error .ErrIntOverflowBlock ∧
    (Error.ErrIntOverflowBlock ≠ Error.ErrUnexpectedEOF) := by
  decide

/-- C15, amended. Every varint of `Unmarshal` and `skipBlock` (tag, height, length) is read
by the loop `readVarint`. If the input ends after `k <= 9` bytes that all carry bit `0x80`,
the loop returns `io.ErrUnexpectedEOF`; if ten bytes carry the continuation bit, it returns
`ErrIntOverflowBlock`, whether or not a further byte follows. The error of the loop is
what the caller returns: the field loop for a tag, the height case, the length prefix of a
nested field, and the three reads of `skipBlock`. -/
theorem varint_read_errors (pre bs post : List Byte) (hb : ∀ b ∈ bs, 128 ≤ b.val) :
    (bs.length ≤ 9 → (readVarint (pre ++ bs) pre.length).err = some .ErrUnexpectedEOF) ∧
    (bs.length = 10 →
      (readVarint (pre ++ bs ++ post) pre.length).err = some .ErrIntOverflowBlock) ∧
    (∀ (M : Type) (name : MsgName)
        (field : M → Int → Nat → List Byte → Nat → Option (FieldResult M))
        (dAtA : List Byte) (fuel : Nat) (m : M) (i : Nat) (e : Error),
      i < dAtA.length → (readVarint dAtA i).err = some e →
      unmarshalLoop name field dAtA (fuel + 1) m i = (m, some e)) ∧
    (∀ (M : Type) (setHeight : M → Int → M) (m : M) (dAtA : List Byte) (j : Nat),
      (heightCase setHeight m 0 dAtA j).err = (readVarint dAtA j).err) ∧
    (∀ (fname : FieldName) (dAtA : List Byte) (j : Nat) (e : Error),
      (readVarint dAtA j).err = some e →
      readLen fname 2 dAtA j = .error ((readVarint dAtA j).iNdEx, e)) ∧
    (∀ (dAtA : List Byte) (fuel i depth : Nat) (e : Error),
      i < dAtA.length → (readVarint dAtA i).err = some e →
      skipLoop dAtA (fuel + 1) i depth = .error e) ∧
    (∀ (dAtA : List Byte) (fuel i depth wire j : Nat) (e : Error),
      i < dAtA.length → readVarint dAtA i = ⟨wire, j, none⟩ →
      wire &&& 0x7 = 0 ∨ wire &&& 0x7 = 2 → (readVarint dAtA j).err = some e →
      skipLoop dAtA (fuel + 1) i depth = .error e) :=
  ⟨fun hk => readVarint_continuation_eof pre bs hb hk,
   fun hk => readVarint_continuation_overflow pre bs post hb hk,
   fun _ name field dAtA fuel m i e hi hr =>
     unmarshalLoop_tag_error name field dAtA fuel m i e hi hr,
   fun _ setHeight m dAtA j => heightCase_err setHeight m dAtA j,
   fun fname dAtA j e hr => readLen_varint_error fname dAtA j e hr,
   fun dAtA fuel i depth e hi hr => skipLoop_tag_error dAtA fuel i depth e hi hr,
   fun dAtA fuel i depth wire j e hi hr hwt hr2 =>
     skipLoop_value_error dAtA fuel i depth wire j e hi hr hwt hr2⟩

set_option maxRecDepth 8192 in
/-- C15 amended, after the tag `0x08`: nine continuation bytes and the end of the input
give `io.ErrUnexpectedEOF`. -/
theorem varint_read_errors_witness :
    (readVarint ([0x08] ++ [0x80, 0x80, 0x80, 0x80, 0x80, 0x80, 0x80, 0x80, 0x80]) 1).err
      = some .ErrUnexpectedEOF :=
  (varint_read_errors [0x08] [0x80, 0x80, 0x80, 0x80, 0x80, 0x80, 0x80, 0x80, 0x80] []
    (by decide)).1 (by decide)

set_option maxRecDepth 8192 in
/-- C16, as stated, fails. A ten-byte varint whose tenth byte is greater than
`0x01` is accepted and the bits above bit 63 are dropped: the height varint
`80 80 80 80 80 80 80 80 80 02` (the value `2^64`) is decoded as height 0 and
`ff ff ff ff ff ff ff ff ff 7f` (the value `2^70 - 1`) as height `-1`; a ten-byte tag whose
value is `8 + 2^64` is taken as the tag 8; a ten-byte length whose value is `1 + 2^64` is
taken as the length 1. None is rejected with `ErrIntOverflowBlock`. -/
theorem tenth_group_silently_truncated :
    GetBlockRequest.Unmarshal ⟨0⟩
        [0x08, 0x80, 0x80, 0x80, 0x80, 0x80, 0x80, 0x80, 0x80, 0x80, 0x02] = (⟨0⟩, none) ∧
    GetBlockRequest.Unmarshal ⟨0⟩
        [0x08, 0xff, 0xff, 0xff, 0xff, 0xff, 0xff, 0xff, 0xff, 0xff, 0x7f] = (⟨-1⟩, none) ∧
    GetBlockRequest.Unmarshal ⟨0⟩
        [0x88, 0x80, 0x80, 0x80, 0x80, 0x80, 0x80, 0x80, 0x80, 0x02, 0x05] = (⟨5⟩, none) ∧
    GetBlockResponse.Unmarshal byteCodec byteCodec ⟨0, none, none⟩
        [0x12, 0x81, 0x80, 0x80, 0x80, 0x80, 0x80, 0x80, 0x80, 0x80, 0x02, 0x2a]
      = (⟨0, some 0x2a, none⟩, none) := by
  decide


/-! ## The varint writer and its size -/

/-- The group of index `k` of the varint of `v`: seven bits of `v` from bit `7 * k`, with
the continuation bit on every group except the last. -/
theorem varint_getElem : ∀ (v k : Nat), k < (varint v).length →
    (varint v)[k]? = some (Fin.ofNat (v / 128 ^ k % 128
      + if k + 1 < (varint v).length then 128 else 0)) := by
  intro v
  induction v using Nat.strong_induction_on with
  | _ v ih =>
    intro k hk
    by_cases h : v < 128
    · rw [varint_of_lt v h] at hk ⊢
      have hk0 : k = 0 := by simpa using hk
      subst hk0
      simp [Nat.mod_eq_of_lt h]
    · have h1 : 128 ≤ v := by omega
      have hp := varint_length_pos (v / 128)
      rw [varint_of_ge v h1] at hk ⊢
      cases k with
      | zero =>
        simp only [List.length_cons, List.getElem?_cons_zero, pow_zero, Nat.div_one]
        rw [if_pos (by omega)]
      | succ k =>
        simp only [List.length_cons, Nat.add_lt_add_iff_right] at hk ⊢
        rw [List.getElem?_cons_succ, ih (v / 128) (by omega) k hk]
        rw [pow_succ, Nat.div_div_eq_div_mul, Nat.mul_comm 128]

theorem encodeVarintBlock_take_drop (v : Nat) (hv : v < 2 ^ 64) (buf : List Byte) (offset : Nat)
    (h1 : sovBlock v ≤ offset) (h2 : offset ≤ buf.length) :
    encodeVarintBlock buf (offset : Int) v
      = .ok (buf.take (offset - sovBlock v) ++ varint v ++ buf.drop offset,
          ((offset - sovBlock v : Nat) : Int)) := by
  have hsplit : buf = buf.take (offset - sovBlock v)
      ++ (buf.drop (offset - sovBlock v)).take (sovBlock v) ++ buf.drop offset := by
    have e1 : buf.drop offset = (buf.drop (offset - sovBlock v)).drop (sovBlock v) := by
      rw [List.drop_drop]; congr 1; omega
    rw [e1, List.append_assoc, List.take_append_drop, List.take_append_drop]
  have h := encodeVarintBlock_at v hv buf (offset : Int) (buf.take (offset - sovBlock v))
    ((buf.drop (offset - sovBlock v)).take (sovBlock v)) (buf.drop offset) hsplit
    (by simp; omega) (by simp; omega)
  rw [h]
  simp
  omega

/-- C17. For every unsigned 64-bit `v`, buffer and offset with
`sovBlock(v) <= offset <= len(buffer)`: `encodeVarintBlock` replaces the bytes at the
positions `[offset - sovBlock(v), offset)` by the varint of `v` and leaves every other byte
as it was, and it returns `offset - sovBlock(v)`. The varint has `sovBlock(v)` bytes; its
byte of index `k` holds the seven bits of `v` from bit `7 * k` (low-order group first), with
bit `0x80` set on every byte except the last. For `v = 0` it is exactly the one byte
`0x00`. -/
theorem encodeVarintBlock_writes_groups (v : Nat) (hv : v < 2 ^ 64) (buf : List Byte)
    (offset : Nat) (h1 : sovBlock v ≤ offset) (h2 : offset ≤ buf.length) :
    encodeVarintBlock buf (offset : Int) v
      = .ok (buf.take (offset - sovBlock v) ++ varint v ++ buf.drop offset,
          ((offset - sovBlock v : Nat) : Int)) ∧
    (varint v).length = sovBlock v ∧
    (∀ k, k < sovBlock v → (varint v)[k]? = some (Fin.ofNat (v / 128 ^ k % 128
      + if k + 1 < sovBlock v then 128 else 0))) ∧
    (varint 0 = [0x00] ∧ sovBlock 0 = 1) := by
  have hl := varint_length v hv
  refine ⟨encodeVarintBlock_take_drop v hv buf offset h1 h2, hl, ?_, by decide, by decide⟩
  intro k hk
  have := varint_getElem v k (by omega)
  rw [hl] at this
  exact this

/-- C17, at `v = 300`, offset 4 in a buffer of five bytes: positions 2 and 3 receive
`0xac 0x02`, and 2 is returned. -/
theorem encodeVarintBlock_writes_groups_witness :
    encodeVarintBlock [9, 9, 9, 9, 9] 4 300 = .ok ([9, 9, 0xac, 0x02, 9], 2) := by
  have h := (encodeVarintBlock_writes_groups 300 (by decide) [9, 9, 9, 9, 9] 4 (by decide)
    (by decide)).1
  have e : ((4 : Nat) : Int) = 4 := rfl
  rw [e] at h
  rw [h]
  decide

theorem Len64_bounds (x : Nat) (h1 : 1 ≤ x) (h2 : x < 2 ^ 64) :
    2 ^ (Len64 x - 1) ≤ x ∧ x < 2 ^ Len64 x := by
  have hlt : x < 2 ^ Len64 x := (Len64_le_iff x (Len64 x) h2).1 (le_refl _)
  have hpos : 1 ≤ Len64 x := by
    by_contra hc
    have : Len64 x = 0 := by omega
    rw [this] at hlt
    simp at hlt
    omega
  refine ⟨?_, hlt⟩
  by_contra hc
  have := (Len64_le_iff x (Len64 x - 1) h2).2 (by omega)
  omega

theorem sovBlock_ceil (v : Nat) :
    (sovBlock v : Int) = ⌈((Len64 (v ||| 1) : ℚ) / 7)⌉ := by
  symm
  rw [Int.ceil_eq_iff]
  unfold sovBlock
  have hdiv := Nat.div_add_mod (Len64 (v ||| 1) + 6) 7
  have hmod := Nat.mod_lt (Len64 (v ||| 1) + 6) (by norm_num : 7 > 0)
  set L := Len64 (v ||| 1) with hL
  set n := (L + 6) / 7 with hn
  have hle : L ≤ 7 * n := by omega
  have hgt : 7 * n < L + 7 := by omega
  have hleQ : (L : ℚ) ≤ 7 * (n : ℚ) := by exact_mod_cast hle
  have hgtQ : 7 * (n : ℚ) < (L : ℚ) + 7 := by exact_mod_cast hgt
  constructor
  · rw [lt_div_iff₀ (by norm_num : (0 : ℚ) < 7)]
    push_cast
    linarith
  · rw [div_le_iff₀ (by norm_num : (0 : ℚ) < 7)]
    push_cast
    linarith

/-- C18. For every unsigned 64-bit `v`: `sovBlock(v)` is `(Len64(v|1) + 6) / 7`, which is
the ceiling of `bitlength(v | 1) / 7`, where `Len64` is the bit length
(`2^(Len64 x - 1) <= x < 2^(Len64 x)`); it lies between 1 and 10, it is 1 exactly when
`v < 128` and 10 exactly when `v >= 2^63`, and it is the number of bytes
`encodeVarintBlock` writes for `v`. -/
theorem sovBlock_is_varint_size (v : Nat) (hv : v < 2 ^ 64) :
    sovBlock v = (Len64 (v ||| 1) + 6) / 7 ∧
    (sovBlock v : Int) = ⌈((Len64 (v ||| 1) : ℚ) / 7)⌉ ∧
    (2 ^ (Len64 (v ||| 1) - 1) ≤ v ||| 1 ∧ v ||| 1 < 2 ^ Len64 (v ||| 1)) ∧
    (1 ≤ sovBlock v ∧ sovBlock v ≤ 10) ∧
    (sovBlock v = 1 ↔ v < 128) ∧
    (sovBlock v = 10 ↔ 2 ^ 63 ≤ v) ∧
    (varint v).length = sovBlock v ∧
    (∀ (buf : List Byte) (offset : Nat), sovBlock v ≤ offset → offset ≤ buf.length →
      encodeVarintBlock buf (offset : Int) v
        = .ok (buf.take (offset - sovBlock v) ++ varint v ++ buf.drop offset,
            ((offset - sovBlock v : Nat) : Int))) := by
  have hor : v ||| 1 < 2 ^ 64 := Nat.or_lt_two_pow hv (by norm_num)
  have hor1 : 1 ≤ v ||| 1 := by rw [or_one_eq]; omega
  have hpos := sovBlock_pos v
  have hten := sovBlock_le_ten v hv
  have h1 := sovBlock_le_iff v 1 hv (le_refl 1)
  have h9 := sovBlock_le_iff v 9 hv (by norm_num)
  refine ⟨rfl, sovBlock_ceil v, Len64_bounds _ hor1 hor, ⟨hpos, hten⟩, ?_, ?_,
    varint_length v hv, fun buf offset ha hb => encodeVarintBlock_take_drop v hv buf offset ha hb⟩
  · constructor
    · intro h; exact h1.1 (by omega)
    · intro h; have := h1.2 h; omega
  · constructor
    · intro h
      by_contra hc
      have := h9.2 (by norm_num; omega)
      omega
    · intro h
      by_contra hc
      have := h9.1 (by omega)
      norm_num at this
      omega

/-- C18, at `v = 2^63`, the least value whose varint has ten bytes. -/
theorem sovBlock_is_varint_size_witness :
    sovBlock (2 ^ 63) = 10 ∧ (varint (2 ^ 63)).length = 10 :=
  ⟨((sovBlock_is_varint_size (2 ^ 63) (by norm_num)).2.2.2.2.2.1).2 (le_refl _),
   by rw [(sovBlock_is_varint_size (2 ^ 63) (by norm_num)).2.2.2.2.2.2.1]; decide⟩


/-! ## Occurrences of repeated fields -/

/-- Two field switches that move the cursor alike give runs that end alike: a relation
between the two receivers that every accepted case preserves holds between the results. -/
theorem unmarshalLoop_sim {M N : Type} (name : MsgName)
    (f : M → Int → Nat → List Byte → Nat → Option (FieldResult M))
    (g : N → Int → Nat → List Byte → Nat → Option (FieldResult N))
    (R : M → N → Prop) (dAtA : List Byte)
    (hnone : ∀ m n k wt i, R m n → f m k wt dAtA i = none → g n k wt dAtA i = none)
    (hsome : ∀ m n k wt i res, R m n → f m k wt dAtA i = some res → res.err = none →
      ∃ res1, g n k wt dAtA i = some res1 ∧ res1.err = none ∧ res1.iNdEx = res.iNdEx ∧
        R res.m res1.m) :
    ∀ (fuel : Nat) (m : M) (n : N) (i : Nat) (m1 : M), R m n →
      unmarshalLoop name f dAtA fuel m i = (m1, none) →
      ∃ n1, unmarshalLoop name g dAtA fuel n i = (n1, none) ∧ R m1 n1 := by
  intro fuel
  induction fuel with
  | zero =>
    intro m n i m1 hR h
    rw [unmarshalLoop] at h ⊢
    by_cases h1 : i < dAtA.length
    · rw [if_pos h1] at h; simp at h
    · rw [if_neg h1] at h ⊢
      by_cases h2 : i > dAtA.length
      · rw [if_pos h2] at h; simp at h
      · rw [if_neg h2] at h ⊢
        simp only [Prod.mk.injEq, and_true] at h
        subst h
        exact ⟨n, rfl, hR⟩
  | succ fuel ih =>
    intro m n i m1 hR h
    rw [unmarshalLoop] at h ⊢
    by_cases h1 : i < dAtA.length
    · rw [if_pos h1] at h ⊢
      generalize readVarint dAtA i = r at h ⊢
      obtain ⟨wire, j, e⟩ := r
      cases e with
      | some e => simp at h
      | none =>
        simp only at h ⊢
        by_cases h4 : wire &&& 0x7 = 4
        · rw [if_pos h4] at h; simp at h
        · rw [if_neg h4] at h ⊢
          by_cases h0 : int32 (wire >>> 3) ≤ 0
          · rw [if_pos h0] at h; simp at h
          · rw [if_neg h0] at h ⊢
            cases hf : f m (int32 (wire >>> 3)) (wire &&& 0x7) dAtA j with
            | some res =>
              simp only [hf] at h
              cases he : res.err with
              | some e => simp [he] at h
              | none =>
                simp only [he] at h
                obtain ⟨res1, hg, he1, hi1, hR1⟩ := hsome m n _ _ _ res hR hf he
                simp only [hg, he1, hi1]
                exact ih res.m res1.m res.iNdEx m1 hR1 h
            | none =>
              simp only [hf] at h
              simp only [hnone m n _ _ _ hR hf]
              cases hs : skipBlock (dAtA.drop i) with
              | error e => simp [hs] at h
              | ok skippy =>
                simp only [hs] at h ⊢
                by_cases ha : skippy < 0 ∨ wrapInt64 ((i : Int) + skippy) < 0
                · rw [if_pos ha] at h; simp at h
                · rw [if_neg ha] at h ⊢
                  by_cases hb : wrapInt64 ((i : Int) + skippy) > dAtA.length
                  · rw [if_pos hb] at h; simp at h
                  · rw [if_neg hb] at h ⊢
                    exact ih m n _ m1 hR h
    · rw [if_neg h1] at h ⊢
      by_cases h2 : i > dAtA.length
      · rw [if_pos h2] at h; simp at h
      · rw [if_neg h2] at h ⊢
        simp only [Prod.mk.injEq, and_true] at h
        subst h
        exact ⟨n, rfl, hR⟩

/-- The successful outcome of the length prefix does not depend on the field name, which
only appears in the wrong-wire-type error. -/
theorem readLen_ok_fname (fn1 fn2 : FieldName) (wireType : Nat) (dAtA : List Byte)
    (iNdEx : Nat) (p : Nat × Nat) (h : readLen fn1 wireType dAtA iNdEx = .ok p) :
    readLen fn2 wireType dAtA iNdEx = .ok p := by
  unfold readLen at h ⊢
  by_cases hw : wireType ≠ 2
  · rw [if_pos hw] at h; simp at h
  · rw [if_neg hw] at h ⊢
    exact h

/-- An accepted repeated case appends the element decoded from the payload that the
occurrence list records. -/
theorem repeatedCase_ok {M α : Type} (c : Codec α) (fname : FieldName) (get : M → List α)
    (set : M → List α → M) (m : M) (wireType : Nat) (dAtA : List Byte) (iNdEx : Nat)
    (h : (repeatedCase c fname get set m wireType dAtA iNdEx).err = none) :
    ∃ i1 post, readLen .Height wireType dAtA iNdEx = .ok (i1, post) ∧
      repeatedCase c fname get set m wireType dAtA iNdEx
        = ⟨set m (get m ++ [c.fresh (slice dAtA i1 post)]), post, none⟩ := by
  unfold repeatedCase at h ⊢
  cases hr : readLen fname wireType dAtA iNdEx with
  | error p => obtain ⟨i, e⟩ := p; simp [hr] at h
  | ok p =>
    obtain ⟨i1, post⟩ := p
    refine ⟨i1, post, readLen_ok_fname _ _ _ _ _ _ hr, ?_⟩
    simp only [hr] at h ⊢
    cases hu : (c.Unmarshal c.zero (slice dAtA i1 post)) with
    | mk v1 err =>
      simp only [hu] at h ⊢
      cases err with
      | some e => simp at h
      | none => simp [Codec.fresh, hu]

theorem singularCase_ok {M α : Type} (c : Codec α) (fname : FieldName) (get : M → Option α)
    (set : M → Option α → M) (m : M) (wireType : Nat) (dAtA : List Byte) (iNdEx : Nat)
    (h : (singularCase c fname get set m wireType dAtA iNdEx).err = none) :
    ∃ i1 post, readLen .Height wireType dAtA iNdEx = .ok (i1, post) ∧
      singularCase c fname get set m wireType dAtA iNdEx
        = ⟨set m (some (c.Unmarshal (allocIfNil c (get m)) (slice dAtA i1 post)).1), post,
            none⟩ := by
  unfold singularCase at h ⊢
  cases hr : readLen fname wireType dAtA iNdEx with
  | error p => obtain ⟨i, e⟩ := p; simp [hr] at h
  | ok p =>
    obtain ⟨i1, post⟩ := p
    refine ⟨i1, post, readLen_ok_fname _ _ _ _ _ _ hr, ?_⟩
    simp only [hr] at h ⊢
    cases hu : (c.Unmarshal (allocIfNil c (get m)) (slice dAtA i1 post)) with
    | mk v1 err =>
      simp only [hu] at h ⊢
      cases err with
      | some e => simp at h
      | none => simp

theorem occurrencesOf_append (k : Int) (occ : List (Int × List Byte)) (j : Int)
    (s : List Byte) :
    occurrencesOf k (occ ++ [(j, s)])
      = occurrencesOf k occ ++ (if j = k then [s] else []) := by
  unfold occurrencesOf
  by_cases h : j = k <;> simp [List.filter_append, List.filter_cons, h]

/-- The run of `GetBlockResultsResponse.Unmarshal` against the run that only records the
occurrences: from any cursor, an accepted run leaves in each repeated field what it held
before, followed by one decoded element for each recorded occurrence of its field number. -/
theorem occurrences_run {Event Tx VU CP : Type} (cE : Codec Event) (cT : Codec Tx)
    (cV : Codec VU) (cP : Codec CP) (m0 : GetBlockResultsResponse Event Tx VU CP)
    (dAtA : List Byte) (fuel : Nat) (m m1 : GetBlockResultsResponse Event Tx VU CP)
    (log : List (Int × List Byte)) (i : Nat)
    (hR : m.BeginBlockEvents = m0.BeginBlockEvents ++ (occurrencesOf 2 log).map cE.fresh ∧
      m.TxResults = m0.TxResults ++ (occurrencesOf 3 log).map cT.fresh ∧
      m.ValidatorUpdates = m0.ValidatorUpdates ++ (occurrencesOf 4 log).map cV.fresh ∧
      m.EndBlockEvents = m0.EndBlockEvents ++ (occurrencesOf 6 log).map cE.fresh)
    (h : unmarshalLoop .GetBlockResultsResponse (GetBlockResultsResponse.field cE cT cV cP)
      dAtA fuel m i = (m1, none)) :
    ∃ log1, unmarshalLoop .GetBlockResultsResponse occurrenceField dAtA fuel log i
        = (log1, none) ∧
      m1.BeginBlockEvents = m0.BeginBlockEvents ++ (occurrencesOf 2 log1).map cE.fresh ∧
      m1.TxResults = m0.TxResults ++ (occurrencesOf 3 log1).map cT.fresh ∧
      m1.ValidatorUpdates = m0.ValidatorUpdates ++ (occurrencesOf 4 log1).map cV.fresh ∧
      m1.EndBlockEvents = m0.EndBlockEvents ++ (occurrencesOf 6 log1).map cE.fresh := by
  refine unmarshalLoop_sim .GetBlockResultsResponse (GetBlockResultsResponse.field cE cT cV cP)
    occurrenceField
    (fun (m : GetBlockResultsResponse Event Tx VU CP) (log : List (Int × List Byte)) =>
      m.BeginBlockEvents = m0.BeginBlockEvents ++ (occurrencesOf 2 log).map cE.fresh ∧
      m.TxResults = m0.TxResults ++ (occurrencesOf 3 log).map cT.fresh ∧
      m.ValidatorUpdates = m0.ValidatorUpdates ++ (occurrencesOf 4 log).map cV.fresh ∧
      m.EndBlockEvents = m0.EndBlockEvents ++ (occurrencesOf 6 log).map cE.fresh)
    dAtA ?_ ?_ fuel m log i m1 hR h
  · intro m n k wt i _ hf
    unfold GetBlockResultsResponse.field at hf
    unfold occurrenceField
    split_ifs at hf with h1 h2 h3 h4 h5 h6
    rw [if_neg h1, if_neg (by omega)]
  · intro m n k wt i res hR hf he
    obtain ⟨hR2, hR3, hR4, hR6⟩ := hR
    unfold GetBlockResultsResponse.field at hf
    unfold occurrenceField
    split_ifs at hf with h1 h2 h3 h4 h5 h6
    · simp only [Option.some.injEq] at hf
      subst hf
      rw [if_pos h1]
      unfold heightCase at he ⊢
      by_cases hw : wt ≠ 0
      · rw [if_pos hw] at he; simp at he
      · simp only [if_neg hw] at he ⊢
        exact ⟨_, rfl, he, rfl, hR2, hR3, hR4, hR6⟩
    · simp only [Option.some.injEq] at hf
      subst hf
      obtain ⟨i1, post, hrl, heq⟩ := repeatedCase_ok _ _ _ _ _ _ _ _ he
      rw [if_neg h1, if_pos (by omega)]
      simp only [hrl]
      refine ⟨_, rfl, rfl, ?_, ?_⟩
      · rw [heq]
      · rw [heq]
        simp only [occurrencesOf_append, h2]
        simp [hR2, hR3, hR4, hR6]
    · simp only [Option.some.injEq] at hf
      subst hf
      obtain ⟨i1, post, hrl, heq⟩ := repeatedCase_ok _ _ _ _ _ _ _ _ he
      rw [if_neg h1, if_pos (by omega)]
      simp only [hrl]
      refine ⟨_, rfl, rfl, ?_, ?_⟩
      · rw [heq]
      · rw [heq]
        simp only [occurrencesOf_append, h3]
        simp [hR2, hR3, hR4, hR6]
    · simp only [Option.some.injEq] at hf
      subst hf
      obtain ⟨i1, post, hrl, heq⟩ := repeatedCase_ok _ _ _ _ _ _ _ _ he
      rw [if_neg h1, if_pos (by omega)]
      simp only [hrl]
      refine ⟨_, rfl, rfl, ?_, ?_⟩
      · rw [heq]
      · rw [heq]
        simp only [occurrencesOf_append, h4]
        simp [hR2, hR3, hR4, hR6]
    · simp only [Option.some.injEq] at hf
      subst hf
      obtain ⟨i1, post, hrl, heq⟩ := singularCase_ok _ _ _ _ _ _ _ _ he
      rw [if_neg h1, if_pos (by omega)]
      simp only [hrl]
      refine ⟨_, rfl, rfl, ?_, ?_⟩
      · rw [heq]
      · rw [heq]
        simp only [occurrencesOf_append, h5]
        simp [hR2, hR3, hR4, hR6]
    · simp only [Option.some.injEq] at hf
      subst hf
      obtain ⟨i1, post, hrl, heq⟩ := repeatedCase_ok _ _ _ _ _ _ _ _ he
      rw [if_neg h1, if_pos (by omega)]
      simp only [hrl]
      refine ⟨_, rfl, rfl, ?_, ?_⟩
      · rw [heq]
      · rw [heq]
        simp only [occurrencesOf_append, h6]
        simp [hR2, hR3, hR4, hR6]

/-! ## The length checks of nested fields -/

theorem varintLoop_ok_le (dAtA : List Byte) : ∀ (fuel shift i acc x cur : Nat),
    varintLoop dAtA fuel shift i acc = ⟨x, cur, none⟩ → i < cur ∧ cur ≤ dAtA.length := by
  intro fuel
  induction fuel with
  | zero => intro shift i acc x cur h; simp [varintLoop] at h
  | succ fuel ih =>
    intro shift i acc x cur h
    rw [varintLoop] at h
    by_cases hs : shift ≥ 64
    · rw [if_pos hs] at h; simp at h
    · rw [if_neg hs] at h
      cases hb : dAtA[i]? with
      | none => simp [hb] at h
      | some b =>
        have hi : i < dAtA.length := by
          by_contra hc
          rw [List.getElem?_eq_none (by omega)] at hb
          simp at hb
        simp only [hb] at h
        by_cases hlt : b.val < 0x80
        · rw [if_pos hlt] at h
          simp only [VarintResult.mk.injEq, and_true] at h
          omega
        · rw [if_neg hlt] at h
          have := ih _ _ _ _ _ h
          omega

theorem readVarint_ok_le (dAtA : List Byte) (i x cur : Nat)
    (h : readVarint dAtA i = ⟨x, cur, none⟩) : i < cur ∧ cur ≤ dAtA.length :=
  varintLoop_ok_le dAtA 11 0 i 0 x cur h

theorem int64_bounds (x : Nat) : -2 ^ 63 ≤ int64 x ∧ int64 x < 2 ^ 63 := by
  unfold int64
  have := Nat.mod_lt x (by norm_num : 2 ^ 64 > 0)
  split_ifs <;> constructor <;> omega

theorem wrapInt64_of_range (y : Int) (h1 : -2 ^ 63 ≤ y) (h2 : y < 2 ^ 63) : wrapInt64 y = y :=
  int64_uint64 y h1 h2

theorem wrapInt64_of_ge (y : Int) (h1 : 2 ^ 63 ≤ y) (h2 : y < 2 ^ 64) : wrapInt64 y < 0 := by
  unfold wrapInt64 int64
  have hlt := uint64_lt y
  have hu : ((uint64 y : Nat) : Int) = y := by
    unfold uint64
    rw [Int.emod_eq_of_lt (by omega) h2]
    exact Int.toNat_of_nonneg (by omega)
  rw [Nat.mod_eq_of_lt hlt]
  have : ¬ uint64 y < 2 ^ 63 := by omega
  rw [if_neg this]
  omega

/-- The three outcomes of the length prefix of a nested field. -/
theorem readLen_checks (fname : FieldName) (dAtA : List Byte) (j x cur : Nat)
    (hl : dAtA.length < 2 ^ 63) (hr : readVarint dAtA j = ⟨x, cur, none⟩) :
    ((int64 x < 0 ∨ 2 ^ 63 ≤ (cur : Int) + int64 x) →
      readLen fname 2 dAtA j = .error (cur, .ErrInvalidLengthBlock)) ∧
    (0 ≤ int64 x → (cur : Int) + int64 x < 2 ^ 63 → (dAtA.length : Int) < cur + int64 x →
      readLen fname 2 dAtA j = .error (cur, .ErrUnexpectedEOF)) ∧
    (0 ≤ int64 x → (cur : Int) + int64 x ≤ dAtA.length →
      readLen fname 2 dAtA j = .ok (cur, cur + (int64 x).toNat)) := by
  have hc := (readVarint_ok_le dAtA j x cur hr).2
  have hb := int64_bounds x
  unfold readLen
  rw [if_neg (by simp)]
  simp only [hr]
  refine ⟨?_, ?_, ?_⟩
  · intro h
    by_cases hneg : int64 x < 0
    · rw [if_pos hneg]
    · rw [if_neg hneg]
      have hw := wrapInt64_of_ge ((cur : Int) + int64 x) (by omega) (by omega)
      rw [if_pos hw]
  · intro h0 h1 h2
    rw [if_neg (by omega), wrapInt64_of_range _ (by omega) h1, if_neg (by omega), if_pos (by omega)]
  · intro h0 h1
    rw [if_neg (by omega), wrapInt64_of_range _ (by omega) (by omega), if_neg (by omega),
      if_neg (by omega)]
    congr 2
    omega

/-- An iteration whose tag passes the two checks and selects a `case` that returns no
error continues from the receiver and the cursor the case left. -/
theorem unmarshalLoop_dispatch_ok {M : Type} (name : MsgName)
    (field : M → Int → Nat → List Byte → Nat → Option (FieldResult M))
    (dAtA : List Byte) (fuel : Nat) (m : M) (i wire j : Nat) (hi : i < dAtA.length)
    (hr : readVarint dAtA i = ⟨wire, j, none⟩) (hwt : wire &&& 0x7 ≠ 4)
    (hfn : (0 : Int) < int32 (wire >>> 3)) (res : FieldResult M)
    (hf : field m (int32 (wire >>> 3)) (wire &&& 0x7) dAtA j = some res)
    (he : res.err = none) :
    unmarshalLoop name field dAtA (fuel + 1) m i
      = unmarshalLoop name field dAtA fuel res.m res.iNdEx := by
  rw [unmarshalLoop, if_pos hi]
  simp only [hr]
  rw [if_neg hwt, if_neg (by omega)]
  simp only [hf, he]

theorem checks_singular {M α : Type} (name : MsgName)
    (field : M → Int → Nat → List Byte → Nat → Option (FieldResult M))
    (c : Codec α) (fname : FieldName) (get : M → Option α) (set : M → Option α → M)
    (k : Int) (hk : 0 < k)
    (hfield : ∀ m wt d j, field m k wt d j = some (singularCase c fname get set m wt d j)) :
    ChecksLength name field k c (fun m => allocIfNil c (get m)) (fun m v => set m (some v)) := by
  intro dAtA fuel m i wire j x cur hl hi hr hfn hwt hr2
  obtain ⟨hA, hB, hC⟩ := readLen_checks fname dAtA j x cur hl hr2
  have h4 : wire &&& 0x7 ≠ 4 := by rw [hwt]; decide
  have hpos : (0 : Int) < int32 (wire >>> 3) := by rw [hfn]; exact hk
  refine ⟨fun h => ?_, fun h0 h1 h2 => ?_, fun h0 h1 => ?_⟩
  · have hres : singularCase c fname get set m (wire &&& 0x7) dAtA j
        = ⟨m, cur, some .ErrInvalidLengthBlock⟩ := by
      unfold singularCase; rw [hwt, hA h]
    exact unmarshalLoop_dispatch_err name field dAtA fuel m i wire j hi hr h4 hpos _
      .ErrInvalidLengthBlock (by rw [hfn, hfield, hres]) rfl
  · have hres : singularCase c fname get set m (wire &&& 0x7) dAtA j
        = ⟨m, cur, some .ErrUnexpectedEOF⟩ := by
      unfold singularCase; rw [hwt, hB h0 h1 h2]
    exact unmarshalLoop_dispatch_err name field dAtA fuel m i wire j hi hr h4 hpos _
      .ErrUnexpectedEOF (by rw [hfn, hfield, hres]) rfl
  · cases hu : c.Unmarshal (allocIfNil c (get m)) (slice dAtA cur (cur + (int64 x).toNat)) with
    | mk v err =>
      cases err with
      | some e =>
        have hres : singularCase c fname get set m (wire &&& 0x7) dAtA j
            = ⟨set m (some v), cur, some e⟩ := by
          unfold singularCase; rw [hwt, hC h0 h1]; simp only [hu]
        exact unmarshalLoop_dispatch_err name field dAtA fuel m i wire j hi hr h4 hpos _
          e (by rw [hfn, hfield, hres]) rfl
      | none =>
        have hres : singularCase c fname get set m (wire &&& 0x7) dAtA j
            = ⟨set m (some v), cur + (int64 x).toNat, none⟩ := by
          unfold singularCase; rw [hwt, hC h0 h1]; simp only [hu]
        exact unmarshalLoop_dispatch_ok name field dAtA fuel m i wire j hi hr h4 hpos _
          (by rw [hfn, hfield, hres]) rfl

theorem checks_repeated {M α : Type} (name : MsgName)
    (field : M → Int → Nat → List Byte → Nat → Option (FieldResult M))
    (c : Codec α) (fname : FieldName) (get : M → List α) (set : M → List α → M)
    (k : Int) (hk : 0 < k)
    (hfield : ∀ m wt d j, field m k wt d j = some (repeatedCase c fname get set m wt d j)) :
    ChecksLength name field k c (fun _ => c.zero) (fun m v => set m (get m ++ [v])) := by
  intro dAtA fuel m i wire j x cur hl hi hr hfn hwt hr2
  obtain ⟨hA, hB, hC⟩ := readLen_checks fname dAtA j x cur hl hr2
  have h4 : wire &&& 0x7 ≠ 4 := by rw [hwt]; decide
  have hpos : (0 : Int) < int32 (wire >>> 3) := by rw [hfn]; exact hk
  refine ⟨fun h => ?_, fun h0 h1 h2 => ?_, fun h0 h1 => ?_⟩
  · have hres : repeatedCase c fname get set m (wire &&& 0x7) dAtA j
        = ⟨m, cur, some .ErrInvalidLengthBlock⟩ := by
      unfold repeatedCase; rw [hwt, hA h]
    exact unmarshalLoop_dispatch_err name field dAtA fuel m i wire j hi hr h4 hpos _
      .ErrInvalidLengthBlock (by rw [hfn, hfield, hres]) rfl
  · have hres : repeatedCase c fname get set m (wire &&& 0x7) dAtA j
        = ⟨m, cur, some .ErrUnexpectedEOF⟩ := by
      unfold repeatedCase; rw [hwt, hB h0 h1 h2]
    exact unmarshalLoop_dispatch_err name field dAtA fuel m i wire j hi hr h4 hpos _
      .ErrUnexpectedEOF (by rw [hfn, hfield, hres]) rfl
  · cases hu : c.Unmarshal c.zero (slice dAtA cur (cur + (int64 x).toNat)) with
    | mk v err =>
      cases err with
      | some e =>
        have hres : repeatedCase c fname get set m (wire &&& 0x7) dAtA j
            = ⟨set m (get m ++ [v]), cur, some e⟩ := by
          unfold repeatedCase; rw [hwt, hC h0 h1]; simp only [hu]
        exact unmarshalLoop_dispatch_err name field dAtA fuel m i wire j hi hr h4 hpos _
          e (by rw [hfn, hfield, hres]) rfl
      | none =>
        have hres : repeatedCase c fname get set m (wire &&& 0x7) dAtA j
            = ⟨set m (get m ++ [v]), cur + (int64 x).toNat, none⟩ := by
          unfold repeatedCase; rw [hwt, hC h0 h1]; simp only [hu]
        exact unmarshalLoop_dispatch_ok name field dAtA fuel m i wire j hi hr h4 hpos _
          (by rw [hfn, hfield, hres]) rfl

/-- C20. For every recognised length-delimited field of `GetBlockResponse` (2, 3) and of
`GetBlockResultsResponse` (2 to 6), after the length `L` is read, the cursor being `c`: if
`L < 0` or `c + L` wraps around, `Unmarshal` fails with `ErrInvalidLengthBlock`; if
`c + L > len(input)` it fails with `io.ErrUnexpectedEOF`; otherwise the nested `Unmarshal`
is applied to exactly `input[c : c+L]` (for a singular field on the value already present,
or a fresh one; for a repeated field on a fresh appended element), its error is returned if
it fails, and else the cursor becomes `c + L`. -/
theorem nested_length_checked {BlockID Blk Event Tx VU CP : Type}
    (cId : Codec BlockID) (cB : Codec Blk) (cE : Codec Event) (cT : Codec Tx)
    (cV : Codec VU) (cP : Codec CP) :
    ChecksLength .GetBlockResponse (GetBlockResponse.field cId cB) 2 cId
      (fun m => allocIfNil cId m.BlockId) (fun m v => { m with BlockId := some v }) ∧
    ChecksLength .GetBlockResponse (GetBlockResponse.field cId cB) 3 cB
      (fun m => allocIfNil cB m.Block) (fun m v => { m with Block := some v }) ∧
    ChecksLength .GetBlockResultsResponse (GetBlockResultsResponse.field cE cT cV cP) 2 cE
      (fun _ => cE.zero) (fun m v => { m with BeginBlockEvents := m.BeginBlockEvents ++ [v] }) ∧
    ChecksLength .GetBlockResultsResponse (GetBlockResultsResponse.field cE cT cV cP) 3 cT
      (fun _ => cT.zero) (fun m v => { m with TxResults := m.TxResults ++ [v] }) ∧
    ChecksLength .GetBlockResultsResponse (GetBlockResultsResponse.field cE cT cV cP) 4 cV
      (fun _ => cV.zero) (fun m v => { m with ValidatorUpdates := m.ValidatorUpdates ++ [v] }) ∧
    ChecksLength .GetBlockResultsResponse (GetBlockResultsResponse.field cE cT cV cP) 5 cP
      (fun m => allocIfNil cP m.ConsensusParamUpdates)
      (fun m v => { m with ConsensusParamUpdates := some v }) ∧
    ChecksLength .GetBlockResultsResponse (GetBlockResultsResponse.field cE cT cV cP) 6 cE
      (fun _ => cE.zero) (fun m v => { m with EndBlockEvents := m.EndBlockEvents ++ [v] }) :=
  ⟨checks_singular .GetBlockResponse (GetBlockResponse.field cId cB) cId .BlockId
      (fun m => m.BlockId) (fun m v => { m with BlockId := v }) 2 (by decide)
      (fun _ _ _ _ => rfl),
   checks_singular .GetBlockResponse (GetBlockResponse.field cId cB) cB .Block
      (fun m => m.Block) (fun m v => { m with Block := v }) 3 (by decide)
      (fun _ _ _ _ => rfl),
   checks_repeated .GetBlockResultsResponse (GetBlockResultsResponse.field cE cT cV cP) cE
      .BeginBlockEvents (fun m => m.BeginBlockEvents)
      (fun m v => { m with BeginBlockEvents := v }) 2 (by decide) (fun _ _ _ _ => rfl),
   checks_repeated .GetBlockResultsResponse (GetBlockResultsResponse.field cE cT cV cP) cT
      .TxResults (fun m => m.TxResults)
      (fun m v => { m with TxResults := v }) 3 (by decide) (fun _ _ _ _ => rfl),
   checks_repeated .GetBlockResultsResponse (GetBlockResultsResponse.field cE cT cV cP) cV
      .ValidatorUpdates (fun m => m.ValidatorUpdates)
      (fun m v => { m with ValidatorUpdates := v }) 4 (by decide) (fun _ _ _ _ => rfl),
   checks_singular .GetBlockResultsResponse (GetBlockResultsResponse.field cE cT cV cP) cP
      .ConsensusParamUpdates (fun m => m.ConsensusParamUpdates)
      (fun m v => { m with ConsensusParamUpdates := v }) 5 (by decide) (fun _ _ _ _ => rfl),
   checks_repeated .GetBlockResultsResponse (GetBlockResultsResponse.field cE cT cV cP) cE
      .EndBlockEvents (fun m => m.EndBlockEvents)
      (fun m v => { m with EndBlockEvents := v }) 6 (by decide) (fun _ _ _ _ => rfl)⟩

set_option maxRecDepth 8192 in
/-- C20, at field 2 of `GetBlockResponse`: the length 5 at cursor 2 of a three-byte input
gives `io.ErrUnexpectedEOF`; the length varint `ff ff ff ff ff ff ff ff ff 01`, which is
`-1` as an `int`, gives `ErrInvalidLengthBlock`; the length 1 at cursor 2 passes the one
byte `input[2:3]` to the nested `Unmarshal` and the loop goes on from cursor 3. -/
theorem nested_length_checked_witness :
    unmarshalLoop .GetBlockResponse (GetBlockResponse.field byteCodec byteCodec)
        [0x12, 0x05, 0x00] 3 ⟨0, none, none⟩ 0
      = (⟨0, none, none⟩, some .ErrUnexpectedEOF) ∧
    unmarshalLoop .GetBlockResponse (GetBlockResponse.field byteCodec byteCodec)
        [0x12, 0xff, 0xff, 0xff, 0xff, 0xff, 0xff, 0xff, 0xff, 0xff, 0x01] 11 ⟨0, none, none⟩ 0
      = (⟨0, none, none⟩, some .ErrInvalidLengthBlock) ∧
    unmarshalLoop .GetBlockResponse (GetBlockResponse.field byteCodec byteCodec)
        [0x12, 0x01, 0x2a] 3 ⟨0, none, none⟩ 0
      = unmarshalLoop .GetBlockResponse (GetBlockResponse.field byteCodec byteCodec)
        [0x12, 0x01, 0x2a] 2 ⟨0, some 0x2a, none⟩ 3 :=
  ⟨((nested_length_checked byteCodec byteCodec byteCodec byteCodec byteCodec byteCodec).1
      [0x12, 0x05, 0x00] 2 ⟨0, none, none⟩ 0 18 1 5 2 (by norm_num) (by decide) (by decide)
      (by decide) (by decide) (by decide)).2.1 (by decide) (by decide) (by decide),
   ((nested_length_checked byteCodec byteCodec byteCodec byteCodec byteCodec byteCodec).1
      [0x12, 0xff, 0xff, 0xff, 0xff, 0xff, 0xff, 0xff, 0xff, 0xff, 0x01] 10 ⟨0, none, none⟩
      0 18 1 (2 ^ 64 - 1) 11 (by norm_num) (by decide) (by decide)
      (by decide) (by decide) (by decide)).1 (Or.inl (by decide)),
   ((nested_length_checked byteCodec byteCodec byteCodec byteCodec byteCodec byteCodec).1
      [0x12, 0x01, 0x2a] 2 ⟨0, none, none⟩ 0 18 1 1 2 (by norm_num) (by decide) (by decide)
      (by decide) (by decide) (by decide)).2.2 (by decide) (by decide)⟩


/-! ## Steps of skipBlock -/

theorem skipLoop_varint (dAtA : List Byte) (fuel i depth wire j v k : Nat)
    (hr : readVarint dAtA i = ⟨wire, j, none⟩) (hwt : wire &&& 0x7 = 0)
    (hr0 : readVarint dAtA j = ⟨v, k, none⟩) :
    skipLoop dAtA (fuel + 1) i depth
      = if depth = 0 then .ok (k : Int) else skipLoop dAtA fuel k depth := by
  have hi := (readVarint_ok_le dAtA i wire j hr).2
  have hij := (readVarint_ok_le dAtA i wire j hr).1
  rw [skipLoop, if_pos (by omega)]
  simp only [hr, hwt, hr0, if_true]
  rw [if_neg (by omega)]
  simp

theorem skipLoop_fixed64 (dAtA : List Byte) (fuel i depth wire j : Nat)
    (hr : readVarint dAtA i = ⟨wire, j, none⟩) (hwt : wire &&& 0x7 = 1) :
    skipLoop dAtA (fuel + 1) i depth
      = if depth = 0 then .ok ((j : Int) + 8) else skipLoop dAtA fuel (j + 8) depth := by
  have hi := (readVarint_ok_le dAtA i wire j hr).2
  have hij := (readVarint_ok_le dAtA i wire j hr).1
  rw [skipLoop, if_pos (by omega)]
  simp only [hr, hwt]
  rw [if_neg (by decide), if_pos trivial]
  simp only
  rw [if_neg (by omega)]
  have e : ((j : Int) + 8).toNat = j + 8 := by omega
  rw [e]

theorem skipLoop_fixed32 (dAtA : List Byte) (fuel i depth wire j : Nat)
    (hr : readVarint dAtA i = ⟨wire, j, none⟩) (hwt : wire &&& 0x7 = 5) :
    skipLoop dAtA (fuel + 1) i depth
      = if depth = 0 then .ok ((j : Int) + 4) else skipLoop dAtA fuel (j + 4) depth := by
  have hi := (readVarint_ok_le dAtA i wire j hr).2
  have hij := (readVarint_ok_le dAtA i wire j hr).1
  rw [skipLoop, if_pos (by omega)]
  simp only [hr, hwt]
  rw [if_neg (by decide), if_neg (by decide), if_neg (by decide), if_neg (by decide),
    if_neg (by decide), if_pos trivial]
  simp only
  rw [if_neg (by omega)]
  have e : ((j : Int) + 4).toNat = j + 4 := by omega
  rw [e]

theorem skipLoop_bytes (dAtA : List Byte) (fuel i depth wire j x k : Nat)
    (hr : readVarint dAtA i = ⟨wire, j, none⟩) (hwt : wire &&& 0x7 = 2)
    (hr2 : readVarint dAtA j = ⟨x, k, none⟩) (h0 : 0 ≤ int64 x)
    (h1 : (k : Int) + int64 x < 2 ^ 63) :
    skipLoop dAtA (fuel + 1) i depth
      = if depth = 0 then .ok ((k : Int) + int64 x)
        else skipLoop dAtA fuel (k + (int64 x).toNat) depth := by
  have hi := (readVarint_ok_le dAtA i wire j hr).2
  have hij := (readVarint_ok_le dAtA i wire j hr).1
  rw [skipLoop, if_pos (by omega)]
  simp only [hr, hwt, hr2]
  rw [if_neg (by decide), if_neg (by decide), if_pos trivial, if_neg (by omega),
    wrapInt64_of_range _ (by omega) h1]
  simp only
  rw [if_neg (by omega)]
  have e : ((k : Int) + int64 x).toNat = k + (int64 x).toNat := by omega
  rw [e]

theorem skipLoop_bytes_invalid (dAtA : List Byte) (fuel i depth wire j x k : Nat)
    (hl : dAtA.length < 2 ^ 63)
    (hr : readVarint dAtA i = ⟨wire, j, none⟩) (hwt : wire &&& 0x7 = 2)
    (hr2 : readVarint dAtA j = ⟨x, k, none⟩)
    (h : int64 x < 0 ∨ 2 ^ 63 ≤ (k : Int) + int64 x) :
    skipLoop dAtA (fuel + 1) i depth = .error .ErrInvalidLengthBlock := by
  have hi := (readVarint_ok_le dAtA i wire j hr).2
  have hij := (readVarint_ok_le dAtA i wire j hr).1
  have hk := (readVarint_ok_le dAtA j x k hr2).2
  have hb := int64_bounds x
  rw [skipLoop, if_pos (by omega)]
  simp only [hr, hwt, hr2]
  rw [if_neg (by decide), if_neg (by decide), if_pos trivial]
  by_cases hneg : int64 x < 0
  · rw [if_pos hneg]
  · rw [if_neg hneg]
    simp only
    rw [if_pos (wrapInt64_of_ge _ (by omega) (by omega))]

theorem skipLoop_start_group (dAtA : List Byte) (fuel i depth wire j : Nat)
    (hr : readVarint dAtA i = ⟨wire, j, none⟩) (hwt : wire &&& 0x7 = 3) :
    skipLoop dAtA (fuel + 1) i depth = skipLoop dAtA fuel j (depth + 1) := by
  have hi := (readVarint_ok_le dAtA i wire j hr).2
  have hij := (readVarint_ok_le dAtA i wire j hr).1
  rw [skipLoop, if_pos (by omega)]
  simp only [hr, hwt]
  rw [if_neg (by decide), if_neg (by decide), if_neg (by decide), if_pos trivial]
  simp only
  rw [if_neg (by omega), if_neg (by omega)]
  simp

theorem skipLoop_end_group (dAtA : List Byte) (fuel i depth wire j : Nat)
    (hr : readVarint dAtA i = ⟨wire, j, none⟩) (hwt : wire &&& 0x7 = 4) :
    skipLoop dAtA (fuel + 1) i depth
      = if depth = 0 then .error .ErrUnexpectedEndOfGroupBlock
        else if depth = 1 then .ok (j : Int) else skipLoop dAtA fuel j (depth - 1) := by
  have hi := (readVarint_ok_le dAtA i wire j hr).2
  have hij := (readVarint_ok_le dAtA i wire j hr).1
  rw [skipLoop, if_pos (by omega)]
  simp only [hr, hwt]
  rw [if_neg (by decide), if_neg (by decide), if_neg (by decide), if_neg (by decide),
    if_pos trivial]
  by_cases hd : depth = 0
  · rw [if_pos hd, if_pos hd]
  · rw [if_neg hd, if_neg hd]
    simp only
    rw [if_neg (by omega)]
    by_cases hd1 : depth = 1
    · rw [if_pos hd1, if_pos (by omega)]
    · rw [if_neg hd1, if_neg (by omega)]
      simp

theorem skipLoop_illegal (dAtA : List Byte) (fuel i depth wire j : Nat)
    (hr : readVarint dAtA i = ⟨wire, j, none⟩) (hwt : wire &&& 0x7 = 6 ∨ wire &&& 0x7 = 7) :
    skipLoop dAtA (fuel + 1) i depth = .error (.illegalWireType (wire &&& 0x7)) := by
  have hi := (readVarint_ok_le dAtA i wire j hr).2
  have hij := (readVarint_ok_le dAtA i wire j hr).1
  rw [skipLoop, if_pos (by omega)]
  simp only [hr]
  rcases hwt with h | h <;> rw [h] <;>
    rw [if_neg (by decide), if_neg (by decide), if_neg (by decide), if_neg (by decide),
      if_neg (by decide), if_neg (by decide)]

/-- The fuel `skipBlock` starts with is not zero when a tag can be read. -/
theorem skipBlock_eq_succ (dAtA : List Byte) (wire j : Nat)
    (hr : readVarint dAtA 0 = ⟨wire, j, none⟩) :
    skipBlock dAtA = skipLoop dAtA (dAtA.length - 1 + 1) 0 0 := by
  have := readVarint_ok_le dAtA 0 wire j hr
  unfold skipBlock
  rw [Nat.sub_add_cancel (by omega)]

/-- A varint of `bs.length + 1` bytes, all but the last with the continuation bit, is read
to its end. -/
theorem readVarint_bytes (pre bs post : List Byte) (b : Byte) (hb : ∀ c ∈ bs, 128 ≤ c.val)
    (hlast : b.val < 128) (hk : bs.length ≤ 9) :
    (readVarint (pre ++ bs ++ b :: post) pre.length).iNdEx = pre.length + bs.length + 1 ∧
    (readVarint (pre ++ bs ++ b :: post) pre.length).err = none := by
  unfold readVarint
  obtain ⟨acc1, h1⟩ := varintLoop_continuation (b :: post) bs (10 - bs.length + 1) 0 0 pre hb
    (by omega)
  have e : 10 - bs.length + 1 + bs.length = 11 := by omega
  rw [e] at h1
  rw [h1, varintLoop, if_neg (by omega)]
  have hget : (pre ++ bs ++ b :: post)[pre.length + bs.length]? = some b := by
    have := getElem?_mid (pre ++ bs) b post
    simpa using this
  simp only [hget]
  rw [if_pos hlast]
  exact ⟨rfl, rfl⟩

/-- C21, as stated, fails for a length that makes the cursor wrap around. The input is the
tag `0x0a` (wire type 2) followed by the nine-byte length varint of `L = 2^63 - 1`, which is
not negative: `skipBlock` returns `ErrInvalidLengthBlock`, not the offset `1 + 9 + L`. -/
theorem skipBlock_length_wraps :
    (readVarint [0x0a, 0xff, 0xff, 0xff, 0xff, 0xff, 0xff, 0xff, 0xff, 0x7f] 0
      = ⟨0x0a, 1, none⟩) ∧
    (readVarint [0x0a, 0xff, 0xff, 0xff, 0xff, 0xff, 0xff, 0xff, 0xff, 0x7f] 1
      = ⟨2 ^ 63 - 1, 10, none⟩) ∧
    (0 ≤ int64 (2 ^ 63 - 1)) ∧
    skipBlock [0x0a, 0xff, 0xff, 0xff, 0xff, 0xff, 0xff, 0xff, 0xff, 0x7f]
      = .error .ErrInvalidLengthBlock := by
  decide

/-- C21, amended. For every input that starts with a complete tag, read up to the cursor
`tLen`: for wire type 0 followed by a complete varint, `skipBlock` returns the cursor after
that varint; for wire type 1 it returns `tLen + 8`; for wire type 2 followed by a length
varint that ends at the cursor `j`, with the decoded length `L >= 0` and `j + L < 2^63`, it
returns `j + L`, and with `L < 0` or `j + L >= 2^63` it returns `ErrInvalidLengthBlock`;
for wire type 5 it returns `tLen + 4`; for the wire types 6 and 7 it returns the
illegal-wire-type error. A varint of `k + 1 <= 10` bytes, all but the last with the
continuation bit, moves the cursor by `k + 1`. -/
theorem skipBlock_first_field (dAtA : List Byte) (wire tLen : Nat)
    (hl : dAtA.length < 2 ^ 63) (ht : readVarint dAtA 0 = ⟨wire, tLen, none⟩) :
    (wire &&& 0x7 = 0 → ∀ v j, readVarint dAtA tLen = ⟨v, j, none⟩ →
      skipBlock dAtA = .ok (j : Int)) ∧
    (wire &&& 0x7 = 1 → skipBlock dAtA = .ok ((tLen : Int) + 8)) ∧
    (wire &&& 0x7 = 2 → ∀ x j, readVarint dAtA tLen = ⟨x, j, none⟩ →
      (0 ≤ int64 x → (j : Int) + int64 x < 2 ^ 63 →
        skipBlock dAtA = .ok ((j : Int) + int64 x)) ∧
      (int64 x < 0 ∨ 2 ^ 63 ≤ (j : Int) + int64 x →
        skipBlock dAtA = .error .ErrInvalidLengthBlock)) ∧
    (wire &&& 0x7 = 5 → skipBlock dAtA = .ok ((tLen : Int) + 4)) ∧
    (wire &&& 0x7 = 6 ∨ wire &&& 0x7 = 7 →
      skipBlock dAtA = .error (.illegalWireType (wire &&& 0x7))) ∧
    (∀ (pre bs post : List Byte) (b : Byte), (∀ c ∈ bs, 128 ≤ c.val) → b.val < 128 →
      bs.length ≤ 9 →
      (readVarint (pre ++ bs ++ b :: post) pre.length).iNdEx = pre.length + bs.length + 1 ∧
      (readVarint (pre ++ bs ++ b :: post) pre.length).err = none) := by
  have hs := skipBlock_eq_succ dAtA wire tLen ht
  refine ⟨?_, ?_, ?_, ?_, ?_, readVarint_bytes⟩
  · intro hwt v j hr0
    rw [hs, skipLoop_varint dAtA _ 0 0 wire tLen v j ht hwt hr0, if_pos rfl]
  · intro hwt
    rw [hs, skipLoop_fixed64 dAtA _ 0 0 wire tLen ht hwt, if_pos rfl]
  · intro hwt x j hr2
    constructor
    · intro h0 h1
      rw [hs, skipLoop_bytes dAtA _ 0 0 wire tLen x j ht hwt hr2 h0 h1, if_pos rfl]
    · intro h
      rw [hs, skipLoop_bytes_invalid dAtA _ 0 0 wire tLen x j hl ht hwt hr2 h]
  · intro hwt
    rw [hs, skipLoop_fixed32 dAtA _ 0 0 wire tLen ht hwt, if_pos rfl]
  · intro hwt
    rw [hs, skipLoop_illegal dAtA _ 0 0 wire tLen ht hwt]

set_option maxRecDepth 8192 in
/-- C21 amended, at the input `0a 03 01 02 03 09`: a field of wire type 2 with a tag of one
byte, a length varint of one byte and the length 3; `skipBlock` returns 5. -/
theorem skipBlock_first_field_witness :
    skipBlock [0x0a, 0x03, 0x01, 0x02, 0x03, 0x09] = .ok 5 :=
  (((skipBlock_first_field [0x0a, 0x03, 0x01, 0x02, 0x03, 0x09] 0x0a 1 (by norm_num)
    (by decide)).2.2.1 (by decide) 3 2 (by decide)).1 (by decide) (by decide))


/-! ## Groups in skipBlock -/

theorem skipLoop_exit (dAtA : List Byte) (fuel i depth : Nat) (hi : dAtA.length ≤ i) :
    skipLoop dAtA fuel i depth = .error .ErrUnexpectedEOF := by
  cases fuel with
  | zero => rw [skipLoop, if_neg (by omega)]
  | succ f => rw [skipLoop, if_neg (by omega)]

/-- Inside a group, `skipBlock` walks over a sequence of complete fields and stays at the
same depth. -/
theorem Fields.skipLoop_eq {dAtA : List Byte} {i e : Nat} (h : Fields dAtA i e) :
    ∀ (depth fuel : Nat), 1 ≤ depth → dAtA.length ≤ fuel + i →
      ∃ fuel1, dAtA.length ≤ fuel1 + e ∧
        skipLoop dAtA fuel i depth = skipLoop dAtA fuel1 e depth := by
  induction h with
  | nil i => intro depth fuel _ hf; exact ⟨fuel, hf, rfl⟩
  | @varint i wire j v k e hr hwt hr0 _ ih =>
    intro depth fuel hd hf
    have h1 := readVarint_ok_le dAtA i wire j hr
    have h2 := readVarint_ok_le dAtA j v k hr0
    obtain ⟨f, rfl⟩ : ∃ f, fuel = f + 1 := ⟨fuel - 1, by omega⟩
    obtain ⟨f1, hf1, e1⟩ := ih depth f hd (by omega)
    refine ⟨f1, hf1, ?_⟩
    rw [skipLoop_varint dAtA f i depth wire j v k hr hwt hr0, if_neg (by omega), e1]
  | @fixed64 i wire j e hr hwt _ ih =>
    intro depth fuel hd hf
    have h1 := readVarint_ok_le dAtA i wire j hr
    obtain ⟨f, rfl⟩ : ∃ f, fuel = f + 1 := ⟨fuel - 1, by omega⟩
    obtain ⟨f1, hf1, e1⟩ := ih depth f hd (by omega)
    refine ⟨f1, hf1, ?_⟩
    rw [skipLoop_fixed64 dAtA f i depth wire j hr hwt, if_neg (by omega), e1]
  | @bytes i wire j x k e hr hwt hr2 h0 hlt _ ih =>
    intro depth fuel hd hf
    have h1 := readVarint_ok_le dAtA i wire j hr
    have h2 := readVarint_ok_le dAtA j x k hr2
    obtain ⟨f, rfl⟩ : ∃ f, fuel = f + 1 := ⟨fuel - 1, by omega⟩
    obtain ⟨f1, hf1, e1⟩ := ih depth f hd (by omega)
    refine ⟨f1, hf1, ?_⟩
    rw [skipLoop_bytes dAtA f i depth wire j x k hr hwt hr2 h0 hlt, if_neg (by omega), e1]
  | @fixed32 i wire j e hr hwt _ ih =>
    intro depth fuel hd hf
    have h1 := readVarint_ok_le dAtA i wire j hr
    obtain ⟨f, rfl⟩ : ∃ f, fuel = f + 1 := ⟨fuel - 1, by omega⟩
    obtain ⟨f1, hf1, e1⟩ := ih depth f hd (by omega)
    refine ⟨f1, hf1, ?_⟩
    rw [skipLoop_fixed32 dAtA f i depth wire j hr hwt, if_neg (by omega), e1]
  | @group i wire j p wire2 q e hr hwt _ hr2 hwt2 _ ihbody ihrest =>
    intro depth fuel hd hf
    have h1 := readVarint_ok_le dAtA i wire j hr
    have h2 := readVarint_ok_le dAtA p wire2 q hr2
    obtain ⟨f, rfl⟩ : ∃ f, fuel = f + 1 := ⟨fuel - 1, by omega⟩
    obtain ⟨f1, hf1, e1⟩ := ihbody (depth + 1) f (by omega) (by omega)
    obtain ⟨g, rfl⟩ : ∃ g, f1 = g + 1 := ⟨f1 - 1, by omega⟩
    obtain ⟨f2, hf2, e2⟩ := ihrest depth g hd (by omega)
    refine ⟨f2, hf2, ?_⟩
    rw [skipLoop_start_group dAtA f i depth wire j hr hwt, e1,
      skipLoop_end_group dAtA g p (depth + 1) wire2 q hr2 hwt2, if_neg (by omega),
      if_neg (by omega), Nat.add_sub_cancel, e2]

/-- Inside a group, `skipBlock` walks over complete fields and start-group tags and is
then at a depth that is not zero. -/
theorem OpenFields.skipLoop_open {dAtA : List Byte} {i e : Nat} (h : OpenFields dAtA i e) :
    ∀ (depth fuel : Nat), 1 ≤ depth → dAtA.length ≤ fuel + i →
      ∃ fuel1 depth1, 1 ≤ depth1 ∧
        skipLoop dAtA fuel i depth = skipLoop dAtA fuel1 e depth1 := by
  induction h with
  | @closed i e hf =>
    intro depth fuel hd hfu
    obtain ⟨f1, _, e1⟩ := hf.skipLoop_eq depth fuel hd hfu
    exact ⟨f1, depth, hd, e1⟩
  | @start i p wire q e hf hr hwt _ ih =>
    intro depth fuel hd hfu
    have h1 := readVarint_ok_le dAtA p wire q hr
    obtain ⟨f1, hf1, e1⟩ := hf.skipLoop_eq depth fuel hd hfu
    obtain ⟨g, rfl⟩ : ∃ g, f1 = g + 1 := ⟨f1 - 1, by omega⟩
    obtain ⟨f2, d2, hd2, e2⟩ := ih (depth + 1) g (by omega) (by omega)
    refine ⟨f2, d2, hd2, ?_⟩
    rw [e1, skipLoop_start_group dAtA g p depth wire q hr hwt, e2]

/-- C22. For an input that starts with a start-group tag, followed by a sequence of
complete fields (among them whole groups), followed by an end-group tag that ends at the
cursor `q`: `skipBlock` returns `q`, the offset just past the end-group tag that brings the
depth back to zero. An input that starts with an end-group tag fails with
`ErrUnexpectedEndOfGroupBlock`. An input that starts with a start-group tag and then holds
complete fields and start-group tags up to its end, so that a group is left open, fails
with `io.ErrUnexpectedEOF`. -/
theorem skipBlock_groups (dAtA : List Byte) (wire j : Nat)
    (ht : readVarint dAtA 0 = ⟨wire, j, none⟩) :
    (wire &&& 0x7 = 3 → ∀ p wire2 q, Fields dAtA j p → readVarint dAtA p = ⟨wire2, q, none⟩ →
      wire2 &&& 0x7 = 4 → skipBlock dAtA = .ok (q : Int)) ∧
    (wire &&& 0x7 = 4 → skipBlock dAtA = .error .ErrUnexpectedEndOfGroupBlock) ∧
    (wire &&& 0x7 = 3 → ∀ e, OpenFields dAtA j e → dAtA.length ≤ e →
      skipBlock dAtA = .error .ErrUnexpectedEOF) := by
  have hs := skipBlock_eq_succ dAtA wire j ht
  have h1 := readVarint_ok_le dAtA 0 wire j ht
  refine ⟨?_, ?_, ?_⟩
  · intro hwt p wire2 q hf hr2 hwt2
    have h2 := readVarint_ok_le dAtA p wire2 q hr2
    obtain ⟨f1, hf1, e1⟩ := hf.skipLoop_eq 1 (dAtA.length - 1) (le_refl 1) (by omega)
    obtain ⟨g, rfl⟩ : ∃ g, f1 = g + 1 := ⟨f1 - 1, by omega⟩
    rw [hs, skipLoop_start_group dAtA _ 0 0 wire j ht hwt, e1,
      skipLoop_end_group dAtA g p 1 wire2 q hr2 hwt2, if_neg (by omega), if_pos rfl]
  · intro hwt
    rw [hs, skipLoop_end_group dAtA _ 0 0 wire j ht hwt, if_pos rfl]
  · intro hwt e ho he
    obtain ⟨f1, d1, _, e1⟩ := ho.skipLoop_open 1 (dAtA.length - 1) (le_refl 1) (by omega)
    rw [hs, skipLoop_start_group dAtA _ 0 0 wire j ht hwt, e1, skipLoop_exit dAtA f1 e d1 he]

set_option maxRecDepth 8192 in
/-- C22, at the input `0b 10 05 1b 1c 0c ff`: the group of field 1 holds a varint field and
the empty group of field 3; `skipBlock` returns 6, the offset past the tag `0c`. -/
theorem skipBlock_groups_witness :
    skipBlock [0x0b, 0x10, 0x05, 0x1b, 0x1c, 0x0c, 0xff] = .ok 6 :=
  (skipBlock_groups [0x0b, 0x10, 0x05, 0x1b, 0x1c, 0x0c, 0xff] 0x0b 1 (by decide)).1
    (by decide) 5 0x0c 6
    (@Fields.varint _ 1 0x10 2 5 3 5 (by decide) (by decide) (by decide)
      (@Fields.group _ 3 0x1b 4 4 0x1c 5 5 (by decide) (by decide) (Fields.nil 4)
        (by decide) (by decide) (Fields.nil 5)))
    (by decide) (by decide)


/-! ## The cursor of the field loop -/

theorem unmarshalLoop_succ_step {M : Type} (name : MsgName)
    (field : M → Int → Nat → List Byte → Nat → Option (FieldResult M))
    (dAtA : List Byte) (fuel : Nat) (m : M) (i : Nat) (hi : i < dAtA.length) :
    unmarshalLoop name field dAtA (fuel + 1) m i
      = (unmarshalStep name field dAtA m i).andThen (unmarshalLoop name field dAtA fuel) := by
  rw [unmarshalLoop, if_pos hi]
  unfold unmarshalStep
  generalize readVarint dAtA i = r
  obtain ⟨wire, j, e⟩ := r
  cases e with
  | some e => rfl
  | none =>
    simp only
    by_cases h4 : wire &&& 0x7 = 4
    · rw [if_pos h4, if_pos h4]; rfl
    · rw [if_neg h4, if_neg h4]
      by_cases h0 : int32 (wire >>> 3) ≤ 0
      · rw [if_pos h0, if_pos h0]; rfl
      · rw [if_neg h0, if_neg h0]
        cases hf : field m (int32 (wire >>> 3)) (wire &&& 0x7) dAtA j with
        | some res =>
          simp only
          cases he : res.err with
          | some e => simp only [Step.andThen]
          | none => simp only [Step.andThen]
        | none =>
          simp only
          cases hs : skipBlock (dAtA.drop i) with
          | error e => simp only [Step.andThen]
          | ok skippy =>
            simp only
            by_cases ha : skippy < 0 ∨ wrapInt64 ((i : Int) + skippy) < 0
            · rw [if_pos ha, if_pos ha]; rfl
            · rw [if_neg ha, if_neg ha]
              by_cases hb : wrapInt64 ((i : Int) + skippy) > dAtA.length
              · rw [if_pos hb, if_pos hb]; rfl
              · rw [if_neg hb, if_neg hb]; rfl

theorem unmarshalLoop_exit {M : Type} (name : MsgName)
    (field : M → Int → Nat → List Byte → Nat → Option (FieldResult M))
    (dAtA : List Byte) (fuel : Nat) (m : M) (i : Nat) (hi : ¬ i < dAtA.length) :
    unmarshalLoop name field dAtA fuel m i
      = if i > dAtA.length then (m, some .ErrUnexpectedEOF) else (m, none) := by
  cases fuel with
  | zero => rw [unmarshalLoop, if_neg hi]
  | succ f => rw [unmarshalLoop, if_neg hi]


theorem skipLoop_succ_step (dAtA : List Byte) (fuel i depth : Nat) (hi : i < dAtA.length) :
    skipLoop dAtA (fuel + 1) i depth
      = (skipStep dAtA i depth).andThen (skipLoop dAtA fuel) := by
  rw [skipLoop, if_pos hi]
  unfold skipStep skipSwitch
  generalize readVarint dAtA i = r
  obtain ⟨wire, j, e⟩ := r
  cases e with
  | some e => rfl
  | none =>
    simp only
    rcases readVarint dAtA j with ⟨v, k, e0⟩
    cases e0 <;> simp only <;> split_ifs <;>
      first
        | rfl
        | (simp only; split_ifs <;> rfl)

theorem varintLoop_fuel (dAtA : List Byte) : ∀ (fuel1 fuel2 shift i acc : Nat),
    1 ≤ fuel1 → 71 ≤ shift + 7 * fuel1 → 1 ≤ fuel2 → 71 ≤ shift + 7 * fuel2 →
    varintLoop dAtA fuel1 shift i acc = varintLoop dAtA fuel2 shift i acc ∧
    (varintLoop dAtA fuel1 shift i acc).err ≠ some .fuel := by
  intro fuel1
  induction fuel1 with
  | zero => intro fuel2 shift i acc h; omega
  | succ f1 ih =>
    intro fuel2 shift i acc _ h1 h2 h3
    obtain ⟨f2, rfl⟩ : ∃ f2, fuel2 = f2 + 1 := ⟨fuel2 - 1, by omega⟩
    rw [varintLoop, varintLoop]
    by_cases hs : shift ≥ 64
    · rw [if_pos hs, if_pos hs]; exact ⟨rfl, by simp⟩
    · rw [if_neg hs, if_neg hs]
      cases hb : dAtA[i]? with
      | none => exact ⟨rfl, by simp⟩
      | some b =>
        simp only
        by_cases hlt : b.val < 0x80
        · rw [if_pos hlt, if_pos hlt]; exact ⟨rfl, by simp⟩
        · rw [if_neg hlt, if_neg hlt]
          exact ih f2 (shift + 7) (i + 1) _ (by omega) (by omega) (by omega) (by omega)

theorem varintLoop_cursor (dAtA : List Byte) : ∀ (fuel t i acc : Nat), t ≤ 10 →
    (varintLoop dAtA fuel (7 * t) i acc).iNdEx + t ≤ i + 10 := by
  intro fuel
  induction fuel with
  | zero => intro t i acc ht; rw [varintLoop]; simpa using ht
  | succ f ih =>
    intro t i acc ht
    rw [varintLoop]
    by_cases hs : 7 * t ≥ 64
    · rw [if_pos hs]; simpa using ht
    · rw [if_neg hs]
      cases hb : dAtA[i]? with
      | none => simpa using ht
      | some b =>
        simp only
        by_cases hlt : b.val < 0x80
        · rw [if_pos hlt]; simp only; omega
        · rw [if_neg hlt]
          have := ih (t + 1) (i + 1) (acc ||| (((b.val &&& 0x7F) <<< (7 * t)) % 2 ^ 64))
            (by omega)
          have e : 7 * (t + 1) = 7 * t + 7 := by ring
          rw [e] at this
          omega

/-- The varint loop returns within ten bytes: more rounds than eleven change nothing, the
rounds never run out, and the cursor moves by at most 10. -/
theorem readVarint_total (dAtA : List Byte) (i : Nat) :
    (∀ n, varintLoop dAtA (11 + n) 0 i 0 = readVarint dAtA i) ∧
    (readVarint dAtA i).err ≠ some .fuel ∧ (readVarint dAtA i).iNdEx ≤ i + 10 := by
  unfold readVarint
  refine ⟨fun n => (varintLoop_fuel dAtA (11 + n) 11 0 i 0 (by omega) (by omega) (by omega)
    (by omega)).1, (varintLoop_fuel dAtA 11 11 0 i 0 (by omega) (by omega) (by omega)
    (by omega)).2, ?_⟩
  have := varintLoop_cursor dAtA 11 0 i 0 (by omega)
  simpa using this

theorem wrapInt64_cases (y : Int) (h1 : 0 ≤ y) (h2 : y < 2 ^ 64) :
    wrapInt64 y = y ∨ wrapInt64 y < 0 := by
  by_cases h : y < 2 ^ 63
  · exact Or.inl (wrapInt64_of_range y (by omega) h)
  · exact Or.inr (wrapInt64_of_ge y (by omega) h2)

/-- The `switch wireType` of `skipBlock` never runs out of rounds, and the cursor it leaves
is negative or not before the cursor it started from. -/
theorem skipSwitch_props (dAtA : List Byte) (hl : dAtA.length < 2 ^ 63) (wire j depth : Nat)
    (hj : j ≤ dAtA.length) :
    (∀ e, skipSwitch dAtA wire j depth = .error e → e ≠ .fuel) ∧
    (∀ c d, skipSwitch dAtA wire j depth = .ok (c, d) →
      (c < 0 ∨ (j : Int) ≤ c) ∧ (c < 2 ^ 63 ∨ c ≤ dAtA.length + 8)) := by
  have hB := (readVarint_total dAtA j).2.1
  unfold skipSwitch
  simp only
  by_cases h0 : wire &&& 0x7 = 0
  · rw [if_pos h0]
    rcases hr2 : readVarint dAtA j with ⟨v, k, e0⟩
    rw [hr2] at hB
    cases e0 with
    | some e0 =>
      refine ⟨fun e h => ?_, fun c d h => ?_⟩
      · cases h; simpa using hB
      · cases h
    | none =>
      have hjk := readVarint_ok_le dAtA j v k hr2
      simp only
      refine ⟨fun e h => ?_, fun c d h => ?_⟩
      · cases h
      · cases h; exact ⟨Or.inr (by omega), Or.inr (by omega)⟩
  rw [if_neg h0]
  by_cases h1 : wire &&& 0x7 = 1
  · rw [if_pos h1]
    refine ⟨fun e h => ?_, fun c d h => ?_⟩
    · cases h
    · cases h; exact ⟨Or.inr (by omega), Or.inr (by omega)⟩
  rw [if_neg h1]
  by_cases h2 : wire &&& 0x7 = 2
  · rw [if_pos h2]
    rcases hr2 : readVarint dAtA j with ⟨v, k, e0⟩
    rw [hr2] at hB
    cases e0 with
    | some e0 =>
      refine ⟨fun e h => ?_, fun c d h => ?_⟩
      · cases h; simpa using hB
      · cases h
    | none =>
      have hjk := readVarint_ok_le dAtA j v k hr2
      have hb := int64_bounds v
      simp only
      by_cases hneg : int64 v < 0
      · rw [if_pos hneg]
        refine ⟨fun e h => ?_, fun c d h => ?_⟩
        · cases h; simp
        · cases h
      · rw [if_neg hneg]
        refine ⟨fun e h => ?_, fun c d h => ?_⟩
        · cases h
        · cases h
          have hub := (int64_bounds (uint64 ((k : Int) + int64 v))).2
          refine ⟨?_, Or.inl (by unfold wrapInt64; omega)⟩
          rcases wrapInt64_cases ((k : Int) + int64 v) (by omega) (by omega) with hw | hw
          · right; rw [hw]; omega
          · left; exact hw
  rw [if_neg h2]
  by_cases h3 : wire &&& 0x7 = 3
  · rw [if_pos h3]
    refine ⟨fun e h => ?_, fun c d h => ?_⟩
    · cases h
    · cases h; exact ⟨Or.inr (by omega), Or.inr (by omega)⟩
  rw [if_neg h3]
  by_cases h4 : wire &&& 0x7 = 4
  · rw [if_pos h4]
    by_cases hd : depth = 0
    · rw [if_pos hd]
      refine ⟨fun e h => ?_, fun c d h => ?_⟩
      · cases h; simp
      · cases h
    · rw [if_neg hd]
      refine ⟨fun e h => ?_, fun c d h => ?_⟩
      · cases h
      · cases h; exact ⟨Or.inr (by omega), Or.inr (by omega)⟩
  rw [if_neg h4]
  by_cases h5 : wire &&& 0x7 = 5
  · rw [if_pos h5]
    refine ⟨fun e h => ?_, fun c d h => ?_⟩
    · cases h
    · cases h; exact ⟨Or.inr (by omega), Or.inr (by omega)⟩
  rw [if_neg h5]
  refine ⟨fun e h => ?_, fun c d h => ?_⟩
  · cases h; simp
  · cases h

/-- One iteration of the loop of `skipBlock` never runs out of rounds, and what it returns
or goes on with lies after the cursor it started from. -/
theorem skipStep_props (dAtA : List Byte) (hl : dAtA.length < 2 ^ 63) (i depth : Nat) :
    (∀ e, skipStep dAtA i depth = .fail e → e ≠ .fuel) ∧
    (∀ n, skipStep dAtA i depth = .done n →
      (i : Int) < n ∧ (n < 2 ^ 63 ∨ n ≤ dAtA.length + 8)) ∧
    (∀ i1 d1, skipStep dAtA i depth = .next i1 d1 → i < i1) := by
  have hA := (readVarint_total dAtA i).2.1
  unfold skipStep
  rcases hr : readVarint dAtA i with ⟨wire, j, e⟩
  rw [hr] at hA
  cases e with
  | some e =>
    refine ⟨fun e1 h => ?_, fun n h => ?_, fun i1 d1 h => ?_⟩
    · cases h; simpa using hA
    · cases h
    · cases h
  | none =>
    have hij := readVarint_ok_le dAtA i wire j hr
    obtain ⟨hE, hO⟩ := skipSwitch_props dAtA hl wire j depth hij.2
    simp only
    cases hs : skipSwitch dAtA wire j depth with
    | error e =>
      refine ⟨fun e1 h => ?_, fun n h => ?_, fun i1 d1 h => ?_⟩
      · cases h; exact hE _ hs
      · cases h
      · cases h
    | ok p =>
      obtain ⟨c, d⟩ := p
      have hc := hO c d hs
      simp only
      by_cases hneg : c < 0
      · rw [if_pos hneg]
        refine ⟨fun e1 h => ?_, fun n h => ?_, fun i1 d1 h => ?_⟩
        · cases h; simp
        · cases h
        · cases h
      · rw [if_neg hneg]
        by_cases hd : d = 0
        · rw [if_pos hd]
          refine ⟨fun e1 h => ?_, fun n h => ?_, fun i1 d1 h => ?_⟩
          · cases h
          · cases h; exact ⟨by omega, hc.2⟩
          · cases h
        · rw [if_neg hd]
          refine ⟨fun e1 h => ?_, fun n h => ?_, fun i1 d1 h => ?_⟩
          · cases h
          · cases h
          · cases h; omega

/-- The loop of `skipBlock` terminates: with rounds for every byte left it never runs out
of them, more rounds change nothing, and an offset it returns lies after the cursor. -/
theorem skipLoop_total (dAtA : List Byte) (hl : dAtA.length < 2 ^ 63) :
    ∀ (fuel1 fuel2 i depth : Nat), dAtA.length ≤ fuel1 + i → dAtA.length ≤ fuel2 + i →
      skipLoop dAtA fuel1 i depth = skipLoop dAtA fuel2 i depth ∧
      skipLoop dAtA fuel1 i depth ≠ .error .fuel ∧
      (∀ n, skipLoop dAtA fuel1 i depth = .ok n →
        (i : Int) < n ∧ (n < 2 ^ 63 ∨ n ≤ dAtA.length + 8)) := by
  intro fuel1
  induction fuel1 with
  | zero =>
    intro fuel2 i depth h1 h2
    rw [skipLoop_exit dAtA 0 i depth (by omega), skipLoop_exit dAtA fuel2 i depth (by omega)]
    simp
  | succ f1 ih =>
    intro fuel2 i depth h1 h2
    by_cases hi : i < dAtA.length
    · obtain ⟨f2, rfl⟩ : ∃ f2, fuel2 = f2 + 1 := ⟨fuel2 - 1, by omega⟩
      obtain ⟨hF, hD, hN⟩ := skipStep_props dAtA hl i depth
      rw [skipLoop_succ_step dAtA f1 i depth hi, skipLoop_succ_step dAtA f2 i depth hi]
      cases hs : skipStep dAtA i depth with
      | fail e =>
        refine ⟨rfl, ?_, ?_⟩
        · intro h; cases h; exact hF _ hs rfl
        · intro n h; cases h
      | done n =>
        refine ⟨rfl, ?_, ?_⟩
        · intro h; cases h
        · intro n1 h; cases h; exact hD n hs
      | next i1 d1 =>
        have hlt := hN i1 d1 hs
        obtain ⟨e1, e2, e3⟩ := ih f2 i1 d1 (by omega) (by omega)
        refine ⟨e1, e2, ?_⟩
        intro n h
        have := e3 n h
        exact ⟨by omega, this.2⟩
    · rw [skipLoop_exit dAtA _ i depth (by omega), skipLoop_exit dAtA fuel2 i depth (by omega)]
      simp

theorem skipBlock_total (dAtA : List Byte) (hl : dAtA.length < 2 ^ 63) :
    skipBlock dAtA ≠ .error .fuel ∧
    (∀ fuel, dAtA.length ≤ fuel → skipLoop dAtA fuel 0 0 = skipBlock dAtA) ∧
    (∀ n, skipBlock dAtA = .ok n → 0 < n ∧ (n < 2 ^ 63 ∨ n ≤ dAtA.length + 8)) := by
  unfold skipBlock
  refine ⟨(skipLoop_total dAtA hl _ _ 0 0 (le_refl _) (le_refl _)).2.1,
    fun fuel hf => (skipLoop_total dAtA hl fuel _ 0 0 (by omega) (le_refl _)).1, ?_⟩
  intro n h
  have := (skipLoop_total dAtA hl _ _ 0 0 (le_refl _) (le_refl _)).2.2 n h
  exact ⟨by omega, this.2⟩

/-- An iteration of the field loop that does not return leaves a cursor after the one it
started from and not beyond the end of the input, when every `case` does. -/
theorem unmarshalStep_next {M : Type} (name : MsgName)
    (field : M → Int → Nat → List Byte → Nat → Option (FieldResult M))
    (dAtA : List Byte) (hl : dAtA.length < 2 ^ 63)
    (hb : ∀ (m : M) k wt j res, j ≤ dAtA.length → field m k wt dAtA j = some res →
      res.err = none → j ≤ res.iNdEx ∧ res.iNdEx ≤ dAtA.length)
    (m : M) (i : Nat) (m1 : M) (i1 : Nat)
    (h : unmarshalStep name field dAtA m i = .next m1 i1) : i < i1 ∧ i1 ≤ dAtA.length := by
  unfold unmarshalStep at h
  rcases hr : readVarint dAtA i with ⟨wire, j, e⟩
  rw [hr] at h
  cases e with
  | some e => cases h
  | none =>
    have hij := readVarint_ok_le dAtA i wire j hr
    simp only at h
    by_cases h4 : wire &&& 0x7 = 4
    · rw [if_pos h4] at h; cases h
    rw [if_neg h4] at h
    by_cases h0 : int32 (wire >>> 3) ≤ 0
    · rw [if_pos h0] at h; cases h
    rw [if_neg h0] at h
    cases hf : field m (int32 (wire >>> 3)) (wire &&& 0x7) dAtA j with
    | some res =>
      rw [hf] at h
      simp only at h
      cases he : res.err with
      | some e => rw [he] at h; cases h
      | none =>
        rw [he] at h
        have := hb m _ _ j res hij.2 hf he
        cases h
        omega
    | none =>
      rw [hf] at h
      simp only at h
      have hdl : (dAtA.drop i).length < 2 ^ 63 := by simp; omega
      cases hs : skipBlock (dAtA.drop i) with
      | error e => rw [hs] at h; cases h
      | ok skippy =>
        rw [hs] at h
        have hsk := (skipBlock_total (dAtA.drop i) hdl).2.2 skippy hs
        have hdl2 : (dAtA.drop i).length = dAtA.length - i := by simp
        simp only at h
        by_cases ha : skippy < 0 ∨ wrapInt64 ((i : Int) + skippy) < 0
        · rw [if_pos ha] at h; cases h
        rw [if_neg ha] at h
        by_cases hc : wrapInt64 ((i : Int) + skippy) > dAtA.length
        · rw [if_pos hc] at h; cases h
        rw [if_neg hc] at h
        rcases wrapInt64_cases ((i : Int) + skippy) (by omega) (by omega) with hw | hw
        · rw [hw] at h hc
          cases h
          omega
        · exact absurd (Or.inr hw) ha

/-- An iteration of the field loop never runs out of rounds, when no `case` does. -/
theorem unmarshalStep_fail {M : Type} (name : MsgName)
    (field : M → Int → Nat → List Byte → Nat → Option (FieldResult M))
    (dAtA : List Byte) (hl : dAtA.length < 2 ^ 63)
    (hnf : ∀ (m : M) k wt j res, field m k wt dAtA j = some res → res.err ≠ some .fuel)
    (m : M) (i : Nat) (m1 : M) (e : Error)
    (h : unmarshalStep name field dAtA m i = .fail m1 e) : e ≠ .fuel := by
  have hA := (readVarint_total dAtA i).2.1
  unfold unmarshalStep at h
  rcases hr : readVarint dAtA i with ⟨wire, j, e0⟩
  rw [hr] at h hA
  cases e0 with
  | some e0 => cases h; simpa using hA
  | none =>
    simp only at h
    by_cases h4 : wire &&& 0x7 = 4
    · rw [if_pos h4] at h; cases h; simp
    rw [if_neg h4] at h
    by_cases h0 : int32 (wire >>> 3) ≤ 0
    · rw [if_pos h0] at h; cases h; simp
    rw [if_neg h0] at h
    cases hf : field m (int32 (wire >>> 3)) (wire &&& 0x7) dAtA j with
    | some res =>
      rw [hf] at h
      simp only at h
      have hne := hnf m _ _ j res hf
      cases he : res.err with
      | some e1 => rw [he] at h hne; cases h; simpa using hne
      | none => rw [he] at h; cases h
    | none =>
      rw [hf] at h
      simp only at h
      have hdl : (dAtA.drop i).length < 2 ^ 63 := by simp; omega
      cases hs : skipBlock (dAtA.drop i) with
      | error e1 =>
        rw [hs] at h
        have := (skipBlock_total (dAtA.drop i) hdl).1
        rw [hs] at this
        cases h
        intro hc; exact this (by rw [hc])
      | ok skippy =>
        rw [hs] at h
        simp only at h
        by_cases ha : skippy < 0 ∨ wrapInt64 ((i : Int) + skippy) < 0
        · rw [if_pos ha] at h; cases h; simp
        rw [if_neg ha] at h
        by_cases hc : wrapInt64 ((i : Int) + skippy) > dAtA.length
        · rw [if_pos hc] at h; cases h; simp
        rw [if_neg hc] at h
        cases h

/-- The field loop terminates within `len(dAtA)` iterations: with rounds for every byte
left, more rounds change nothing. -/
theorem unmarshalLoop_fuel {M : Type} (name : MsgName)
    (field : M → Int → Nat → List Byte → Nat → Option (FieldResult M))
    (dAtA : List Byte) (hl : dAtA.length < 2 ^ 63)
    (hb : ∀ (m : M) k wt j res, j ≤ dAtA.length → field m k wt dAtA j = some res →
      res.err = none → j ≤ res.iNdEx ∧ res.iNdEx ≤ dAtA.length) :
    ∀ (fuel1 fuel2 : Nat) (m : M) (i : Nat), dAtA.length ≤ fuel1 + i →
      dAtA.length ≤ fuel2 + i →
      unmarshalLoop name field dAtA fuel1 m i = unmarshalLoop name field dAtA fuel2 m i := by
  intro fuel1
  induction fuel1 with
  | zero =>
    intro fuel2 m i h1 h2
    rw [unmarshalLoop_exit name field dAtA 0 m i (by omega),
      unmarshalLoop_exit name field dAtA fuel2 m i (by omega)]
  | succ f1 ih =>
    intro fuel2 m i h1 h2
    by_cases hi : i < dAtA.length
    · obtain ⟨f2, rfl⟩ : ∃ f2, fuel2 = f2 + 1 := ⟨fuel2 - 1, by omega⟩
      rw [unmarshalLoop_succ_step name field dAtA f1 m i hi,
        unmarshalLoop_succ_step name field dAtA f2 m i hi]
      cases hs : unmarshalStep name field dAtA m i with
      | fail m1 e => rfl
      | next m1 i1 =>
        have := unmarshalStep_next name field dAtA hl hb m i m1 i1 hs
        exact ih f2 m1 i1 (by omega) (by omega)
    · rw [unmarshalLoop_exit name field dAtA _ m i hi,
        unmarshalLoop_exit name field dAtA fuel2 m i hi]

/-- The field loop never runs out of rounds when it starts with one for every byte left. -/
theorem unmarshalLoop_ne_fuel {M : Type} (name : MsgName)
    (field : M → Int → Nat → List Byte → Nat → Option (FieldResult M))
    (dAtA : List Byte) (hl : dAtA.length < 2 ^ 63)
    (hb : ∀ (m : M) k wt j res, j ≤ dAtA.length → field m k wt dAtA j = some res →
      res.err = none → j ≤ res.iNdEx ∧ res.iNdEx ≤ dAtA.length)
    (hnf : ∀ (m : M) k wt j res, field m k wt dAtA j = some res → res.err ≠ some .fuel) :
    ∀ (fuel : Nat) (m : M) (i : Nat), dAtA.length ≤ fuel + i →
      (unmarshalLoop name field dAtA fuel m i).2 ≠ some .fuel := by
  intro fuel
  induction fuel with
  | zero =>
    intro m i h1
    rw [unmarshalLoop_exit name field dAtA 0 m i (by omega)]
    split_ifs <;> simp
  | succ f ih =>
    intro m i h1
    by_cases hi : i < dAtA.length
    · rw [unmarshalLoop_succ_step name field dAtA f m i hi]
      cases hs : unmarshalStep name field dAtA m i with
      | fail m1 e =>
        have := unmarshalStep_fail name field dAtA hl hnf m i m1 e hs
        simpa [Step.andThen] using this
      | next m1 i1 =>
        have := unmarshalStep_next name field dAtA hl hb m i m1 i1 hs
        exact ih m1 i1 (by omega)
    · rw [unmarshalLoop_exit name field dAtA _ m i hi]
      split_ifs <;> simp

theorem Visits.cursor_le {M : Type} {name : MsgName}
    {field : M → Int → Nat → List Byte → Nat → Option (FieldResult M)}
    {dAtA : List Byte} (hl : dAtA.length < 2 ^ 63)
    (hb : ∀ (m : M) k wt j res, j ≤ dAtA.length → field m k wt dAtA j = some res →
      res.err = none → j ≤ res.iNdEx ∧ res.iNdEx ≤ dAtA.length)
    {m : M} {i : Nat} {m1 : M} {i1 : Nat} (hi : i ≤ dAtA.length)
    (h : Visits name field dAtA m i m1 i1) : i ≤ i1 ∧ i1 ≤ dAtA.length := by
  induction h with
  | start => exact ⟨le_refl _, hi⟩
  | step _ _ hs ih =>
    have := unmarshalStep_next name field dAtA hl hb _ _ _ _ hs
    omega

/-- A run that returns `nil` has come, iteration by iteration, to the cursor
`len(dAtA)`. -/
theorem Visits.of_run {M : Type} {name : MsgName}
    {field : M → Int → Nat → List Byte → Nat → Option (FieldResult M)}
    {dAtA : List Byte} {m : M} {i : Nat} :
    ∀ (fuel : Nat) (m1 : M) (i1 : Nat) (m2 : M), Visits name field dAtA m i m1 i1 →
      unmarshalLoop name field dAtA fuel m1 i1 = (m2, none) →
      Visits name field dAtA m i m2 dAtA.length := by
  intro fuel
  induction fuel with
  | zero =>
    intro m1 i1 m2 hv h
    rw [unmarshalLoop] at h
    by_cases h1 : i1 < dAtA.length
    · rw [if_pos h1] at h; cases h
    rw [if_neg h1] at h
    by_cases h2 : i1 > dAtA.length
    · rw [if_pos h2] at h; cases h
    rw [if_neg h2] at h
    cases h
    have : i1 = dAtA.length := by omega
    rw [← this]; exact hv
  | succ f ih =>
    intro m1 i1 m2 hv h
    by_cases hi : i1 < dAtA.length
    · rw [unmarshalLoop_succ_step name field dAtA f m1 i1 hi] at h
      cases hs : unmarshalStep name field dAtA m1 i1 with
      | fail m3 e => rw [hs] at h; cases h
      | next m3 i3 =>
        rw [hs] at h
        exact ih m3 i3 m2 (Visits.step hv hi hs) h
    · rw [unmarshalLoop_exit name field dAtA _ m1 i1 hi] at h
      by_cases h2 : i1 > dAtA.length
      · rw [if_pos h2] at h; cases h
      rw [if_neg h2] at h
      cases h
      have : i1 = dAtA.length := by omega
      rw [← this]; exact hv

/-! ## The cases of the field switches -/

theorem heightCase_bounds {M : Type} (setHeight : M → Int → M) (m : M) (wt : Nat)
    (dAtA : List Byte) (j : Nat) :
    ((heightCase setHeight m wt dAtA j).err = none →
      j ≤ (heightCase setHeight m wt dAtA j).iNdEx ∧
      (heightCase setHeight m wt dAtA j).iNdEx ≤ dAtA.length) ∧
    (heightCase setHeight m wt dAtA j).err ≠ some .fuel := by
  have hA := (readVarint_total dAtA j).2.1
  unfold heightCase
  by_cases hw : wt ≠ 0
  · rw [if_pos hw]; simp
  · rw [if_neg hw]
    rcases hr : readVarint dAtA j with ⟨v, k, e⟩
    rw [hr] at hA
    refine ⟨fun h => ?_, hA⟩
    simp only at h
    subst h
    have := readVarint_ok_le dAtA j v k hr
    simp only
    omega

theorem readLen_bounds (fname : FieldName) (wt : Nat) (dAtA : List Byte) (j : Nat)
    (hl : dAtA.length < 2 ^ 63) :
    (∀ c p, readLen fname wt dAtA j = .ok (c, p) → j ≤ c ∧ c ≤ p ∧ p ≤ dAtA.length) ∧
    (∀ c e, readLen fname wt dAtA j = .error (c, e) → e ≠ .fuel) := by
  have hA := (readVarint_total dAtA j).2.1
  unfold readLen
  by_cases hw : wt ≠ 2
  · rw [if_pos hw]
    refine ⟨fun c p h => ?_, fun c e h => ?_⟩
    · cases h
    · cases h; simp
  rw [if_neg hw]
  rcases hr : readVarint dAtA j with ⟨x, k, e0⟩
  rw [hr] at hA
  cases e0 with
  | some e0 =>
    refine ⟨fun c p h => ?_, fun c e h => ?_⟩
    · cases h
    · cases h; simpa using hA
  | none =>
    have hjk := readVarint_ok_le dAtA j x k hr
    have hb := int64_bounds x
    simp only
    by_cases hneg : int64 x < 0
    · rw [if_pos hneg]
      refine ⟨fun c p h => ?_, fun c e h => ?_⟩
      · cases h
      · cases h; simp
    rw [if_neg hneg]
    by_cases hp : wrapInt64 ((k : Int) + int64 x) < 0
    · rw [if_pos hp]
      refine ⟨fun c p h => ?_, fun c e h => ?_⟩
      · cases h
      · cases h; simp
    rw [if_neg hp]
    by_cases hq : wrapInt64 ((k : Int) + int64 x) > dAtA.length
    · rw [if_pos hq]
      refine ⟨fun c p h => ?_, fun c e h => ?_⟩
      · cases h
      · cases h; simp
    rw [if_neg hq]
    refine ⟨fun c p h => ?_, fun c e h => ?_⟩
    · cases h
      rcases wrapInt64_cases ((k : Int) + int64 x) (by omega) (by omega) with hw1 | hw1
      · rw [hw1] at hq ⊢
        omega
      · exact absurd hw1 hp
    · cases h

theorem singularCase_bounds {M α : Type} (c : Codec α) (fname : FieldName)
    (get : M → Option α) (set : M → Option α → M) (m : M) (wt : Nat) (dAtA : List Byte)
    (j : Nat) (hl : dAtA.length < 2 ^ 63) :
    ((singularCase c fname get set m wt dAtA j).err = none →
      j ≤ (singularCase c fname get set m wt dAtA j).iNdEx ∧
      (singularCase c fname get set m wt dAtA j).iNdEx ≤ dAtA.length) ∧
    ((∀ x d, (c.Unmarshal x d).2 ≠ some .fuel) →
      (singularCase c fname get set m wt dAtA j).err ≠ some .fuel) := by
  constructor
  · intro h
    obtain ⟨i1, post, hrl, heq⟩ := singularCase_ok c fname get set m wt dAtA j h
    have := (readLen_bounds .Height wt dAtA j hl).1 i1 post hrl
    rw [heq]
    simp only
    omega
  · intro hc
    unfold singularCase
    cases hr : readLen fname wt dAtA j with
    | error p =>
      obtain ⟨i, e⟩ := p
      have := (readLen_bounds fname wt dAtA j hl).2 i e hr
      simpa using this
    | ok p =>
      obtain ⟨i1, post⟩ := p
      simp only
      have := hc (allocIfNil c (get m)) (slice dAtA i1 post)
      cases hu : c.Unmarshal (allocIfNil c (get m)) (slice dAtA i1 post) with
      | mk v err =>
        rw [hu] at this
        simp only [hu]
        cases err with
        | some e => simpa using this
        | none => simp

theorem repeatedCase_bounds {M α : Type} (c : Codec α) (fname : FieldName)
    (get : M → List α) (set : M → List α → M) (m : M) (wt : Nat) (dAtA : List Byte)
    (j : Nat) (hl : dAtA.length < 2 ^ 63) :
    ((repeatedCase c fname get set m wt dAtA j).err = none →
      j ≤ (repeatedCase c fname get set m wt dAtA j).iNdEx ∧
      (repeatedCase c fname get set m wt dAtA j).iNdEx ≤ dAtA.length) ∧
    ((∀ x d, (c.Unmarshal x d).2 ≠ some .fuel) →
      (repeatedCase c fname get set m wt dAtA j).err ≠ some .fuel) := by
  constructor
  · intro h
    obtain ⟨i1, post, hrl, heq⟩ := repeatedCase_ok c fname get set m wt dAtA j h
    have := (readLen_bounds .Height wt dAtA j hl).1 i1 post hrl
    rw [heq]
    simp only
    omega
  · intro hc
    unfold repeatedCase
    cases hr : readLen fname wt dAtA j with
    | error p =>
      obtain ⟨i, e⟩ := p
      have := (readLen_bounds fname wt dAtA j hl).2 i e hr
      simpa using this
    | ok p =>
      obtain ⟨i1, post⟩ := p
      simp only
      have := hc c.zero (slice dAtA i1 post)
      cases hu : c.Unmarshal c.zero (slice dAtA i1 post) with
      | mk v err =>
        rw [hu] at this
        simp only [hu]
        cases err with
        | some e => simpa using this
        | none => simp

/-! ## The field switches of the six messages -/

theorem GetLatestHeightResponse_field_props (dAtA : List Byte) (m : GetLatestHeightResponse)
    (k : Int) (wt j : Nat) (res : FieldResult GetLatestHeightResponse)
    (h : GetLatestHeightResponse.field m k wt dAtA j = some res) :
    (res.err = none → j ≤ res.iNdEx ∧ res.iNdEx ≤ dAtA.length) ∧ res.err ≠ some .fuel := by
  unfold GetLatestHeightResponse.field at h
  split_ifs at h
  cases h
  exact heightCase_bounds _ m wt dAtA j

theorem GetBlockRequest_field_props (dAtA : List Byte) (m : GetBlockRequest)
    (k : Int) (wt j : Nat) (res : FieldResult GetBlockRequest)
    (h : GetBlockRequest.field m k wt dAtA j = some res) :
    (res.err = none → j ≤ res.iNdEx ∧ res.iNdEx ≤ dAtA.length) ∧ res.err ≠ some .fuel := by
  unfold GetBlockRequest.field at h
  split_ifs at h
  cases h
  exact heightCase_bounds _ m wt dAtA j

theorem GetBlockResultsRequest_field_props (dAtA : List Byte) (m : GetBlockResultsRequest)
    (k : Int) (wt j : Nat) (res : FieldResult GetBlockResultsRequest)
    (h : GetBlockResultsRequest.field m k wt dAtA j = some res) :
    (res.err = none → j ≤ res.iNdEx ∧ res.iNdEx ≤ dAtA.length) ∧ res.err ≠ some .fuel := by
  unfold GetBlockResultsRequest.field at h
  split_ifs at h
  cases h
  exact heightCase_bounds _ m wt dAtA j

theorem GetBlockResponse_field_props {BlockID Blk : Type} (cId : Codec BlockID)
    (cB : Codec Blk) (dAtA : List Byte) (hl : dAtA.length < 2 ^ 63)
    (m : GetBlockResponse BlockID Blk) (k : Int) (wt j : Nat)
    (res : FieldResult (GetBlockResponse BlockID Blk))
    (h : GetBlockResponse.field cId cB m k wt dAtA j = some res) :
    (res.err = none → j ≤ res.iNdEx ∧ res.iNdEx ≤ dAtA.length) ∧
    ((∀ x d, (cId.Unmarshal x d).2 ≠ some .fuel) → (∀ x d, (cB.Unmarshal x d).2 ≠ some .fuel) →
      res.err ≠ some .fuel) := by
  unfold GetBlockResponse.field at h
  split_ifs at h
  · cases h
    exact ⟨(heightCase_bounds _ m wt dAtA j).1, fun _ _ => (heightCase_bounds _ m wt dAtA j).2⟩
  · cases h
    exact ⟨(singularCase_bounds cId _ _ _ m wt dAtA j hl).1,
      fun h1 _ => (singularCase_bounds cId _ _ _ m wt dAtA j hl).2 h1⟩
  · cases h
    exact ⟨(singularCase_bounds cB _ _ _ m wt dAtA j hl).1,
      fun _ h2 => (singularCase_bounds cB _ _ _ m wt dAtA j hl).2 h2⟩

theorem GetBlockResultsResponse_field_props {Event Tx VU CP : Type} (cE : Codec Event)
    (cT : Codec Tx) (cV : Codec VU) (cP : Codec CP) (dAtA : List Byte)
    (hl : dAtA.length < 2 ^ 63) (m : GetBlockResultsResponse Event Tx VU CP) (k : Int)
    (wt j : Nat) (res : FieldResult (GetBlockResultsResponse Event Tx VU CP))
    (h : GetBlockResultsResponse.field cE cT cV cP m k wt dAtA j = some res) :
    (res.err = none → j ≤ res.iNdEx ∧ res.iNdEx ≤ dAtA.length) ∧
    ((∀ x d, (cE.Unmarshal x d).2 ≠ some .fuel) → (∀ x d, (cT.Unmarshal x d).2 ≠ some .fuel) →
      (∀ x d, (cV.Unmarshal x d).2 ≠ some .fuel) → (∀ x d, (cP.Unmarshal x d).2 ≠ some .fuel) →
      res.err ≠ some .fuel) := by
  unfold GetBlockResultsResponse.field at h
  split_ifs at h
  · cases h
    exact ⟨(heightCase_bounds _ m wt dAtA j).1,
      fun _ _ _ _ => (heightCase_bounds _ m wt dAtA j).2⟩
  · cases h
    exact ⟨(repeatedCase_bounds cE _ _ _ m wt dAtA j hl).1,
      fun h1 _ _ _ => (repeatedCase_bounds cE _ _ _ m wt dAtA j hl).2 h1⟩
  · cases h
    exact ⟨(repeatedCase_bounds cT _ _ _ m wt dAtA j hl).1,
      fun _ h2 _ _ => (repeatedCase_bounds cT _ _ _ m wt dAtA j hl).2 h2⟩
  · cases h
    exact ⟨(repeatedCase_bounds cV _ _ _ m wt dAtA j hl).1,
      fun _ _ h3 _ => (repeatedCase_bounds cV _ _ _ m wt dAtA j hl).2 h3⟩
  · cases h
    exact ⟨(singularCase_bounds cP _ _ _ m wt dAtA j hl).1,
      fun _ _ _ h4 => (singularCase_bounds cP _ _ _ m wt dAtA j hl).2 h4⟩
  · cases h
    exact ⟨(repeatedCase_bounds cE _ _ _ m wt dAtA j hl).1,
      fun h1 _ _ _ => (repeatedCase_bounds cE _ _ _ m wt dAtA j hl).2 h1⟩


/-! ## The cursor invariant -/

theorem varintLoop_cursor_le (dAtA : List Byte) : ∀ (fuel shift i acc : Nat),
    i ≤ dAtA.length → (varintLoop dAtA fuel shift i acc).iNdEx ≤ dAtA.length := by
  intro fuel
  induction fuel with
  | zero => intro shift i acc hi; rw [varintLoop]; exact hi
  | succ f ih =>
    intro shift i acc hi
    rw [varintLoop]
    by_cases hs : shift ≥ 64
    · rw [if_pos hs]; exact hi
    · rw [if_neg hs]
      cases hb : dAtA[i]? with
      | none => exact hi
      | some b =>
        have hlt : i < dAtA.length := by
          by_contra hc
          rw [List.getElem?_eq_none (by omega)] at hb
          simp at hb
        simp only
        by_cases hc : b.val < 0x80
        · rw [if_pos hc]; exact hlt
        · rw [if_neg hc]; exact ih _ _ _ hlt

theorem cursorInvariant_of_bounds {M : Type} (name : MsgName)
    (field : M → Int → Nat → List Byte → Nat → Option (FieldResult M))
    (hb : ∀ dAtA : List Byte, dAtA.length < 2 ^ 63 → ∀ (m : M) k wt j res,
      field m k wt dAtA j = some res → res.err = none →
      j ≤ res.iNdEx ∧ res.iNdEx ≤ dAtA.length) :
    CursorInvariant name field := by
  intro dAtA hl
  have hb1 : ∀ (m : M) k wt j res, j ≤ dAtA.length → field m k wt dAtA j = some res →
      res.err = none → j ≤ res.iNdEx ∧ res.iNdEx ≤ dAtA.length :=
    fun m k wt j res _ hf he => hb dAtA hl m k wt j res hf he
  refine ⟨fun m i m1 i1 h => unmarshalStep_next name field dAtA hl hb1 m i m1 i1 h,
    fun m m1 i1 hv => ?_, fun m m1 h => Visits.of_run dAtA.length m 0 m1 Visits.start h, ?_⟩
  · have := (Visits.cursor_le hl hb1 (Nat.zero_le _) hv).2
    exact ⟨this, fun h => by omega⟩
  · intro m i wire j s hr h4 h0 hf hs hgt
    have hij := readVarint_ok_le dAtA i wire j hr
    have hdl : (dAtA.drop i).length < 2 ^ 63 := by simp; omega
    have hdl2 : (dAtA.drop i).length = dAtA.length - i := by simp
    have hsk := (skipBlock_total (dAtA.drop i) hdl).2.2 s hs
    unfold unmarshalStep
    rw [hr]
    simp only
    rw [if_neg h4, if_neg (by omega), hf]
    simp only
    rw [hs]
    simp only
    constructor
    · intro hlt
      rw [wrapInt64_of_range _ (by omega) hlt, if_neg (by omega), if_pos (by omega)]
    · intro hge
      have := wrapInt64_of_ge ((i : Int) + s) hge (by omega)
      rw [if_pos (Or.inr this)]

/-- C23, as stated, fails for an unknown field whose extent makes the cursor wrap around.
After the two bytes of a height field, the unknown field 2 of wire type 2 announces the
length `2^63 - 11`: `skipBlock` reports the extent `2^63 - 1`, which reaches past the end
of the 12-byte input, and `GetBlockRequest.Unmarshal` returns `ErrInvalidLengthBlock`, not
`io.ErrUnexpectedEOF`. -/
theorem unknown_field_extent_wraps :
    skipBlock (List.drop 2
        [0x08, 0x05, 0x12, 0xf5, 0xff, 0xff, 0xff, 0xff, 0xff, 0xff, 0xff, 0x7f])
      = .ok (2 ^ 63 - 1) ∧
    GetBlockRequest.Unmarshal ⟨0⟩
        [0x08, 0x05, 0x12, 0xf5, 0xff, 0xff, 0xff, 0xff, 0xff, 0xff, 0xff, 0x7f]
      = (⟨5⟩, some .ErrInvalidLengthBlock) := by
  decide

/-- C23, amended. For each of the six `Unmarshal` methods, on an input of fewer than `2^63`
bytes: an iteration of the field loop that does not return moves the cursor forward and
not beyond `len(input)`; every cursor the loop visits is at most `len(input)`, so the loop
is left with the cursor equal to `len(input)` and the final check `iNdEx > l` cannot fire;
`Unmarshal` returns `nil` only with the cursor at `len(input)`; an unknown field whose
extent reported by `skipBlock` reaches past the end of the input is rejected, with
`io.ErrUnexpectedEOF` when cursor plus extent is less than `2^63` and with
`ErrInvalidLengthBlock` when that sum wraps around. No byte at an index `>= len(input)` is
read: a varint read started within the input leaves the cursor within the input, and the
slice `dAtA[c:p]` passed to a nested `Unmarshal` has `c <= p <= len(input)`. -/
theorem cursor_within_input {BlockID Blk Event Tx VU CP : Type}
    (cId : Codec BlockID) (cB : Codec Blk) (cE : Codec Event) (cT : Codec Tx)
    (cV : Codec VU) (cP : Codec CP) :
    CursorInvariant .GetLatestHeightRequest GetLatestHeightRequest.field ∧
    CursorInvariant .GetLatestHeightResponse GetLatestHeightResponse.field ∧
    CursorInvariant .GetBlockRequest GetBlockRequest.field ∧
    CursorInvariant .GetBlockResultsRequest GetBlockResultsRequest.field ∧
    CursorInvariant .GetBlockResponse (GetBlockResponse.field cId cB) ∧
    CursorInvariant .GetBlockResultsResponse (GetBlockResultsResponse.field cE cT cV cP) ∧
    (∀ (dAtA : List Byte) (i : Nat), i ≤ dAtA.length →
      (readVarint dAtA i).iNdEx ≤ dAtA.length) ∧
    (∀ (fname : FieldName) (wt : Nat) (dAtA : List Byte) (j c p : Nat),
      dAtA.length < 2 ^ 63 → readLen fname wt dAtA j = .ok (c, p) →
      j ≤ c ∧ c ≤ p ∧ p ≤ dAtA.length) :=
  ⟨cursorInvariant_of_bounds _ _ (fun _ _ _ _ _ _ _ hf => by cases hf),
   cursorInvariant_of_bounds _ _ (fun dAtA _ m k wt j res hf =>
     (GetLatestHeightResponse_field_props dAtA m k wt j res hf).1),
   cursorInvariant_of_bounds _ _ (fun dAtA _ m k wt j res hf =>
     (GetBlockRequest_field_props dAtA m k wt j res hf).1),
   cursorInvariant_of_bounds _ _ (fun dAtA _ m k wt j res hf =>
     (GetBlockResultsRequest_field_props dAtA m k wt j res hf).1),
   cursorInvariant_of_bounds _ _ (fun dAtA hl m k wt j res hf =>
     (GetBlockResponse_field_props cId cB dAtA hl m k wt j res hf).1),
   cursorInvariant_of_bounds _ _ (fun dAtA hl m k wt j res hf =>
     (GetBlockResultsResponse_field_props cE cT cV cP dAtA hl m k wt j res hf).1),
   fun dAtA i hi => varintLoop_cursor_le dAtA 11 0 i 0 hi,
   fun fname wt dAtA j c p hl h => (readLen_bounds fname wt dAtA j hl).1 c p h⟩

/-- C23 amended, at the input `08 05 11 00` of `GetBlockRequest`: after the height field,
the unknown field 2 of wire type 1 has the extent 9 but one byte is left; the iteration at
cursor 2 returns `io.ErrUnexpectedEOF`. -/
theorem cursor_within_input_witness :
    unmarshalStep .GetBlockRequest GetBlockRequest.field [0x08, 0x05, 0x11, 0x00] ⟨5⟩ 2
      = .fail ⟨5⟩ .ErrUnexpectedEOF :=
  (((cursor_within_input byteCodec byteCodec byteCodec byteCodec byteCodec byteCodec).2.2.1
    [0x08, 0x05, 0x11, 0x00] (by norm_num)).2.2.2 ⟨5⟩ 2 0x11 3 9 (by decide) (by decide)
    (by decide) rfl (by decide) (by decide)).1 (by decide)

/-! ## Termination -/

theorem terminates_of_bounds {M : Type} (name : MsgName)
    (field : M → Int → Nat → List Byte → Nat → Option (FieldResult M))
    (hb : ∀ dAtA : List Byte, dAtA.length < 2 ^ 63 → ∀ (m : M) k wt j res,
      field m k wt dAtA j = some res → res.err = none →
      j ≤ res.iNdEx ∧ res.iNdEx ≤ dAtA.length) :
    Terminates name field := by
  intro dAtA hl
  have hb1 : ∀ (m : M) k wt j res, j ≤ dAtA.length → field m k wt dAtA j = some res →
      res.err = none → j ≤ res.iNdEx ∧ res.iNdEx ≤ dAtA.length :=
    fun m k wt j res _ hf he => hb dAtA hl m k wt j res hf he
  refine ⟨fun m i m1 i1 h => (unmarshalStep_next name field dAtA hl hb1 m i m1 i1 h).1,
    fun fuel m hf => unmarshalLoop_fuel name field dAtA hl hb1 fuel _ m 0 (by omega)
      (le_refl _)⟩

theorem byteCodec_total (x : Byte) (d : List Byte) :
    (byteCodec.Unmarshal x d).2 ≠ some .fuel := by
  unfold byteCodec
  simp only
  split <;> simp

/-- C24. The six `Unmarshal` methods and `skipBlock` terminate on every input (of fewer than
`2^63` bytes, as every Go slice): every iteration of a field loop that does not return
advances the cursor by at least one byte, so `len(input)` rounds are enough, more rounds
change nothing and the rounds never run out (for the two messages with nested fields, when
the nested `Unmarshal` methods do not either); the same holds for the loop of `skipBlock`;
every varint loop returns within eleven rounds, the last of which only reports the
overflow, so that it reads at most 10 bytes. -/
theorem unmarshal_terminates {BlockID Blk Event Tx VU CP : Type}
    (cId : Codec BlockID) (cB : Codec Blk) (cE : Codec Event) (cT : Codec Tx)
    (cV : Codec VU) (cP : Codec CP) :
    (Terminates .GetLatestHeightRequest GetLatestHeightRequest.field ∧
     Terminates .GetLatestHeightResponse GetLatestHeightResponse.field ∧
     Terminates .GetBlockRequest GetBlockRequest.field ∧
     Terminates .GetBlockResultsRequest GetBlockResultsRequest.field ∧
     Terminates .GetBlockResponse (GetBlockResponse.field cId cB) ∧
     Terminates .GetBlockResultsResponse (GetBlockResultsResponse.field cE cT cV cP)) ∧
    (∀ (d : List Byte), d.length < 2 ^ 63 →
      (∀ m, (GetLatestHeightRequest.Unmarshal m d).2 ≠ some .fuel) ∧
      (∀ m, (GetLatestHeightResponse.Unmarshal m d).2 ≠ some .fuel) ∧
      (∀ m, (GetBlockRequest.Unmarshal m d).2 ≠ some .fuel) ∧
      (∀ m, (GetBlockResultsRequest.Unmarshal m d).2 ≠ some .fuel) ∧
      ((∀ x b, (cId.Unmarshal x b).2 ≠ some .fuel) → (∀ x b, (cB.Unmarshal x b).2 ≠ some .fuel) →
        ∀ m, (GetBlockResponse.Unmarshal cId cB m d).2 ≠ some .fuel) ∧
      ((∀ x b, (cE.Unmarshal x b).2 ≠ some .fuel) → (∀ x b, (cT.Unmarshal x b).2 ≠ some .fuel) →
        (∀ x b, (cV.Unmarshal x b).2 ≠ some .fuel) → (∀ x b, (cP.Unmarshal x b).2 ≠ some .fuel) →
        ∀ m, (GetBlockResultsResponse.Unmarshal cE cT cV cP m d).2 ≠ some .fuel)) ∧
    (∀ (d : List Byte), d.length < 2 ^ 63 →
      skipBlock d ≠ .error .fuel ∧
      (∀ fuel, d.length ≤ fuel → skipLoop d fuel 0 0 = skipBlock d) ∧
      (∀ i depth i1 d1, skipStep d i depth = .next i1 d1 → i + 1 ≤ i1)) ∧
    (∀ (d : List Byte) (i : Nat),
      (∀ n, varintLoop d (11 + n) 0 i 0 = readVarint d i) ∧
      (readVarint d i).err ≠ some .fuel ∧ (readVarint d i).iNdEx ≤ i + 10) := by
  have b1 : ∀ dAtA : List Byte, dAtA.length < 2 ^ 63 → ∀ (m : GetLatestHeightRequest) k wt j
      res, GetLatestHeightRequest.field m k wt dAtA j = some res → res.err = none →
      j ≤ res.iNdEx ∧ res.iNdEx ≤ dAtA.length := fun _ _ _ _ _ _ _ hf => by cases hf
  have b2 := fun (dAtA : List Byte) (_ : dAtA.length < 2 ^ 63) m k wt j res hf =>
    (GetLatestHeightResponse_field_props dAtA m k wt j res hf).1
  have b3 := fun (dAtA : List Byte) (_ : dAtA.length < 2 ^ 63) m k wt j res hf =>
    (GetBlockRequest_field_props dAtA m k wt j res hf).1
  have b4 := fun (dAtA : List Byte) (_ : dAtA.length < 2 ^ 63) m k wt j res hf =>
    (GetBlockResultsRequest_field_props dAtA m k wt j res hf).1
  have b5 := fun (dAtA : List Byte) (hl : dAtA.length < 2 ^ 63) m k wt j res hf =>
    (GetBlockResponse_field_props cId cB dAtA hl m k wt j res hf).1
  have b6 := fun (dAtA : List Byte) (hl : dAtA.length < 2 ^ 63) m k wt j res hf =>
    (GetBlockResultsResponse_field_props cE cT cV cP dAtA hl m k wt j res hf).1
  refine ⟨⟨terminates_of_bounds _ _ b1, terminates_of_bounds _ _ b2,
    terminates_of_bounds _ _ b3, terminates_of_bounds _ _ b4, terminates_of_bounds _ _ b5,
    terminates_of_bounds _ _ b6⟩, ?_, ?_, fun d i => readVarint_total d i⟩
  · intro d hl
    refine ⟨fun m => ?_, fun m => ?_, fun m => ?_, fun m => ?_, fun h1 h2 m => ?_,
      fun h1 h2 h3 h4 m => ?_⟩
    · exact unmarshalLoop_ne_fuel _ _ d hl (fun m k wt j res _ hf he => b1 d hl m k wt j res hf he)
        (fun _ _ _ _ _ hf => by cases hf) d.length m 0 (by omega)
    · exact unmarshalLoop_ne_fuel _ _ d hl (fun m k wt j res _ hf he => b2 d hl m k wt j res hf he)
        (fun m k wt j res hf => (GetLatestHeightResponse_field_props d m k wt j res hf).2)
        d.length m 0 (by omega)
    · exact unmarshalLoop_ne_fuel _ _ d hl (fun m k wt j res _ hf he => b3 d hl m k wt j res hf he)
        (fun m k wt j res hf => (GetBlockRequest_field_props d m k wt j res hf).2)
        d.length m 0 (by omega)
    · exact unmarshalLoop_ne_fuel _ _ d hl (fun m k wt j res _ hf he => b4 d hl m k wt j res hf he)
        (fun m k wt j res hf => (GetBlockResultsRequest_field_props d m k wt j res hf).2)
        d.length m 0 (by omega)
    · exact unmarshalLoop_ne_fuel _ _ d hl (fun m k wt j res _ hf he => b5 d hl m k wt j res hf he)
        (fun m k wt j res hf => (GetBlockResponse_field_props cId cB d hl m k wt j res hf).2 h1 h2)
        d.length m 0 (by omega)
    · exact unmarshalLoop_ne_fuel _ _ d hl (fun m k wt j res _ hf he => b6 d hl m k wt j res hf he)
        (fun m k wt j res hf =>
          (GetBlockResultsResponse_field_props cE cT cV cP d hl m k wt j res hf).2 h1 h2 h3 h4)
        d.length m 0 (by omega)
  · intro d hl
    exact ⟨(skipBlock_total d hl).1, (skipBlock_total d hl).2.1,
      fun i depth i1 d1 h => (skipStep_props d hl i depth).2.2 i1 d1 h⟩

/-- C24, at `GetBlockResponse` with one-byte nested messages and the input `12 01 2a`: the
run with three rounds does not run out of rounds. -/
theorem unmarshal_terminates_witness :
    (GetBlockResponse.Unmarshal byteCodec byteCodec ⟨0, none, none⟩ [0x12, 0x01, 0x2a]).2
      ≠ some .fuel :=
  ((unmarshal_terminates byteCodec byteCodec byteCodec byteCodec byteCodec byteCodec).2.1
    [0x12, 0x01, 0x2a] (by norm_num)).2.2.2.2.1 byteCodec_total byteCodec_total
    ⟨0, none, none⟩


/-! ## Unmarshal merges into its receiver -/

/-- An accepted height case, in a message and in the scan: both read the same value and
leave the same cursor. -/
theorem heightCase_scan {M : Type} (setH : M → Int → M) (m : M) (s : Seen) (wt : Nat)
    (dAtA : List Byte) (j : Nat) (he : (heightCase setH m wt dAtA j).err = none) :
    ∃ v i1, heightCase setH m wt dAtA j = ⟨setH m v, i1, none⟩ ∧
      heightCase (fun (s : Seen) h => { s with heights := s.heights ++ [h] }) s wt dAtA j
        = ⟨{ s with heights := s.heights ++ [v] }, i1, none⟩ := by
  unfold heightCase at he ⊢
  by_cases hw : wt ≠ 0
  · rw [if_pos hw] at he; cases he
  · simp only [if_neg hw] at he ⊢
    rcases hr : readVarint dAtA j with ⟨x, k, e⟩
    rw [hr] at he
    simp only at he
    subst he
    exact ⟨int64 x, k, rfl, rfl⟩

theorem getLast?_getD_append (l : List Int) (v d : Int) :
    ((l ++ [v]).getLast?).getD d = v := by
  simp

/-- The run of a height-only message against the scan of its input. -/
theorem scan_height_only {M : Type} (name : MsgName)
    (field : M → Int → Nat → List Byte → Nat → Option (FieldResult M))
    (getH : M → Int) (setH : M → Int → M) (hget : ∀ m v, getH (setH m v) = v)
    (hfield : ∀ m k wt d j,
      field m k wt d j = if k = 1 then some (heightCase setH m wt d j) else none)
    (dAtA : List Byte) (m m1 : M)
    (h : unmarshalLoop name field dAtA dAtA.length m 0 = (m1, none)) :
    (scan name true (fun _ => false) dAtA).2 = none ∧
    getH m1 = ((scan name true (fun _ => false) dAtA).1.heights.getLast?).getD (getH m) := by
  have hnone : ∀ (x : M) (s : Seen) k wt i,
      getH x = (s.heights.getLast?).getD (getH m) → field x k wt dAtA i = none →
      scanField true (fun _ => false) s k wt dAtA i = none := by
    intro x s k wt i _ hf
    rw [hfield] at hf
    unfold scanField
    by_cases hk : k = 1
    · rw [if_pos hk] at hf; cases hf
    · rw [if_neg (by simp [hk])]
      simp
  have hsome : ∀ (x : M) (s : Seen) k wt i res,
      getH x = (s.heights.getLast?).getD (getH m) → field x k wt dAtA i = some res →
      res.err = none →
      ∃ res1, scanField true (fun _ => false) s k wt dAtA i = some res1 ∧ res1.err = none ∧
        res1.iNdEx = res.iNdEx ∧ getH res.m = (res1.m.heights.getLast?).getD (getH m) := by
    intro x s k wt i res _ hf he
    rw [hfield] at hf
    unfold scanField
    by_cases hk : k = 1
    · rw [if_pos hk] at hf
      cases hf
      obtain ⟨v, i1, e1, e2⟩ := heightCase_scan setH x s wt dAtA i he
      rw [if_pos ⟨rfl, hk⟩]
      refine ⟨_, rfl, ?_, ?_, ?_⟩
      · rw [e2]
      · rw [e1, e2]
      · rw [e1, e2]
        simp only
        rw [hget, getLast?_getD_append]
    · rw [if_neg hk] at hf; cases hf
  obtain ⟨s1, hs, hR⟩ := unmarshalLoop_sim name field (scanField true (fun _ => false))
    (fun (x : M) (s : Seen) => getH x = (s.heights.getLast?).getD (getH m)) dAtA
    hnone hsome dAtA.length m ⟨[], []⟩ 0 m1 (by simp) h
  unfold scan
  rw [hs]
  exact ⟨rfl, hR⟩

theorem Seen.lacks_append (hs : List Int) (fs : List (Int × List Byte)) (k1 k : Int)
    (p : List Byte) :
    (Seen.mk hs (fs ++ [(k1, p)])).lacks k ↔ (Seen.mk hs fs).lacks k ∧ k1 ≠ k := by
  unfold Seen.lacks
  simp only [List.mem_append, List.mem_singleton, Prod.mk.injEq, not_or, not_and]
  constructor
  · intro h
    refine ⟨fun q => (h q).1, fun hk => ?_⟩
    exact (h p).2 hk.symm rfl
  · intro h q
    exact ⟨h.1 q, fun hk => absurd hk.symm h.2⟩

/-- The run of `GetBlockResponse.Unmarshal` against the scan of its input. -/
theorem scan_GetBlockResponse {BlockID Blk : Type} (cId : Codec BlockID) (cB : Codec Blk)
    (dAtA : List Byte) (m m1 : GetBlockResponse BlockID Blk)
    (h : GetBlockResponse.Unmarshal cId cB m dAtA = (m1, none)) :
    ∃ s, scan .GetBlockResponse true (fun k => decide (k = 2 ∨ k = 3)) dAtA = (s, none) ∧
      m1.Height = (s.heights.getLast?).getD m.Height ∧
      (s.lacks 2 → m1.BlockId = m.BlockId) ∧ (s.lacks 3 → m1.Block = m.Block) := by
  have hnone : ∀ (x : GetBlockResponse BlockID Blk) (s : Seen) k wt i,
      (x.Height = (s.heights.getLast?).getD m.Height ∧
        (s.lacks 2 → x.BlockId = m.BlockId) ∧ (s.lacks 3 → x.Block = m.Block)) →
      GetBlockResponse.field cId cB x k wt dAtA i = none →
      scanField true (fun k => decide (k = 2 ∨ k = 3)) s k wt dAtA i = none := by
    intro x s k wt i _ hf
    unfold GetBlockResponse.field at hf
    unfold scanField
    split_ifs at hf with h1 h2 h3
    rw [if_neg (by simp [h1]), if_neg (by simp [h2, h3])]
  have hsome : ∀ (x : GetBlockResponse BlockID Blk) (s : Seen) k wt i res,
      (x.Height = (s.heights.getLast?).getD m.Height ∧
        (s.lacks 2 → x.BlockId = m.BlockId) ∧ (s.lacks 3 → x.Block = m.Block)) →
      GetBlockResponse.field cId cB x k wt dAtA i = some res → res.err = none →
      ∃ res1, scanField true (fun k => decide (k = 2 ∨ k = 3)) s k wt dAtA i = some res1 ∧
        res1.err = none ∧ res1.iNdEx = res.iNdEx ∧
        (res.m.Height = (res1.m.heights.getLast?).getD m.Height ∧
          (res1.m.lacks 2 → res.m.BlockId = m.BlockId) ∧
          (res1.m.lacks 3 → res.m.Block = m.Block)) := by
    intro x s k wt i res hR hf he
    obtain ⟨hR1, hR2, hR3⟩ := hR
    obtain ⟨hs, fs⟩ := s
    unfold GetBlockResponse.field at hf
    unfold scanField
    split_ifs at hf with h1 h2 h3
    · cases hf
      obtain ⟨v, i1, e1, e2⟩ := heightCase_scan _ x ⟨hs, fs⟩ wt dAtA i he
      rw [if_pos ⟨rfl, h1⟩]
      refine ⟨_, rfl, ?_, ?_, ?_⟩
      · rw [e2]
      · rw [e1, e2]
      · rw [e1, e2]
        exact ⟨by simp, hR2, hR3⟩
    · cases hf
      obtain ⟨i1, post, hrl, heq⟩ := singularCase_ok _ _ _ _ _ _ _ _ he
      rw [if_neg (by simp [h1]), if_pos (by simp [h2])]
      simp only [hrl]
      refine ⟨_, rfl, rfl, ?_, ?_⟩
      · rw [heq]
      · rw [heq]
        simp only [Seen.lacks_append]
        exact ⟨hR1, fun hc => absurd h2 hc.2, fun hc => hR3 hc.1⟩
    · cases hf
      obtain ⟨i1, post, hrl, heq⟩ := singularCase_ok _ _ _ _ _ _ _ _ he
      rw [if_neg (by simp [h1]), if_pos (by simp [h3])]
      simp only [hrl]
      refine ⟨_, rfl, rfl, ?_, ?_⟩
      · rw [heq]
      · rw [heq]
        simp only [Seen.lacks_append]
        exact ⟨hR1, fun hc => hR2 hc.1, fun hc => absurd h3 hc.2⟩
  obtain ⟨s1, hs, hR⟩ := unmarshalLoop_sim .GetBlockResponse (GetBlockResponse.field cId cB)
    (scanField true (fun k => decide (k = 2 ∨ k = 3)))
    (fun (x : GetBlockResponse BlockID Blk) (s : Seen) =>
      x.Height = (s.heights.getLast?).getD m.Height ∧
        (s.lacks 2 → x.BlockId = m.BlockId) ∧ (s.lacks 3 → x.Block = m.Block)) dAtA
    hnone hsome dAtA.length m ⟨[], []⟩ 0 m1 (by simp) h
  exact ⟨s1, hs, hR⟩

/-- The run of `GetBlockResultsResponse.Unmarshal` against the scan of its input. -/
theorem scan_GetBlockResultsResponse {Event Tx VU CP : Type} (cE : Codec Event)
    (cT : Codec Tx) (cV : Codec VU) (cP : Codec CP) (dAtA : List Byte)
    (m m1 : GetBlockResultsResponse Event Tx VU CP)
    (h : GetBlockResultsResponse.Unmarshal cE cT cV cP m dAtA = (m1, none)) :
    ∃ s, scan .GetBlockResultsResponse true (fun k => decide (2 ≤ k ∧ k ≤ 6)) dAtA
        = (s, none) ∧
      m1.Height = (s.heights.getLast?).getD m.Height ∧
      (s.lacks 2 → m1.BeginBlockEvents = m.BeginBlockEvents) ∧
      (s.lacks 3 → m1.TxResults = m.TxResults) ∧
      (s.lacks 4 → m1.ValidatorUpdates = m.ValidatorUpdates) ∧
      (s.lacks 5 → m1.ConsensusParamUpdates = m.ConsensusParamUpdates) ∧
      (s.lacks 6 → m1.EndBlockEvents = m.EndBlockEvents) := by
  have hnone : ∀ (x : GetBlockResultsResponse Event Tx VU CP) (s : Seen) k wt i,
      (x.Height = (s.heights.getLast?).getD m.Height ∧
        (s.lacks 2 → x.BeginBlockEvents = m.BeginBlockEvents) ∧
        (s.lacks 3 → x.TxResults = m.TxResults) ∧
        (s.lacks 4 → x.ValidatorUpdates = m.ValidatorUpdates) ∧
        (s.lacks 5 → x.ConsensusParamUpdates = m.ConsensusParamUpdates) ∧
        (s.lacks 6 → x.EndBlockEvents = m.EndBlockEvents)) →
      GetBlockResultsResponse.field cE cT cV cP x k wt dAtA i = none →
      scanField true (fun k => decide (2 ≤ k ∧ k ≤ 6)) s k wt dAtA i = none := by
    intro x s k wt i _ hf
    unfold GetBlockResultsResponse.field at hf
    unfold scanField
    split_ifs at hf with h1 h2 h3 h4 h5 h6
    rw [if_neg (by simp [h1]), if_neg (by simp; omega)]
  have hsome : ∀ (x : GetBlockResultsResponse Event Tx VU CP) (s : Seen) k wt i res,
      (x.Height = (s.heights.getLast?).getD m.Height ∧
        (s.lacks 2 → x.BeginBlockEvents = m.BeginBlockEvents) ∧
        (s.lacks 3 → x.TxResults = m.TxResults) ∧
        (s.lacks 4 → x.ValidatorUpdates = m.ValidatorUpdates) ∧
        (s.lacks 5 → x.ConsensusParamUpdates = m.ConsensusParamUpdates) ∧
        (s.lacks 6 → x.EndBlockEvents = m.EndBlockEvents)) →
      GetBlockResultsResponse.field cE cT cV cP x k wt dAtA i = some res → res.err = none →
      ∃ res1, scanField true (fun k => decide (2 ≤ k ∧ k ≤ 6)) s k wt dAtA i = some res1 ∧
        res1.err = none ∧ res1.iNdEx = res.iNdEx ∧
        (res.m.Height = (res1.m.heights.getLast?).getD m.Height ∧
          (res1.m.lacks 2 → res.m.BeginBlockEvents = m.BeginBlockEvents) ∧
          (res1.m.lacks 3 → res.m.TxResults = m.TxResults) ∧
          (res1.m.lacks 4 → res.m.ValidatorUpdates = m.ValidatorUpdates) ∧
          (res1.m.lacks 5 → res.m.ConsensusParamUpdates = m.ConsensusParamUpdates) ∧
          (res1.m.lacks 6 → res.m.EndBlockEvents = m.EndBlockEvents)) := by
    intro x s k wt i res hR hf he
    obtain ⟨hR1, hR2, hR3, hR4, hR5, hR6⟩ := hR
    obtain ⟨hs, fs⟩ := s
    unfold GetBlockResultsResponse.field at hf
    unfold scanField
    split_ifs at hf with h1 h2 h3 h4 h5 h6
    · cases hf
      obtain ⟨v, i1, e1, e2⟩ := heightCase_scan _ x ⟨hs, fs⟩ wt dAtA i he
      rw [if_pos ⟨rfl, h1⟩]
      refine ⟨_, rfl, ?_, ?_, ?_⟩
      · rw [e2]
      · rw [e1, e2]
      · rw [e1, e2]
        exact ⟨by simp, hR2, hR3, hR4, hR5, hR6⟩
    · cases hf
      obtain ⟨i1, post, hrl, heq⟩ := repeatedCase_ok _ _ _ _ _ _ _ _ he
      rw [if_neg (by simp [h1]), if_pos (by simp [h2])]
      simp only [hrl]
      refine ⟨_, rfl, rfl, ?_, ?_⟩
      · rw [heq]
      · rw [heq]
        simp only [Seen.lacks_append]
        exact ⟨hR1, fun hc => absurd h2 hc.2, fun hc => hR3 hc.1, fun hc => hR4 hc.1,
          fun hc => hR5 hc.1, fun hc => hR6 hc.1⟩
    · cases hf
      obtain ⟨i1, post, hrl, heq⟩ := repeatedCase_ok _ _ _ _ _ _ _ _ he
      rw [if_neg (by simp [h1]), if_pos (by simp [h3])]
      simp only [hrl]
      refine ⟨_, rfl, rfl, ?_, ?_⟩
      · rw [heq]
      · rw [heq]
        simp only [Seen.lacks_append]
        exact ⟨hR1, fun hc => hR2 hc.1, fun hc => absurd h3 hc.2, fun hc => hR4 hc.1,
          fun hc => hR5 hc.1, fun hc => hR6 hc.1⟩
    · cases hf
      obtain ⟨i1, post, hrl, heq⟩ := repeatedCase_ok _ _ _ _ _ _ _ _ he
      rw [if_neg (by simp [h1]), if_pos (by simp [h4])]
      simp only [hrl]
      refine ⟨_, rfl, rfl, ?_, ?_⟩
      · rw [heq]
      · rw [heq]
        simp only [Seen.lacks_append]
        exact ⟨hR1, fun hc => hR2 hc.1, fun hc => hR3 hc.1, fun hc => absurd h4 hc.2,
          fun hc => hR5 hc.1, fun hc => hR6 hc.1⟩
    · cases hf
      obtain ⟨i1, post, hrl, heq⟩ := singularCase_ok _ _ _ _ _ _ _ _ he
      rw [if_neg (by simp [h1]), if_pos (by simp [h5])]
      simp only [hrl]
      refine ⟨_, rfl, rfl, ?_, ?_⟩
      · rw [heq]
      · rw [heq]
        simp only [Seen.lacks_append]
        exact ⟨hR1, fun hc => hR2 hc.1, fun hc => hR3 hc.1, fun hc => hR4 hc.1,
          fun hc => absurd h5 hc.2, fun hc => hR6 hc.1⟩
    · cases hf
      obtain ⟨i1, post, hrl, heq⟩ := repeatedCase_ok _ _ _ _ _ _ _ _ he
      rw [if_neg (by simp [h1]), if_pos (by simp [h6])]
      simp only [hrl]
      refine ⟨_, rfl, rfl, ?_, ?_⟩
      · rw [heq]
      · rw [heq]
        simp only [Seen.lacks_append]
        exact ⟨hR1, fun hc => hR2 hc.1, fun hc => hR3 hc.1, fun hc => hR4 hc.1,
          fun hc => hR5 hc.1, fun hc => absurd h6 hc.2⟩
  obtain ⟨s1, hs, hR⟩ := unmarshalLoop_sim .GetBlockResultsResponse
    (GetBlockResultsResponse.field cE cT cV cP)
    (scanField true (fun k => decide (2 ≤ k ∧ k ≤ 6)))
    (fun (x : GetBlockResultsResponse Event Tx VU CP) (s : Seen) =>
      x.Height = (s.heights.getLast?).getD m.Height ∧
        (s.lacks 2 → x.BeginBlockEvents = m.BeginBlockEvents) ∧
        (s.lacks 3 → x.TxResults = m.TxResults) ∧
        (s.lacks 4 → x.ValidatorUpdates = m.ValidatorUpdates) ∧
        (s.lacks 5 → x.ConsensusParamUpdates = m.ConsensusParamUpdates) ∧
        (s.lacks 6 → x.EndBlockEvents = m.EndBlockEvents)) dAtA
    hnone hsome dAtA.length m ⟨[], []⟩ 0 m1 (by simp) h
  exact ⟨s1, hs, hR⟩

/-- C25. `Unmarshal` merges into its receiver. For every call that returns `nil`, the scan
of the input for its top-level fields succeeds, and `Height` is the value of the last
occurrence of field 1, or the receiver's prior value when field 1 does not occur; in
`GetBlockResponse` and `GetBlockResultsResponse` every nested field whose number does not
occur in the input is unchanged. On the empty input every `Unmarshal` returns `nil` and
leaves the receiver unchanged. -/
theorem unmarshal_merges_into_receiver {BlockID Blk Event Tx VU CP : Type}
    (cId : Codec BlockID) (cB : Codec Blk) (cE : Codec Event) (cT : Codec Tx)
    (cV : Codec VU) (cP : Codec CP) :
    (∀ m m1 d, GetLatestHeightResponse.Unmarshal m d = (m1, none) →
      (scan .GetLatestHeightResponse true (fun _ => false) d).2 = none ∧
      m1.Height = ((scan .GetLatestHeightResponse true (fun _ => false) d).1.heights.getLast?).getD
        m.Height) ∧
    (∀ m m1 d, GetBlockRequest.Unmarshal m d = (m1, none) →
      (scan .GetBlockRequest true (fun _ => false) d).2 = none ∧
      m1.Height = ((scan .GetBlockRequest true (fun _ => false) d).1.heights.getLast?).getD
        m.Height) ∧
    (∀ m m1 d, GetBlockResultsRequest.Unmarshal m d = (m1, none) →
      (scan .GetBlockResultsRequest true (fun _ => false) d).2 = none ∧
      m1.Height = ((scan .GetBlockResultsRequest true (fun _ => false) d).1.heights.getLast?).getD
        m.Height) ∧
    (∀ m m1 d, GetBlockResponse.Unmarshal cId cB m d = (m1, none) →
      ∃ s, scan .GetBlockResponse true (fun k => decide (k = 2 ∨ k = 3)) d = (s, none) ∧
        m1.Height = (s.heights.getLast?).getD m.Height ∧
        (s.lacks 2 → m1.BlockId = m.BlockId) ∧ (s.lacks 3 → m1.Block = m.Block)) ∧
    (∀ m m1 d, GetBlockResultsResponse.Unmarshal cE cT cV cP m d = (m1, none) →
      ∃ s, scan .GetBlockResultsResponse true (fun k => decide (2 ≤ k ∧ k ≤ 6)) d
          = (s, none) ∧
        m1.Height = (s.heights.getLast?).getD m.Height ∧
        (s.lacks 2 → m1.BeginBlockEvents = m.BeginBlockEvents) ∧
        (s.lacks 3 → m1.TxResults = m.TxResults) ∧
        (s.lacks 4 → m1.ValidatorUpdates = m.ValidatorUpdates) ∧
        (s.lacks 5 → m1.ConsensusParamUpdates = m.ConsensusParamUpdates) ∧
        (s.lacks 6 → m1.EndBlockEvents = m.EndBlockEvents)) ∧
    ((∀ m, GetLatestHeightRequest.Unmarshal m [] = (m, none)) ∧
     (∀ m, GetLatestHeightResponse.Unmarshal m [] = (m, none)) ∧
     (∀ m, GetBlockRequest.Unmarshal m [] = (m, none)) ∧
     (∀ m, GetBlockResultsRequest.Unmarshal m [] = (m, none)) ∧
     (∀ m, GetBlockResponse.Unmarshal cId cB m [] = (m, none)) ∧
     (∀ m, GetBlockResultsResponse.Unmarshal cE cT cV cP m [] = (m, none))) :=
  ⟨fun m m1 d h => scan_height_only .GetLatestHeightResponse GetLatestHeightResponse.field
      (fun m => m.Height) (fun m h => { m with Height := h }) (fun _ _ => rfl)
      (fun _ _ _ _ _ => rfl) d m m1 h,
   fun m m1 d h => scan_height_only .GetBlockRequest GetBlockRequest.field
      (fun m => m.Height) (fun m h => { m with Height := h }) (fun _ _ => rfl)
      (fun _ _ _ _ _ => rfl) d m m1 h,
   fun m m1 d h => scan_height_only .GetBlockResultsRequest GetBlockResultsRequest.field
      (fun m => m.Height) (fun m h => { m with Height := h }) (fun _ _ => rfl)
      (fun _ _ _ _ _ => rfl) d m m1 h,
   fun m m1 d h => scan_GetBlockResponse cId cB d m m1 h,
   fun m m1 d h => scan_GetBlockResultsResponse cE cT cV cP d m m1 h,
   fun _ => rfl, fun _ => rfl, fun _ => rfl, fun _ => rfl, fun _ => rfl, fun _ => rfl⟩

/-- C25, at a `GetBlockRequest` whose height is 7: the input `08 05 10 01 08 09` holds the
height 5, an unknown field and the height 9, and the height becomes 9; the input `10 01`
holds no height, and the height stays 7. -/
theorem unmarshal_merges_into_receiver_witness :
    (GetBlockRequest.Unmarshal ⟨7⟩ [0x08, 0x05, 0x10, 0x01, 0x08, 0x09] = (⟨9⟩, none) ∧
      scan .GetBlockRequest true (fun _ => false) [0x08, 0x05, 0x10, 0x01, 0x08, 0x09]
        = (⟨[5, 9], []⟩, none)) ∧
    (GetBlockRequest.Unmarshal ⟨7⟩ [0x10, 0x01] = (⟨7⟩, none) ∧
      scan .GetBlockRequest true (fun _ => false) [0x10, 0x01] = (⟨[], []⟩, none)) ∧
    (GetBlockRequest.mk 9).Height
      = ((scan .GetBlockRequest true (fun _ => false)
          [0x08, 0x05, 0x10, 0x01, 0x08, 0x09]).1.heights.getLast?).getD
        (GetBlockRequest.mk 7).Height :=
  ⟨by decide, by decide,
    ((unmarshal_merges_into_receiver byteCodec byteCodec byteCodec byteCodec byteCodec
      byteCodec).2.1 ⟨7⟩ ⟨9⟩ [0x08, 0x05, 0x10, 0x01, 0x08, 0x09] (by decide)).2⟩


/-! ## Behaviour on particular inputs -/

/-- C26. `Unmarshal` is not atomic on failure: given the bytes `08 05 08`, a
`GetBlockRequest` whose height is 7 returns `io.ErrUnexpectedEOF` with the height 0 (the
second height field resets it before its varint is found missing); given `08 05 0c`, it
returns the end-group error with the height 5. -/
theorem unmarshal_not_atomic :
    GetBlockRequest.Unmarshal ⟨7⟩ [0x08, 0x05, 0x08] = (⟨0⟩, some .ErrUnexpectedEOF) ∧
    GetBlockRequest.Unmarshal ⟨7⟩ [0x08, 0x05, 0x0c]
      = (⟨5⟩, some (.wiretypeEndGroup .GetBlockRequest)) ∧
    (∃ (m m1 : GetBlockRequest) (d : List Byte) (e : Error),
      GetBlockRequest.Unmarshal m d = (m1, some e) ∧ m1.Height ≠ m.Height) :=
  ⟨by decide, by decide, ⟨7⟩, ⟨0⟩, [0x08, 0x05, 0x08], .ErrUnexpectedEOF, by decide, by decide⟩

/-- C28. The decoder accepts encodings that are not canonical, so that encoding what was
decoded does not give the input back: `08 00` (an explicit zero) is decoded as height 0,
which is encoded as the empty string; `08 85 00` (a varint of two bytes for 5) is decoded
as height 5, which is encoded as `08 05`. -/
theorem noncanonical_encodings_accepted :
    (GetBlockRequest.Unmarshal ⟨0⟩ [0x08, 0x00] = (⟨0⟩, none) ∧
      (GetBlockRequest.mk 0).Marshal = .ok [] ∧
      (GetBlockRequest.mk 0).Marshal ≠ .ok [0x08, 0x00]) ∧
    (GetBlockRequest.Unmarshal ⟨0⟩ [0x08, 0x85, 0x00] = (⟨5⟩, none) ∧
      (GetBlockRequest.mk 5).Marshal = .ok [0x08, 0x05] ∧
      (GetBlockRequest.mk 5).Marshal ≠ .ok [0x08, 0x85, 0x00]) ∧
    (GetLatestHeightResponse.Unmarshal ⟨0⟩ [0x08, 0x85, 0x00] = (⟨5⟩, none) ∧
      (GetLatestHeightResponse.mk 5).Marshal ≠ .ok [0x08, 0x85, 0x00]) ∧
    (GetBlockResultsRequest.Unmarshal ⟨0⟩ [0x08, 0x00] = (⟨0⟩, none) ∧
      (GetBlockResultsRequest.mk 0).Marshal ≠ .ok [0x08, 0x00]) ∧
    (∃ (b : List Byte) (m : GetBlockRequest),
      GetBlockRequest.Unmarshal ⟨0⟩ b = (m, none) ∧ m.Marshal ≠ .ok b) :=
  ⟨by decide, by decide, by decide, by decide, [0x08, 0x00], ⟨0⟩, by decide, by decide⟩

/-! ## The field number of a tag -/

theorem int32_add_two_pow (n : Nat) : int32 (2 ^ 32 + n) = int32 n := by
  unfold int32
  have : (2 ^ 32 + n) % 2 ^ 32 = n % 2 ^ 32 := by omega
  rw [this]

/-- C27, as stated, fails for the wire type 4. The tag `84 80 80 80 80 01` has the field
number `2^32`, truncated to 0, and the wire type 4: `GetBlockRequest.Unmarshal` rejects it
with the end-group error of the first tag check, not with the illegal-tag error. -/
theorem truncated_tag_end_group :
    readVarint [0x84, 0x80, 0x80, 0x80, 0x80, 0x01] 0 = ⟨2 ^ 35 + 4, 6, none⟩ ∧
    int32 ((2 ^ 35 + 4) >>> 3) = 0 ∧
    GetBlockRequest.Unmarshal ⟨0⟩ [0x84, 0x80, 0x80, 0x80, 0x80, 0x01]
      = (⟨0⟩, some (.wiretypeEndGroup .GetBlockRequest)) ∧
    (GetBlockRequest.Unmarshal ⟨0⟩ [0x84, 0x80, 0x80, 0x80, 0x80, 0x01]).2
      ≠ some (.illegalTag .GetBlockRequest 0 (2 ^ 35 + 4)) := by
  decide

/-- C27, amended. Field dispatch uses only the low 32 bits of `tag >> 3`, read as a signed
32-bit integer. In the field loop of every message type, a tag whose field number is
`2^32 + k`, with `k` a field number the message recognises, is handled by the `case` of
field `k`. A tag whose truncated field number is `<= 0` (for example the field number
`2^31`, truncated to `-2^31`, or `2^32`, truncated to 0) is never skipped as unknown: with
a wire type other than 4 it is rejected with the illegal-tag error, and with the wire type
4 with the end-group error of the check that comes first. -/
theorem field_number_low_32_bits :
    (∀ (M : Type) (name : MsgName)
        (field : M → Int → Nat → List Byte → Nat → Option (FieldResult M))
        (dAtA : List Byte) (fuel : Nat) (m : M) (i j k wt : Nat) (res : FieldResult M),
      1 ≤ k → k < 2 ^ 31 → wt < 8 → wt ≠ 4 →
      readVarint dAtA i = ⟨8 * (2 ^ 32 + k) + wt, j, none⟩ →
      field m (k : Int) wt dAtA j = some res →
      (res.err = none → unmarshalLoop name field dAtA (fuel + 1) m i
        = unmarshalLoop name field dAtA fuel res.m res.iNdEx) ∧
      (∀ e, res.err = some e →
        unmarshalLoop name field dAtA (fuel + 1) m i = (res.m, some e))) ∧
    (∀ (M : Type) (name : MsgName)
        (field : M → Int → Nat → List Byte → Nat → Option (FieldResult M))
        (dAtA : List Byte) (fuel : Nat) (m : M) (i j wire : Nat),
      readVarint dAtA i = ⟨wire, j, none⟩ → int32 (wire >>> 3) ≤ 0 →
      (wire &&& 0x7 ≠ 4 → unmarshalLoop name field dAtA (fuel + 1) m i
        = (m, some (.illegalTag name (int32 (wire >>> 3)) wire))) ∧
      (wire &&& 0x7 = 4 → unmarshalLoop name field dAtA (fuel + 1) m i
        = (m, some (.wiretypeEndGroup name)))) ∧
    (int32 (2 ^ 31) = -2 ^ 31 ∧ int32 (2 ^ 32) = 0 ∧
      ∀ k, k < 2 ^ 31 → int32 (2 ^ 32 + k) = (k : Int)) ∧
    (GetBlockRequest.Unmarshal ⟨0⟩ [0x88, 0x80, 0x80, 0x80, 0x80, 0x01, 0x05] = (⟨5⟩, none) ∧
      GetBlockResponse.Unmarshal byteCodec byteCodec ⟨0, none, none⟩
          [0x92, 0x80, 0x80, 0x80, 0x80, 0x01, 0x01, 0x2a]
        = (⟨0, some 0x2a, none⟩, none) ∧
      GetBlockRequest.Unmarshal ⟨0⟩ [0x80, 0x80, 0x80, 0x80, 0x40, 0x05]
        = (⟨0⟩, some (.illegalTag .GetBlockRequest (-2 ^ 31) (2 ^ 34))) ∧
      GetBlockRequest.Unmarshal ⟨0⟩ [0x80, 0x80, 0x80, 0x80, 0x80, 0x01, 0x05]
        = (⟨0⟩, some (.illegalTag .GetBlockRequest 0 (2 ^ 35)))) := by
  refine ⟨?_, ?_, ⟨by decide, by decide, fun k hk => ?_⟩, by decide, by decide, by decide,
    by decide⟩
  · intro M name field dAtA fuel m i j k wt res hk1 hk2 hwt hwt4 hr hf
    have hi := readVarint_ok_le dAtA i _ j hr
    have e1 : (8 * (2 ^ 32 + k) + wt) >>> 3 = 2 ^ 32 + k := tag_shift (2 ^ 32 + k) wt hwt
    have e2 : (8 * (2 ^ 32 + k) + wt) &&& 0x7 = wt := tag_and (2 ^ 32 + k) wt hwt
    have e3 : int32 ((8 * (2 ^ 32 + k) + wt) >>> 3) = (k : Int) := by
      rw [e1, int32_add_two_pow, int32_of_lt k hk2]
    constructor
    · intro he
      exact unmarshalLoop_dispatch_ok name field dAtA fuel m i _ j (by omega) hr
        (by rw [e2]; exact hwt4) (by rw [e3]; omega) res (by rw [e3, e2]; exact hf) he
    · intro e he
      exact unmarshalLoop_dispatch_err name field dAtA fuel m i _ j (by omega) hr
        (by rw [e2]; exact hwt4) (by rw [e3]; omega) res e (by rw [e3, e2]; exact hf) he
  · intro M name field dAtA fuel m i j wire hr h0
    have hi := readVarint_ok_le dAtA i _ j hr
    have := malformed_tag_iteration name field dAtA fuel m i wire j (by omega) hr
    exact ⟨fun h4 => this.2 h4 h0, fun h4 => this.1 h4⟩
  · rw [int32_add_two_pow, int32_of_lt k hk]

/-- C27 amended, at `GetBlockRequest` and the tag `88 80 80 80 80 01` of the field number
`2^32 + 1`: the iteration is that of the height field, which reads the height 5. -/
theorem field_number_low_32_bits_witness :
    unmarshalLoop .GetBlockRequest GetBlockRequest.field
        [0x88, 0x80, 0x80, 0x80, 0x80, 0x01, 0x05] 7 ⟨0⟩ 0
      = unmarshalLoop .GetBlockRequest GetBlockRequest.field
        [0x88, 0x80, 0x80, 0x80, 0x80, 0x01, 0x05] 6 ⟨5⟩ 7 :=
  (field_number_low_32_bits.1 GetBlockRequest .GetBlockRequest GetBlockRequest.field
    [0x88, 0x80, 0x80, 0x80, 0x80, 0x01, 0x05] 6 ⟨0⟩ 0 6 1 0 ⟨⟨5⟩, 7, none⟩ (by decide)
    (by decide) (by decide) (by decide) (by decide) rfl).1 rfl


/-! ## Writing into a caller's buffer -/

theorem writesInPlace_of_writes (size : Nat) (w : List Byte)
    (toSized : List Byte → Except Error (List Byte × Nat)) (marshal : Except Error (List Byte))
    (hm : marshal = .ok w) (hw : w.length = size)
    (h : ∀ pre mid : List Byte, mid.length = size → toSized (pre ++ mid) = .ok (pre ++ w, size)) :
    WritesInPlace size w toSized (marshalToWith size toSized) marshal := by
  refine ⟨hm, hw, fun buf hle => ⟨?_, ?_⟩⟩
  · have := h (buf.take (buf.length - size)) (buf.drop (buf.length - size)) (by simp; omega)
    rw [List.take_append_drop] at this
    exact this
  · unfold marshalToWith
    rw [if_neg (by omega)]
    have := h [] (buf.take size) (by simp; omega)
    simp only [List.nil_append] at this
    rw [this]

theorem heightOnly_writesInPlace (h : Int) :
    WritesInPlace (sizeHeight h) (wireHeight h)
      (fun d => marshalReturn d.length (marshalHeight h d (d.length : Nat)))
      (marshalToWith (sizeHeight h)
        (fun d => marshalReturn d.length (marshalHeight h d (d.length : Nat))))
      (marshalWith (sizeHeight h)
        (fun d => marshalReturn d.length (marshalHeight h d (d.length : Nat)))) :=
  writesInPlace_of_writes _ _ _ _ (heightOnly_marshal h) (sizeHeight_eq h).symm
    (fun pre mid hm => heightOnly_toSized h pre mid hm)

/-- C29. For every message `m` of the six types and every buffer with
`len(buffer) >= Size(m)`: `MarshalToSizedBuffer` returns `Size(m)`, writes the encoding of
`m` (what `Marshal` returns) into the last `Size(m)` bytes of the buffer and leaves the
first `len(buffer) - Size(m)` bytes unchanged; `MarshalTo` returns `Size(m)`, writes the
same encoding into the first `Size(m)` bytes and leaves the remaining bytes unchanged.
Nested codecs are assumed to write exactly their `Size()` bytes. -/
theorem marshal_frames_buffer {BlockID Blk Event Tx VU CP : Type}
    (cId : Codec BlockID) (cB : Codec Blk) (cE : Codec Event) (cT : Codec Tx)
    (cV : Codec VU) (cP : Codec CP)
    (encId : BlockID → List Byte) (encB : Blk → List Byte) (encE : Event → List Byte)
    (encT : Tx → List Byte) (encV : VU → List Byte) (encP : CP → List Byte)
    (wId : cId.WritesSize encId) (wB : cB.WritesSize encB) (wE : cE.WritesSize encE)
    (wT : cT.WritesSize encT) (wV : cV.WritesSize encV) (wP : cP.WritesSize encP) :
    (∀ m : GetLatestHeightRequest,
      WritesInPlace m.Size [] m.MarshalToSizedBuffer m.MarshalTo m.Marshal) ∧
    (∀ m : GetLatestHeightResponse,
      WritesInPlace m.Size (wireHeight m.Height) m.MarshalToSizedBuffer m.MarshalTo
        m.Marshal) ∧
    (∀ m : GetBlockRequest,
      WritesInPlace m.Size (wireHeight m.Height) m.MarshalToSizedBuffer m.MarshalTo
        m.Marshal) ∧
    (∀ m : GetBlockResultsRequest,
      WritesInPlace m.Size (wireHeight m.Height) m.MarshalToSizedBuffer m.MarshalTo
        m.Marshal) ∧
    (∀ m : GetBlockResponse BlockID Blk,
      WritesInPlace (m.Size cId cB) (m.wire encId encB) (m.MarshalToSizedBuffer cId cB)
        (m.MarshalTo cId cB) (m.Marshal cId cB)) ∧
    (∀ m : GetBlockResultsResponse Event Tx VU CP,
      WritesInPlace (m.Size cE cT cV cP) (m.wire encE encT encV encP)
        (m.MarshalToSizedBuffer cE cT cV cP) (m.MarshalTo cE cT cV cP)
        (m.Marshal cE cT cV cP)) := by
  refine ⟨fun m => ?_, fun m => heightOnly_writesInPlace m.Height,
    fun m => heightOnly_writesInPlace m.Height, fun m => heightOnly_writesInPlace m.Height,
    fun m => ?_, fun m => ?_⟩
  · refine writesInPlace_of_writes _ _ _ _ rfl rfl (fun pre mid hm => ?_)
    have h0 : mid = [] := List.eq_nil_of_length_eq_zero hm
    subst h0
    simp [GetLatestHeightRequest.MarshalToSizedBuffer, marshalReturn, GetLatestHeightRequest.Size]
  · exact writesInPlace_of_writes _ _ _ _
      (GetBlockResponse_Marshal_eq cId cB encId encB wId wB m)
      (GetBlockResponse_Size_eq cId cB encId encB wId wB m).symm
      (fun pre mid hm =>
        GetBlockResponse_MarshalToSizedBuffer_eq cId cB encId encB wId wB m pre mid hm)
  · exact writesInPlace_of_writes _ _ _ _
      (GetBlockResultsResponse_Marshal_eq cE cT cV cP encE encT encV encP wE wT wV wP m)
      (GetBlockResultsResponse_Size_eq cE cT cV cP encE encT encV encP wE wT wV wP m).symm
      (fun pre mid hm => GetBlockResultsResponse_MarshalToSizedBuffer_eq cE cT cV cP
        encE encT encV encP wE wT wV wP m pre mid hm)

/-- C29, at `GetBlockResponse{Height: 5, Block: 7}` with one-byte nested messages and a
buffer of seven bytes `09`: the encoding `08 05 1a 01 07` fills the last five bytes with
`MarshalToSizedBuffer` and the first five with `MarshalTo`. -/
theorem marshal_frames_buffer_witness :
    (GetBlockResponse.mk 5 (none : Option Byte) (some (7 : Byte))).MarshalToSizedBuffer
        byteCodec byteCodec [9, 9, 9, 9, 9, 9, 9]
      = .ok ([9, 9, 0x08, 0x05, 0x1a, 0x01, 0x07], 5) ∧
    (GetBlockResponse.mk 5 (none : Option Byte) (some (7 : Byte))).MarshalTo
        byteCodec byteCodec [9, 9, 9, 9, 9, 9, 9]
      = .ok ([0x08, 0x05, 0x1a, 0x01, 0x07, 9, 9], 5) := by
  have h := ((marshal_frames_buffer byteCodec byteCodec byteCodec byteCodec byteCodec
    byteCodec byteEnc byteEnc byteEnc byteEnc byteEnc byteEnc byteCodec_writesSize
    byteCodec_writesSize byteCodec_writesSize byteCodec_writesSize byteCodec_writesSize
    byteCodec_writesSize).2.2.2.2.1 ⟨5, none, some 7⟩).2.2 [9, 9, 9, 9, 9, 9, 9] (by decide)
  rw [h.1, h.2]
  decide


/-! ## sozBlock -/

theorem xor_ones (y : Nat) (hy : y < 2 ^ 64) : y ^^^ (2 ^ 64 - 1) = 2 ^ 64 - 1 - y := by
  apply Nat.eq_of_testBit_eq
  intro i
  have e : 2 ^ 64 - 1 - y = 2 ^ 64 - (y + 1) := by omega
  rw [Nat.testBit_xor, Nat.testBit_two_pow_sub_one, e, Nat.testBit_two_pow_sub_succ hy]
  by_cases hi : i < 64
  · simp [hi]
  · have : y.testBit i = false := by
      apply Nat.testBit_lt_two_pow
      calc y < 2 ^ 64 := hy
        _ ≤ 2 ^ i := Nat.pow_le_pow_right (by norm_num) (by omega)
    simp [hi, this]

theorem uint64_asr (x : Nat) (hx : x < 2 ^ 64) : uint64 (int64 x / 2 ^ 63) = asr63 x := by
  unfold asr63 int64
  rw [Nat.mod_eq_of_lt hx]
  by_cases h : x < 2 ^ 63
  · rw [if_pos h, if_pos h]
    have : ((x : Int)) / 2 ^ 63 = 0 := by omega
    rw [this]; rfl
  · rw [if_neg h, if_neg h]
    have : ((x : Int) - 2 ^ 64) / 2 ^ 63 = -1 := by omega
    rw [this]; rfl

theorem zigzagWord_eq (x : Nat) (hx : x < 2 ^ 64) : zigzagWord x = zigzag (int64 x) := by
  unfold zigzagWord asr63 zigzag int64
  rw [Nat.mod_eq_of_lt hx]
  by_cases h : x < 2 ^ 63
  · rw [if_pos h, if_pos h, if_pos (by omega), Nat.xor_zero, Nat.mod_eq_of_lt (by omega)]
    omega
  · rw [if_neg h, if_neg h, if_neg (by omega)]
    have e : 2 * x % 2 ^ 64 = 2 * x - 2 ^ 64 := by omega
    rw [e, xor_ones _ (by omega)]
    omega

/-- C32. For every unsigned 64-bit `x`, `sozBlock(x)` is `sovBlock` applied to the ZigZag
transform of `x` computed over 64-bit words, `(x << 1) XOR (x >> 63)` with an arithmetic
shift, which is the ZigZag code of `x` read as a signed integer (`2n` for `n >= 0`,
`-2n - 1` for `n < 0`). Consequently every signed `n` with `-64 <= n <= 63` has
`sozBlock(uint64(n)) = 1`. -/
theorem sozBlock_is_sov_of_zigzag :
    (∀ x, x < 2 ^ 64 → sozBlock x = sovBlock (zigzagWord x) ∧
      zigzagWord x = zigzag (int64 x)) ∧
    (∀ n : Int, -64 ≤ n → n ≤ 63 → sozBlock (uint64 n) = 1) := by
  have h1 : ∀ x, x < 2 ^ 64 → sozBlock x = sovBlock (zigzagWord x) := by
    intro x hx
    unfold sozBlock zigzagWord
    rw [uint64_asr x hx, Nat.shiftLeft_eq, pow_one, Nat.mul_comm]
  refine ⟨fun x hx => ⟨h1 x hx, zigzagWord_eq x hx⟩, ?_⟩
  intro n hlo hhi
  rw [h1 _ (uint64_lt n), zigzagWord_eq _ (uint64_lt n), int64_uint64 n (by omega) (by omega)]
  apply sovBlock_of_lt
  unfold zigzag
  split_ifs <;> omega

/-- C32, at `n = -64`: `uint64(-64)` is `2^64 - 64`, its ZigZag code is 127, and
`sozBlock` gives 1. -/
theorem sozBlock_is_sov_of_zigzag_witness :
    sozBlock (2 ^ 64 - 64) = 1 ∧ zigzagWord (2 ^ 64 - 64) = 127 := by
  have h := sozBlock_is_sov_of_zigzag.2 (-64) (by decide) (by decide)
  have e : uint64 (-64) = 2 ^ 64 - 64 := by decide
  rw [e] at h
  exact ⟨h, by decide⟩


/-! ## Occurrences in an encoded input -/

theorem readVarint_head (t : Nat) (ht : t < 2 ^ 64) (rest : List Byte) :
    readVarint (varint t ++ rest) 0 = ⟨t, sovBlock t, none⟩ := by
  have := readVarint_varint t ht [] rest
  simpa using this

theorem readVarint_second (t v : Nat) (ht : t < 2 ^ 64) (hv : v < 2 ^ 64) (rest : List Byte) :
    readVarint (varint t ++ varint v ++ rest) (sovBlock t)
      = ⟨v, sovBlock t + sovBlock v, none⟩ := by
  have := readVarint_varint v hv (varint t) rest
  rw [varint_length t ht] at this
  exact this

/-- The extent `skipBlock` reports for a varint field. -/
theorem skipBlock_varint_field (t v : Nat) (ht : t < 2 ^ 64) (hwt : t &&& 0x7 = 0)
    (hv : v < 2 ^ 64) (post : List Byte) :
    skipBlock (varint t ++ varint v ++ post) = .ok ((sovBlock t + sovBlock v : Nat) : Int) := by
  have hr : readVarint (varint t ++ varint v ++ post) 0 = ⟨t, sovBlock t, none⟩ := by
    rw [List.append_assoc]; exact readVarint_head t ht _
  rw [skipBlock_eq_succ _ t (sovBlock t) hr,
    skipLoop_varint _ _ 0 0 t (sovBlock t) v (sovBlock t + sovBlock v) hr hwt
      (readVarint_second t v ht hv post), if_pos rfl]

/-- The extent `skipBlock` reports for a field of eight bytes. -/
theorem skipBlock_fixed64_field (t : Nat) (ht : t < 2 ^ 64) (hwt : t &&& 0x7 = 1)
    (rest : List Byte) :
    skipBlock (varint t ++ rest) = .ok ((sovBlock t + 8 : Nat) : Int) := by
  have hr := readVarint_head t ht rest
  rw [skipBlock_eq_succ _ t (sovBlock t) hr,
    skipLoop_fixed64 _ _ 0 0 t (sovBlock t) hr hwt, if_pos rfl]
  rfl

/-- The extent `skipBlock` reports for a field of four bytes. -/
theorem skipBlock_fixed32_field (t : Nat) (ht : t < 2 ^ 64) (hwt : t &&& 0x7 = 5)
    (rest : List Byte) :
    skipBlock (varint t ++ rest) = .ok ((sovBlock t + 4 : Nat) : Int) := by
  have hr := readVarint_head t ht rest
  rw [skipBlock_eq_succ _ t (sovBlock t) hr,
    skipLoop_fixed32 _ _ 0 0 t (sovBlock t) hr hwt, if_pos rfl]
  rfl

/-- An unknown field whose extent lies within the input is a step of the run that leaves
the receiver as it was. -/
theorem Reaches.skip_extent {M : Type} (name : MsgName)
    (field : M → Int → Nat → List Byte → Nat → Option (FieldResult M))
    (dAtA : List Byte) (m : M) (i wire j s : Nat) (hl : dAtA.length < 2 ^ 63)
    (hr : readVarint dAtA i = ⟨wire, j, none⟩) (h4 : wire &&& 0x7 ≠ 4)
    (h0 : 0 < int32 (wire >>> 3))
    (hf : field m (int32 (wire >>> 3)) (wire &&& 0x7) dAtA j = none)
    (hs : skipBlock (dAtA.drop i) = .ok ((s : Nat) : Int)) (hpos : 0 < s)
    (hle : i + s ≤ dAtA.length) :
    Reaches name field dAtA m i m (i + s) := by
  have hij := readVarint_ok_le dAtA i wire j hr
  intro fuel hfuel
  obtain ⟨g, rfl⟩ : ∃ g, fuel = g + 1 := ⟨fuel - 1, by omega⟩
  refine ⟨g, by omega, ?_⟩
  rw [unmarshalLoop_succ_step name field dAtA g m i (by omega)]
  unfold unmarshalStep
  rw [hr]
  simp only
  rw [if_neg h4, if_neg (by omega), hf]
  simp only
  rw [hs]
  simp only
  have hcast : (i : Int) + (s : Int) = ((i + s : Nat) : Int) := by push_cast; ring
  rw [hcast, wrapInt64_of_lt _ (by omega), if_neg (by omega), if_neg (by omega),
    Int.toNat_ofNat]
  rfl

theorem occurrenceField_unknown (log : List (Int × List Byte)) (f wt : Nat) (hf : 7 ≤ f)
    (dAtA : List Byte) (j : Nat) : occurrenceField log (f : Int) wt dAtA j = none := by
  unfold occurrenceField
  rw [if_neg (by omega), if_neg (by omega)]

theorem tag_facts (f wt : Nat) (hf : f < 2 ^ 29) (hwt : wt < 8) :
    8 * f + wt < 2 ^ 64 ∧ (8 * f + wt) &&& 0x7 = wt ∧ int32 ((8 * f + wt) >>> 3) = (f : Int) := by
  refine ⟨by omega, tag_and f wt hwt, ?_⟩
  rw [tag_shift f wt hwt, int32_of_lt f (by omega)]

/-- An unknown field of an encoded input is a step of the scan that records nothing. -/
theorem unknown_reaches (f wt : Nat) (hf7 : 7 ≤ f) (hf : f < 2 ^ 29) (hwt : wt < 8)
    (hwt4 : wt ≠ 4) (body : List Byte) (s : Nat)
    (dAtA pre post : List Byte) (hd : dAtA = pre ++ (varint (8 * f + wt) ++ body) ++ post)
    (hl : dAtA.length < 2 ^ 63)
    (hs : skipBlock (varint (8 * f + wt) ++ body ++ post) = .ok ((s : Nat) : Int))
    (hlen : s = (varint (8 * f + wt) ++ body).length) (log : List (Int × List Byte)) :
    Reaches .GetBlockResultsResponse occurrenceField dAtA log pre.length log
      (pre.length + (varint (8 * f + wt) ++ body).length) := by
  obtain ⟨ht, hand, hshift⟩ := tag_facts f wt hf hwt
  have hr : readVarint dAtA pre.length
      = ⟨8 * f + wt, pre.length + sovBlock (8 * f + wt), none⟩ := by
    rw [hd]
    have := readVarint_varint (8 * f + wt) ht pre (body ++ post)
    simpa [List.append_assoc] using this
  have hdrop : dAtA.drop pre.length = varint (8 * f + wt) ++ body ++ post := by
    rw [hd]; simp
  have hpos := varint_length_pos (8 * f + wt)
  rw [← hlen]
  refine Reaches.skip_extent .GetBlockResultsResponse occurrenceField dAtA log pre.length
    (8 * f + wt) _ s hl hr (by rw [hand]; exact hwt4) (by rw [hshift]; omega) ?_
    (by rw [hdrop]; exact hs) (by rw [hlen]; simp; omega) (by rw [hd, hlen]; simp)
  rw [hshift]
  exact occurrenceField_unknown log f _ hf7 dAtA _

/-- A top-level field of an encoded input is a step of the scan, which records the
occurrence that the field is. -/
theorem topField_reaches (x : TopField) (hw : x.WellFormed) (dAtA pre post : List Byte)
    (hd : dAtA = pre ++ x.bytes ++ post) (hl : dAtA.length < 2 ^ 63)
    (log : List (Int × List Byte)) :
    Reaches .GetBlockResultsResponse occurrenceField dAtA log pre.length
      (log ++ x.occurrence.toList) (pre.length + x.bytes.length) := by
  cases x with
  | height h =>
    have hh : h < 2 ^ 64 := hw
    obtain ⟨ht, hand, hshift⟩ := tag_facts 1 0 (by norm_num) (by norm_num)
    have hvt := varint_length (8 * 1 + 0) ht
    have hvh := varint_length h hh
    simp only [TopField.bytes, TopField.occurrence, Option.toList, List.append_nil] at hd ⊢
    have hd1 : dAtA = pre ++ varint (8 * 1 + 0) ++ (varint h ++ post) := by
      rw [hd]; simp [List.append_assoc]
    have hd2 : dAtA = (pre ++ varint (8 * 1 + 0)) ++ varint h ++ post := by
      rw [hd]; simp [List.append_assoc]
    have hcase := heightCase_eq (fun (l : List (Int × List Byte)) (_ : Int) => l) log dAtA
      (pre ++ varint (8 * 1 + 0)) post h hh hd2
    rw [List.length_append, hvt] at hcase
    have hgoal : pre.length + (varint (8 * 1 + 0) ++ varint h).length
        = pre.length + sovBlock (8 * 1 + 0) + sovBlock h := by
      rw [List.length_append, hvt, hvh]; omega
    rw [hgoal]
    refine Reaches.field .GetBlockResultsResponse occurrenceField dAtA log pre
      (varint h ++ post) (8 * 1 + 0) ht hd1 (by rw [hand]; decide) (by rw [hshift]; decide)
      log _ (by have := sovBlock_pos (8 * 1 + 0); omega) ?_
    rw [hshift, hand]
    unfold occurrenceField
    rw [if_pos (by decide), hcase]
  | nested k payload =>
    have hk : 2 ≤ k ∧ k ≤ 6 := hw
    obtain ⟨ht, hand, hshift⟩ := tag_facts k 2 (by omega) (by norm_num)
    have hvt := varint_length (8 * k + 2) ht
    simp only [TopField.bytes, TopField.occurrence, Option.toList] at hd ⊢
    have hlen : dAtA.length = pre.length + ((varint (8 * k + 2)).length
        + (varint payload.length).length + payload.length) + post.length := by
      rw [hd]; simp; omega
    have hp : payload.length < 2 ^ 63 := by omega
    have hvp := varint_length payload.length (by omega)
    have hd1 : dAtA = pre ++ varint (8 * k + 2) ++ (varint payload.length ++ payload ++ post) := by
      rw [hd]; simp [List.append_assoc]
    have hd2 : dAtA = (pre ++ varint (8 * k + 2)) ++ varint payload.length ++ payload ++ post := by
      rw [hd]; simp [List.append_assoc]
    have hrl := readLen_eq .Height dAtA (pre ++ varint (8 * k + 2)) payload post hd2 hl
    have hsl := readLen_slice dAtA (pre ++ varint (8 * k + 2)) payload post hd2 (by omega)
    rw [List.length_append, hvt] at hrl hsl
    have hgoal : pre.length + (varint (8 * k + 2) ++ varint payload.length ++ payload).length
        = pre.length + sovBlock (8 * k + 2) + sovBlock payload.length + payload.length := by
      simp only [List.length_append, hvt, hvp]; omega
    rw [hgoal]
    refine Reaches.field .GetBlockResultsResponse occurrenceField dAtA log pre
      (varint payload.length ++ payload ++ post) (8 * k + 2) ht hd1 (by rw [hand]; decide)
      (by rw [hshift]; omega) _ _ (by have := sovBlock_pos (8 * k + 2); omega) ?_
    rw [hshift, hand]
    unfold occurrenceField
    rw [if_neg (by omega), if_pos (by omega)]
    simp only [hrl, hsl]
  | unknownVarint f v =>
    obtain ⟨hf7, hf, hv⟩ : 7 ≤ f ∧ f < 2 ^ 29 ∧ v < 2 ^ 64 := hw
    obtain ⟨ht, hand, _⟩ := tag_facts f 0 hf (by norm_num)
    simp only [TopField.bytes, TopField.occurrence, Option.toList, List.append_nil] at hd ⊢
    exact unknown_reaches f 0 hf7 hf (by norm_num) (by decide) (varint v)
      (sovBlock (8 * f + 0) + sovBlock v) dAtA pre post hd hl
      (skipBlock_varint_field _ v ht hand hv post)
      (by rw [List.length_append, varint_length _ ht, varint_length _ hv]) log
  | unknownFixed64 f bs =>
    obtain ⟨hf7, hf, hbs⟩ : 7 ≤ f ∧ f < 2 ^ 29 ∧ bs.length = 8 := hw
    obtain ⟨ht, hand, _⟩ := tag_facts f 1 hf (by norm_num)
    simp only [TopField.bytes, TopField.occurrence, Option.toList, List.append_nil] at hd ⊢
    exact unknown_reaches f 1 hf7 hf (by norm_num) (by decide) bs
      (sovBlock (8 * f + 1) + 8) dAtA pre post hd hl
      (by rw [List.append_assoc]; exact skipBlock_fixed64_field _ ht hand (bs ++ post))
      (by rw [List.length_append, varint_length _ ht, hbs]) log
  | unknownBytes f p =>
    obtain ⟨hf7, hf⟩ : 7 ≤ f ∧ f < 2 ^ 29 := hw
    obtain ⟨ht, hand, _⟩ := tag_facts f 2 hf (by norm_num)
    simp only [TopField.bytes, TopField.occurrence, Option.toList, List.append_nil] at hd ⊢
    have hlen : dAtA.length = pre.length + ((varint (8 * f + 2)).length
        + (varint p.length).length + p.length) + post.length := by
      rw [hd]; simp; omega
    have hd1 : dAtA = pre ++ (varint (8 * f + 2) ++ (varint p.length ++ p)) ++ post := by
      rw [hd]; simp [List.append_assoc]
    have hgoal : (varint (8 * f + 2) ++ varint p.length ++ p)
        = (varint (8 * f + 2) ++ (varint p.length ++ p)) := by simp [List.append_assoc]
    rw [hgoal]
    refine unknown_reaches f 2 hf7 hf (by norm_num) (by decide) (varint p.length ++ p)
      (sovBlock (8 * f + 2) + sovBlock p.length + p.length) dAtA pre post hd1 hl ?_
      (by simp only [List.length_append, varint_length _ ht,
            varint_length p.length (by omega)]; omega) log
    have := skipBlock_bytes (8 * f + 2) ht hand p post (by simp; omega)
    simpa [List.append_assoc] using this
  | unknownFixed32 f bs =>
    obtain ⟨hf7, hf, hbs⟩ : 7 ≤ f ∧ f < 2 ^ 29 ∧ bs.length = 4 := hw
    obtain ⟨ht, hand, _⟩ := tag_facts f 5 hf (by norm_num)
    simp only [TopField.bytes, TopField.occurrence, Option.toList, List.append_nil] at hd ⊢
    exact unknown_reaches f 5 hf7 hf (by norm_num) (by decide) bs
      (sovBlock (8 * f + 5) + 4) dAtA pre post hd hl
      (by rw [List.append_assoc]; exact skipBlock_fixed32_field _ ht hand (bs ++ post))
      (by rw [List.length_append, varint_length _ ht, hbs]) log

theorem filterMap_occurrence_cons (x : TopField) (rest : List TopField) :
    (x :: rest).filterMap TopField.occurrence
      = x.occurrence.toList ++ rest.filterMap TopField.occurrence := by
  rw [List.filterMap_cons]
  cases x.occurrence <;> rfl

/-- The scan runs through an encoded sequence of top-level fields and records the
occurrences that the fields are, in their order. -/
theorem encodeTop_reaches (fs : List TopField) :
    ∀ (_ : ∀ x ∈ fs, x.WellFormed) (dAtA pre post : List Byte)
      (_ : dAtA = pre ++ encodeTop fs ++ post) (_ : dAtA.length < 2 ^ 63)
      (log : List (Int × List Byte)),
      Reaches .GetBlockResultsResponse occurrenceField dAtA log pre.length
        (log ++ fs.filterMap TopField.occurrence) (pre.length + (encodeTop fs).length) := by
  induction fs with
  | nil =>
    intro _ dAtA pre post _ _ log
    simp only [encodeTop, List.map_nil, concat, List.filterMap_nil, List.append_nil,
      List.length_nil, Nat.add_zero]
    exact Reaches.refl _ _ _ _ _
  | cons x rest ih =>
    intro hw dAtA pre post hd hl log
    have hx : encodeTop (x :: rest) = x.bytes ++ encodeTop rest := rfl
    have h1 := topField_reaches x (hw x (List.mem_cons_self _ _)) dAtA pre
      (encodeTop rest ++ post) (by rw [hd, hx]; simp [List.append_assoc]) hl log
    have h2 := ih (fun y hy => hw y (List.mem_cons_of_mem _ hy)) dAtA (pre ++ x.bytes) post
      (by rw [hd, hx]; simp [List.append_assoc]) hl (log ++ x.occurrence.toList)
    rw [List.length_append] at h2
    rw [filterMap_occurrence_cons, hx, List.length_append, ← List.append_assoc,
      ← Nat.add_assoc]
    exact Reaches.trans h1 h2

/-- The occurrences of an encoded sequence of top-level fields are the nested messages of
the sequence, in their order: the fields the message does not know, wherever they stand,
and the height contribute none. -/
theorem occurrences_encodeTop (fs : List TopField) (hw : ∀ x ∈ fs, x.WellFormed)
    (hl : (encodeTop fs).length < 2 ^ 63) :
    occurrences (encodeTop fs) = (fs.filterMap TopField.occurrence, none) := by
  have h := encodeTop_reaches fs hw (encodeTop fs) [] [] (by simp) hl []
  simp only [List.length_nil, Nat.zero_add, List.nil_append] at h
  exact Reaches.unmarshal_end h

/-- C19. For every input accepted by `GetBlockResultsResponse.Unmarshal`, the scan of the
input for its top-level field occurrences succeeds, and each repeated field
(2 `BeginBlockEvents`, 3 `TxResults`, 4 `ValidatorUpdates`, 6 `EndBlockEvents`) ends up
holding the receiver's prior elements followed by exactly one new element per occurrence of
its field number, decoded from the payload of that occurrence, in the order in which the
occurrences appear in the input, whether or not they are contiguous. What the occurrences
are is fixed from the side of the encoder: when the input is the encoding of a sequence
`fs` of top-level fields (the height, nested messages of the fields 2 to 6, and fields the
message does not know, of wire type 0, 1, 2 or 5, in any order and any number), the
occurrences are the nested messages of `fs` in their order, so that each repeated field
ends up holding the prior elements followed by one element per nested message of `fs` that
carries its field number, whatever other fields stand between them. -/
theorem repeated_fields_append_per_occurrence {Event Tx VU CP : Type} (cE : Codec Event)
    (cT : Codec Tx) (cV : Codec VU) (cP : Codec CP)
    (m m1 : GetBlockResultsResponse Event Tx VU CP) (dAtA : List Byte)
    (h : GetBlockResultsResponse.Unmarshal cE cT cV cP m dAtA = (m1, none)) :
    ((occurrences dAtA).2 = none ∧
      m1.BeginBlockEvents
        = m.BeginBlockEvents ++ (occurrencesOf 2 (occurrences dAtA).1).map cE.fresh ∧
      m1.TxResults = m.TxResults ++ (occurrencesOf 3 (occurrences dAtA).1).map cT.fresh ∧
      m1.ValidatorUpdates
        = m.ValidatorUpdates ++ (occurrencesOf 4 (occurrences dAtA).1).map cV.fresh ∧
      m1.EndBlockEvents
        = m.EndBlockEvents ++ (occurrencesOf 6 (occurrences dAtA).1).map cE.fresh ∧
      m1.BeginBlockEvents.length
        = m.BeginBlockEvents.length + (occurrencesOf 2 (occurrences dAtA).1).length ∧
      m1.EndBlockEvents.length
        = m.EndBlockEvents.length + (occurrencesOf 6 (occurrences dAtA).1).length) ∧
    ∀ fs : List TopField, (∀ x ∈ fs, x.WellFormed) → dAtA = encodeTop fs →
      dAtA.length < 2 ^ 63 →
      occurrences dAtA = (fs.filterMap TopField.occurrence, none) ∧
      m1.BeginBlockEvents = m.BeginBlockEvents
        ++ (occurrencesOf 2 (fs.filterMap TopField.occurrence)).map cE.fresh ∧
      m1.TxResults = m.TxResults
        ++ (occurrencesOf 3 (fs.filterMap TopField.occurrence)).map cT.fresh ∧
      m1.ValidatorUpdates = m.ValidatorUpdates
        ++ (occurrencesOf 4 (fs.filterMap TopField.occurrence)).map cV.fresh ∧
      m1.EndBlockEvents = m.EndBlockEvents
        ++ (occurrencesOf 6 (fs.filterMap TopField.occurrence)).map cE.fresh := by
  obtain ⟨log1, hl, h2, h3, h4, h6⟩ := occurrences_run cE cT cV cP m dAtA dAtA.length m m1 [] 0
    (by simp [occurrencesOf]) h
  have ho : occurrences dAtA = (log1, none) := hl
  refine ⟨?_, ?_⟩
  · rw [ho]
    refine ⟨rfl, h2, h3, h4, h6, ?_, ?_⟩
    · rw [h2]; simp
    · rw [h6]; simp
  · intro fs hw hd hlen
    have he : occurrences dAtA = (fs.filterMap TopField.occurrence, none) := by
      rw [hd] at hlen ⊢
      exact occurrences_encodeTop fs hw hlen
    have hlog : log1 = fs.filterMap TopField.occurrence := by
      rw [ho] at he
      exact (Prod.mk.inj he).1
    rw [← hlog]
    exact ⟨ho, h2, h3, h4, h6⟩

/-- C19, at the encoding of the sequence: field 2 with payload 1, the unknown field 7 (a
varint), field 6 with payload 2, field 2 with payload 3, decoded into a receiver that
already holds the begin-block event 7 and the end-block event 8: the occurrences are
`(2, [1]), (6, [2]), (2, [3])`, the begin-block events end up `7, 1, 3` and the end-block
events `8, 2`. The unknown field stands between the two occurrences of field 2. The same
is evaluated at the input `38 01 12 01 05`, where the unknown field comes first, and at an
input with an unknown group between two occurrences. -/
theorem repeated_fields_append_per_occurrence_witness :
    GetBlockResultsResponse.Unmarshal byteCodec byteCodec byteCodec byteCodec
        ⟨0, [7], [], [], none, [8]⟩
        [0x12, 0x01, 0x01, 0x38, 0x01, 0x32, 0x01, 0x02, 0x12, 0x01, 0x03]
      = (⟨0, [7, 1, 3], [], [], none, [8, 2]⟩, none) ∧
    encodeTop [.nested 2 [1], .unknownVarint 7 1, .nested 6 [2], .nested 2 [3]]
      = [0x12, 0x01, 0x01, 0x38, 0x01, 0x32, 0x01, 0x02, 0x12, 0x01, 0x03] ∧
    (occurrences [0x12, 0x01, 0x01, 0x38, 0x01, 0x32, 0x01, 0x02, 0x12, 0x01, 0x03]
        = ([(2, [1]), (6, [2]), (2, [3])], none) ∧
      [(7 : Byte), 1, 3] = [7] ++ [byteCodec.fresh [1], byteCodec.fresh [3]] ∧
      ([] : List Byte) = [] ++ [] ∧
      ([] : List Byte) = [] ++ [] ∧
      [(8 : Byte), 2] = [8] ++ [byteCodec.fresh [2]]) ∧
    GetBlockResultsResponse.Unmarshal byteCodec byteCodec byteCodec byteCodec
        ⟨0, [], [], [], none, []⟩ [0x38, 0x01, 0x12, 0x01, 0x05]
      = (⟨0, [5], [], [], none, []⟩, none) ∧
    occurrences [0x38, 0x01, 0x12, 0x01, 0x05] = ([(2, [5])], none) ∧
    GetBlockResultsResponse.Unmarshal byteCodec byteCodec byteCodec byteCodec
        ⟨0, [7], [], [], none, []⟩ [0x12, 0x01, 0x01, 0x3B, 0x3C, 0x12, 0x01, 0x03]
      = (⟨0, [7, 1, 3], [], [], none, []⟩, none) ∧
    occurrences [0x12, 0x01, 0x01, 0x3B, 0x3C, 0x12, 0x01, 0x03]
      = ([(2, [1]), (2, [3])], none) :=
  ⟨by decide, by decide,
    (repeated_fields_append_per_occurrence byteCodec byteCodec byteCodec byteCodec
      ⟨0, [7], [], [], none, [8]⟩ ⟨0, [7, 1, 3], [], [], none, [8, 2]⟩
      [0x12, 0x01, 0x01, 0x38, 0x01, 0x32, 0x01, 0x02, 0x12, 0x01, 0x03]
      (by decide)).2
      [.nested 2 [1], .unknownVarint 7 1, .nested 6 [2], .nested 2 [3]]
      (by
        intro x hx
        simp only [List.mem_cons, List.mem_singleton, List.not_mem_nil, or_false] at hx
        rcases hx with rfl | rfl | rfl | rfl <;> simp [TopField.WellFormed])
      (by decide) (by decide),
    by decide, by decide, by decide, by decide⟩


end Block

namespace Core

/-! ## GenesisChunked -/

/-- For a chunk number below `2^63` and a slice that is not empty, `GenesisChunked` returns
the chunk when the number is at most `len(genChunks) - 1`, and the invalid-chunk error
otherwise. -/
theorem GenesisChunked_in_range (genChunks : List String) (chunk : Nat)
    (hc : chunk < 2 ^ 63) (hne : genChunks ≠ []) :
    (∀ h : chunk < genChunks.length,
      (Environment.mk (some genChunks)).GenesisChunked chunk
        = .ok ⟨(genChunks.length : Int), (chunk : Int), genChunks.get ⟨chunk, h⟩⟩) ∧
    (genChunks.length ≤ chunk →
      (Environment.mk (some genChunks)).GenesisChunked chunk
        = .error (.invalidChunk ((genChunks.length : Int) - 1) (chunk : Int))) := by
  have hlen : genChunks.length ≠ 0 := by
    intro h; exact hne (List.eq_nil_of_length_eq_zero h)
  have hid : Block.int64 chunk = (chunk : Int) := Block.int64_of_lt chunk hc
  unfold Environment.GenesisChunked
  simp only [if_neg hlen, hid]
  constructor
  · intro h
    rw [if_neg (by omega)]
    unfold index
    rw [if_neg (by omega), Int.toNat_ofNat, List.getElem?_eq_getElem h]
    rfl
  · intro h
    rw [if_pos (by omega)]

/-- A chunk number from `2^63` on is converted to a negative `id`, which passes the test
`id > len(genChunks) - 1` and then indexes `genChunks` out of range. -/
theorem GenesisChunked_wrapped (genChunks : List String) (chunk : Nat)
    (h1 : 2 ^ 63 ≤ chunk) (h2 : chunk < 2 ^ 64) (hne : genChunks ≠ []) :
    (Environment.mk (some genChunks)).GenesisChunked chunk = .error .runtimePanic := by
  have hlen : genChunks.length ≠ 0 := by
    intro h; exact hne (List.eq_nil_of_length_eq_zero h)
  have hid : Block.int64 chunk = (chunk : Int) - 2 ^ 64 := by
    unfold Block.int64
    rw [Nat.mod_eq_of_lt h2, if_neg (by omega)]
  unfold Environment.GenesisChunked
  simp only [if_neg hlen, hid]
  rw [if_neg (by omega)]
  unfold index
  rw [if_pos (by omega)]

/-- C30: `GenesisChunked` does index `genChunks` out of range. With one chunk and the chunk
number `2^63`, `id` is `-2^63`, the test `id > len(genChunks) - 1` does not hold, and the
index expression `genChunks[id]` panics; the same with the largest chunk number
`2^64 - 1`, for which `id` is `-1`. Chunk numbers below `2^63` are handled as intended:
the chunk 0 is returned and the chunk number 1 is reported invalid. -/
theorem GenesisChunked_negative_index :
    (Environment.mk (some ["a"])).GenesisChunked (2 ^ 63) = .error .runtimePanic ∧
    (Environment.mk (some ["a"])).GenesisChunked (2 ^ 64 - 1) = .error .runtimePanic ∧
    Block.int64 (2 ^ 63) = -2 ^ 63 ∧
    (Environment.mk (some ["a"])).GenesisChunked 0 = .ok ⟨1, 0, "a"⟩ ∧
    (Environment.mk (some ["a"])).GenesisChunked 1 = .error (.invalidChunk 0 1) ∧
    (Environment.mk none).GenesisChunked 0 = .error .chunksNotInitialized ∧
    (Environment.mk (some [])).GenesisChunked 0 = .error .noChunks := by
  decide

/-! ## getIDs -/

theorem splitChars_ne_nil (sep : Char) (cs : List Char) : splitChars sep cs ≠ [] := by
  cases cs with
  | nil => simp [splitChars]
  | cons c cs =>
    rw [splitChars]
    by_cases h : c = sep
    · rw [if_pos h]; simp
    · rw [if_neg h]
      cases splitChars sep cs <;> simp

/-- The number of substrings is one more than the number of separators. -/
theorem splitChars_length (sep : Char) (cs : List Char) :
    (splitChars sep cs).length = cs.count sep + 1 := by
  induction cs with
  | nil => simp [splitChars]
  | cons c cs ih =>
    rw [splitChars]
    by_cases h : c = sep
    · rw [if_pos h, h]
      simp [ih]
    · rw [if_neg h, List.count_cons_of_ne (Ne.symm h)]
      cases hs : splitChars sep cs with
      | nil => exact absurd hs (splitChars_ne_nil sep cs)
      | cons p ps =>
        rw [hs] at ih
        simpa using ih

/-- The first substring is what stands before the first separator. -/
theorem splitChars_head (sep : Char) (cs : List Char) :
    (splitChars sep cs).head? = some (cs.takeWhile (fun c => decide (c ≠ sep))) := by
  induction cs with
  | nil => simp [splitChars]
  | cons c cs ih =>
    rw [splitChars]
    by_cases h : c = sep
    · rw [if_pos h]
      simp [h]
    · rw [if_neg h]
      cases hs : splitChars sep cs with
      | nil => exact absurd hs (splitChars_ne_nil sep cs)
      | cons p ps =>
        rw [hs] at ih
        simp only [List.head?_cons, Option.some.injEq] at ih
        simp [h, ih]

theorem stringsSplit_length (s : String) (sep : Char) :
    (stringsSplit s sep).length = s.data.count sep + 1 := by
  unfold stringsSplit
  rw [List.length_map, splitChars_length]

theorem stringsSplit_headD (s : String) :
    (stringsSplit s '@').headD "" = idBefore s := by
  unfold stringsSplit idBefore
  have h := splitChars_head '@' s.data
  cases hs : splitChars '@' s.data with
  | nil => exact absurd hs (splitChars_ne_nil _ _)
  | cons p ps =>
    rw [hs] at h
    simp only [List.head?_cons, Option.some.injEq] at h
    simp [h]

theorem getIDsLoop_ok (peers : List String) :
    ∀ ids, (∀ p ∈ peers, (stringsSplit p '@').length = 2) →
      getIDsLoop peers ids = .ok (ids ++ peers.map idBefore) := by
  induction peers with
  | nil => intro ids _; simp [getIDsLoop]
  | cons p rest ih =>
    intro ids h
    rw [getIDsLoop]
    rw [if_neg (by rw [h p (List.mem_cons_self _ _)]; simp), stringsSplit_headD,
      ih _ (fun q hq => h q (List.mem_cons_of_mem _ hq))]
    simp

theorem getIDsLoop_error (good : List String) (bad : String) (rest : List String) :
    ∀ ids, (∀ p ∈ good, (stringsSplit p '@').length = 2) →
      (stringsSplit bad '@').length ≠ 2 →
      getIDsLoop (good ++ bad :: rest) ids = .error ⟨bad⟩ := by
  induction good with
  | nil =>
    intro ids _ hb
    rw [List.nil_append, getIDsLoop]
    rw [if_pos hb]
  | cons p good ih =>
    intro ids h hb
    rw [List.cons_append, getIDsLoop]
    rw [if_neg (by rw [h p (List.mem_cons_self _ _)]; simp)]
    exact ih _ (fun q hq => h q (List.mem_cons_of_mem _ hq)) hb

theorem exists_first_bad (P : String → Prop) [DecidablePred P] (peers : List String)
    (h : ¬ ∀ p ∈ peers, P p) :
    ∃ good bad rest, peers = good ++ bad :: rest ∧ (∀ p ∈ good, P p) ∧ ¬ P bad := by
  induction peers with
  | nil => simp at h
  | cons p rest ih =>
    by_cases hp : P p
    · have h2 : ¬ ∀ q ∈ rest, P q := by
        intro hall
        apply h
        intro q hq
        rcases List.mem_cons.1 hq with rfl | hq
        · exact hp
        · exact hall q hq
      obtain ⟨good, bad, rest2, e, hg, hb⟩ := ih h2
      refine ⟨p :: good, bad, rest2, by rw [e]; rfl, ?_, hb⟩
      intro q hq
      rcases List.mem_cons.1 hq with rfl | hq
      · exact hp
      · exact hg q hq
    · exact ⟨[], p, rest, rfl, by simp, hp⟩

/-- C31. For every list of peer strings: if every string splits on `@` into exactly two
parts (it holds exactly one `@`), `getIDs` returns a list of the same length holding, in
the same order, the part before the `@` of each string; otherwise the list is some strings
that split into two parts, then a first string that does not (it holds no `@` or more than
one), and `getIDs` returns no ids and the error `ErrNetAddressNoID` carrying that
string. -/
theorem getIDs_ids_or_first_bad (peers : List String) :
    ((∀ p ∈ peers, (stringsSplit p '@').length = 2) →
      getIDs peers = .ok (peers.map idBefore) ∧
      (peers.map idBefore).length = peers.length) ∧
    ((¬ ∀ p ∈ peers, (stringsSplit p '@').length = 2) →
      ∃ good bad rest, peers = good ++ bad :: rest ∧
        (∀ p ∈ good, (stringsSplit p '@').length = 2) ∧
        (stringsSplit bad '@').length ≠ 2 ∧ bad.data.count '@' ≠ 1 ∧
        getIDs peers = .error ⟨bad⟩) ∧
    (∀ p ∈ peers, ((stringsSplit p '@').length = 2 ↔ p.data.count '@' = 1)) := by
  refine ⟨fun h => ⟨?_, by simp⟩, fun h => ?_, fun p _ => ?_⟩
  · unfold getIDs
    rw [getIDsLoop_ok peers [] h]
    simp
  · obtain ⟨good, bad, rest, e, hg, hb⟩ :=
      exists_first_bad (fun p => (stringsSplit p '@').length = 2) peers h
    refine ⟨good, bad, rest, e, hg, hb, ?_, ?_⟩
    · intro hc
      apply hb
      show (stringsSplit bad '@').length = 2
      rw [stringsSplit_length, hc]
    · unfold getIDs
      rw [e]
      exact getIDsLoop_error good bad rest [] hg hb
  · rw [stringsSplit_length]
    omega

/-- C31, at the peers `a@h:1` and `b@h:2`, whose ids are `a` and `b`. -/
theorem getIDs_ids_or_first_bad_witness :
    getIDs ["a@h:1", "b@h:2"] = .ok ["a", "b"] := by
  have h := ((getIDs_ids_or_first_bad ["a@h:1", "b@h:2"]).1 (by decide)).1
  rw [h]
  decide

/-- The function `getIDs` on lists with a string that does not split into two parts:
the first such string is carried by the error. -/
theorem getIDs_examples :
    getIDs ["a@h", "bh", "c@@h"] = .error ⟨"bh"⟩ ∧
    getIDs ["a@h", "c@x@h", "bh"] = .error ⟨"c@x@h"⟩ ∧
    getIDs [] = .ok [] ∧ getIDs ["@"] = .ok [""] ∧ getIDs [""] = .error ⟨""⟩ := by
  decide


end Core
